import Mathlib

/-!
# ExoQuantJS: a shallow embedding of `src/exoquant.js`

The quantizer state (`ExqData`) and every method of the class `ExoQuant` are
transcribed as pure functions on an explicit state.

Representation choices.

* JavaScript numbers that hold fractional values (colour channels, variances,
  directions) live in a type `F`; their arithmetic is a parameter `Arith F`.
  A theorem stated for every `ops : Arith F` holds in particular for IEEE
  doubles.  `exactOps` is the instance given by an ordered field (exact
  arithmetic).
* Counters (`num`, `n`, `n2`, `numColors`, loop indices) are integers.
* Histogram entries are allocated in a heap `hist : Nat → ExqHistogramEntry F`
  (`nHist` cells in use); a pointer to an entry is its address.  The hash
  chains (`pNextInHash`) and the member lists of the nodes (`pNext`) are the
  lists of addresses met when following the links from the head.
* A pixel buffer is a list of whole pixels (4 bytes each).
-/

namespace Exq

/-! ## Numbers -/

/-- Arithmetic on the fractional JavaScript numbers of the program. `lt`, `le`
and `eq` are the comparisons `<`, `<=` and `==`; `toUint8` is the conversion
made by a store into a `Uint8Array`, `toInt32` the one made by a bitwise
operator; `dec m e` is the decimal literal `m / 10^e`; `nan` is the value of
arithmetic on `undefined`. -/
structure Arith (F : Type) where
  ofInt : Int → F
  dec : Nat → Nat → F
  nan : F
  add : F → F → F
  sub : F → F → F
  mul : F → F → F
  div : F → F → F
  neg : F → F
  sqrt : F → F
  lt : F → F → Bool
  le : F → F → Bool
  eq : F → F → Bool
  toUint8 : F → Nat
  toInt32 : F → Int

/-- Truncation toward zero. -/
def trunc {F : Type} [LinearOrderedField F] [FloorRing F] (x : F) : Int :=
  if 0 ≤ x then ⌊x⌋ else ⌈x⌉

/-- Wrap an integer to an unsigned 32-bit value (`x >>> 0`). -/
def toUint32 (x : Int) : Nat := (x % 4294967296).toNat

/-- Wrap an integer to a signed 32-bit value (`x | 0`). -/
def toInt32 (x : Int) : Int :=
  if x % 4294967296 ≥ 2147483648 then x % 4294967296 - 4294967296 else x % 4294967296

/-- Exact arithmetic in an ordered field; `sqrt` is supplied by the caller.
Rounding is not modelled (see `ieeeOps` for that), and `nan` is the number 0:
statements over `exactOps` are about the computation as exact arithmetic makes
it, on inputs that read no undefined value. -/
def exactOps {F : Type} [LinearOrderedField F] [FloorRing F] (sqrt : F → F) : Arith F where
  ofInt := fun z => (z : F)
  dec := fun m e => (m : F) / 10 ^ e
  nan := 0
  add := fun x y => x + y
  sub := fun x y => x - y
  mul := fun x y => x * y
  div := fun x y => x / y
  neg := fun x => -x
  sqrt := sqrt
  lt := fun x y => decide (x < y)
  le := fun x y => decide (x ≤ y)
  eq := fun x y => decide (x = y)
  toUint8 := fun x => (trunc x % 256).toNat
  toInt32 := fun x => toInt32 (trunc x)

/-- The nearest integer to `p / q`, the even one of two equally near. -/
def roundHalfEven (p q : Nat) : Nat :=
  let f := p / q
  let r := p % q
  if 2 * r < q then f else if q < 2 * r then f + 1 else if f % 2 = 0 then f else f + 1

/-- The number of binary digits of `n`, counted by halving; `fuel` bounds the
number of halvings. -/
def bitLength : Nat → Nat → Nat
  | 0, _ => 0
  | fuel + 1, n => if n = 0 then 0 else bitLength fuel (n / 2) + 1

/-- The position of the leading binary digit of `n` (for `n > 0`). -/
def log2Floor (n : Nat) : Nat := bitLength n n - 1

/-- The value of a JavaScript number operation whose exact result is `x`:
`x` rounded to the nearest number with a significand of 53 binary digits, the
one with an even significand of two equally near (IEEE 754 binary64,
round-to-nearest-even).  The exponent is not bounded: overflow, subnormal
numbers, infinities, NaN and the sign of zero are not modelled. -/
def roundDouble (x : ℚ) : ℚ :=
  if x = 0 then 0
  else
    let p := x.num.natAbs
    let q := x.den
    let e0 : Int := (log2Floor p : Int) - (log2Floor q : Int) - 52
    let low : Bool := if 0 ≤ e0 then decide (p < 2 ^ 52 * (q * 2 ^ e0.toNat))
      else decide (p * 2 ^ (-e0).toNat < 2 ^ 52 * q)
    let e : Int := if low then e0 - 1 else e0
    let v : ℚ :=
      if 0 ≤ e then ((roundHalfEven p (q * 2 ^ e.toNat) * 2 ^ e.toNat : Nat) : ℚ)
      else mkRat (roundHalfEven (p * 2 ^ (-e).toNat) q) (2 ^ (-e).toNat)
    if x < 0 then -v else v

/-- The integer square root, digit by digit from the binary digit `b - 1`
down; `r` is the root found so far. -/
def isqrtAux (n : Nat) : Nat → Nat → Nat
  | 0, r => r
  | b + 1, r => if (r + 2 ^ b) * (r + 2 ^ b) ≤ n then isqrtAux n b (r + 2 ^ b) else isqrtAux n b r

/-- The integer square root of `n`: the largest `s` with `s * s ≤ n`. -/
def isqrt (n : Nat) : Nat := isqrtAux n (log2Floor n / 2 + 1) 0

/-- `Math.sqrt(x)` for `x ≥ 0`, correctly rounded: with `x = p / q` and
`s = isqrt (p q 4^k)`, the root is `s / (q 2^k)` when that is exact and lies
strictly between `s / (q 2^k)` and `(s + 1) / (q 2^k)` otherwise; `k` is large
enough for no rounding boundary to lie strictly between these two, so the
midpoint rounds as the root does.  A negative `x` (NaN in JavaScript) is not
modelled. -/
def sqrtDouble (x : ℚ) : ℚ :=
  if x ≤ 0 then 0
  else
    let p := x.num.natAbs
    let q := x.den
    let k := 64 + log2Floor q
    let n := p * q * 4 ^ k
    let s := isqrt n
    if s * s = n then roundDouble (mkRat s (q * 2 ^ k))
    else roundDouble (mkRat (2 * s + 1) (2 * (q * 2 ^ k)))

/-- The arithmetic of JavaScript numbers on finite values: every operation
returns its exact result rounded by `roundDouble`; a decimal literal is the
double nearest to it; negation and the comparisons are exact.  Division by
zero and arithmetic on `undefined` are not modelled (`nan` is 0), so the
instance stands for the program on computations that meet neither. -/
def ieeeOps : Arith ℚ where
  ofInt := fun z => roundDouble (z : ℚ)
  dec := fun m e => roundDouble ((m : ℚ) / 10 ^ e)
  nan := 0
  add := fun x y => roundDouble (x + y)
  sub := fun x y => roundDouble (x - y)
  mul := fun x y => roundDouble (x * y)
  div := fun x y => roundDouble (x / y)
  neg := fun x => -x
  sqrt := sqrtDouble
  lt := fun x y => decide (x < y)
  le := fun x y => decide (x ≤ y)
  eq := fun x y => decide (x = y)
  toUint8 := fun x => (trunc x % 256).toNat
  toInt32 := fun x => toInt32 (trunc x)

/-! ## Constants -/

def _EXQ_HASH_BITS : Nat := 16
def _EXQ_HASH_SIZE : Nat := 1 <<< _EXQ_HASH_BITS

def _EXQ_SCALE_R {F : Type} (ops : Arith F) : F := ops.ofInt 1
def _EXQ_SCALE_G {F : Type} (ops : Arith F) : F := ops.dec 12 1
def _EXQ_SCALE_B {F : Type} (ops : Arith F) : F := ops.dec 8 1
def _EXQ_SCALE_A {F : Type} (ops : Arith F) : F := ops.ofInt 1

/-! ## Data model -/

abbrev Byte := Fin 256

/-- Four consecutive bytes `R G B A` of a pixel buffer. -/
structure Pixel where
  r : Byte
  g : Byte
  b : Byte
  a : Byte
deriving DecidableEq, Repr

structure ExqColor (F : Type) where
  r : F
  g : F
  b : F
  a : F

/-- `pNext` and `pNextInHash` are carried by the lists that hold the entry's
address (`ExqNode.pHistogram`, `ExqData.pHash`). -/
structure ExqHistogramEntry (F : Type) where
  color : ExqColor F
  ored : Byte
  ogreen : Byte
  oblue : Byte
  oalpha : Byte
  palIndex : Int
  ditherScale : ExqColor F
  ditherIndex : Nat → Int
  num : Nat

structure ExqNode (F : Type) where
  dir : ExqColor F
  avg : ExqColor F
  vdif : F
  err : F
  num : Nat
  pHistogram : List Nat
  pSplit : Option Nat

structure ExqData (F : Type) where
  hist : Nat → ExqHistogramEntry F
  nHist : Nat
  pHash : Nat → List Nat
  node : Nat → ExqNode F
  numColors : Nat
  numBitsPerChannel : Nat
  optimized : Bool
  transparency : Bool

variable {F : Type}

/-- `new ExqColor()` -/
def ExqColor.new (ops : Arith F) : ExqColor F :=
  { r := ops.ofInt 0, g := ops.ofInt 0, b := ops.ofInt 0, a := ops.ofInt 0 }

/-- `new ExqHistogramEntry()` -/
def ExqHistogramEntry.new (ops : Arith F) : ExqHistogramEntry F :=
  { color := ExqColor.new ops, ored := 0, ogreen := 0, oblue := 0, oalpha := 0,
    palIndex := 0, ditherScale := ExqColor.new ops, ditherIndex := fun _ => 0, num := 0 }

/-- `new ExqNode()` -/
def ExqNode.new (ops : Arith F) : ExqNode F :=
  { dir := ExqColor.new ops, avg := ExqColor.new ops, vdif := ops.ofInt 0, err := ops.ofInt 0,
    num := 0, pHistogram := [], pSplit := none }

/-- `new ExoQuant()` -/
def ExoQuant.new (ops : Arith F) : ExqData F :=
  { hist := fun _ => ExqHistogramEntry.new ops
    nHist := 0
    pHash := fun _ => []
    node := fun _ => ExqNode.new ops
    numColors := 0
    numBitsPerChannel := 8
    optimized := false
    transparency := true }

/-- `NoTransparency()` -/
def NoTransparency (s : ExqData F) : ExqData F :=
  { s with transparency := false }

/-! ## Hashing -/

/-- One line `rgba -= (rgba >>> 13) | (rgba << 19)`: the subtraction is a
subtraction of numbers, its right operand a signed 32-bit value. -/
def hashStep (rgba : Int) : Int :=
  rgba - toInt32 ((((toUint32 rgba) >>> 13) ||| (((toUint32 rgba) <<< 19) % 4294967296) : Nat) : Int)

def MakeHash (rgba : Int) : Nat :=
  toUint32 (((toUint32 (hashStep (hashStep (hashStep (hashStep (hashStep rgba)))))) &&&
    (_EXQ_HASH_SIZE - 1) : Nat) : Int)

def ToRGBA (r g b a : Byte) : Nat :=
  toUint32 ((r.val ||| (g.val <<< 8) ||| (b.val <<< 16) ||| (a.val <<< 24) : Nat) : Int)

/-- The bucket of a pixel. -/
def pixelHash (p : Pixel) : Nat := MakeHash (ToRGBA p.r p.g p.b p.a : Nat)

/-! ## Histogram -/

/-- The loop condition of the chain walk: the entry is not the pixel's. -/
def entryDiffers (e : ExqHistogramEntry F) (p : Pixel) : Bool :=
  e.ored != p.r || e.ogreen != p.g || e.oblue != p.b || e.oalpha != p.a

/-- Walk a hash chain until an entry with the pixel's bytes is met. -/
def walkChain (hist : Nat → ExqHistogramEntry F) (p : Pixel) : List Nat → Option Nat
  | [] => none
  | pCur :: rest => if entryDiffers (hist pCur) p then walkChain hist p rest else some pCur

/-- The entry inserted by `Feed` on a miss. -/
def newEntry (ops : Arith F) (s : ExqData F) (p : Pixel) : ExqHistogramEntry F :=
  let channelMask : Nat := 0xFF00 >>> s.numBitsPerChannel
  let r := p.r.val &&& channelMask
  let g := p.g.val &&& channelMask
  let b := p.b.val &&& channelMask
  let cr := ops.mul (ops.div (ops.ofInt r) (ops.ofInt 255)) (_EXQ_SCALE_R ops)
  let cg := ops.mul (ops.div (ops.ofInt g) (ops.ofInt 255)) (_EXQ_SCALE_G ops)
  let cb := ops.mul (ops.div (ops.ofInt b) (ops.ofInt 255)) (_EXQ_SCALE_B ops)
  let ca := ops.mul (ops.div (ops.ofInt p.a.val) (ops.ofInt 255)) (_EXQ_SCALE_A ops)
  let color : ExqColor F :=
    if s.transparency then
      { r := ops.mul cr ca, g := ops.mul cg ca, b := ops.mul cb ca, a := ca }
    else
      { r := cr, g := cg, b := cb, a := ca }
  { color := color, ored := p.r, ogreen := p.g, oblue := p.b, oalpha := p.a,
    palIndex := -1,
    ditherScale := { r := ops.ofInt (-1), g := ops.ofInt (-1), b := ops.ofInt (-1),
                     a := ops.ofInt (-1) },
    ditherIndex := fun _ => -1,
    num := 1 }

/-- The body of the loop of `Feed` for one pixel. -/
def feedPixel (ops : Arith F) (s : ExqData F) (p : Pixel) : ExqData F :=
  let hash := pixelHash p
  match walkChain s.hist p (s.pHash hash) with
  | some pCur =>
      { s with hist := Function.update s.hist pCur
                 { s.hist pCur with num := (s.hist pCur).num + 1 } }
  | none =>
      { s with hist := Function.update s.hist s.nHist (newEntry ops s p)
               nHist := s.nHist + 1
               pHash := Function.update s.pHash hash (s.nHist :: s.pHash hash) }

/-- `Feed(pData)` -/
def Feed (ops : Arith F) (s : ExqData F) (pData : List Pixel) : ExqData F :=
  pData.foldl (feedPixel ops) s

/-- `FindHistogram(pCol, index)`; a read past the end of the buffer yields
`undefined` bytes, which no entry equals. -/
def FindHistogram (s : ExqData F) (pCol : List Pixel) (index : Nat) : Option Nat :=
  match pCol[index]? with
  | some p => walkChain s.hist p (s.pHash (pixelHash p))
  | none => none

/-! ## Sort -/

/-- The partition loop of `Sort`: every member is pushed on the front of
`pLow` or of `pHigh`. -/
def sortPartition (ops : Arith F) (sortfunc : Nat → F) (sum : F) :
    List Nat → List Nat → List Nat → List Nat × List Nat
  | [], pLow, pHigh => (pLow, pHigh)
  | pCur :: pNext, pLow, pHigh =>
      if ops.lt (sortfunc pCur) sum then sortPartition ops sortfunc sum pNext (pCur :: pLow) pHigh
      else sortPartition ops sortfunc sum pNext pLow (pCur :: pHigh)

/-- `Sort(ppHist, sortfunc)` with a bound on the depth of the recursion. -/
def SortAux (ops : Arith F) (sortfunc : Nat → F) : Nat → List Nat → List Nat
  | 0, ppHist => ppHist
  | fuel + 1, ppHist =>
      let n := ppHist.length
      let sum := ppHist.foldl (fun acc pCur => ops.add acc (sortfunc pCur)) (ops.ofInt 0)
      if n < 2 then ppHist
      else
        let sum := ops.div sum (ops.ofInt n)
        match sortPartition ops sortfunc sum ppHist [] [] with
        | ([], pHigh) => pHigh
        | (pLow, []) => pLow
        | (pLow, pHigh) => SortAux ops sortfunc fuel pLow ++ SortAux ops sortfunc fuel pHigh

/-- `Sort(ppHist, sortfunc)` (`Sort` is reserved in Lean): both halves of a partition that recurses are
shorter than the list, so the length of the list bounds the depth. -/
def SortHist (ops : Arith F) (sortfunc : Nat → F) (ppHist : List Nat) : List Nat :=
  SortAux ops sortfunc ppHist.length ppHist

def SortByRed (hist : Nat → ExqHistogramEntry F) (pHist : Nat) : F := (hist pHist).color.r
def SortByGreen (hist : Nat → ExqHistogramEntry F) (pHist : Nat) : F := (hist pHist).color.g
def SortByBlue (hist : Nat → ExqHistogramEntry F) (pHist : Nat) : F := (hist pHist).color.b
def SortByAlpha (hist : Nat → ExqHistogramEntry F) (pHist : Nat) : F := (hist pHist).color.a

/-- `SortByDir`; the global `_EXQ_sortDir` is passed as an argument. -/
def SortByDir (ops : Arith F) (_EXQ_sortDir : ExqColor F) (hist : Nat → ExqHistogramEntry F)
    (pHist : Nat) : F :=
  ops.add (ops.add (ops.add (ops.mul (hist pHist).color.r _EXQ_sortDir.r)
    (ops.mul (hist pHist).color.g _EXQ_sortDir.g))
    (ops.mul (hist pHist).color.b _EXQ_sortDir.b))
    (ops.mul (hist pHist).color.a _EXQ_sortDir.a)

/-! ## SumNode -/

/-- The running count, sums and sums of squares of `SumNode`. -/
structure Moments (F : Type) where
  n : Nat
  sum : ExqColor F
  sum2 : ExqColor F

def Moments.zero (ops : Arith F) : Moments F :=
  { n := 0, sum := ExqColor.new ops, sum2 := ExqColor.new ops }

/-- One member added to the running moments. -/
def addMoments (ops : Arith F) (m : Moments F) (e : ExqHistogramEntry F) : Moments F :=
  { n := m.n + e.num
    sum :=
      { r := ops.add m.sum.r (ops.mul e.color.r (ops.ofInt e.num))
        g := ops.add m.sum.g (ops.mul e.color.g (ops.ofInt e.num))
        b := ops.add m.sum.b (ops.mul e.color.b (ops.ofInt e.num))
        a := ops.add m.sum.a (ops.mul e.color.a (ops.ofInt e.num)) }
    sum2 :=
      { r := ops.add m.sum2.r (ops.mul (ops.mul e.color.r e.color.r) (ops.ofInt e.num))
        g := ops.add m.sum2.g (ops.mul (ops.mul e.color.g e.color.g) (ops.ofInt e.num))
        b := ops.add m.sum2.b (ops.mul (ops.mul e.color.b e.color.b) (ops.ofInt e.num))
        a := ops.add m.sum2.a (ops.mul (ops.mul e.color.a e.color.a) (ops.ofInt e.num)) } }

/-- The first loop of `SumNode`. -/
def nodeMoments (ops : Arith F) (hist : Nat → ExqHistogramEntry F) (l : List Nat) : Moments F :=
  l.foldl (fun m pCur => addMoments ops m (hist pCur)) (Moments.zero ops)

/-- One member added to the direction of `SumNode`. -/
def addDir (ops : Arith F) (avg : ExqColor F) (dir : ExqColor F) (e : ExqHistogramEntry F) :
    ExqColor F :=
  let tr := ops.mul (ops.sub e.color.r avg.r) (ops.ofInt e.num)
  let tg := ops.mul (ops.sub e.color.g avg.g) (ops.ofInt e.num)
  let tb := ops.mul (ops.sub e.color.b avg.b) (ops.ofInt e.num)
  let ta := ops.mul (ops.sub e.color.a avg.a) (ops.ofInt e.num)
  if ops.lt (ops.add (ops.add (ops.add (ops.mul tr dir.r) (ops.mul tg dir.g)) (ops.mul tb dir.b))
      (ops.mul ta dir.a)) (ops.ofInt 0) then
    { r := ops.add dir.r (ops.neg tr), g := ops.add dir.g (ops.neg tg),
      b := ops.add dir.b (ops.neg tb), a := ops.add dir.a (ops.neg ta) }
  else
    { r := ops.add dir.r tr, g := ops.add dir.g tg, b := ops.add dir.b tb, a := ops.add dir.a ta }

/-- The direction of a node: the accumulated deviations, normalised. -/
def nodeDir (ops : Arith F) (hist : Nat → ExqHistogramEntry F) (avg : ExqColor F) (l : List Nat) :
    ExqColor F :=
  let dir := l.foldl (fun dir pCur => addDir ops avg dir (hist pCur)) (ExqColor.new ops)
  let isqrt := ops.div (ops.ofInt 1) (ops.sqrt (ops.add (ops.add (ops.add (ops.mul dir.r dir.r)
    (ops.mul dir.g dir.g)) (ops.mul dir.b dir.b)) (ops.mul dir.a dir.a)))
  { r := ops.mul dir.r isqrt, g := ops.mul dir.g isqrt, b := ops.mul dir.b isqrt,
    a := ops.mul dir.a isqrt }

/-- The value `nv` of the split scan: the variance left of the split plus
the variance right of it. -/
def splitValue (ops : Arith F) (n : Nat) (fsum fsum2 : ExqColor F) (m : Moments F) : F :=
  let n2 := ops.ofInt m.n
  let nr := ops.ofInt ((n : Int) - (m.n : Int))
  let tmpr := ops.sub m.sum2.r (ops.div (ops.mul m.sum.r m.sum.r) n2)
  let tmpg := ops.sub m.sum2.g (ops.div (ops.mul m.sum.g m.sum.g) n2)
  let tmpb := ops.sub m.sum2.b (ops.div (ops.mul m.sum.b m.sum.b) n2)
  let tmpa := ops.sub m.sum2.a (ops.div (ops.mul m.sum.a m.sum.a) n2)
  let tmp2r := ops.sub (ops.sub fsum2.r m.sum2.r)
    (ops.div (ops.mul (ops.sub fsum.r m.sum.r) (ops.sub fsum.r m.sum.r)) nr)
  let tmp2g := ops.sub (ops.sub fsum2.g m.sum2.g)
    (ops.div (ops.mul (ops.sub fsum.g m.sum.g) (ops.sub fsum.g m.sum.g)) nr)
  let tmp2b := ops.sub (ops.sub fsum2.b m.sum2.b)
    (ops.div (ops.mul (ops.sub fsum.b m.sum.b) (ops.sub fsum.b m.sum.b)) nr)
  let tmp2a := ops.sub (ops.sub fsum2.a m.sum2.a)
    (ops.div (ops.mul (ops.sub fsum.a m.sum.a) (ops.sub fsum.a m.sum.a)) nr)
  ops.add (ops.add (ops.add (ops.add (ops.add (ops.add (ops.add tmpr tmpg) tmpb) tmpa) tmp2r)
    tmp2g) tmp2b) tmp2a

/-- The split scan of `SumNode` (third loop), from the member `pCur` on:
returns the final `vdif` and `pSplit`. -/
def splitScan (ops : Arith F) (hist : Nat → ExqHistogramEntry F) (n : Nat)
    (fsum fsum2 : ExqColor F) : List Nat → Moments F → F → Option Nat → F × Option Nat
  | [], _, vdif, pSplit => (vdif, pSplit)
  | pCur :: rest, m, vdif, pSplit =>
      let pSplit := if pSplit = none then some pCur else pSplit
      let m := addMoments ops m (hist pCur)
      if n = m.n then (vdif, pSplit)
      else
        let nv := splitValue ops n fsum fsum2 m
        if ops.lt vdif (ops.neg nv) then splitScan ops hist n fsum fsum2 rest m (ops.neg nv) none
        else splitScan ops hist n fsum fsum2 rest m vdif pSplit

/-- `SumNode(pNode)` -/
def SumNode (ops : Arith F) (hist : Nat → ExqHistogramEntry F) (pNode : ExqNode F) : ExqNode F :=
  let f := nodeMoments ops hist pNode.pHistogram
  let n := f.n
  if n = 0 then
    { pNode with num := n, vdif := ops.ofInt 0, err := ops.ofInt 0 }
  else
    let avg : ExqColor F :=
      { r := ops.div f.sum.r (ops.ofInt n), g := ops.div f.sum.g (ops.ofInt n),
        b := ops.div f.sum.b (ops.ofInt n), a := ops.div f.sum.a (ops.ofInt n) }
    let vcr := ops.sub f.sum2.r (ops.mul f.sum.r avg.r)
    let vcg := ops.sub f.sum2.g (ops.mul f.sum.g avg.g)
    let vcb := ops.sub f.sum2.b (ops.mul f.sum.b avg.b)
    let vca := ops.sub f.sum2.a (ops.mul f.sum.a avg.a)
    let v := ops.add (ops.add (ops.add vcr vcg) vcb) vca
    let l1 :=
      if ops.lt vcg vcr && ops.lt vcb vcr && ops.lt vca vcr then
        SortHist ops (SortByRed hist) pNode.pHistogram
      else if ops.lt vcb vcg && ops.lt vca vcg then
        SortHist ops (SortByGreen hist) pNode.pHistogram
      else if ops.lt vca vcb then
        SortHist ops (SortByBlue hist) pNode.pHistogram
      else
        SortHist ops (SortByAlpha hist) pNode.pHistogram
    let dir := nodeDir ops hist avg l1
    let l2 := SortHist ops (SortByDir ops dir hist) l1
    let scan := splitScan ops hist n f.sum f.sum2 l2 (Moments.zero ops) (ops.neg v) l2.head?
    let pSplit :=
      match l2 with
      | [] => scan.2
      | pHistogram :: rest => if scan.2 = some pHistogram then rest.head? else scan.2
    { dir := dir, avg := avg, vdif := ops.add scan.1 v, err := v, num := n,
      pHistogram := l2, pSplit := pSplit }

/-! ## Nearest colour -/

/-- The body of the loop of `FindNearestColor` for node `i`; the state is
`(bestv, besti)`. -/
def nearestStep (ops : Arith F) (node : Nat → ExqNode F) (pColor : ExqColor F) (st : F × Nat)
    (i : Nat) : F × Nat :=
  let dr := ops.sub pColor.r (node i).avg.r
  let dg := ops.sub pColor.g (node i).avg.g
  let db := ops.sub pColor.b (node i).avg.b
  let da := ops.sub pColor.a (node i).avg.a
  let d := ops.add (ops.add (ops.add (ops.mul dr dr) (ops.mul dg dg)) (ops.mul db db))
    (ops.mul da da)
  if ops.lt d st.1 then (d, i) else st

/-- `FindNearestColor(pColor)` -/
def FindNearestColor (ops : Arith F) (s : ExqData F) (pColor : ExqColor F) : Nat :=
  ((List.range s.numColors).foldl (nearestStep ops s.node pColor) (ops.ofInt 16, 0)).2

/-! ## Palette builder and relaxation -/

/-- The assignment `node[k].pHistogram = l`. -/
def setHist (node : Nat → ExqNode F) (k : Nat) (l : List Nat) : Nat → ExqNode F :=
  Function.update node k { node k with pHistogram := l }

/-- The entries met by `for (i = 0; i < _EXQ_HASH_SIZE; i++) for (pCur =
pHash[i]; pCur != null; pCur = pCur.pNextInHash)`, in the order they are met. -/
@[irreducible] def hashEntries (s : ExqData F) : List Nat :=
  (List.range _EXQ_HASH_SIZE).foldr (fun i acc => s.pHash i ++ acc) []

/-- One pass of the loop of `OptimizePalette`. -/
def optimizePass (ops : Arith F) (s : ExqData F) : ExqData F :=
  let node1 := (List.range s.numColors).foldl (fun nd i => setHist nd i []) s.node
  let node2 := (hashEntries s).foldl
    (fun nd pCur =>
      let j := FindNearestColor ops { s with node := nd } (s.hist pCur).color
      setHist nd j (pCur :: (nd j).pHistogram)) node1
  let node3 := (List.range s.numColors).foldl
    (fun nd i => Function.update nd i (SumNode ops s.hist (nd i))) node2
  { s with node := node3 }

/-- `OptimizePalette(iter)` -/
def OptimizePalette (ops : Arith F) (s : ExqData F) (iter : Nat) : ExqData F :=
  (optimizePass ops)^[iter] { s with optimized := true }

/-- The body of the scan for the node to split; the state is `(beste, besti)`. -/
def bestStep (ops : Arith F) (node : Nat → ExqNode F) (st : F × Nat) (j : Nat) : F × Nat :=
  if ops.le st.1 (node j).vdif then ((node j).vdif, j) else st

/-- The scan of a split step with loop index `i`: the node to split. -/
def bestIndex (ops : Arith F) (node : Nat → ExqNode F) (i : Nat) : Nat :=
  ((List.range i).foldl (bestStep ops node) (ops.ofInt 0, 0)).2

/-- The first `while` of a split: members are moved from `pCur` to the front
of the new node's list until `pSplit` (or the end) is met.  Returns the rest
of `pCur` and the new node's list. -/
def moveUntil (pSplit : Option Nat) : List Nat → List Nat → List Nat × List Nat
  | [], dst => ([], dst)
  | pCur :: pNext, dst =>
      if some pCur = pSplit then (pCur :: pNext, dst) else moveUntil pSplit pNext (pCur :: dst)

/-- The body of the main loop of `QuantizeEx` for the loop index `i`. -/
def splitStep (ops : Arith F) (hq : Bool) (s : ExqData F) (i : Nat) : ExqData F :=
  let besti := bestIndex ops s.node i
  let pCur := (s.node besti).pHistogram
  let nd := setHist s.node besti []
  let nd := setHist nd i []
  let mv := moveUntil (nd besti).pSplit pCur (nd i).pHistogram
  let nd := setHist nd i mv.2
  let nd := setHist nd besti (mv.1.foldl (fun l pCur => pCur :: l) (nd besti).pHistogram)
  let nd := Function.update nd besti (SumNode ops s.hist (nd besti))
  let nd := Function.update nd i (SumNode ops s.hist (nd i))
  let s := { s with node := nd, numColors := i + 1 }
  if hq then OptimizePalette ops s 1 else s

/-- The seeding of node 0 by the first `QuantizeEx`. -/
def seedNode (ops : Arith F) (s : ExqData F) : ExqData F :=
  let nd := setHist s.node 0 []
  let nd := setHist nd 0 ((hashEntries s).foldl (fun l pCur => pCur :: l) (nd 0).pHistogram)
  let nd := Function.update nd 0 (SumNode ops s.hist (nd 0))
  { s with node := nd, numColors := 1 }

/-- `QuantizeEx(nColors, hq)` -/
def QuantizeEx (ops : Arith F) (s : ExqData F) (nColors : Int) (hq : Bool) : ExqData F :=
  let nColors := if nColors > 256 then 256 else nColors
  let s := if s.numColors = 0 then seedNode ops s else s
  let s := (List.range' s.numColors (nColors.toNat - s.numColors)).foldl (splitStep ops hq) s
  { s with optimized := false }

/-- `Quantize(nColors)` -/
def Quantize (ops : Arith F) (s : ExqData F) (nColors : Int) : ExqData F :=
  QuantizeEx ops s nColors false

/-- `QuantizeHq(nColors)` -/
def QuantizeHq (ops : Arith F) (s : ExqData F) (nColors : Int) : ExqData F :=
  QuantizeEx ops s nColors true

/-- The sums `n` and `err` of `GetMeanError`. -/
def errorSums (ops : Arith F) (s : ExqData F) : Nat × F :=
  (List.range s.numColors).foldl
    (fun acc i => (acc.1 + (s.node i).num, ops.add acc.2 (s.node i).err)) (0, ops.ofInt 0)

/-- `GetMeanError()` -/
def GetMeanError (ops : Arith F) (s : ExqData F) : F :=
  ops.mul (ops.sqrt (ops.div (errorSums ops s).2 (ops.ofInt (errorSums ops s).1))) (ops.ofInt 256)

/-! ## Palette export and import -/

/-- The body of the loop of `GetPalette` for the entry `i`.  The half step
`(1 << (8 - numBitsPerChannel)) / 2` is added before a bitwise `&`, which
truncates: for depths up to 8 this is the integer sum below. -/
def paletteEntry (ops : Arith F) (s : ExqData F) (pPal : List Nat) (i : Nat) : List Nat :=
  let channelMask : Nat := 0xff00 >>> s.numBitsPerChannel
  let a := (s.node i).avg.a
  let unmul := s.transparency && !(ops.eq a (ops.ofInt 0))
  let r := if unmul then ops.div (s.node i).avg.r a else (s.node i).avg.r
  let g := if unmul then ops.div (s.node i).avg.g a else (s.node i).avg.g
  let b := if unmul then ops.div (s.node i).avg.b a else (s.node i).avg.b
  let pPalIndex := i * 4
  let pPal := pPal.set (pPalIndex + 0) (ops.toUint8 (ops.mul (ops.div r (_EXQ_SCALE_R ops)) (ops.dec 2559 1)))
  let pPal := pPal.set (pPalIndex + 1) (ops.toUint8 (ops.mul (ops.div g (_EXQ_SCALE_G ops)) (ops.dec 2559 1)))
  let pPal := pPal.set (pPalIndex + 2) (ops.toUint8 (ops.mul (ops.div b (_EXQ_SCALE_B ops)) (ops.dec 2559 1)))
  let pPal := pPal.set (pPalIndex + 3) (ops.toUint8 (ops.mul (ops.div a (_EXQ_SCALE_A ops)) (ops.dec 2559 1)))
  (List.range 3).foldl
    (fun pPal j => pPal.set (pPalIndex + j)
      (((pPal.getD (pPalIndex + j) 0 + (1 <<< (8 - s.numBitsPerChannel)) / 2) &&& channelMask) % 256))
    pPal

/-- `GetPalette(nColors)`: the returned buffer and the state left behind. -/
def GetPalette (ops : Arith F) (s : ExqData F) (nColors : Nat) : List Nat × ExqData F :=
  let pPal := List.replicate (nColors * 4) 0
  let nColors := if nColors > s.numColors then s.numColors else nColors
  let s := if !s.optimized then OptimizePalette ops s 4 else s
  ((List.range nColors).foldl (paletteEntry ops s) pPal, s)

/-- A byte read from a buffer, as a number; `undefined` past the end. -/
def readByte (ops : Arith F) (buf : List Nat) (i : Nat) : F :=
  match buf[i]? with
  | some v => ops.ofInt v
  | none => ops.nan

/-- The body of the loop of `SetPalette` for the entry `i`. -/
def setPaletteEntry (ops : Arith F) (pPal : List Nat) (node : Nat → ExqNode F) (i : Nat) :
    Nat → ExqNode F :=
  Function.update node i
    { node i with
      avg :=
        { r := ops.div (ops.mul (readByte ops pPal (i * 4 + 0)) (_EXQ_SCALE_R ops)) (ops.dec 2559 1)
          g := ops.div (ops.mul (readByte ops pPal (i * 4 + 1)) (_EXQ_SCALE_G ops)) (ops.dec 2559 1)
          b := ops.div (ops.mul (readByte ops pPal (i * 4 + 2)) (_EXQ_SCALE_B ops)) (ops.dec 2559 1)
          a := ops.div (ops.mul (readByte ops pPal (i * 4 + 3)) (_EXQ_SCALE_A ops)) (ops.dec 2559 1) } }

/-- `SetPalette(pPal, nColors)`; the node table has 256 cells, and a write to
`node[256]` throws: `none`. -/
def SetPalette (ops : Arith F) (s : ExqData F) (pPal : List Nat) (nColors : Nat) :
    Option (ExqData F) :=
  if nColors > 256 then none
  else
    some { s with numColors := nColors
                  node := (List.range nColors).foldl (setPaletteEntry ops pPal) s.node
                  optimized := true }

/-! ## Image mapping -/

/-- The weighted colour of pixel `index` of a buffer, premultiplied when
transparency is on; bytes past the end of the buffer are `undefined`. -/
def pixelColor (ops : Arith F) (s : ExqData F) (pIn : List Pixel) (index : Nat) : ExqColor F :=
  let rd : (Pixel → Byte) → F := fun f =>
    match pIn[index]? with
    | some p => ops.ofInt (f p).val
    | none => ops.nan
  let cr := ops.mul (ops.div (rd Pixel.r) (ops.ofInt 255)) (_EXQ_SCALE_R ops)
  let cg := ops.mul (ops.div (rd Pixel.g) (ops.ofInt 255)) (_EXQ_SCALE_G ops)
  let cb := ops.mul (ops.div (rd Pixel.b) (ops.ofInt 255)) (_EXQ_SCALE_B ops)
  let ca := ops.mul (ops.div (rd Pixel.a) (ops.ofInt 255)) (_EXQ_SCALE_A ops)
  if s.transparency then
    { r := ops.mul cr ca, g := ops.mul cg ca, b := ops.mul cb ca, a := ca }
  else
    { r := cr, g := cg, b := cb, a := ca }

/-- The value kept by a store of an integer into a `Uint8Array`. -/
def storeUint8 (v : Int) : Nat := (v % 256).toNat

/-- The body of the loop of `MapImage` for the pixel `i`; the state is the
quantizer and the output buffer. -/
def mapPixel (ops : Arith F) (pIn : List Pixel) (st : ExqData F × List Nat) (i : Nat) :
    ExqData F × List Nat :=
  let s := st.1
  let pOut := st.2
  match FindHistogram s pIn i with
  | some pHist =>
      if (s.hist pHist).palIndex ≠ -1 then
        (s, pOut.set i (storeUint8 (s.hist pHist).palIndex))
      else
        let pOut := pOut.set i (storeUint8 (FindNearestColor ops s (pixelColor ops s pIn i)))
        ({ s with hist := Function.update s.hist pHist { s.hist pHist with palIndex := i } }, pOut)
  | none =>
      (s, pOut.set i (storeUint8 (FindNearestColor ops s (pixelColor ops s pIn i))))

/-- `MapImage(nPixels, pIn)`: the index buffer and the state left behind. -/
def MapImage (ops : Arith F) (s : ExqData F) (nPixels : Nat) (pIn : List Pixel) :
    List Nat × ExqData F :=
  let pOut := List.replicate nPixels 0
  let s := if !s.optimized then OptimizePalette ops s 4 else s
  let st := (List.range nPixels).foldl (mapPixel ops pIn) (s, pOut)
  (st.2, st.1)

/-! ## Dithered image mapping -/

/-- `ditherMatrix[d]`; an index outside the array reads `undefined`. -/
def ditherMatrix (ops : Arith F) : Nat → F
  | 0 => ops.neg (ops.dec 375 3)
  | 1 => ops.dec 125 3
  | 2 => ops.dec 375 3
  | 3 => ops.neg (ops.dec 125 3)
  | _ => ops.nan

/-- The dither phase `d` of the pixel `(x, y)`: `(x & 1) + (y & 1) * 2` in
ordered mode, `Math.random() & 3` otherwise, where `random` is the value
returned by `Math.random()`; the bitwise `&` converts it to a 32-bit integer
first. -/
def ditherPhase (ops : Arith F) (ordered : Bool) (x y : Nat) (random : F) : Nat :=
  if ordered then (x &&& 1) + (y &&& 1) * 2 else (Int.land (ops.toInt32 random) 3).toNat

/-- The dither scale that `MapImageDither` computes for the colour `p` when
none is cached: the nearest node `i`, a second node `j` found by stepping away
from `i` by a third of the error and, if that gives `i` again, by three times
the error; the scale is `0.8` times the distance of the two means per channel,
made non-negative, or zero when no second node is found. -/
def ditherScaleOf (ops : Arith F) (s : ExqData F) (p : ExqColor F) : ExqColor F :=
  let i := FindNearestColor ops s p
  let scale : ExqColor F :=
    { r := ops.sub (s.node i).avg.r p.r, g := ops.sub (s.node i).avg.g p.g,
      b := ops.sub (s.node i).avg.b p.b, a := ops.sub (s.node i).avg.a p.a }
  let tmp : ExqColor F :=
    { r := ops.sub p.r (ops.div scale.r (ops.ofInt 3)),
      g := ops.sub p.g (ops.div scale.g (ops.ofInt 3)),
      b := ops.sub p.b (ops.div scale.b (ops.ofInt 3)),
      a := ops.sub p.a (ops.div scale.a (ops.ofInt 3)) }
  let j := FindNearestColor ops s tmp
  let j :=
    if i = j then
      FindNearestColor ops s
        { r := ops.sub p.r (ops.mul scale.r (ops.ofInt 3)),
          g := ops.sub p.g (ops.mul scale.g (ops.ofInt 3)),
          b := ops.sub p.b (ops.mul scale.b (ops.ofInt 3)),
          a := ops.sub p.a (ops.mul scale.a (ops.ofInt 3)) }
    else j
  if i ≠ j then
    let sr := ops.mul (ops.sub (s.node j).avg.r (s.node i).avg.r) (ops.dec 8 1)
    let sg := ops.mul (ops.sub (s.node j).avg.g (s.node i).avg.g) (ops.dec 8 1)
    let sb := ops.mul (ops.sub (s.node j).avg.b (s.node i).avg.b) (ops.dec 8 1)
    let sa := ops.mul (ops.sub (s.node j).avg.a (s.node i).avg.a) (ops.dec 8 1)
    { r := if ops.lt sr (ops.ofInt 0) then ops.neg sr else sr,
      g := if ops.lt sg (ops.ofInt 0) then ops.neg sg else sg,
      b := if ops.lt sb (ops.ofInt 0) then ops.neg sb else sb,
      a := if ops.lt sa (ops.ofInt 0) then ops.neg sa else sa }
  else
    { r := ops.ofInt 0, g := ops.ofInt 0, b := ops.ofInt 0, a := ops.ofInt 0 }

/-- The colour `p + scale * ditherMatrix[d]` looked up for the phase `d`. -/
def ditherTarget (ops : Arith F) (p scale : ExqColor F) (d : Nat) : ExqColor F :=
  { r := ops.add p.r (ops.mul scale.r (ditherMatrix ops d)),
    g := ops.add p.g (ops.mul scale.g (ditherMatrix ops d)),
    b := ops.add p.b (ops.mul scale.b (ditherMatrix ops d)),
    a := ops.add p.a (ops.mul scale.a (ditherMatrix ops d)) }

/-- The part of the loop body of `MapImageDither` that works on the histogram
entry `e` of the pixel, when there is one: the dither scale is taken from the
entry or computed and stored; the index of the phase `d` is taken from the
entry or computed and stored.  Returns the entry left behind and the byte
written to the output. -/
def ditherEntry (ops : Arith F) (s : ExqData F) (p : ExqColor F) (d : Nat)
    (e : ExqHistogramEntry F) : ExqHistogramEntry F × Nat :=
  let fresh := ops.lt e.ditherScale.r (ops.ofInt 0)
  let scale := if fresh then ditherScaleOf ops s p else e.ditherScale
  let e := if fresh then { e with ditherScale := scale } else e
  if e.ditherIndex d ≥ 0 then
    (e, storeUint8 (e.ditherIndex d))
  else
    let out := storeUint8 (FindNearestColor ops s (ditherTarget ops p scale d))
    ({ e with ditherIndex := Function.update e.ditherIndex d (out : Int) }, out)

/-- The body of the loops of `MapImageDither` for the pixel `(x, y)`; the state
is the quantizer and the output buffer, `random index` is the value that
`Math.random()` returns at the pixel `index`. -/
def ditherPixel (ops : Arith F) (width : Nat) (pIn : List Pixel) (ordered : Bool)
    (random : Nat → F) (st : ExqData F × List Nat) (y x : Nat) : ExqData F × List Nat :=
  let s := st.1
  let pOut := st.2
  let index := y * width + x
  let d := ditherPhase ops ordered x y (random index)
  let p := pixelColor ops s pIn index
  match FindHistogram s pIn index with
  | none =>
      (s, pOut.set index
        (storeUint8 (FindNearestColor ops s (ditherTarget ops p (ditherScaleOf ops s p) d))))
  | some pHist =>
      let r := ditherEntry ops s p d (s.hist pHist)
      ({ s with hist := Function.update s.hist pHist r.1 }, pOut.set index r.2)

/-- `MapImageDither(width, height, pIn, ordered)`: the index buffer and the
state left behind. -/
def MapImageDither (ops : Arith F) (s : ExqData F) (width height : Nat) (pIn : List Pixel)
    (ordered : Bool) (random : Nat → F) : List Nat × ExqData F :=
  let pOut := List.replicate (width * height) 0
  let s := if !s.optimized then OptimizePalette ops s 4 else s
  let st := (List.range height).foldl
    (fun st y => (List.range width).foldl
      (fun st x => ditherPixel ops width pIn ordered random st y x) st) (s, pOut)
  (st.2, st.1)

/-- `MapImageOrdered(width, height, pIn)`; the random source is not consulted. -/
def MapImageOrdered (ops : Arith F) (s : ExqData F) (width height : Nat) (pIn : List Pixel) :
    List Nat × ExqData F :=
  MapImageDither ops s width height pIn true (fun _ => ops.nan)

/-- `MapImageRandom(nPixels, pIn)` -/
def MapImageRandom (ops : Arith F) (s : ExqData F) (nPixels : Nat) (pIn : List Pixel)
    (random : Nat → F) : List Nat × ExqData F :=
  MapImageDither ops s nPixels 1 pIn false random

/-! ## Runs of the program used in the statements -/

/-- The quantizer after a sequence of `Feed` calls on a fresh quantizer. -/
def fed (ops : Arith F) (feeds : List (List Pixel)) : ExqData F :=
  feeds.foldl (Feed ops) (ExoQuant.new ops)

/-- Exact rational arithmetic, with Mathlib's rational square root. -/
def exactQ : Arith ℚ := exactOps Rat.sqrt

/-- The quantizer after the `Quantize` (`hq = false`) and `QuantizeHq`
(`hq = true`) calls `qs`, made in order. -/
def quantized (ops : Arith F) (s : ExqData F) (qs : List (Int × Bool)) : ExqData F :=
  qs.foldl (fun s q => QuantizeEx ops s q.1 q.2) s

/-- The sum of `node[i].num` over the active nodes. -/
def activeNum (s : ExqData F) : Nat :=
  ((List.range s.numColors).map (fun i => (s.node i).num)).sum


/-! ## Auxiliary definitions for the statements and invariants -/

set_option linter.unusedSectionVars false

/-- The bytes of an entry, as a pixel. -/
def entryPixel (e : ExqHistogramEntry F) : Pixel := ⟨e.ored, e.ogreen, e.oblue, e.oalpha⟩

/-- The state of the hash table after the pixels `px` have been fed. -/
structure HistInv (s : ExqData F) (px : List Pixel) : Prop where
  chain_lt : ∀ h, ∀ id ∈ s.pHash h, id < s.nHist
  chain_hash : ∀ h, ∀ id ∈ s.pHash h, pixelHash (entryPixel (s.hist id)) = h
  mem_chain : ∀ id, id < s.nHist → id ∈ s.pHash (pixelHash (entryPixel (s.hist id)))
  inj : ∀ i j, i < s.nHist → j < s.nHist →
    entryPixel (s.hist i) = entryPixel (s.hist j) → i = j
  num_eq : ∀ id, id < s.nHist → (s.hist id).num = px.count (entryPixel (s.hist id))
  fed_mem : ∀ id, id < s.nHist → entryPixel (s.hist id) ∈ px
  covered : ∀ p ∈ px, ∃ id, id < s.nHist ∧ entryPixel (s.hist id) = p
  entries : (hashEntries s).Perm (List.range s.nHist)

/-- The node that the relaxation pass gives to the entry `id`. -/
def assign (ops : Arith F) (s : ExqData F) (id : Nat) : Nat :=
  FindNearestColor ops s (s.hist id).color

/-- The members given to node `j` by a relaxation pass, in list order. -/
def assigned (ops : Arith F) (s : ExqData F) (j : Nat) : List Nat :=
  ((hashEntries s).filter (fun id => assign ops s id = j)).reverse

/-- Every entry of the hash table is a member of exactly one active node, and
the count of every active node is the count of its members. -/
structure NodeInv (s : ExqData F) : Prop where
  pos : 1 ≤ s.numColors
  members : ((List.range s.numColors).flatMap (fun i => (s.node i).pHistogram)).Perm
    (hashEntries s)
  num_eq : ∀ i, i < s.numColors →
    (s.node i).num = ((s.node i).pHistogram.map (fun id => (s.hist id).num)).sum

/-- The colour that `Feed` stores for the pixel `p` in the configuration of a
fresh quantizer (depth 8, transparency on). -/
def pixColor (ops : Arith F) (p : Pixel) : ExqColor F :=
  (newEntry ops (ExoQuant.new ops) p).color

/-- The quantizer has the configuration of a fresh one, and every entry holds
the colour computed from its own bytes. -/
def ColorInv (ops : Arith F) (s : ExqData F) : Prop :=
  s.numBitsPerChannel = 8 ∧ s.transparency = true ∧
  ∀ id, id < s.nHist → (s.hist id).color = pixColor ops (entryPixel (s.hist id))

section ExactDefs

variable {K : Type} [LinearOrderedField K]

/-- The count of the members of a list. -/
def wN (hist : Nat → ExqHistogramEntry K) (l : List Nat) : Nat :=
  (l.map (fun id => (hist id).num)).sum

/-- The count-weighted sum of `f (colour)` over the members of a list. -/
def wS (hist : Nat → ExqHistogramEntry K) (f : ExqColor K → K) (l : List Nat) : K :=
  (l.map (fun id => f (hist id).color * ((hist id).num : K))).sum

/-- The variance of one channel: `sumSq - sum * mean`. -/
def chanVar (N S Q : K) : K := Q - S * (S / N)

/-- The value `v` of `SumNode` for a member list. -/
def listVar (hist : Nat → ExqHistogramEntry K) (l : List Nat) : K :=
  chanVar (wN hist l : K) (wS hist (fun c => c.r) l) (wS hist (fun c => c.r * c.r) l)
  + chanVar (wN hist l : K) (wS hist (fun c => c.g) l) (wS hist (fun c => c.g * c.g) l)
  + chanVar (wN hist l : K) (wS hist (fun c => c.b) l) (wS hist (fun c => c.b * c.b) l)
  + chanVar (wN hist l : K) (wS hist (fun c => c.a) l) (wS hist (fun c => c.a * c.a) l)

/-- The `err` that `SumNode` leaves for a member list. -/
def errOf (hist : Nat → ExqHistogramEntry K) (l : List Nat) : K :=
  if wN hist l = 0 then 0 else listVar hist l

/-- The count-weighted mean colour of a member list. -/
def meanOf (hist : Nat → ExqHistogramEntry K) (l : List Nat) : ExqColor K :=
  { r := wS hist (fun c => c.r) l / (wN hist l : K)
    g := wS hist (fun c => c.g) l / (wN hist l : K)
    b := wS hist (fun c => c.b) l / (wN hist l : K)
    a := wS hist (fun c => c.a) l / (wN hist l : K) }

end ExactDefs

section ExactDefs2

variable {K : Type} [LinearOrderedField K]

/-- The squared distance computed by `FindNearestColor`. -/
def dist2 (x c : ExqColor K) : K :=
  (x.r - c.r) * (x.r - c.r) + (x.g - c.g) * (x.g - c.g) + (x.b - c.b) * (x.b - c.b)
    + (x.a - c.a) * (x.a - c.a)

/-- The count-weighted sum of the squared distances of the members of a list
to the colour `c`. -/
def wD (hist : Nat → ExqHistogramEntry K) (c : ExqColor K) (l : List Nat) : K :=
  (l.map (fun id => dist2 (hist id).color c * ((hist id).num : K))).sum

/-- The weighted-normalised colour space: `r` in `[0,1]`, `g` in `[0,1.2]`,
`b` in `[0,0.8]`, `a` in `[0,1]`. -/
def InBox (c : ExqColor K) : Prop :=
  0 ≤ c.r ∧ c.r ≤ 1 ∧ 0 ≤ c.g ∧ c.g ≤ 6 / 5 ∧ 0 ≤ c.b ∧ c.b ≤ 4 / 5 ∧ 0 ≤ c.a ∧ c.a ≤ 1

/-- The sum of `node.err` over the active nodes. -/
def totalErr (s : ExqData K) : K :=
  ((List.range s.numColors).map (fun i => (s.node i).err)).sum

/-- The moments of a prefix `P` of the member list, as the scan holds them. -/
def prefixMoments (hist : Nat → ExqHistogramEntry K) (P : List Nat) : Moments K :=
  { n := wN hist P
    sum := { r := wS hist (fun c => c.r) P, g := wS hist (fun c => c.g) P,
             b := wS hist (fun c => c.b) P, a := wS hist (fun c => c.a) P }
    sum2 := { r := wS hist (fun c => c.r * c.r) P, g := wS hist (fun c => c.g * c.g) P,
              b := wS hist (fun c => c.b * c.b) P, a := wS hist (fun c => c.a * c.a) P } }

end ExactDefs2

section ExactDefs3

variable {K : Type} [LinearOrderedField K]

/-- The state of the nodes between the calls, in exact arithmetic: the active
nodes partition the entries; `err` is the variance of the member list and
`avg` the mean of a non-empty member list; all colours are in the
weighted-normalised space. -/
structure ExactInv (s : ExqData K) : Prop where
  nodes : NodeInv s
  err_eq : ∀ i, i < s.numColors → (s.node i).err = errOf s.hist (s.node i).pHistogram
  avg_eq : ∀ i, i < s.numColors → wN s.hist (s.node i).pHistogram ≠ 0 →
    (s.node i).avg = meanOf s.hist (s.node i).pHistogram
  avg_box : ∀ i, InBox (s.node i).avg
  col_box : ∀ id, id ∈ hashEntries s → InBox (s.hist id).color

/-- The states on which `QuantizeEx` is run: either no node is active yet and
all colours are in the weighted-normalised space (the first call seeds
node 0), or the invariant of the nodes holds (a later call continues). -/
def Ready (s : ExqData K) : Prop :=
  (s.numColors = 0 ∧ (∀ i, InBox (s.node i).avg) ∧
    (∀ id, id ∈ hashEntries s → InBox (s.hist id).color)) ∨ ExactInv s

end ExactDefs3

section ExactDefs4

variable {K : Type} [LinearOrderedField K] [FloorRing K]

/-- The scan made by `SumNode` over the sorted list `l2` of a node whose
member list is `l`. -/
def nodeScan (sqrt : K → K) (hist : Nat → ExqHistogramEntry K) (l l2 : List Nat) : K × Option Nat :=
  splitScan (exactOps sqrt) hist (wN hist l) (prefixMoments hist l).sum (prefixMoments hist l).sum2
    l2 (Moments.zero (exactOps sqrt)) (-(listVar hist l)) l2.head?

end ExactDefs4

section ExactDefs5

variable {K : Type} [LinearOrderedField K]

/-- The entries of the hash table are pairwise different, each has been fed at
least once, and different entries hold different colours. -/
structure Sep (s : ExqData K) : Prop where
  nodup : (hashEntries s).Nodup
  num_pos : ∀ x, x ∈ hashEntries s → 1 ≤ (s.hist x).num
  col_inj : ∀ x, x ∈ hashEntries s → ∀ y, y ∈ hashEntries s →
    (s.hist x).color = (s.hist y).color → x = y

/-- The state of the active nodes between two splits when different entries
hold different colours: no node is empty, a node of one member has no gain,
and a node of two or more members has a positive gain and a split point
after its first member. -/
structure SplitInv (s : ExqData K) : Prop where
  nonempty : ∀ i, i < s.numColors → (s.node i).pHistogram ≠ []
  flat : ∀ i, i < s.numColors → (s.node i).pHistogram.length ≤ 1 → (s.node i).vdif = 0
  split : ∀ i, i < s.numColors → 2 ≤ (s.node i).pHistogram.length →
    0 < (s.node i).vdif ∧ ∃ y, (s.node i).pSplit = some y ∧ y ∈ (s.node i).pHistogram.tail

/-- Every active node has exactly one member and its mean is the colour of
that member. -/
structure OneEach (s : ExqData K) : Prop where
  single : ∀ i, i < s.numColors →
    ∃ x, (s.node i).pHistogram = [x] ∧ (s.node i).avg = (s.hist x).color

end ExactDefs5

/-- The palette entry that `GetPalette` is expected to give for a node whose
mean is the colour of the pixel `p`: the bytes of `p`, or zeros when `p` is
fully transparent (its premultiplied colour is zero). -/
def paletteBytes (p : Pixel) : List Nat :=
  if p.a.val = 0 then [0, 0, 0, 0] else [p.r.val, p.g.val, p.b.val, p.a.val]

/-- Two byte buffers have the same length and differ by at most 1 in every
byte. -/
def closeBytes (x y : List Nat) : Bool :=
  x.length == y.length && (List.zipWith (fun u v => decide (u ≤ v + 1 ∧ v ≤ u + 1)) x y).all id

/-- The bytes of a pixel, in buffer order. -/
def pixelBytes (p : Pixel) : List Nat := [p.r.val, p.g.val, p.b.val, p.a.val]


section SearchDefs

variable {K : Type} [LinearOrderedField K] [FloorRing K]

/-- The variance left by splitting the list `L` after its first `k` members:
the within-variance of the prefix plus the within-variance of the rest. -/
def splitCost (hist : Nat → ExqHistogramEntry K) (L : List Nat) (k : Nat) : K :=
  listVar hist (L.take k) + listVar hist (L.drop k)

/-- The value `-nv` that the split scan of `SumNode` computes when it stands
after the first `k` members of the sorted list `L`. -/
def scanGain (sqrt : K → K) (hist : Nat → ExqHistogramEntry K) (L : List Nat) (k : Nat) : K :=
  -(splitValue (exactOps sqrt) (wN hist L) (prefixMoments hist L).sum (prefixMoments hist L).sum2
    (prefixMoments hist (L.take k)))

/-- The least variance left by a split of `L` after `k` members, `0 < k < |L|`,
and not above `err`. -/
def bestCost (hist : Nat → ExqHistogramEntry K) (L : List Nat) (err : K) : K :=
  ((List.range' 1 (L.length - 1)).map (splitCost hist L)).foldl min err

end SearchDefs

/-- The index that `MapImageDither` computes for a pixel of colour `p` in the
phase `d` when nothing is cached: the nearest colour of `p` moved by its
dither scale times the offset of the phase. -/
def ditherValue (ops : Arith F) (s : ExqData F) (p : ExqColor F) (d : Nat) : Nat :=
  FindNearestColor ops s (ditherTarget ops p (ditherScaleOf ops s p) d)

/-- The dither fields of an entry agree with the palette of `s` for the colour
`p`: the scale is unset (its red part is negative) or is the scale computed
from `p`, and the index of every phase is unset (negative) or is the index
computed from `p`. -/
def CacheOK (ops : Arith F) (s : ExqData F) (p : ExqColor F) (e : ExqHistogramEntry F) : Prop :=
  (ops.lt e.ditherScale.r (ops.ofInt 0) = true ∨ e.ditherScale = ditherScaleOf ops s p) ∧
  ∀ d, e.ditherIndex d < 0 ∨ e.ditherIndex d = (ditherValue ops s p d : Int)

/-- The state `s` differs from `s0` in dither fields only, and the dither
fields of every entry of the table agree with the palette of `s0`. -/
structure DitherInv (ops : Arith F) (s0 s : ExqData F) : Prop where
  node : s.node = s0.node
  numColors : s.numColors = s0.numColors
  transparency : s.transparency = s0.transparency
  optimized : s.optimized = s0.optimized
  pHash : s.pHash = s0.pHash
  pixel : ∀ id, entryPixel (s.hist id) = entryPixel (s0.hist id)
  cache : ∀ h id, id ∈ s0.pHash h →
    CacheOK ops s0 (pixelColor ops s0 [entryPixel (s0.hist id)] 0) (s.hist id)

section OrderedSpec

variable {K : Type} [LinearOrderedField K] [FloorRing K]

/-- As the specification states it: the offsets of the four dither phases,
`-0.375, 0.125, 0.375, -0.125`. -/
def specOffset : Nat → K
  | 0 => -3 / 8
  | 1 => 1 / 8
  | 2 => 3 / 8
  | 3 => -1 / 8
  | _ => 0

/-- As the specification states it: the dither scale of the colour `p`, derived
from `p` alone.  With `i` the nearest node of `p` and `e = mean(i) - p`, the
second node `j` is the nearest node of `p - e / 3`, or of `p - 3 e` when that
is `i` again; the scale is `0.8 |mean(j) - mean(i)|` per channel, or zero when
`j` is `i`. -/
def specScale (sqrt : K → K) (s : ExqData K) (p : ExqColor K) : ExqColor K :=
  let i := FindNearestColor (exactOps sqrt) s p
  let m := (s.node i).avg
  let j1 := FindNearestColor (exactOps sqrt) s
    ⟨p.r - (m.r - p.r) / 3, p.g - (m.g - p.g) / 3, p.b - (m.b - p.b) / 3, p.a - (m.a - p.a) / 3⟩
  let j := if j1 = i then
      FindNearestColor (exactOps sqrt) s
        ⟨p.r - (m.r - p.r) * 3, p.g - (m.g - p.g) * 3, p.b - (m.b - p.b) * 3,
          p.a - (m.a - p.a) * 3⟩
    else j1
  if j = i then ⟨0, 0, 0, 0⟩
  else ⟨4 / 5 * |(s.node j).avg.r - m.r|, 4 / 5 * |(s.node j).avg.g - m.g|,
    4 / 5 * |(s.node j).avg.b - m.b|, 4 / 5 * |(s.node j).avg.a - m.a|⟩

/-- As the specification states it: the index of the pixel `(x, y)` of an image
of the given width under ordered dithering, with no cache:
`FindNearestColor(p + s(p) * offset[(x mod 2) + 2 * (y mod 2)])`, where `p` is
the weighted colour of the pixel. -/
def specOrderedAt (sqrt : K → K) (s : ExqData K) (pIn : List Pixel) (width x y : Nat) : Nat :=
  let p := pixelColor (exactOps sqrt) s pIn (y * width + x)
  let sc := specScale sqrt s p
  let o : K := specOffset (x % 2 + 2 * (y % 2))
  FindNearestColor (exactOps sqrt) s
    ⟨p.r + sc.r * o, p.g + sc.g * o, p.b + sc.b * o, p.a + sc.a * o⟩

end OrderedSpec

/-- The direction that `SumNode(pNode)` accumulates over the channel-sorted
member list, before it is normalised (computed when the count of the node is
not 0). -/
def SumNode_dirSum (ops : Arith F) (hist : Nat → ExqHistogramEntry F) (pNode : ExqNode F) :
    ExqColor F :=
  let f := nodeMoments ops hist pNode.pHistogram
  let n := f.n
  let avg : ExqColor F :=
    { r := ops.div f.sum.r (ops.ofInt n), g := ops.div f.sum.g (ops.ofInt n),
      b := ops.div f.sum.b (ops.ofInt n), a := ops.div f.sum.a (ops.ofInt n) }
  let vcr := ops.sub f.sum2.r (ops.mul f.sum.r avg.r)
  let vcg := ops.sub f.sum2.g (ops.mul f.sum.g avg.g)
  let vcb := ops.sub f.sum2.b (ops.mul f.sum.b avg.b)
  let vca := ops.sub f.sum2.a (ops.mul f.sum.a avg.a)
  let l1 :=
    if ops.lt vcg vcr && ops.lt vcb vcr && ops.lt vca vcr then
      SortHist ops (SortByRed hist) pNode.pHistogram
    else if ops.lt vcb vcg && ops.lt vca vcg then
      SortHist ops (SortByGreen hist) pNode.pHistogram
    else if ops.lt vca vcb then
      SortHist ops (SortByBlue hist) pNode.pHistogram
    else
      SortHist ops (SortByAlpha hist) pNode.pHistogram
  l1.foldl (fun dir pCur => addDir ops avg dir (hist pCur)) (ExqColor.new ops)

/-- The divisor of `isqrt = 1 / Math.sqrt(...)` in `SumNode(pNode)`: the norm of
the accumulated direction. -/
def SumNode_dirNorm (ops : Arith F) (hist : Nat → ExqHistogramEntry F) (pNode : ExqNode F) : F :=
  let dir := SumNode_dirSum ops hist pNode
  ops.sqrt (ops.add (ops.add (ops.add (ops.mul dir.r dir.r) (ops.mul dir.g dir.g))
    (ops.mul dir.b dir.b)) (ops.mul dir.a dir.a))

/-- No pixel has been fed: the hash table is empty, every node has an empty
member list and the mean of a new node, and the configuration is the one of a
fresh quantizer. -/
structure Unfed (ops : Arith F) (s : ExqData F) : Prop where
  pHash : s.pHash = fun _ => []
  avg : ∀ i, (s.node i).avg = ExqColor.new ops
  members : ∀ i, (s.node i).pHistogram = []
  bits : s.numBitsPerChannel = 8
  transparency : s.transparency = true

/-- Every active node is as a call of `SumNode` left it. -/
def Summed (ops : Arith F) (s : ExqData F) : Prop :=
  ∀ j, j < s.numColors → ∃ nd0, s.node j = SumNode ops s.hist nd0

/-- The per-channel variances `vc` that `SumNode(pNode)` computes (when the
count of the node is not 0): `fsum2 - fsum * avg` in every channel. -/
def SumNode_vc (ops : Arith F) (hist : Nat → ExqHistogramEntry F) (pNode : ExqNode F) :
    ExqColor F :=
  let f := nodeMoments ops hist pNode.pHistogram
  let n := f.n
  let avg : ExqColor F :=
    { r := ops.div f.sum.r (ops.ofInt n), g := ops.div f.sum.g (ops.ofInt n),
      b := ops.div f.sum.b (ops.ofInt n), a := ops.div f.sum.a (ops.ofInt n) }
  { r := ops.sub f.sum2.r (ops.mul f.sum.r avg.r)
    g := ops.sub f.sum2.g (ops.mul f.sum.g avg.g)
    b := ops.sub f.sum2.b (ops.mul f.sum.b avg.b)
    a := ops.sub f.sum2.a (ops.mul f.sum.a avg.a) }

/-- The channel by which `SumNode(pNode)` orders the members first, as the
cascade of comparisons of `vc` chooses it: 0 red, 1 green, 2 blue, 3 alpha. -/
def SumNode_channel (ops : Arith F) (hist : Nat → ExqHistogramEntry F) (pNode : ExqNode F) :
    Nat :=
  let vc := SumNode_vc ops hist pNode
  if ops.lt vc.g vc.r && ops.lt vc.b vc.r && ops.lt vc.a vc.r then 0
  else if ops.lt vc.b vc.g && ops.lt vc.a vc.g then 1
  else if ops.lt vc.a vc.b then 2
  else 3

/-- The sort key of a channel: `SortByRed`, `SortByGreen`, `SortByBlue`,
`SortByAlpha` for the channels 0, 1, 2, 3. -/
def channelKey (hist : Nat → ExqHistogramEntry F) : Nat → Nat → F
  | 0 => SortByRed hist
  | 1 => SortByGreen hist
  | 2 => SortByBlue hist
  | _ => SortByAlpha hist

/-- Example input of `SumNode`: the entries of the pixels `(0,0,0,255)` and
`(240,200,0,255)`, each counted once, with the colours that `Feed` stores for
them. -/
def tieHist : Nat → ExqHistogramEntry ℚ := fun id =>
  if id = 0 then { ExqHistogramEntry.new exactQ with color := pixColor exactQ ⟨0, 0, 0, 255⟩, num := 1 }
  else { ExqHistogramEntry.new exactQ with color := pixColor exactQ ⟨240, 200, 0, 255⟩, num := 1 }

/-- Example input of `SumNode`: a node whose members are the two entries of
`tieHist`. -/
def tieNode : ExqNode ℚ := { ExqNode.new exactQ with pHistogram := [0, 1] }

/-- Example input of `Feed`: three opaque pixels with the red bytes 119, 136
and 153 (green and blue 0). -/
def stepPixels : List Pixel := [⟨119, 0, 0, 255⟩, ⟨136, 0, 0, 255⟩, ⟨153, 0, 0, 255⟩]
/-! ## Basic facts: fields left unchanged -/

@[simp] theorem feedPixel_numColors (ops : Arith F) (s : ExqData F) (p : Pixel) :
    (feedPixel ops s p).numColors = s.numColors := by
  unfold feedPixel
  dsimp only
  split <;> rfl

@[simp] theorem Feed_numColors (ops : Arith F) (pData : List Pixel) (s : ExqData F) :
    (Feed ops s pData).numColors = s.numColors := by
  unfold Feed
  induction pData generalizing s with
  | nil => rfl
  | cons p ps ih => simp [ih]

@[simp] theorem optimizePass_numColors (ops : Arith F) (s : ExqData F) :
    (optimizePass ops s).numColors = s.numColors := rfl

@[simp] theorem optimizePass_hist (ops : Arith F) (s : ExqData F) :
    (optimizePass ops s).hist = s.hist := rfl

@[simp] theorem optimizePass_nHist (ops : Arith F) (s : ExqData F) :
    (optimizePass ops s).nHist = s.nHist := rfl

@[simp] theorem optimizePass_pHash (ops : Arith F) (s : ExqData F) :
    (optimizePass ops s).pHash = s.pHash := rfl

@[simp] theorem optimizePass_transparency (ops : Arith F) (s : ExqData F) :
    (optimizePass ops s).transparency = s.transparency := rfl

@[simp] theorem optimizePass_numBits (ops : Arith F) (s : ExqData F) :
    (optimizePass ops s).numBitsPerChannel = s.numBitsPerChannel := rfl

@[simp] theorem optimizePass_optimized (ops : Arith F) (s : ExqData F) :
    (optimizePass ops s).optimized = s.optimized := rfl

theorem iterate_optimizePass_fields (ops : Arith F) (k : Nat) (s : ExqData F) :
    ((optimizePass ops)^[k] s).numColors = s.numColors ∧
    ((optimizePass ops)^[k] s).hist = s.hist ∧
    ((optimizePass ops)^[k] s).nHist = s.nHist ∧
    ((optimizePass ops)^[k] s).pHash = s.pHash ∧
    ((optimizePass ops)^[k] s).transparency = s.transparency ∧
    ((optimizePass ops)^[k] s).numBitsPerChannel = s.numBitsPerChannel ∧
    ((optimizePass ops)^[k] s).optimized = s.optimized := by
  induction k generalizing s with
  | zero => simp
  | succ k ih =>
    rw [Function.iterate_succ_apply]
    have h := ih (optimizePass ops s)
    simpa using h

@[simp] theorem OptimizePalette_numColors (ops : Arith F) (s : ExqData F) (k : Nat) :
    (OptimizePalette ops s k).numColors = s.numColors :=
  (iterate_optimizePass_fields ops k _).1

@[simp] theorem OptimizePalette_hist (ops : Arith F) (s : ExqData F) (k : Nat) :
    (OptimizePalette ops s k).hist = s.hist :=
  (iterate_optimizePass_fields ops k _).2.1

@[simp] theorem OptimizePalette_nHist (ops : Arith F) (s : ExqData F) (k : Nat) :
    (OptimizePalette ops s k).nHist = s.nHist :=
  (iterate_optimizePass_fields ops k _).2.2.1

@[simp] theorem OptimizePalette_pHash (ops : Arith F) (s : ExqData F) (k : Nat) :
    (OptimizePalette ops s k).pHash = s.pHash :=
  (iterate_optimizePass_fields ops k _).2.2.2.1

@[simp] theorem OptimizePalette_transparency (ops : Arith F) (s : ExqData F) (k : Nat) :
    (OptimizePalette ops s k).transparency = s.transparency :=
  (iterate_optimizePass_fields ops k _).2.2.2.2.1

@[simp] theorem OptimizePalette_numBits (ops : Arith F) (s : ExqData F) (k : Nat) :
    (OptimizePalette ops s k).numBitsPerChannel = s.numBitsPerChannel :=
  (iterate_optimizePass_fields ops k _).2.2.2.2.2.1

@[simp] theorem OptimizePalette_optimized (ops : Arith F) (s : ExqData F) (k : Nat) :
    (OptimizePalette ops s k).optimized = true :=
  (iterate_optimizePass_fields ops k _).2.2.2.2.2.2

@[simp] theorem splitStep_numColors (ops : Arith F) (hq : Bool) (s : ExqData F) (i : Nat) :
    (splitStep ops hq s i).numColors = i + 1 := by
  unfold splitStep
  cases hq <;> simp

theorem splitLoop_numColors (ops : Arith F) (hq : Bool) (len : Nat) (a : Nat) (s : ExqData F)
    (h : s.numColors = a) :
    ((List.range' a len).foldl (splitStep ops hq) s).numColors = a + len := by
  induction len generalizing a s with
  | zero => simpa using h
  | succ len ih =>
    rw [List.range'_succ, List.foldl_cons, ih (a + 1) _ (by simp)]
    omega

theorem foldl_Feed_numColors (ops : Arith F) (feeds : List (List Pixel)) (s : ExqData F) :
    (feeds.foldl (Feed ops) s).numColors = s.numColors := by
  induction feeds generalizing s with
  | nil => rfl
  | cons p ps ih => simp [ih]

@[simp] theorem fed_numColors (ops : Arith F) (feeds : List (List Pixel)) :
    (fed ops feeds).numColors = 0 := by
  unfold fed
  rw [foldl_Feed_numColors]
  rfl

/-! ## GetPalette: shape of the returned buffer -/

theorem range_three : List.range 3 = [0, 1, 2] := rfl

theorem paletteEntry_length (ops : Arith F) (s : ExqData F) (pPal : List Nat) (i : Nat) :
    (paletteEntry ops s pPal i).length = pPal.length := by
  simp [paletteEntry, range_three]

theorem paletteEntry_getElem?_of_le (ops : Arith F) (s : ExqData F) (pPal : List Nat) (i j : Nat)
    (h : i * 4 + 4 ≤ j) : (paletteEntry ops s pPal i)[j]? = pPal[j]? := by
  simp only [paletteEntry, range_three, List.foldl_cons, List.foldl_nil]
  repeat rw [List.getElem?_set_ne (by omega)]

theorem foldl_paletteEntry_length (ops : Arith F) (s : ExqData F) (k : Nat) (pPal : List Nat) :
    ((List.range k).foldl (paletteEntry ops s) pPal).length = pPal.length := by
  induction k with
  | zero => rfl
  | succ k ih => rw [List.range_succ, List.foldl_append]; simp [paletteEntry_length, ih]

theorem foldl_paletteEntry_getElem?_of_le (ops : Arith F) (s : ExqData F) (k : Nat)
    (pPal : List Nat) (j : Nat) (h : k * 4 ≤ j) :
    ((List.range k).foldl (paletteEntry ops s) pPal)[j]? = pPal[j]? := by
  induction k with
  | zero => rfl
  | succ k ih =>
    rw [List.range_succ, List.foldl_append]
    simp only [List.foldl_cons, List.foldl_nil]
    rw [paletteEntry_getElem?_of_le _ _ _ _ _ (by omega), ih (by omega)]

theorem GetPalette_length (ops : Arith F) (s : ExqData F) (nColors : Nat) :
    (GetPalette ops s nColors).1.length = nColors * 4 := by
  simp [GetPalette, foldl_paletteEntry_length]

theorem GetPalette_numColors (ops : Arith F) (s : ExqData F) (nColors : Nat) :
    (GetPalette ops s nColors).2.numColors = s.numColors := by
  unfold GetPalette
  dsimp only
  split <;> simp

theorem QuantizeEx_numColors_pos (ops : Arith F) (s : ExqData F) (nColors : Int) (hq : Bool) :
    1 ≤ (QuantizeEx ops s nColors hq).numColors := by
  unfold QuantizeEx
  dsimp only
  rw [splitLoop_numColors ops hq _ _ _ rfl]
  split
  · have h1 : (seedNode ops s).numColors = 1 := rfl
    omega
  · omega


theorem QuantizeEx_numColors_of_zero (ops : Arith F) (s : ExqData F) (h : s.numColors = 0)
    (nColors : Int) (hq : Bool) :
    ((QuantizeEx ops s nColors hq).numColors : Int) = min (max nColors 1) 256 := by
  unfold QuantizeEx
  simp only [h, if_true]
  rw [splitLoop_numColors ops hq _ _ _ rfl]
  have h1 : (seedNode ops s).numColors = 1 := rfl
  rw [h1]
  split <;> omega

theorem GetPalette_tail (ops : Arith F) (s : ExqData F) (nColors : Nat) :
    (GetPalette ops s nColors).1.drop (4 * min nColors s.numColors)
      = List.replicate (4 * nColors - 4 * min nColors s.numColors) 0 := by
  apply List.ext_getElem?
  intro j
  have hk : (if nColors > s.numColors then s.numColors else nColors) = min nColors s.numColors := by
    split <;> omega
  rw [List.getElem?_drop]
  unfold GetPalette
  dsimp only
  rw [hk, foldl_paletteEntry_getElem?_of_le _ _ _ _ _ (by omega)]
  by_cases hj : 4 * min nColors s.numColors + j < nColors * 4
  · rw [List.getElem?_replicate, List.getElem?_replicate, if_pos hj, if_pos (by omega)]
  · rw [List.getElem?_replicate, List.getElem?_replicate, if_neg hj, if_neg (by omega)]

/-! ## The histogram built by `Feed` -/

theorem hashEntries_eq_flatMap (s : ExqData F) :
    hashEntries s = (List.range _EXQ_HASH_SIZE).flatMap s.pHash := by
  unfold hashEntries
  induction (List.range _EXQ_HASH_SIZE) with
  | nil => rfl
  | cons a l ih => simp [List.flatMap_cons, ih]

theorem MakeHash_lt (rgba : Int) : MakeHash rgba < _EXQ_HASH_SIZE := by
  unfold MakeHash
  generalize toUint32 (hashStep (hashStep (hashStep (hashStep (hashStep rgba))))) = X
  have h : X &&& (_EXQ_HASH_SIZE - 1) ≤ _EXQ_HASH_SIZE - 1 := Nat.and_le_right
  have h2 : _EXQ_HASH_SIZE = 65536 := rfl
  rw [h2] at h ⊢
  unfold toUint32
  rw [Int.emod_eq_of_lt (by omega) (by omega), Int.toNat_ofNat]
  omega

theorem pixelHash_lt (p : Pixel) : pixelHash p < _EXQ_HASH_SIZE := MakeHash_lt _

theorem flatMap_update_perm (f : Nat → List Nat) (h x : Nat) (L : List Nat) (hL : L.Nodup)
    (hh : h ∈ L) :
    (L.flatMap (Function.update f h (x :: f h))).Perm (x :: L.flatMap f) := by
  induction L with
  | nil => simp at hh
  | cons a L ih =>
    rw [List.nodup_cons] at hL
    rw [List.flatMap_cons, List.flatMap_cons]
    by_cases ha : a = h
    · subst ha
      have hnot : ∀ b ∈ L, Function.update f a (x :: f a) b = f b := by
        intro b hb
        rw [Function.update_noteq]
        rintro rfl
        exact hL.1 hb
      rw [Function.update_same, List.flatMap_congr hnot]
      simp
    · have hh2 : h ∈ L := by
        rcases List.mem_cons.mp hh with h1 | h1
        · exact absurd h1.symm ha
        · exact h1
      rw [Function.update_noteq ha]
      refine (List.Perm.append_left _ (ih hL.2 hh2)).trans ?_
      exact List.perm_middle

theorem entryDiffers_eq_false (e : ExqHistogramEntry F) (p : Pixel) :
    entryDiffers e p = false ↔ entryPixel e = p := by
  cases p
  simp [entryDiffers, entryPixel, Pixel.mk.injEq]
  tauto

theorem walkChain_some (hist : Nat → ExqHistogramEntry F) (p : Pixel) (l : List Nat) (id : Nat)
    (h : walkChain hist p l = some id) : id ∈ l ∧ entryPixel (hist id) = p := by
  induction l with
  | nil => simp [walkChain] at h
  | cons a l ih =>
    unfold walkChain at h
    by_cases hd : entryDiffers (hist a) p = true
    · rw [if_pos hd] at h
      exact ⟨List.mem_cons_of_mem _ (ih h).1, (ih h).2⟩
    · rw [if_neg hd] at h
      cases h
      exact ⟨List.mem_cons_self _ _, (entryDiffers_eq_false _ _).mp (by simpa using hd)⟩

theorem walkChain_none (hist : Nat → ExqHistogramEntry F) (p : Pixel) (l : List Nat)
    (h : walkChain hist p l = none) : ∀ id ∈ l, entryPixel (hist id) ≠ p := by
  induction l with
  | nil => simp
  | cons a l ih =>
    unfold walkChain at h
    by_cases hd : entryDiffers (hist a) p = true
    · rw [if_pos hd] at h
      intro id hid
      rcases List.mem_cons.mp hid with rfl | h1
      · intro he
        rw [(entryDiffers_eq_false _ _).mpr he] at hd
        exact Bool.false_ne_true hd
      · exact ih h id h1
    · rw [if_neg hd] at h
      cases h

theorem HistInv_new (ops : Arith F) : HistInv (ExoQuant.new ops) [] where
  chain_lt := by intro h id hid; simp [ExoQuant.new] at hid
  chain_hash := by intro h id hid; simp [ExoQuant.new] at hid
  mem_chain := by intro id hid; simp [ExoQuant.new] at hid
  inj := by intro i j hi; simp [ExoQuant.new] at hi
  num_eq := by intro id hid; simp [ExoQuant.new] at hid
  fed_mem := by intro id hid; simp [ExoQuant.new] at hid
  covered := by intro p hp; simp at hp
  entries := by
    rw [hashEntries_eq_flatMap]
    simp [ExoQuant.new]

theorem walkChain_spec (s : ExqData F) (px : List Pixel) (hs : HistInv s px) (p : Pixel) :
    (∀ id, walkChain s.hist p (s.pHash (pixelHash p)) = some id →
      id < s.nHist ∧ entryPixel (s.hist id) = p) ∧
    (walkChain s.hist p (s.pHash (pixelHash p)) = none → p ∉ px) := by
  constructor
  · intro id h
    have := walkChain_some _ _ _ _ h
    exact ⟨hs.chain_lt _ _ this.1, this.2⟩
  · intro h hp
    obtain ⟨id, hid, he⟩ := hs.covered p hp
    have hm := hs.mem_chain id hid
    rw [he] at hm
    exact walkChain_none _ _ _ h id hm he

theorem entryPixel_newEntry (ops : Arith F) (s : ExqData F) (p : Pixel) :
    entryPixel (newEntry ops s p) = p := by
  cases p; rfl

theorem feedPixel_hit (ops : Arith F) (s : ExqData F) (p : Pixel) (pCur : Nat)
    (hw : walkChain s.hist p (s.pHash (pixelHash p)) = some pCur) :
    (feedPixel ops s p).hist
      = Function.update s.hist pCur { s.hist pCur with num := (s.hist pCur).num + 1 } ∧
    (feedPixel ops s p).nHist = s.nHist ∧ (feedPixel ops s p).pHash = s.pHash ∧
    (feedPixel ops s p).node = s.node := by
  unfold feedPixel
  dsimp only
  rw [hw]
  exact ⟨rfl, rfl, rfl, rfl⟩

theorem feedPixel_miss (ops : Arith F) (s : ExqData F) (p : Pixel)
    (hw : walkChain s.hist p (s.pHash (pixelHash p)) = none) :
    (feedPixel ops s p).hist = Function.update s.hist s.nHist (newEntry ops s p) ∧
    (feedPixel ops s p).nHist = s.nHist + 1 ∧
    (feedPixel ops s p).pHash
      = Function.update s.pHash (pixelHash p) (s.nHist :: s.pHash (pixelHash p)) ∧
    (feedPixel ops s p).node = s.node := by
  unfold feedPixel
  dsimp only
  rw [hw]
  exact ⟨rfl, rfl, rfl, rfl⟩

theorem HistInv_feedPixel (ops : Arith F) (s : ExqData F) (px : List Pixel) (hs : HistInv s px)
    (p : Pixel) : HistInv (feedPixel ops s p) (px ++ [p]) := by
  obtain ⟨hsome, hnone⟩ := walkChain_spec s px hs p
  cases hw : walkChain s.hist p (s.pHash (pixelHash p)) with
  | some pCur =>
    obtain ⟨hlt, hpix⟩ := hsome pCur hw
    obtain ⟨eh, en, ep, -⟩ := feedPixel_hit ops s p pCur hw
    have hpx : ∀ id, entryPixel ((feedPixel ops s p).hist id) = entryPixel (s.hist id) := by
      intro id
      rw [eh]
      by_cases h : id = pCur
      · subst h; rw [Function.update_same]; rfl
      · rw [Function.update_noteq h]
    refine ⟨?_, ?_, ?_, ?_, ?_, ?_, ?_, ?_⟩
    · rw [en, ep]; exact hs.chain_lt
    · intro h id hid; rw [hpx]; rw [ep] at hid; exact hs.chain_hash h id hid
    · intro id hid; rw [hpx, ep]; rw [en] at hid; exact hs.mem_chain id hid
    · intro i j hi hj; rw [hpx, hpx]; rw [en] at hi hj; exact hs.inj i j hi hj
    · intro id hid
      rw [en] at hid
      rw [hpx, List.count_append, eh]
      by_cases h : id = pCur
      · subst h
        rw [Function.update_same, hpix]
        simp [hs.num_eq id hid, hpix]
      · rw [Function.update_noteq h, hs.num_eq id hid]
        have : entryPixel (s.hist id) ≠ p := by
          intro he
          exact h (hs.inj id pCur hid hlt (he.trans hpix.symm))
        simp [List.count_singleton, this.symm]
    · intro id hid; rw [en] at hid; rw [hpx]; exact List.mem_append_left _ (hs.fed_mem id hid)
    · intro q hq
      rw [en]
      rcases List.mem_append.mp hq with h1 | h1
      · obtain ⟨id, hid, he⟩ := hs.covered q h1
        exact ⟨id, hid, by rw [hpx]; exact he⟩
      · simp at h1
        subst h1
        exact ⟨pCur, hlt, by rw [hpx]; exact hpix⟩
    · rw [en]
      have : hashEntries (feedPixel ops s p) = hashEntries s := by
        unfold hashEntries; rw [ep]
      rw [this]
      exact hs.entries
  | none =>
    have hnew : p ∉ px := hnone hw
    obtain ⟨eh, en, ep, -⟩ := feedPixel_miss ops s p hw
    have hpx : ∀ id, id < s.nHist → (feedPixel ops s p).hist id = s.hist id := by
      intro id hid
      rw [eh, Function.update_noteq (by omega)]
    have hpn : (feedPixel ops s p).hist s.nHist = newEntry ops s p := by
      rw [eh, Function.update_same]
    have hne : ∀ id, id < s.nHist → entryPixel (s.hist id) ≠ p := by
      intro id hid he
      exact hnew (he ▸ hs.fed_mem id hid)
    refine ⟨?_, ?_, ?_, ?_, ?_, ?_, ?_, ?_⟩
    · intro h id hid
      rw [en]
      rw [ep] at hid
      by_cases hh : h = pixelHash p
      · subst hh
        rw [Function.update_same] at hid
        rcases List.mem_cons.mp hid with h1 | h1
        · omega
        · have := hs.chain_lt _ _ h1; omega
      · rw [Function.update_noteq hh] at hid
        have := hs.chain_lt _ _ hid; omega
    · intro h id hid
      rw [ep] at hid
      by_cases hh : h = pixelHash p
      · subst hh
        rw [Function.update_same] at hid
        rcases List.mem_cons.mp hid with h1 | h1
        · subst h1; rw [hpn, entryPixel_newEntry]
        · rw [hpx id (hs.chain_lt _ _ h1)]; exact hs.chain_hash _ _ h1
      · rw [Function.update_noteq hh] at hid
        rw [hpx id (hs.chain_lt _ _ hid)]; exact hs.chain_hash _ _ hid
    · intro id hid
      rw [en] at hid
      rw [ep]
      by_cases h : id = s.nHist
      · subst h
        rw [hpn, entryPixel_newEntry, Function.update_same]
        exact List.mem_cons_self _ _
      · have hid2 : id < s.nHist := by omega
        rw [hpx id hid2]
        by_cases hh : pixelHash (entryPixel (s.hist id)) = pixelHash p
        · rw [hh, Function.update_same]
          exact List.mem_cons_of_mem _ (hh ▸ hs.mem_chain id hid2)
        · rw [Function.update_noteq hh]
          exact hs.mem_chain id hid2
    · intro i j hi hj he
      rw [en] at hi hj
      by_cases h1 : i = s.nHist <;> by_cases h2 : j = s.nHist
      · omega
      · subst h1
        have hj2 : j < s.nHist := by omega
        rw [hpn, entryPixel_newEntry, hpx j hj2] at he
        exact absurd he.symm (hne j hj2)
      · subst h2
        have hi2 : i < s.nHist := by omega
        rw [hpn, entryPixel_newEntry, hpx i hi2] at he
        exact absurd he (hne i hi2)
      · have hi2 : i < s.nHist := by omega
        have hj2 : j < s.nHist := by omega
        rw [hpx i hi2, hpx j hj2] at he
        exact hs.inj i j hi2 hj2 he
    · intro id hid
      rw [en] at hid
      rw [List.count_append]
      by_cases h : id = s.nHist
      · subst h
        rw [hpn, entryPixel_newEntry]
        simp [newEntry, List.count_eq_zero_of_not_mem hnew]
      · have hid2 : id < s.nHist := by omega
        rw [hpx id hid2, hs.num_eq id hid2]
        simp [List.count_singleton, (hne id hid2).symm]
    · intro id hid
      rw [en] at hid
      by_cases h : id = s.nHist
      · subst h
        rw [hpn, entryPixel_newEntry]
        simp
      · have hid2 : id < s.nHist := by omega
        rw [hpx id hid2]
        exact List.mem_append_left _ (hs.fed_mem id hid2)
    · intro q hq
      rw [en]
      rcases List.mem_append.mp hq with h1 | h1
      · obtain ⟨id, hid, he⟩ := hs.covered q h1
        exact ⟨id, by omega, by rw [hpx id hid]; exact he⟩
      · simp at h1
        subst h1
        exact ⟨s.nHist, by omega, by rw [hpn, entryPixel_newEntry]⟩
    · rw [hashEntries_eq_flatMap, ep, en]
      have h1 := flatMap_update_perm s.pHash (pixelHash p) s.nHist (List.range _EXQ_HASH_SIZE)
        (List.nodup_range _) (List.mem_range.mpr (pixelHash_lt p))
      have h2 := hs.entries
      rw [hashEntries_eq_flatMap] at h2
      refine h1.trans ?_
      rw [List.range_succ]
      exact ((List.Perm.cons _ h2).trans (List.perm_append_singleton _ _).symm)

theorem HistInv_Feed (ops : Arith F) (pData : List Pixel) (s : ExqData F) (px : List Pixel)
    (hs : HistInv s px) : HistInv (Feed ops s pData) (px ++ pData) := by
  unfold Feed
  induction pData generalizing s px with
  | nil => simpa using hs
  | cons p ps ih =>
    rw [List.foldl_cons]
    have := ih (feedPixel ops s p) (px ++ [p]) (HistInv_feedPixel ops s px hs p)
    simpa using this

theorem HistInv_fed (ops : Arith F) (feeds : List (List Pixel)) :
    HistInv (fed ops feeds) feeds.flatten := by
  unfold fed
  have : ∀ (s : ExqData F) (px : List Pixel), HistInv s px →
      HistInv (feeds.foldl (Feed ops) s) (px ++ feeds.flatten) := by
    induction feeds with
    | nil => intro s px hs; simpa using hs
    | cons f fs ih =>
      intro s px hs
      rw [List.foldl_cons, List.flatten_cons, ← List.append_assoc]
      exact ih _ _ (HistInv_Feed ops f s px hs)
  simpa using this _ _ (HistInv_new ops)

theorem HistInv.tuples_perm {s : ExqData F} {px : List Pixel} (hs : HistInv s px) :
    ((hashEntries s).map (fun id => entryPixel (s.hist id))).Perm px.dedup := by
  have h1 : ((hashEntries s).map (fun id => entryPixel (s.hist id))).Perm
      ((List.range s.nHist).map (fun id => entryPixel (s.hist id))) := hs.entries.map _
  refine h1.trans ?_
  have hnd : ((List.range s.nHist).map (fun id => entryPixel (s.hist id))).Nodup := by
    apply List.Nodup.map_on _ (List.nodup_range _)
    intro i hi j hj he
    exact hs.inj i j (List.mem_range.mp hi) (List.mem_range.mp hj) he
  apply (List.perm_ext_iff_of_nodup hnd (List.nodup_dedup _)).mpr
  intro p
  rw [List.mem_dedup, List.mem_map]
  constructor
  · rintro ⟨id, hid, rfl⟩
    exact hs.fed_mem id (List.mem_range.mp hid)
  · intro hp
    obtain ⟨id, hid, he⟩ := hs.covered p hp
    exact ⟨id, List.mem_range.mpr hid, he⟩

theorem HistInv.nums {s : ExqData F} {px : List Pixel} (hs : HistInv s px) :
    (hashEntries s).map (fun id => (s.hist id).num)
      = (hashEntries s).map (fun id => px.count (entryPixel (s.hist id))) := by
  apply List.map_congr_left
  intro id hid
  exact hs.num_eq id (List.mem_range.mp (hs.entries.mem_iff.mp hid))

theorem HistInv.find {s : ExqData F} {px : List Pixel} (hs : HistInv s px) (pCol : List Pixel)
    (index : Nat) :
    match pCol[index]?, FindHistogram s pCol index with
    | some p, some id => id ∈ hashEntries s ∧ entryPixel (s.hist id) = p ∧
        (s.hist id).num = px.count p ∧ p ∈ px
    | some p, none => p ∉ px
    | none, r => r = none := by
  unfold FindHistogram
  cases hp : pCol[index]? with
  | none => rfl
  | some p =>
    dsimp only
    obtain ⟨hsome, hnone⟩ := walkChain_spec s px hs p
    cases hw : walkChain s.hist p (s.pHash (pixelHash p)) with
    | none => exact hnone hw
    | some id =>
      obtain ⟨hlt, he⟩ := hsome id hw
      refine ⟨hs.entries.mem_iff.mpr (List.mem_range.mpr hlt), he, ?_, ?_⟩
      · rw [hs.num_eq id hlt, he]
      · exact he ▸ hs.fed_mem id hlt

/-! ## Sort returns a permutation -/

theorem sortPartition_perm (ops : Arith F) (f : Nat → F) (sum : F) (l pLow pHigh : List Nat) :
    ((sortPartition ops f sum l pLow pHigh).1 ++ (sortPartition ops f sum l pLow pHigh).2).Perm
      (l ++ (pLow ++ pHigh)) := by
  induction l generalizing pLow pHigh with
  | nil => simp [sortPartition]
  | cons a l ih =>
    unfold sortPartition
    split
    · refine (ih (a :: pLow) pHigh).trans ?_
      simp
    · refine (ih pLow (a :: pHigh)).trans ?_
      rw [← List.append_assoc, ← List.append_assoc]
      exact List.perm_middle

theorem SortAux_perm (ops : Arith F) (f : Nat → F) (fuel : Nat) (l : List Nat) :
    (SortAux ops f fuel l).Perm l := by
  induction fuel generalizing l with
  | zero => exact List.Perm.refl _
  | succ fuel ih =>
    unfold SortAux
    dsimp only
    split
    · exact List.Perm.refl _
    · have hp := sortPartition_perm ops f
        (ops.div (l.foldl (fun acc pCur => ops.add acc (f pCur)) (ops.ofInt 0))
          (ops.ofInt (l.length : Int))) l [] []
      split
      · next pHigh heq => rw [heq] at hp; simpa using hp
      · next pLow _ heq => rw [heq] at hp; simpa using hp
      · next pLow pHigh _ _ heq =>
        rw [heq] at hp
        exact ((ih pLow).append (ih pHigh)).trans (by simpa using hp)

theorem SortHist_perm (ops : Arith F) (f : Nat → F) (l : List Nat) :
    (SortHist ops f l).Perm l := SortAux_perm ops f _ l

/-! ## SumNode: count and member list -/

theorem foldl_addMoments_n (ops : Arith F) (hist : Nat → ExqHistogramEntry F) (l : List Nat)
    (m : Moments F) :
    (l.foldl (fun m pCur => addMoments ops m (hist pCur)) m).n
      = m.n + (l.map (fun id => (hist id).num)).sum := by
  induction l generalizing m with
  | nil => simp
  | cons a l ih =>
    rw [List.foldl_cons, ih]
    simp [addMoments, Nat.add_assoc]

theorem nodeMoments_n (ops : Arith F) (hist : Nat → ExqHistogramEntry F) (l : List Nat) :
    (nodeMoments ops hist l).n = (l.map (fun id => (hist id).num)).sum := by
  unfold nodeMoments
  rw [foldl_addMoments_n]
  simp [Moments.zero]

theorem SumNode_num (ops : Arith F) (hist : Nat → ExqHistogramEntry F) (nd : ExqNode F) :
    (SumNode ops hist nd).num = (nd.pHistogram.map (fun id => (hist id).num)).sum := by
  unfold SumNode
  dsimp only
  split
  · next h => rw [← nodeMoments_n ops]
  · exact nodeMoments_n ops hist _

theorem SumNode_perm (ops : Arith F) (hist : Nat → ExqHistogramEntry F) (nd : ExqNode F) :
    (SumNode ops hist nd).pHistogram.Perm nd.pHistogram := by
  unfold SumNode
  dsimp only
  split
  · exact List.Perm.refl _
  · dsimp only
    refine (SortHist_perm ops _ _).trans ?_
    split
    · exact SortHist_perm ops _ _
    · split
      · exact SortHist_perm ops _ _
      · split
        · exact SortHist_perm ops _ _
        · exact SortHist_perm ops _ _

theorem SumNode_num_self (ops : Arith F) (hist : Nat → ExqHistogramEntry F) (nd : ExqNode F) :
    (SumNode ops hist nd).num
      = ((SumNode ops hist nd).pHistogram.map (fun id => (hist id).num)).sum := by
  rw [SumNode_num]
  exact (((SumNode_perm ops hist nd).map _).sum_eq).symm

/-! ## The split of a member list -/

theorem moveUntil_spec (pSplit : Option Nat) (l dst : List Nat) :
    (moveUntil pSplit l dst).2.reverse ++ (moveUntil pSplit l dst).1 = dst.reverse ++ l := by
  induction l generalizing dst with
  | nil => simp [moveUntil]
  | cons a l ih =>
    unfold moveUntil
    split
    · rfl
    · rw [ih]; simp

theorem foldl_push (l acc : List Nat) :
    l.foldl (fun l pCur => pCur :: l) acc = l.reverse ++ acc := by
  induction l generalizing acc with
  | nil => rfl
  | cons a l ih => rw [List.foldl_cons, ih]; simp

/-! ## Indices returned by the scans -/

theorem foldl_nearestStep_lt (ops : Arith F) (node : Nat → ExqNode F) (c : ExqColor F)
    (L : List Nat) (st : F × Nat) (n : Nat) (hst : st.2 < n) (hL : ∀ i ∈ L, i < n) :
    (L.foldl (nearestStep ops node c) st).2 < n := by
  induction L generalizing st with
  | nil => exact hst
  | cons a L ih =>
    rw [List.foldl_cons]
    apply ih
    · unfold nearestStep
      dsimp only
      split
      · exact hL a (List.mem_cons_self _ _)
      · exact hst
    · intro i hi
      exact hL i (List.mem_cons_of_mem _ hi)

theorem FindNearestColor_lt (ops : Arith F) (s : ExqData F) (c : ExqColor F)
    (h : 1 ≤ s.numColors) : FindNearestColor ops s c < s.numColors := by
  unfold FindNearestColor
  apply foldl_nearestStep_lt
  · exact h
  · intro i hi
    exact List.mem_range.mp hi

theorem nearestStep_congr (ops : Arith F) (node node2 : Nat → ExqNode F)
    (h : ∀ k, (node2 k).avg = (node k).avg) (c : ExqColor F) :
    nearestStep ops node2 c = nearestStep ops node c := by
  funext st i
  unfold nearestStep
  rw [h i]

theorem FindNearestColor_congr (ops : Arith F) (s : ExqData F) (node2 : Nat → ExqNode F)
    (h : ∀ k, (node2 k).avg = (s.node k).avg) (c : ExqColor F) :
    FindNearestColor ops { s with node := node2 } c = FindNearestColor ops s c := by
  unfold FindNearestColor
  dsimp only
  rw [nearestStep_congr ops s.node node2 h]

theorem foldl_bestStep_lt (ops : Arith F) (node : Nat → ExqNode F)
    (L : List Nat) (st : F × Nat) (n : Nat) (hst : st.2 < n) (hL : ∀ i ∈ L, i < n) :
    (L.foldl (bestStep ops node) st).2 < n := by
  induction L generalizing st with
  | nil => exact hst
  | cons a L ih =>
    rw [List.foldl_cons]
    apply ih
    · unfold bestStep
      split
      · exact hL a (List.mem_cons_self _ _)
      · exact hst
    · intro i hi
      exact hL i (List.mem_cons_of_mem _ hi)

/-! ## The nodes after a split step -/

theorem setHist_same (node : Nat → ExqNode F) (k : Nat) (l : List Nat) :
    setHist node k l k = { node k with pHistogram := l } := by
  simp [setHist]

theorem setHist_ne (node : Nat → ExqNode F) (k j : Nat) (l : List Nat) (h : j ≠ k) :
    setHist node k l j = node j := by
  simp [setHist, Function.update_noteq h]

theorem bestIndex_lt (ops : Arith F) (node : Nat → ExqNode F) (i : Nat) (h : 1 ≤ i) :
    bestIndex ops node i < i := by
  unfold bestIndex
  apply foldl_bestStep_lt
  · exact h
  · intro j hj
    exact List.mem_range.mp hj

theorem splitStep_hq (ops : Arith F) (s : ExqData F) (i : Nat) :
    splitStep ops true s i = OptimizePalette ops (splitStep ops false s i) 1 := rfl

theorem splitStep_fields (ops : Arith F) (s : ExqData F) (i : Nat) :
    (splitStep ops false s i).hist = s.hist ∧ (splitStep ops false s i).nHist = s.nHist ∧
    (splitStep ops false s i).pHash = s.pHash ∧
    (splitStep ops false s i).transparency = s.transparency ∧
    (splitStep ops false s i).numBitsPerChannel = s.numBitsPerChannel :=
  ⟨rfl, rfl, rfl, rfl, rfl⟩

theorem splitStep_node (ops : Arith F) (s : ExqData F) (i : Nat)
    (hb : bestIndex ops s.node i ≠ i) :
    (splitStep ops false s i).node (bestIndex ops s.node i)
      = SumNode ops s.hist { s.node (bestIndex ops s.node i) with
          pHistogram := (moveUntil (s.node (bestIndex ops s.node i)).pSplit
            (s.node (bestIndex ops s.node i)).pHistogram []).1.reverse } ∧
    (splitStep ops false s i).node i
      = SumNode ops s.hist { s.node i with
          pHistogram := (moveUntil (s.node (bestIndex ops s.node i)).pSplit
            (s.node (bestIndex ops s.node i)).pHistogram []).2 } ∧
    ∀ k, k ≠ bestIndex ops s.node i → k ≠ i → (splitStep ops false s i).node k = s.node k := by
  unfold splitStep
  generalize bestIndex ops s.node i = b at hb ⊢
  have hb2 : i ≠ b := fun h => hb h.symm
  refine ⟨?_, ?_, ?_⟩
  · simp only [Bool.false_eq_true, if_false, Function.update_noteq hb, Function.update_same,
      setHist_same, setHist_ne _ _ _ _ hb, foldl_push, List.append_nil]
  · simp only [Bool.false_eq_true, if_false, Function.update_noteq hb, Function.update_same,
      Function.update_noteq hb2,
      setHist_same, setHist_ne _ _ _ _ hb, setHist_ne _ _ _ _ hb2, foldl_push, List.append_nil]
  · intro k h1 h2
    simp only [Bool.false_eq_true, if_false, Function.update_noteq h1, Function.update_noteq h2,
      setHist_ne _ _ _ _ h1, setHist_ne _ _ _ _ h2]

/-! ## The nodes after a relaxation pass -/

theorem foldl_clear (n : Nat) (node : Nat → ExqNode F) (k : Nat) :
    (List.range n).foldl (fun nd i => setHist nd i []) node k
      = if k < n then { node k with pHistogram := [] } else node k := by
  induction n with
  | zero => simp
  | succ n ih =>
    rw [List.range_succ, List.foldl_append, List.foldl_cons, List.foldl_nil]
    by_cases h : k = n
    · subst h
      rw [setHist_same, ih]
      simp
    · rw [setHist_ne _ _ _ _ h, ih]
      by_cases h2 : k < n
      · rw [if_pos h2, if_pos (by omega)]
      · rw [if_neg h2, if_neg (by omega)]

theorem foldl_sumNode (ops : Arith F) (hist : Nat → ExqHistogramEntry F) (n : Nat)
    (node : Nat → ExqNode F) (k : Nat) :
    (List.range n).foldl (fun nd i => Function.update nd i (SumNode ops hist (nd i))) node k
      = if k < n then SumNode ops hist (node k) else node k := by
  induction n with
  | zero => simp
  | succ n ih =>
    rw [List.range_succ, List.foldl_append, List.foldl_cons, List.foldl_nil]
    by_cases h : k = n
    · subst h
      rw [Function.update_same, ih]
      simp
    · rw [Function.update_noteq h, ih]
      by_cases h2 : k < n
      · rw [if_pos h2, if_pos (by omega)]
      · rw [if_neg h2, if_neg (by omega)]

theorem foldl_assign (ops : Arith F) (s : ExqData F) (E : List Nat) (nd : Nat → ExqNode F)
    (havg : ∀ k, (nd k).avg = (s.node k).avg) (j : Nat) :
    E.foldl (fun nd pCur =>
        setHist nd (FindNearestColor ops { s with node := nd } (s.hist pCur).color)
          (pCur :: (nd (FindNearestColor ops { s with node := nd } (s.hist pCur).color)).pHistogram))
      nd j
      = { nd j with pHistogram :=
          (E.filter (fun id => FindNearestColor ops s (s.hist id).color = j)).reverse
            ++ (nd j).pHistogram } := by
  induction E generalizing nd with
  | nil => simp
  | cons a E ih =>
    rw [List.foldl_cons, FindNearestColor_congr ops s nd havg]
    rw [ih]
    · by_cases h : FindNearestColor ops s (s.hist a).color = j
      · subst h
        rw [setHist_same]
        simp [List.filter_cons]
      · rw [setHist_ne _ _ _ _ (fun h2 => h h2.symm)]
        simp [List.filter_cons, h]
    · intro k
      by_cases h : k = FindNearestColor ops s (s.hist a).color
      · subst h
        rw [setHist_same]
        exact havg _
      · rw [setHist_ne _ _ _ _ h]
        exact havg k

theorem optimizePass_node (ops : Arith F) (s : ExqData F) (j : Nat) (hj : j < s.numColors) :
    (optimizePass ops s).node j
      = SumNode ops s.hist { s.node j with pHistogram := assigned ops s j } := by
  unfold optimizePass
  dsimp only
  rw [foldl_sumNode, if_pos hj, foldl_assign]
  · rw [foldl_clear, if_pos hj]
    simp [assigned, assign]
  · intro k
    rw [foldl_clear]
    split <;> rfl

/-! ## Every entry is a member of exactly one active node -/

theorem flatMap_update_perm_split (f : Nat → List Nat) (k : Nat) (v w : List Nat) (L : List Nat)
    (hL : L.Nodup) (hk : k ∈ L) (hv : (v ++ w).Perm (f k)) :
    (L.flatMap (Function.update f k v) ++ w).Perm (L.flatMap f) := by
  induction L with
  | nil => simp at hk
  | cons a L ih =>
    rw [List.nodup_cons] at hL
    rw [List.flatMap_cons, List.flatMap_cons]
    by_cases ha : a = k
    · subst ha
      have hnot : ∀ b ∈ L, Function.update f a v b = f b := by
        intro b hb
        rw [Function.update_noteq]
        rintro rfl
        exact hL.1 hb
      rw [Function.update_same, List.flatMap_congr hnot]
      calc (v ++ L.flatMap f ++ w).Perm (v ++ (w ++ L.flatMap f)) := by
            rw [List.append_assoc]
            exact List.Perm.append_left _ List.perm_append_comm
        _ = (v ++ w) ++ L.flatMap f := by rw [List.append_assoc]
        _ |>.Perm (f a ++ L.flatMap f) := List.Perm.append_right _ hv
    · have hk2 : k ∈ L := by
        rcases List.mem_cons.mp hk with h1 | h1
        · exact absurd h1.symm ha
        · exact h1
      rw [Function.update_noteq ha, List.append_assoc]
      exact List.Perm.append_left _ (ih hL.2 hk2)

theorem sum_map_flatMap (f : Nat → List Nat) (g : Nat → Nat) (L : List Nat) :
    (L.map (fun i => ((f i).map g).sum)).sum = ((L.flatMap f).map g).sum := by
  induction L with
  | nil => rfl
  | cons a L ih => simp [List.flatMap_cons, ih]

theorem flatMap_filter_perm (a : Nat → Nat) (n : Nat) (E : List Nat) (h : ∀ id ∈ E, a id < n) :
    ((List.range n).flatMap (fun j => E.filter (fun id => a id = j))).Perm E := by
  induction E with
  | nil => simp
  | cons x E ih =>
    have hx : x ∈ x :: E := List.mem_cons_self _ _
    have e : (fun j => (x :: E).filter (fun id => decide (a id = j)))
        = Function.update (fun j => E.filter (fun id => decide (a id = j))) (a x)
            (x :: E.filter (fun id => decide (a id = a x))) := by
      funext j
      by_cases hj : j = a x
      · subst hj
        rw [Function.update_same]
        simp [List.filter_cons]
      · rw [Function.update_noteq hj]
        have : ¬ a x = j := fun h2 => hj h2.symm
        simp [List.filter_cons, this]
    rw [e]
    refine (flatMap_update_perm _ (a x) x (List.range n) (List.nodup_range _)
      (List.mem_range.mpr (h x hx))).trans ?_
    exact List.Perm.cons _ (ih (fun id hid => h id (List.mem_cons_of_mem _ hid)))

theorem hashEntries_congr (s t : ExqData F) (h : t.pHash = s.pHash) :
    hashEntries t = hashEntries s := by
  unfold hashEntries
  rw [h]

theorem NodeInv_seedNode (ops : Arith F) (s : ExqData F) : NodeInv (seedNode ops s) := by
  have hn : (seedNode ops s).node 0
      = SumNode ops s.hist { s.node 0 with pHistogram := (hashEntries s).reverse } := by
    simp [seedNode, setHist_same, foldl_push]
  refine ⟨Nat.le_refl 1, ?_, ?_⟩
  · have e : (seedNode ops s).numColors = 1 := rfl
    rw [e, hashEntries_congr s (seedNode ops s) rfl]
    rw [List.range_succ, List.range_zero]
    simp only [List.nil_append, List.flatMap_cons, List.flatMap_nil, List.append_nil]
    rw [hn]
    exact (SumNode_perm ops s.hist { s.node 0 with pHistogram := (hashEntries s).reverse }).trans
      (List.reverse_perm (hashEntries s))
  · intro i hi
    have e : (seedNode ops s).numColors = 1 := rfl
    rw [e] at hi
    have hi0 : i = 0 := by omega
    subst hi0
    rw [hn]
    exact SumNode_num_self ops s.hist _

theorem NodeInv_optimizePass (ops : Arith F) (s : ExqData F) (h : 1 ≤ s.numColors) :
    NodeInv (optimizePass ops s) := by
  refine ⟨h, ?_, ?_⟩
  · rw [optimizePass_numColors, hashEntries_congr s (optimizePass ops s) (optimizePass_pHash ops s)]
    have h1 : ((List.range s.numColors).flatMap
        (fun i => ((optimizePass ops s).node i).pHistogram)).Perm
        ((List.range s.numColors).flatMap (fun j => (hashEntries s).filter
          (fun id => assign ops s id = j))) := by
      apply List.Perm.flatMap_left
      intro j hj
      rw [optimizePass_node ops s j (List.mem_range.mp hj)]
      refine (SumNode_perm ops s.hist { s.node j with pHistogram := assigned ops s j }).trans ?_
      unfold assigned
      exact List.reverse_perm ((hashEntries s).filter (fun id => assign ops s id = j))
    refine h1.trans ?_
    apply flatMap_filter_perm
    intro id _
    exact FindNearestColor_lt ops s _ h
  · intro i hi
    rw [optimizePass_numColors] at hi
    rw [optimizePass_node ops s i hi]
    exact SumNode_num_self ops s.hist _

theorem NodeInv_iterate (ops : Arith F) (k : Nat) (s : ExqData F) (h : NodeInv s) :
    NodeInv ((optimizePass ops)^[k] s) := by
  induction k generalizing s with
  | zero => exact h
  | succ k ih =>
    rw [Function.iterate_succ_apply]
    exact ih _ (NodeInv_optimizePass ops s h.pos)

theorem NodeInv_optimized (s : ExqData F) (b : Bool) (h : NodeInv s) :
    NodeInv { s with optimized := b } := by
  refine ⟨h.pos, ?_, h.num_eq⟩
  rw [hashEntries_congr s { s with optimized := b } rfl]
  exact h.members

theorem NodeInv_OptimizePalette (ops : Arith F) (s : ExqData F) (k : Nat) (h : NodeInv s) :
    NodeInv (OptimizePalette ops s k) :=
  NodeInv_iterate ops k _ (NodeInv_optimized s true h)

theorem NodeInv_splitStep_false (ops : Arith F) (s : ExqData F) (h : NodeInv s) :
    NodeInv (splitStep ops false s s.numColors) := by
  have hb := bestIndex_lt ops s.node s.numColors h.pos
  obtain ⟨e1, e2, e3⟩ := splitStep_node ops s s.numColors (by omega)
  have hmv := moveUntil_spec (s.node (bestIndex ops s.node s.numColors)).pSplit
    (s.node (bestIndex ops s.node s.numColors)).pHistogram []
  refine ⟨by simp, ?_, ?_⟩
  · rw [splitStep_numColors, hashEntries_congr s (splitStep ops false s s.numColors) (splitStep_fields ops s _).2.2.1, List.range_succ, List.flatMap_append]
    simp only [List.flatMap_cons, List.flatMap_nil, List.append_nil]
    refine List.Perm.trans ?_ h.members
    have hc : (List.range s.numColors).flatMap
          (fun i => ((splitStep ops false s s.numColors).node i).pHistogram)
        = (List.range s.numColors).flatMap
          (Function.update (fun i => (s.node i).pHistogram) (bestIndex ops s.node s.numColors)
            ((splitStep ops false s s.numColors).node (bestIndex ops s.node s.numColors)).pHistogram) := by
      apply List.flatMap_congr
      intro k hk
      by_cases hkb : k = bestIndex ops s.node s.numColors
      · subst hkb
        rw [Function.update_same]
      · rw [Function.update_noteq hkb, e3 k hkb (by have := List.mem_range.mp hk; omega)]
    rw [hc]
    apply flatMap_update_perm_split _ _ _ _ _ (List.nodup_range _) (List.mem_range.mpr hb)
    rw [e1, e2]
    refine ((SumNode_perm ops s.hist _).append (SumNode_perm ops s.hist _)).trans ?_
    dsimp only
    refine List.Perm.trans ?_ (List.Perm.of_eq (by simpa using hmv))
    exact (List.perm_append_comm).trans
      (List.Perm.append (List.reverse_perm _).symm (List.reverse_perm _))
  · intro k hk
    rw [splitStep_numColors] at hk
    by_cases hkb : k = bestIndex ops s.node s.numColors
    · subst hkb
      rw [e1]
      exact SumNode_num_self ops s.hist _
    · by_cases hki : k = s.numColors
      · rw [hki, e2]
        exact SumNode_num_self ops s.hist _
      · rw [e3 k hkb hki]
        exact h.num_eq k (by omega)

theorem NodeInv_splitStep (ops : Arith F) (hq : Bool) (s : ExqData F) (h : NodeInv s) :
    NodeInv (splitStep ops hq s s.numColors) := by
  cases hq with
  | false => exact NodeInv_splitStep_false ops s h
  | true =>
    rw [splitStep_hq]
    exact NodeInv_OptimizePalette ops _ 1 (NodeInv_splitStep_false ops s h)

theorem NodeInv_splitLoop (ops : Arith F) (hq : Bool) (len : Nat) (s : ExqData F)
    (h : NodeInv s) :
    NodeInv ((List.range' s.numColors len).foldl (splitStep ops hq) s) := by
  induction len generalizing s with
  | zero => exact h
  | succ len ih =>
    rw [List.range'_succ, List.foldl_cons]
    have := ih _ (NodeInv_splitStep ops hq s h)
    rwa [splitStep_numColors] at this

theorem NodeInv_QuantizeEx (ops : Arith F) (s : ExqData F) (nColors : Int) (hq : Bool)
    (h : s.numColors = 0 ∨ NodeInv s) : NodeInv (QuantizeEx ops s nColors hq) := by
  unfold QuantizeEx
  dsimp only
  apply NodeInv_optimized
  apply NodeInv_splitLoop
  split
  · exact NodeInv_seedNode ops s
  · next hne =>
    rcases h with h | h
    · exact absurd h hne
    · exact h

theorem splitStep_hist_pHash (ops : Arith F) (hq : Bool) (s : ExqData F) (i : Nat) :
    (splitStep ops hq s i).hist = s.hist ∧ (splitStep ops hq s i).pHash = s.pHash ∧
    (splitStep ops hq s i).nHist = s.nHist ∧
    (splitStep ops hq s i).transparency = s.transparency ∧
    (splitStep ops hq s i).numBitsPerChannel = s.numBitsPerChannel := by
  cases hq with
  | false => exact ⟨rfl, rfl, rfl, rfl, rfl⟩
  | true =>
    rw [splitStep_hq]
    simp only [OptimizePalette_hist, OptimizePalette_pHash, OptimizePalette_nHist,
      OptimizePalette_transparency, OptimizePalette_numBits]
    exact ⟨rfl, rfl, rfl, rfl, rfl⟩

theorem splitLoop_hist_pHash (ops : Arith F) (hq : Bool) (L : List Nat) (s : ExqData F) :
    (L.foldl (splitStep ops hq) s).hist = s.hist ∧ (L.foldl (splitStep ops hq) s).pHash = s.pHash ∧
    (L.foldl (splitStep ops hq) s).nHist = s.nHist ∧
    (L.foldl (splitStep ops hq) s).transparency = s.transparency ∧
    (L.foldl (splitStep ops hq) s).numBitsPerChannel = s.numBitsPerChannel := by
  induction L generalizing s with
  | nil => exact ⟨rfl, rfl, rfl, rfl, rfl⟩
  | cons a L ih =>
    rw [List.foldl_cons]
    obtain ⟨h1, h2, h3, h4, h5⟩ := ih (splitStep ops hq s a)
    obtain ⟨g1, g2, g3, g4, g5⟩ := splitStep_hist_pHash ops hq s a
    exact ⟨h1.trans g1, h2.trans g2, h3.trans g3, h4.trans g4, h5.trans g5⟩

theorem QuantizeEx_hist_pHash (ops : Arith F) (s : ExqData F) (nColors : Int) (hq : Bool) :
    (QuantizeEx ops s nColors hq).hist = s.hist ∧ (QuantizeEx ops s nColors hq).pHash = s.pHash ∧
    (QuantizeEx ops s nColors hq).nHist = s.nHist ∧
    (QuantizeEx ops s nColors hq).transparency = s.transparency ∧
    (QuantizeEx ops s nColors hq).numBitsPerChannel = s.numBitsPerChannel := by
  unfold QuantizeEx
  dsimp only
  obtain ⟨h1, h2, h3, h4, h5⟩ := splitLoop_hist_pHash ops hq
    (List.range' (if s.numColors = 0 then seedNode ops s else s).numColors
      ((if nColors > 256 then 256 else nColors).toNat -
        (if s.numColors = 0 then seedNode ops s else s).numColors))
    (if s.numColors = 0 then seedNode ops s else s)
  rw [h1, h2, h3, h4, h5]
  split <;> exact ⟨rfl, rfl, rfl, rfl, rfl⟩

theorem quantized_spec (ops : Arith F) (qs : List (Int × Bool)) (s : ExqData F)
    (h : s.numColors = 0 ∨ NodeInv s) :
    ((quantized ops s qs).hist = s.hist ∧ (quantized ops s qs).pHash = s.pHash ∧
      (quantized ops s qs).nHist = s.nHist ∧
      (quantized ops s qs).transparency = s.transparency ∧
      (quantized ops s qs).numBitsPerChannel = s.numBitsPerChannel) ∧
    (qs ≠ [] → NodeInv (quantized ops s qs)) := by
  unfold quantized
  induction qs generalizing s with
  | nil => exact ⟨⟨rfl, rfl, rfl, rfl, rfl⟩, fun h => absurd rfl h⟩
  | cons q qs ih =>
    rw [List.foldl_cons]
    have hq := NodeInv_QuantizeEx ops s q.1 q.2 h
    obtain ⟨⟨h1, h2, h3, h4, h5⟩, hn⟩ := ih (QuantizeEx ops s q.1 q.2) (Or.inr hq)
    obtain ⟨g1, g2, g3, g4, g5⟩ := QuantizeEx_hist_pHash ops s q.1 q.2
    refine ⟨⟨h1.trans g1, h2.trans g2, h3.trans g3, h4.trans g4, h5.trans g5⟩, fun _ => ?_⟩
    by_cases hqs : qs = []
    · subst hqs
      exact hq
    · exact hn hqs

theorem NodeInv.sum_node_num {s : ExqData F} (h : NodeInv s) :
    activeNum s = ((hashEntries s).map (fun id => (s.hist id).num)).sum := by
  unfold activeNum
  have e : (List.range s.numColors).map (fun i => (s.node i).num)
      = (List.range s.numColors).map
        (fun i => ((s.node i).pHistogram.map (fun id => (s.hist id).num)).sum) := by
    apply List.map_congr_left
    intro i hi
    exact h.num_eq i (List.mem_range.mp hi)
  rw [e, sum_map_flatMap]
  exact (h.members.map _).sum_eq

theorem HistInv.sum_entry_num {s : ExqData F} {px : List Pixel} (hs : HistInv s px) :
    ((hashEntries s).map (fun id => (s.hist id).num)).sum = px.length := by
  rw [hs.nums]
  have e : (hashEntries s).map (fun id => px.count (entryPixel (s.hist id)))
      = ((hashEntries s).map (fun id => entryPixel (s.hist id))).map (fun p => px.count p) := by
    rw [List.map_map]
    rfl
  rw [e, (hs.tuples_perm.map _).sum_eq]
  exact List.sum_map_count_dedup_eq_length px

/-! ## MapImage -/

theorem HistInv_of_eq {s t : ExqData F} {px : List Pixel} (h1 : t.hist = s.hist)
    (h2 : t.pHash = s.pHash) (h3 : t.nHist = s.nHist) (hs : HistInv s px) : HistInv t px := by
  have he : hashEntries t = hashEntries s := hashEntries_congr s t h2
  refine ⟨?_, ?_, ?_, ?_, ?_, ?_, ?_, ?_⟩
  · rw [h2, h3]; exact hs.chain_lt
  · rw [h1, h2]; exact hs.chain_hash
  · rw [h1, h2, h3]; exact hs.mem_chain
  · rw [h1, h3]; exact hs.inj
  · rw [h1, h3]; exact hs.num_eq
  · rw [h1, h3]; exact hs.fed_mem
  · rw [h1, h3]; exact hs.covered
  · rw [he, h3]; exact hs.entries

theorem HistInv.walk {s : ExqData F} {px : List Pixel} (hs : HistInv s px) (p : Pixel)
    (hp : p ∈ px) :
    ∃ id, walkChain s.hist p (s.pHash (pixelHash p)) = some id ∧ id < s.nHist ∧
      entryPixel (s.hist id) = p := by
  obtain ⟨hsome, hnone⟩ := walkChain_spec s px hs p
  cases hw : walkChain s.hist p (s.pHash (pixelHash p)) with
  | none => exact absurd hp (hnone hw)
  | some id => exact ⟨id, rfl, hsome id hw⟩

theorem walkChain_congr (h1 h2 : Nat → ExqHistogramEntry F) (p : Pixel) (l : List Nat)
    (h : ∀ id, entryPixel (h2 id) = entryPixel (h1 id)) :
    walkChain h2 p l = walkChain h1 p l := by
  induction l with
  | nil => rfl
  | cons a l ih =>
    unfold walkChain
    have e : entryDiffers (h2 a) p = entryDiffers (h1 a) p := by
      cases hd : entryDiffers (h1 a) p
      · rw [entryDiffers_eq_false] at hd ⊢
        rw [h a]; exact hd
      · cases hd2 : entryDiffers (h2 a) p
        · rw [entryDiffers_eq_false, h a, ← entryDiffers_eq_false, hd] at hd2
          exact absurd hd2 (by simp)
        · rfl
    rw [e, ih]

theorem feedPixel_palIndex (ops : Arith F) (s : ExqData F) (p : Pixel)
    (h : ∀ id, id < s.nHist → (s.hist id).palIndex = -1) :
    ∀ id, id < (feedPixel ops s p).nHist → ((feedPixel ops s p).hist id).palIndex = -1 := by
  intro id hid
  cases hw : walkChain s.hist p (s.pHash (pixelHash p)) with
  | some pCur =>
    obtain ⟨eh, en, -, -⟩ := feedPixel_hit ops s p pCur hw
    rw [en] at hid
    rw [eh]
    by_cases hc : id = pCur
    · subst hc
      rw [Function.update_same]
      exact h id hid
    · rw [Function.update_noteq hc]
      exact h id hid
  | none =>
    obtain ⟨eh, en, -, -⟩ := feedPixel_miss ops s p hw
    rw [en] at hid
    rw [eh]
    by_cases hc : id = s.nHist
    · subst hc
      rw [Function.update_same]
      rfl
    · rw [Function.update_noteq hc]
      exact h id (by omega)

theorem Feed_palIndex (ops : Arith F) (pData : List Pixel) (s : ExqData F)
    (h : ∀ id, id < s.nHist → (s.hist id).palIndex = -1) :
    ∀ id, id < (Feed ops s pData).nHist → ((Feed ops s pData).hist id).palIndex = -1 := by
  unfold Feed
  induction pData generalizing s with
  | nil => exact h
  | cons p ps ih =>
    rw [List.foldl_cons]
    exact ih _ (feedPixel_palIndex ops s p h)

theorem FindNearestColor_one (ops : Arith F) (s : ExqData F) (c : ExqColor F)
    (h : s.numColors = 1) : FindNearestColor ops s c = 0 := by
  have := FindNearestColor_lt ops s c (by omega)
  omega

theorem mapPixel_first (ops : Arith F) (pIn : List Pixel) (s : ExqData F) (pOut : List Nat)
    (i pHist : Nat) (hf : FindHistogram s pIn i = some pHist)
    (hp : (s.hist pHist).palIndex = -1) :
    mapPixel ops pIn (s, pOut) i
      = ({ s with hist := Function.update s.hist pHist { s.hist pHist with palIndex := i } },
         pOut.set i (storeUint8 (FindNearestColor ops s (pixelColor ops s pIn i)))) := by
  unfold mapPixel
  dsimp only
  rw [hf]
  dsimp only
  rw [if_neg (by rw [hp]; simp)]

theorem mapPixel_cached (ops : Arith F) (pIn : List Pixel) (s : ExqData F) (pOut : List Nat)
    (i pHist : Nat) (hf : FindHistogram s pIn i = some pHist)
    (hp : (s.hist pHist).palIndex ≠ -1) :
    mapPixel ops pIn (s, pOut) i = (s, pOut.set i (storeUint8 (s.hist pHist).palIndex)) := by
  unfold mapPixel
  dsimp only
  rw [hf]
  dsimp only
  rw [if_pos hp]

theorem mapPixel_absent (ops : Arith F) (pIn : List Pixel) (s : ExqData F) (pOut : List Nat)
    (i : Nat) (hf : FindHistogram s pIn i = none) :
    mapPixel ops pIn (s, pOut) i
      = (s, pOut.set i (storeUint8 (FindNearestColor ops s (pixelColor ops s pIn i)))) := by
  unfold mapPixel
  dsimp only
  rw [hf]

theorem Quantize_optimized (ops : Arith F) (s : ExqData F) (nColors : Int) (hq : Bool) :
    (QuantizeEx ops s nColors hq).optimized = false := rfl

/-- The run of `MapImage` on the buffer `[A, B, B]` with `A ≠ B`, after the
same buffer was fed and one colour was asked for. -/
theorem MapImage_repeat (ops : Arith F) (A B : Pixel) (hAB : A ≠ B) :
    (MapImage ops (Quantize ops (Feed ops (ExoQuant.new ops) [A, B, B]) 1) 3 [A, B, B]).1
      = [0, 0, 1] ∧
    (MapImage ops (Quantize ops (Feed ops (ExoQuant.new ops) [A, B, B]) 1) 3 [A, B, B]).2.numColors
      = 1 := by
  have hI0 : HistInv (Feed ops (ExoQuant.new ops) [A, B, B]) [A, B, B] := by
    simpa using HistInv_Feed ops [A, B, B] _ [] (HistInv_new ops)
  have hP0 := Feed_palIndex ops [A, B, B] (ExoQuant.new ops)
    (by intro id hid; exact absurd hid (Nat.not_lt_zero _))
  generalize hs0 : Feed ops (ExoQuant.new ops) [A, B, B] = s0 at hI0 hP0
  have hnc0 : s0.numColors = 0 := by rw [← hs0]; simp; rfl
  obtain ⟨g1, g2, g3, -, -⟩ := QuantizeEx_hist_pHash ops s0 1 false
  have hnc1 : (Quantize ops s0 1).numColors = 1 := by
    have := QuantizeEx_numColors_of_zero ops s0 hnc0 1 false
    unfold Quantize
    omega
  unfold MapImage
  have hopt : (Quantize ops s0 1).optimized = false := rfl
  simp only [hopt, Bool.not_false, if_true]
  have hI2 : HistInv (OptimizePalette ops (Quantize ops s0 1) 4) [A, B, B] :=
    HistInv_of_eq (by rw [OptimizePalette_hist]; exact g1)
      (by rw [OptimizePalette_pHash]; exact g2) (by rw [OptimizePalette_nHist]; exact g3) hI0
  have hP2 : ∀ id, id < (OptimizePalette ops (Quantize ops s0 1) 4).nHist →
      ((OptimizePalette ops (Quantize ops s0 1) 4).hist id).palIndex = -1 := by
    intro id hid
    rw [OptimizePalette_nHist] at hid
    rw [OptimizePalette_hist]
    unfold Quantize at hid ⊢
    rw [g1]
    rw [g3] at hid
    exact hP0 id hid
  have hnc2 : (OptimizePalette ops (Quantize ops s0 1) 4).numColors = 1 := by
    rw [OptimizePalette_numColors]; exact hnc1
  generalize OptimizePalette ops (Quantize ops s0 1) 4 = s2 at hI2 hP2 hnc2
  obtain ⟨idA, hwA, hltA, hpA⟩ := hI2.walk A (by simp)
  obtain ⟨idB, hwB, hltB, hpB⟩ := hI2.walk B (by simp)
  have hne : idB ≠ idA := by
    intro h
    rw [h] at hpB
    exact hAB (hpA.symm.trans hpB)
  have r3 : List.range 3 = [0, 1, 2] := rfl
  rw [r3]
  simp only [List.foldl_cons, List.foldl_nil]
  -- pixel 0
  have hf0 : FindHistogram s2 [A, B, B] 0 = some idA := by
    simp [FindHistogram, hwA]
  rw [mapPixel_first ops _ s2 _ 0 idA hf0 (hP2 idA hltA)]
  -- pixel 1
  have hh3 : ∀ id, id ≠ idA → (Function.update s2.hist idA
      { s2.hist idA with palIndex := ((0 : Nat) : Int) }) id = s2.hist id :=
    fun id h => Function.update_noteq h _ _
  have hpx3 : ∀ id, entryPixel ((Function.update s2.hist idA
      { s2.hist idA with palIndex := ((0 : Nat) : Int) }) id) = entryPixel (s2.hist id) := by
    intro id
    by_cases h : id = idA
    · subst h; rw [Function.update_same]; rfl
    · rw [Function.update_noteq h]
  generalize Function.update s2.hist idA { s2.hist idA with palIndex := ((0 : Nat) : Int) } = h3
    at hh3 hpx3 ⊢
  have hf1 : FindHistogram { s2 with hist := h3 } [A, B, B] 1 = some idB := by
    simp only [FindHistogram, List.getElem?_cons_succ, List.getElem?_cons_zero]
    rw [walkChain_congr s2.hist _ B _ hpx3]
    exact hwB
  rw [mapPixel_first ops _ _ _ 1 idB hf1 (by dsimp only; rw [hh3 idB hne]; exact hP2 idB hltB)]
  dsimp only
  -- pixel 2
  have hh4 : (Function.update h3 idB { h3 idB with palIndex := ((1 : Nat) : Int) }) idB
      = { h3 idB with palIndex := ((1 : Nat) : Int) } := Function.update_same _ _ _
  have hpx4 : ∀ id, entryPixel ((Function.update h3 idB
      { h3 idB with palIndex := ((1 : Nat) : Int) }) id) = entryPixel (s2.hist id) := by
    intro id
    by_cases h : id = idB
    · subst h; rw [Function.update_same, ← hpx3 id]; rfl
    · rw [Function.update_noteq h, hpx3]
  generalize Function.update h3 idB { h3 idB with palIndex := ((1 : Nat) : Int) } = h4
    at hh4 hpx4 ⊢
  have hf2 : FindHistogram { s2 with hist := h4 } [A, B, B] 2 = some idB := by
    simp only [FindHistogram, List.getElem?_cons_succ, List.getElem?_cons_zero]
    rw [walkChain_congr s2.hist _ B _ hpx4]
    exact hwB
  rw [mapPixel_cached ops _ _ _ 2 idB hf2 (by dsimp only; rw [hh4]; dsimp only; omega)]
  dsimp only
  rw [hh4]
  rw [FindNearestColor_one ops _ _ hnc2, FindNearestColor_one ops _ _ (by exact hnc2)]
  refine ⟨?_, hnc2⟩
  dsimp only
  decide

/-! ## Exact arithmetic -/

section Exact

variable {K : Type} [LinearOrderedField K] [FloorRing K] (sqrt : K → K)

@[simp] theorem exactOps_ofInt (z : Int) : (exactOps sqrt).ofInt z = (z : K) := rfl
@[simp] theorem exactOps_dec (m e : Nat) : (exactOps sqrt).dec m e = (m : K) / 10 ^ e := rfl
@[simp] theorem exactOps_add (x y : K) : (exactOps sqrt).add x y = x + y := rfl
@[simp] theorem exactOps_sub (x y : K) : (exactOps sqrt).sub x y = x - y := rfl
@[simp] theorem exactOps_mul (x y : K) : (exactOps sqrt).mul x y = x * y := rfl
@[simp] theorem exactOps_div (x y : K) : (exactOps sqrt).div x y = x / y := rfl
@[simp] theorem exactOps_neg (x : K) : (exactOps sqrt).neg x = -x := rfl
@[simp] theorem exactOps_lt (x y : K) : (exactOps sqrt).lt x y = decide (x < y) := rfl
@[simp] theorem exactOps_le (x y : K) : (exactOps sqrt).le x y = decide (x ≤ y) := rfl
@[simp] theorem exactOps_eq (x y : K) : (exactOps sqrt).eq x y = decide (x = y) := rfl
@[simp] theorem exactOps_toUint8 (x : K) : (exactOps sqrt).toUint8 x = (trunc x % 256).toNat := rfl

theorem wN_nil (hist : Nat → ExqHistogramEntry K) : wN hist [] = 0 := rfl

theorem wS_nil (hist : Nat → ExqHistogramEntry K) (f : ExqColor K → K) : wS hist f [] = 0 := rfl

theorem wN_cons (hist : Nat → ExqHistogramEntry K) (a : Nat) (l : List Nat) :
    wN hist (a :: l) = (hist a).num + wN hist l := by
  simp [wN]

theorem wS_cons (hist : Nat → ExqHistogramEntry K) (f : ExqColor K → K) (a : Nat) (l : List Nat) :
    wS hist f (a :: l) = f (hist a).color * ((hist a).num : K) + wS hist f l := by
  simp [wS]

theorem wN_append (hist : Nat → ExqHistogramEntry K) (l1 l2 : List Nat) :
    wN hist (l1 ++ l2) = wN hist l1 + wN hist l2 := by
  simp [wN]

theorem wS_append (hist : Nat → ExqHistogramEntry K) (f : ExqColor K → K) (l1 l2 : List Nat) :
    wS hist f (l1 ++ l2) = wS hist f l1 + wS hist f l2 := by
  simp [wS]

theorem wN_perm (hist : Nat → ExqHistogramEntry K) {l1 l2 : List Nat} (h : l1.Perm l2) :
    wN hist l1 = wN hist l2 := (h.map _).sum_eq

theorem wS_perm (hist : Nat → ExqHistogramEntry K) (f : ExqColor K → K) {l1 l2 : List Nat}
    (h : l1.Perm l2) : wS hist f l1 = wS hist f l2 := (h.map _).sum_eq

theorem wS_eq_zero (hist : Nat → ExqHistogramEntry K) (f : ExqColor K → K) (l : List Nat)
    (h : wN hist l = 0) : wS hist f l = 0 := by
  induction l with
  | nil => rfl
  | cons a l ih =>
    rw [wN_cons] at h
    have h1 : (hist a).num = 0 := by omega
    have h2 : wN hist l = 0 := by omega
    rw [wS_cons, ih h2, h1]
    simp

theorem foldl_addMoments_exact (hist : Nat → ExqHistogramEntry K) (l : List Nat)
    (m : Moments K) :
    l.foldl (fun m pCur => addMoments (exactOps sqrt) m (hist pCur)) m
      = { n := m.n + wN hist l
          sum := { r := m.sum.r + wS hist (fun c => c.r) l
                   g := m.sum.g + wS hist (fun c => c.g) l
                   b := m.sum.b + wS hist (fun c => c.b) l
                   a := m.sum.a + wS hist (fun c => c.a) l }
          sum2 := { r := m.sum2.r + wS hist (fun c => c.r * c.r) l
                    g := m.sum2.g + wS hist (fun c => c.g * c.g) l
                    b := m.sum2.b + wS hist (fun c => c.b * c.b) l
                    a := m.sum2.a + wS hist (fun c => c.a * c.a) l } } := by
  induction l generalizing m with
  | nil => simp [wN_nil, wS_nil]
  | cons a l ih =>
    rw [List.foldl_cons, ih]
    simp only [addMoments, exactOps_add, exactOps_mul, exactOps_ofInt, wN_cons, wS_cons,
      Int.cast_natCast, Nat.add_assoc, add_assoc]

theorem nodeMoments_exact (hist : Nat → ExqHistogramEntry K) (l : List Nat) :
    nodeMoments (exactOps sqrt) hist l
      = { n := wN hist l
          sum := { r := wS hist (fun c => c.r) l
                   g := wS hist (fun c => c.g) l
                   b := wS hist (fun c => c.b) l
                   a := wS hist (fun c => c.a) l }
          sum2 := { r := wS hist (fun c => c.r * c.r) l
                    g := wS hist (fun c => c.g * c.g) l
                    b := wS hist (fun c => c.b * c.b) l
                    a := wS hist (fun c => c.a * c.a) l } } := by
  unfold nodeMoments
  rw [foldl_addMoments_exact]
  simp [Moments.zero, ExqColor.new]

theorem SumNode_err (hist : Nat → ExqHistogramEntry K) (nd : ExqNode K) :
    (SumNode (exactOps sqrt) hist nd).err = errOf hist nd.pHistogram := by
  unfold SumNode errOf
  rw [nodeMoments_exact]
  dsimp only
  split
  · simp
  · simp only [exactOps_add, exactOps_sub, exactOps_mul, exactOps_div, exactOps_ofInt,
      Int.cast_natCast, listVar, chanVar]

theorem SumNode_avg (hist : Nat → ExqHistogramEntry K) (nd : ExqNode K) :
    (SumNode (exactOps sqrt) hist nd).avg
      = if wN hist nd.pHistogram = 0 then nd.avg else meanOf hist nd.pHistogram := by
  unfold SumNode meanOf
  rw [nodeMoments_exact]
  dsimp only
  split
  · rfl
  · simp only [exactOps_div, exactOps_ofInt, Int.cast_natCast]

theorem listVar_perm (hist : Nat → ExqHistogramEntry K) {l1 l2 : List Nat} (h : l1.Perm l2) :
    listVar hist l1 = listVar hist l2 := by
  unfold listVar
  rw [wN_perm hist h, wS_perm hist _ h, wS_perm hist _ h, wS_perm hist _ h, wS_perm hist _ h,
    wS_perm hist _ h, wS_perm hist _ h, wS_perm hist _ h, wS_perm hist _ h]

theorem errOf_perm (hist : Nat → ExqHistogramEntry K) {l1 l2 : List Nat} (h : l1.Perm l2) :
    errOf hist l1 = errOf hist l2 := by
  unfold errOf
  rw [wN_perm hist h, listVar_perm hist h]

theorem meanOf_perm (hist : Nat → ExqHistogramEntry K) {l1 l2 : List Nat} (h : l1.Perm l2) :
    meanOf hist l1 = meanOf hist l2 := by
  unfold meanOf
  rw [wN_perm hist h, wS_perm hist _ h, wS_perm hist _ h, wS_perm hist _ h, wS_perm hist _ h]

end Exact

section ExactIneq

variable {K : Type} [LinearOrderedField K] [FloorRing K] (sqrt : K → K)

theorem chanVar_split (N1 N2 S1 S2 Q1 Q2 : K) (h1 : 0 < N1) (h2 : 0 < N2) :
    chanVar N1 S1 Q1 + chanVar N2 S2 Q2 ≤ chanVar (N1 + N2) (S1 + S2) (Q1 + Q2) := by
  have h3 : 0 < N1 + N2 := add_pos h1 h2
  have key : chanVar (N1 + N2) (S1 + S2) (Q1 + Q2) - (chanVar N1 S1 Q1 + chanVar N2 S2 Q2)
      = (S1 * N2 - S2 * N1) ^ 2 / (N1 * N2 * (N1 + N2)) := by
    unfold chanVar
    field_simp
    ring
  have h4 : 0 ≤ (S1 * N2 - S2 * N1) ^ 2 / (N1 * N2 * (N1 + N2)) :=
    div_nonneg (sq_nonneg _) (le_of_lt (mul_pos (mul_pos h1 h2) h3))
  linarith

theorem wN_cast_pos (hist : Nat → ExqHistogramEntry K) (l : List Nat) (h : wN hist l ≠ 0) :
    (0 : K) < (wN hist l : K) := by
  have : 0 < wN hist l := Nat.pos_of_ne_zero h
  exact_mod_cast this

theorem listVar_append_of_left_zero (hist : Nat → ExqHistogramEntry K) (l1 l2 : List Nat)
    (h : wN hist l1 = 0) : listVar hist (l1 ++ l2) = listVar hist l2 := by
  unfold listVar
  simp only [wN_append, wS_append, h, wS_eq_zero hist _ l1 h, zero_add]

theorem listVar_append_of_right_zero (hist : Nat → ExqHistogramEntry K) (l1 l2 : List Nat)
    (h : wN hist l2 = 0) : listVar hist (l1 ++ l2) = listVar hist l1 := by
  unfold listVar
  simp only [wN_append, wS_append, h, wS_eq_zero hist _ l2 h, add_zero]

theorem errOf_append (hist : Nat → ExqHistogramEntry K) (l1 l2 : List Nat) :
    errOf hist l1 + errOf hist l2 ≤ errOf hist (l1 ++ l2) := by
  unfold errOf
  by_cases h1 : wN hist l1 = 0
  · by_cases h2 : wN hist l2 = 0
    · rw [if_pos h1, if_pos h2, if_pos (by rw [wN_append]; omega)]
      simp
    · rw [if_pos h1, if_neg h2, if_neg (by rw [wN_append]; omega),
        listVar_append_of_left_zero hist l1 l2 h1]
      simp
  · by_cases h2 : wN hist l2 = 0
    · rw [if_neg h1, if_pos h2, if_neg (by rw [wN_append]; omega),
        listVar_append_of_right_zero hist l1 l2 h2]
      simp
    · rw [if_neg h1, if_neg h2, if_neg (by rw [wN_append]; omega)]
      have p1 := wN_cast_pos hist l1 h1
      have p2 := wN_cast_pos hist l2 h2
      unfold listVar
      simp only [wN_append, wS_append, Nat.cast_add]
      have hr := chanVar_split (wN hist l1 : K) (wN hist l2 : K) (wS hist (fun c => c.r) l1)
        (wS hist (fun c => c.r) l2) (wS hist (fun c => c.r * c.r) l1)
        (wS hist (fun c => c.r * c.r) l2) p1 p2
      have hg := chanVar_split (wN hist l1 : K) (wN hist l2 : K) (wS hist (fun c => c.g) l1)
        (wS hist (fun c => c.g) l2) (wS hist (fun c => c.g * c.g) l1)
        (wS hist (fun c => c.g * c.g) l2) p1 p2
      have hb := chanVar_split (wN hist l1 : K) (wN hist l2 : K) (wS hist (fun c => c.b) l1)
        (wS hist (fun c => c.b) l2) (wS hist (fun c => c.b * c.b) l1)
        (wS hist (fun c => c.b * c.b) l2) p1 p2
      have ha := chanVar_split (wN hist l1 : K) (wN hist l2 : K) (wS hist (fun c => c.a) l1)
        (wS hist (fun c => c.a) l2) (wS hist (fun c => c.a * c.a) l1)
        (wS hist (fun c => c.a * c.a) l2) p1 p2
      linarith

theorem errOf_split (hist : Nat → ExqHistogramEntry K) (l l1 l2 : List Nat)
    (h : (l1 ++ l2).Perm l) : errOf hist l1 + errOf hist l2 ≤ errOf hist l := by
  rw [← errOf_perm hist h]
  exact errOf_append hist l1 l2

end ExactIneq

section ExactInvariant

variable {K : Type} [LinearOrderedField K] [FloorRing K] (sqrt : K → K)

theorem sum_range_replace (f g : Nat → K) (n b : Nat) (hb : b < n)
    (h : ∀ k, k < n → k ≠ b → g k = f k) :
    ((List.range n).map g).sum = ((List.range n).map f).sum - f b + g b := by
  induction n with
  | zero => omega
  | succ n ih =>
    rw [List.range_succ, List.map_append, List.map_append, List.sum_append, List.sum_append]
    simp only [List.map_cons, List.map_nil, List.sum_cons, List.sum_nil, add_zero]
    by_cases hbn : b = n
    · subst hbn
      have e : (List.range b).map g = (List.range b).map f := by
        apply List.map_congr_left
        intro k hk
        have := List.mem_range.mp hk
        exact h k (by omega) (by omega)
      rw [e]
      ring
    · rw [ih (by omega) (fun k hk hkb => h k (by omega) hkb), h n (by omega) (fun h2 => hbn h2.symm)]
      ring

theorem wS_nonneg (hist : Nat → ExqHistogramEntry K) (f : ExqColor K → K) (l : List Nat)
    (h : ∀ id, id ∈ l → 0 ≤ f (hist id).color) : 0 ≤ wS hist f l := by
  induction l with
  | nil => exact le_refl _
  | cons a l ih =>
    rw [wS_cons]
    have h1 := h a (List.mem_cons_self _ _)
    have h2 := ih (fun id hid => h id (List.mem_cons_of_mem _ hid))
    have h3 : (0 : K) ≤ ((hist a).num : K) := Nat.cast_nonneg _
    have := mul_nonneg h1 h3
    linarith

theorem wS_le (hist : Nat → ExqHistogramEntry K) (f : ExqColor K → K) (M : K) (l : List Nat)
    (h : ∀ id, id ∈ l → f (hist id).color ≤ M) : wS hist f l ≤ M * (wN hist l : K) := by
  induction l with
  | nil => simp [wS_nil, wN_nil]
  | cons a l ih =>
    rw [wS_cons, wN_cons, Nat.cast_add]
    have h1 := h a (List.mem_cons_self _ _)
    have h2 := ih (fun id hid => h id (List.mem_cons_of_mem _ hid))
    have h3 : (0 : K) ≤ ((hist a).num : K) := Nat.cast_nonneg _
    have := mul_le_mul_of_nonneg_right h1 h3
    linarith

theorem meanOf_box (hist : Nat → ExqHistogramEntry K) (l : List Nat) (hN : wN hist l ≠ 0)
    (h : ∀ id, id ∈ l → InBox (hist id).color) : InBox (meanOf hist l) := by
  have p := wN_cast_pos hist l hN
  unfold meanOf InBox
  dsimp only
  refine ⟨?_, ?_, ?_, ?_, ?_, ?_, ?_, ?_⟩
  · exact div_nonneg (wS_nonneg hist _ l (fun id hid => (h id hid).1)) (le_of_lt p)
  · rw [div_le_iff₀ p]
    exact wS_le hist _ 1 l (fun id hid => (h id hid).2.1)
  · exact div_nonneg (wS_nonneg hist _ l (fun id hid => (h id hid).2.2.1)) (le_of_lt p)
  · rw [div_le_iff₀ p]
    exact wS_le hist _ (6 / 5) l (fun id hid => (h id hid).2.2.2.1)
  · exact div_nonneg (wS_nonneg hist _ l (fun id hid => (h id hid).2.2.2.2.1)) (le_of_lt p)
  · rw [div_le_iff₀ p]
    exact wS_le hist _ (4 / 5) l (fun id hid => (h id hid).2.2.2.2.2.1)
  · exact div_nonneg (wS_nonneg hist _ l (fun id hid => (h id hid).2.2.2.2.2.2.1)) (le_of_lt p)
  · rw [div_le_iff₀ p]
    exact wS_le hist _ 1 l (fun id hid => (h id hid).2.2.2.2.2.2.2)

theorem SumNode_avg_box (hist : Nat → ExqHistogramEntry K) (nd : ExqNode K)
    (h1 : InBox nd.avg) (h2 : ∀ id, id ∈ nd.pHistogram → InBox (hist id).color) :
    InBox (SumNode (exactOps sqrt) hist nd).avg := by
  rw [SumNode_avg]
  split
  · exact h1
  · next hN => exact meanOf_box hist _ hN h2

/-- What `SumNode` establishes for the node it is applied to. -/
theorem SumNode_exact (hist : Nat → ExqHistogramEntry K) (nd : ExqNode K) :
    (SumNode (exactOps sqrt) hist nd).err
        = errOf hist (SumNode (exactOps sqrt) hist nd).pHistogram ∧
    (wN hist (SumNode (exactOps sqrt) hist nd).pHistogram ≠ 0 →
      (SumNode (exactOps sqrt) hist nd).avg
        = meanOf hist (SumNode (exactOps sqrt) hist nd).pHistogram) := by
  have hp := SumNode_perm (exactOps sqrt) hist nd
  refine ⟨?_, ?_⟩
  · rw [SumNode_err, errOf_perm hist hp]
  · intro hN
    rw [wN_perm hist hp] at hN
    rw [SumNode_avg, if_neg hN, meanOf_perm hist hp]

end ExactInvariant

section ExactSteps

variable {K : Type} [LinearOrderedField K] [FloorRing K] (sqrt : K → K)

theorem NodeInv.mem_hashEntries {s : ExqData F} (h : NodeInv s) (k id : Nat)
    (hk : k < s.numColors) (hid : id ∈ (s.node k).pHistogram) : id ∈ hashEntries s := by
  apply h.members.mem_iff.mp
  rw [List.mem_flatMap]
  exact ⟨k, List.mem_range.mpr hk, hid⟩

theorem seedNode_node (ops : Arith F) (s : ExqData F) :
    (seedNode ops s).node 0
      = SumNode ops s.hist { s.node 0 with pHistogram := (hashEntries s).reverse } ∧
    ∀ k, k ≠ 0 → (seedNode ops s).node k = s.node k := by
  refine ⟨?_, ?_⟩
  · simp [seedNode, setHist_same, foldl_push]
  · intro k hk
    simp [seedNode, setHist, Function.update_noteq hk]

theorem ExactInv_seedNode (s : ExqData K) (hb : ∀ i, InBox (s.node i).avg)
    (hc : ∀ id, id ∈ hashEntries s → InBox (s.hist id).color) :
    ExactInv (seedNode (exactOps sqrt) s) := by
  obtain ⟨e0, e1⟩ := seedNode_node (exactOps sqrt) s
  have hn : (seedNode (exactOps sqrt) s).numColors = 1 := rfl
  have hh : (seedNode (exactOps sqrt) s).hist = s.hist := rfl
  refine ⟨NodeInv_seedNode _ s, ?_, ?_, ?_, ?_⟩
  · intro i hi
    rw [hn] at hi
    have hi0 : i = 0 := by omega
    subst hi0
    rw [hh, e0]
    exact (SumNode_exact sqrt s.hist _).1
  · intro i hi
    rw [hn] at hi
    have hi0 : i = 0 := by omega
    subst hi0
    rw [hh, e0]
    exact (SumNode_exact sqrt s.hist _).2
  · intro i
    by_cases hi : i = 0
    · subst hi
      rw [e0]
      apply SumNode_avg_box
      · exact hb 0
      · intro id hid
        exact hc id (List.mem_reverse.mp hid)
    · rw [e1 i hi]
      exact hb i
  · intro id hid
    rw [hashEntries_congr s (seedNode (exactOps sqrt) s) rfl] at hid
    rw [hh]
    exact hc id hid

theorem totalErr_succ (n : Nat) (node : Nat → ExqNode K) :
    ((List.range (n + 1)).map (fun i => (node i).err)).sum
      = ((List.range n).map (fun i => (node i).err)).sum + (node n).err := by
  rw [List.range_succ, List.map_append, List.sum_append]
  simp

theorem ExactInv_splitStep_false (s : ExqData K) (h : ExactInv s) :
    ExactInv (splitStep (exactOps sqrt) false s s.numColors) ∧
    totalErr (splitStep (exactOps sqrt) false s s.numColors) ≤ totalErr s := by
  have hb := bestIndex_lt (exactOps sqrt) s.node s.numColors h.nodes.pos
  obtain ⟨e1, e2, e3⟩ := splitStep_node (exactOps sqrt) s s.numColors (by omega)
  have hmv := moveUntil_spec (s.node (bestIndex (exactOps sqrt) s.node s.numColors)).pSplit
    (s.node (bestIndex (exactOps sqrt) s.node s.numColors)).pHistogram []
  have hh : (splitStep (exactOps sqrt) false s s.numColors).hist = s.hist := rfl
  have hmem1 : ∀ id, id ∈ (moveUntil (s.node (bestIndex (exactOps sqrt) s.node s.numColors)).pSplit
      (s.node (bestIndex (exactOps sqrt) s.node s.numColors)).pHistogram []).1.reverse →
      id ∈ hashEntries s := by
    intro id hid
    apply h.nodes.mem_hashEntries _ id hb
    have : id ∈ [].reverse ++ (s.node (bestIndex (exactOps sqrt) s.node s.numColors)).pHistogram := by
      rw [← hmv]
      exact List.mem_append_right _ (List.mem_reverse.mp hid)
    simpa using this
  have hmem2 : ∀ id, id ∈ (moveUntil (s.node (bestIndex (exactOps sqrt) s.node s.numColors)).pSplit
      (s.node (bestIndex (exactOps sqrt) s.node s.numColors)).pHistogram []).2 →
      id ∈ hashEntries s := by
    intro id hid
    apply h.nodes.mem_hashEntries _ id hb
    have : id ∈ [].reverse ++ (s.node (bestIndex (exactOps sqrt) s.node s.numColors)).pHistogram := by
      rw [← hmv]
      exact List.mem_append_left _ (List.mem_reverse.mpr hid)
    simpa using this
  refine ⟨⟨NodeInv_splitStep_false _ s h.nodes, ?_, ?_, ?_, ?_⟩, ?_⟩
  · intro k hk
    rw [splitStep_numColors] at hk
    rw [hh]
    by_cases hkb : k = bestIndex (exactOps sqrt) s.node s.numColors
    · rw [hkb, e1]
      exact (SumNode_exact sqrt s.hist _).1
    · by_cases hki : k = s.numColors
      · rw [hki, e2]
        exact (SumNode_exact sqrt s.hist _).1
      · rw [e3 k hkb hki]
        exact h.err_eq k (by omega)
  · intro k hk
    rw [splitStep_numColors] at hk
    rw [hh]
    by_cases hkb : k = bestIndex (exactOps sqrt) s.node s.numColors
    · rw [hkb, e1]
      exact (SumNode_exact sqrt s.hist _).2
    · by_cases hki : k = s.numColors
      · rw [hki, e2]
        exact (SumNode_exact sqrt s.hist _).2
      · rw [e3 k hkb hki]
        exact h.avg_eq k (by omega)
  · intro k
    by_cases hkb : k = bestIndex (exactOps sqrt) s.node s.numColors
    · rw [hkb, e1]
      apply SumNode_avg_box
      · exact h.avg_box _
      · intro id hid
        exact h.col_box id (hmem1 id hid)
    · by_cases hki : k = s.numColors
      · rw [hki, e2]
        apply SumNode_avg_box
        · exact h.avg_box _
        · intro id hid
          exact h.col_box id (hmem2 id hid)
      · rw [e3 k hkb hki]
        exact h.avg_box k
  · intro id hid
    rw [hashEntries_congr s (splitStep (exactOps sqrt) false s s.numColors) rfl] at hid
    rw [hh]
    exact h.col_box id hid
  · unfold totalErr
    rw [splitStep_numColors, totalErr_succ]
    rw [sum_range_replace (fun i => (s.node i).err)
      (fun i => ((splitStep (exactOps sqrt) false s s.numColors).node i).err) s.numColors
      (bestIndex (exactOps sqrt) s.node s.numColors) hb
      (fun k hk hkb => by dsimp only; rw [e3 k hkb (by omega)])]
    rw [e1, e2, SumNode_err, SumNode_err, h.err_eq _ hb]
    dsimp only
    have := errOf_split s.hist (s.node (bestIndex (exactOps sqrt) s.node s.numColors)).pHistogram
      (moveUntil (s.node (bestIndex (exactOps sqrt) s.node s.numColors)).pSplit
        (s.node (bestIndex (exactOps sqrt) s.node s.numColors)).pHistogram []).1.reverse
      (moveUntil (s.node (bestIndex (exactOps sqrt) s.node s.numColors)).pSplit
        (s.node (bestIndex (exactOps sqrt) s.node s.numColors)).pHistogram []).2
      (by
        refine List.Perm.trans ?_ (List.Perm.of_eq (by simpa using hmv))
        exact (List.perm_append_comm).trans
          (List.Perm.append (List.reverse_perm _).symm (List.reverse_perm _)))
    linarith

end ExactSteps

section Lloyd

variable {K : Type} [LinearOrderedField K] [FloorRing K] (sqrt : K → K)

theorem wD_nil (hist : Nat → ExqHistogramEntry K) (c : ExqColor K) : wD hist c [] = 0 := rfl

theorem wD_cons (hist : Nat → ExqHistogramEntry K) (c : ExqColor K) (a : Nat) (l : List Nat) :
    wD hist c (a :: l) = dist2 (hist a).color c * ((hist a).num : K) + wD hist c l := by
  simp [wD]

theorem wD_perm (hist : Nat → ExqHistogramEntry K) (c : ExqColor K) {l1 l2 : List Nat}
    (h : l1.Perm l2) : wD hist c l1 = wD hist c l2 := (h.map _).sum_eq

theorem dist2_nonneg (x c : ExqColor K) : 0 ≤ dist2 x c := by
  unfold dist2
  have h1 := mul_self_nonneg (x.r - c.r)
  have h2 := mul_self_nonneg (x.g - c.g)
  have h3 := mul_self_nonneg (x.b - c.b)
  have h4 := mul_self_nonneg (x.a - c.a)
  linarith

theorem wD_nonneg (hist : Nat → ExqHistogramEntry K) (c : ExqColor K) (l : List Nat) :
    0 ≤ wD hist c l := by
  induction l with
  | nil => exact le_refl _
  | cons a l ih =>
    rw [wD_cons]
    have h3 : (0 : K) ≤ ((hist a).num : K) := Nat.cast_nonneg _
    have := mul_nonneg (dist2_nonneg (hist a).color c) h3
    linarith

theorem wD_eq_zero (hist : Nat → ExqHistogramEntry K) (c : ExqColor K) (l : List Nat)
    (h : wN hist l = 0) : wD hist c l = 0 := by
  induction l with
  | nil => rfl
  | cons a l ih =>
    rw [wN_cons] at h
    have h1 : (hist a).num = 0 := by omega
    have h2 : wN hist l = 0 := by omega
    rw [wD_cons, ih h2, h1]
    simp

theorem wD_expand (hist : Nat → ExqHistogramEntry K) (c : ExqColor K) (l : List Nat) :
    wD hist c l
      = (wS hist (fun c => c.r * c.r) l - 2 * c.r * wS hist (fun c => c.r) l
          + c.r * c.r * (wN hist l : K))
        + (wS hist (fun c => c.g * c.g) l - 2 * c.g * wS hist (fun c => c.g) l
          + c.g * c.g * (wN hist l : K))
        + (wS hist (fun c => c.b * c.b) l - 2 * c.b * wS hist (fun c => c.b) l
          + c.b * c.b * (wN hist l : K))
        + (wS hist (fun c => c.a * c.a) l - 2 * c.a * wS hist (fun c => c.a) l
          + c.a * c.a * (wN hist l : K)) := by
  induction l with
  | nil => simp [wD_nil, wS_nil, wN_nil]
  | cons a l ih =>
    rw [wD_cons, ih]
    simp only [wS_cons, wN_cons, Nat.cast_add, dist2]
    ring

theorem chanVar_le (N S Q c : K) (hN : 0 < N) : chanVar N S Q ≤ Q - 2 * c * S + c * c * N := by
  have key : Q - 2 * c * S + c * c * N - chanVar N S Q = (c * N - S) ^ 2 / N := by
    unfold chanVar
    field_simp
    ring
  have h4 : 0 ≤ (c * N - S) ^ 2 / N := div_nonneg (sq_nonneg _) (le_of_lt hN)
  linarith

theorem chanVar_eq (N S Q : K) (hN : 0 < N) :
    chanVar N S Q = Q - 2 * (S / N) * S + (S / N) * (S / N) * N := by
  unfold chanVar
  field_simp
  ring

theorem listVar_le_wD (hist : Nat → ExqHistogramEntry K) (c : ExqColor K) (l : List Nat)
    (hN : wN hist l ≠ 0) : listVar hist l ≤ wD hist c l := by
  have p := wN_cast_pos hist l hN
  rw [wD_expand]
  unfold listVar
  have h1 := chanVar_le (wN hist l : K) (wS hist (fun c => c.r) l)
    (wS hist (fun c => c.r * c.r) l) c.r p
  have h2 := chanVar_le (wN hist l : K) (wS hist (fun c => c.g) l)
    (wS hist (fun c => c.g * c.g) l) c.g p
  have h3 := chanVar_le (wN hist l : K) (wS hist (fun c => c.b) l)
    (wS hist (fun c => c.b * c.b) l) c.b p
  have h4 := chanVar_le (wN hist l : K) (wS hist (fun c => c.a) l)
    (wS hist (fun c => c.a * c.a) l) c.a p
  linarith

theorem listVar_eq_wD_mean (hist : Nat → ExqHistogramEntry K) (l : List Nat)
    (hN : wN hist l ≠ 0) : listVar hist l = wD hist (meanOf hist l) l := by
  have p := wN_cast_pos hist l hN
  rw [wD_expand]
  unfold listVar meanOf
  dsimp only
  rw [chanVar_eq _ _ _ p, chanVar_eq _ _ _ p, chanVar_eq _ _ _ p, chanVar_eq _ _ _ p]

theorem errOf_le_wD (hist : Nat → ExqHistogramEntry K) (c : ExqColor K) (l : List Nat) :
    errOf hist l ≤ wD hist c l := by
  unfold errOf
  split
  · exact wD_nonneg hist c l
  · next hN => exact listVar_le_wD hist c l hN

theorem errOf_eq_wD (hist : Nat → ExqHistogramEntry K) (c : ExqColor K) (l : List Nat)
    (h : wN hist l ≠ 0 → c = meanOf hist l) : errOf hist l = wD hist c l := by
  unfold errOf
  split
  · next hN => rw [wD_eq_zero hist c l hN]
  · next hN => rw [h hN]; exact listVar_eq_wD_mean hist l hN

/-! ### The nearest colour in exact arithmetic -/

theorem nearestStep_exact (node : Nat → ExqNode K) (c : ExqColor K) (st : K × Nat) (i : Nat) :
    nearestStep (exactOps sqrt) node c st i
      = if dist2 c (node i).avg < st.1 then (dist2 c (node i).avg, i) else st := by
  unfold nearestStep dist2
  simp only [exactOps_add, exactOps_sub, exactOps_mul, exactOps_lt, decide_eq_true_eq]

theorem foldl_nearest_exact (node : Nat → ExqNode K) (c : ExqColor K) (L : List Nat)
    (st : K × Nat) :
    (L.foldl (nearestStep (exactOps sqrt) node c) st).1 ≤ st.1 ∧
    (∀ i, i ∈ L → (L.foldl (nearestStep (exactOps sqrt) node c) st).1 ≤ dist2 c (node i).avg) ∧
    (L.foldl (nearestStep (exactOps sqrt) node c) st = st ∨
      ((L.foldl (nearestStep (exactOps sqrt) node c) st).2 ∈ L ∧
        (L.foldl (nearestStep (exactOps sqrt) node c) st).1
          = dist2 c (node (L.foldl (nearestStep (exactOps sqrt) node c) st).2).avg)) := by
  induction L generalizing st with
  | nil => exact ⟨le_refl _, fun i hi => absurd hi (List.not_mem_nil _), Or.inl rfl⟩
  | cons a L ih =>
    rw [List.foldl_cons]
    obtain ⟨h1, h2, h3⟩ := ih (nearestStep (exactOps sqrt) node c st a)
    have hstep : (nearestStep (exactOps sqrt) node c st a).1 ≤ st.1 ∧
        (nearestStep (exactOps sqrt) node c st a).1 ≤ dist2 c (node a).avg := by
      rw [nearestStep_exact]
      split
      · next hlt => exact ⟨le_of_lt hlt, le_refl _⟩
      · next hlt => exact ⟨le_refl _, not_lt.mp hlt⟩
    refine ⟨le_trans h1 hstep.1, ?_, ?_⟩
    · intro i hi
      rcases List.mem_cons.mp hi with rfl | hi
      · exact le_trans h1 hstep.2
      · exact h2 i hi
    · rcases h3 with h3 | ⟨h3, h4⟩
      · rw [h3, nearestStep_exact]
        split
        · exact Or.inr ⟨List.mem_cons_self _ _, rfl⟩
        · exact Or.inl rfl
      · exact Or.inr ⟨List.mem_cons_of_mem _ h3, h4⟩

theorem FindNearestColor_le (s : ExqData K) (c : ExqColor K) (i : Nat) (hi : i < s.numColors)
    (hd : dist2 c (s.node i).avg < 16) (j : Nat) (hj : j < s.numColors) :
    dist2 c (s.node (FindNearestColor (exactOps sqrt) s c)).avg ≤ dist2 c (s.node j).avg := by
  unfold FindNearestColor
  obtain ⟨-, h2, h3⟩ := foldl_nearest_exact sqrt s.node c (List.range s.numColors)
    ((exactOps sqrt).ofInt 16, 0)
  rcases h3 with h3 | ⟨-, h4⟩
  · have := h2 i (List.mem_range.mpr hi)
    rw [h3] at this
    simp only [exactOps_ofInt, Int.cast_ofNat] at this
    exact absurd hd (not_lt.mpr this)
  · rw [← h4]
    exact h2 j (List.mem_range.mpr hj)

theorem sq_le_of_box (x c M : K) (hx0 : 0 ≤ x) (hx : x ≤ M) (hc0 : 0 ≤ c) (hc : c ≤ M) :
    (x - c) * (x - c) ≤ M * M := by
  have h := sq_le_sq' (a := x - c) (b := M) (by linarith) (by linarith)
  rw [sq, sq] at h
  exact h

theorem dist2_lt_16 (x c : ExqColor K) (hx : InBox x) (hc : InBox c) : dist2 x c < 16 := by
  obtain ⟨x1, x2, x3, x4, x5, x6, x7, x8⟩ := hx
  obtain ⟨c1, c2, c3, c4, c5, c6, c7, c8⟩ := hc
  unfold dist2
  have h1 := sq_le_of_box x.r c.r 1 x1 x2 c1 c2
  have h2 := sq_le_of_box x.g c.g (6 / 5) x3 x4 c3 c4
  have h3 := sq_le_of_box x.b c.b (4 / 5) x5 x6 c5 c6
  have h4 := sq_le_of_box x.a c.a 1 x7 x8 c7 c8
  norm_num at h1 h2 h3 h4
  linarith

end Lloyd

section LloydPass

variable {K : Type} [LinearOrderedField K] [FloorRing K] (sqrt : K → K)

theorem sum_map_flatMap_field (f : Nat → List Nat) (g : Nat → K) (L : List Nat) :
    (L.map (fun i => ((f i).map g).sum)).sum = ((L.flatMap f).map g).sum := by
  induction L with
  | nil => rfl
  | cons a L ih => simp [List.flatMap_cons, ih]

theorem mem_assigned (ops : Arith F) (s : ExqData F) (j id : Nat) :
    id ∈ assigned ops s j ↔ id ∈ hashEntries s ∧ assign ops s id = j := by
  unfold assigned
  rw [List.mem_reverse, List.mem_filter]
  simp

theorem assigned_flatMap_perm (ops : Arith F) (s : ExqData F) (h : 1 ≤ s.numColors) :
    ((List.range s.numColors).flatMap (fun j => assigned ops s j)).Perm (hashEntries s) := by
  have h1 : ((List.range s.numColors).flatMap (fun j => assigned ops s j)).Perm
      ((List.range s.numColors).flatMap (fun j => (hashEntries s).filter
        (fun id => assign ops s id = j))) := by
    apply List.Perm.flatMap_left
    intro j _
    unfold assigned
    exact List.reverse_perm _
  refine h1.trans ?_
  apply flatMap_filter_perm
  intro id _
  exact FindNearestColor_lt ops s _ h

theorem ExactInv_optimizePass (s : ExqData K) (h : ExactInv s) :
    ExactInv (optimizePass (exactOps sqrt) s) := by
  have hh : (optimizePass (exactOps sqrt) s).hist = s.hist := rfl
  have hnode : ∀ k, (optimizePass (exactOps sqrt) s).node k
      = if k < s.numColors then
          SumNode (exactOps sqrt) s.hist { s.node k with pHistogram := assigned (exactOps sqrt) s k }
        else s.node k := by
    intro k
    by_cases hk : k < s.numColors
    · rw [if_pos hk, optimizePass_node _ s k hk]
    · rw [if_neg hk]
      unfold optimizePass
      dsimp only
      rw [foldl_sumNode, if_neg hk, foldl_assign]
      · rw [foldl_clear, if_neg hk]
        have : (hashEntries s).filter
            (fun id => FindNearestColor (exactOps sqrt) s (s.hist id).color = k) = [] := by
          rw [List.filter_eq_nil_iff]
          intro id _
          have := FindNearestColor_lt (exactOps sqrt) s (s.hist id).color h.nodes.pos
          simp only [decide_eq_true_eq]
          omega
        rw [this]
        simp
      · intro j
        rw [foldl_clear]
        split <;> rfl
  refine ⟨NodeInv_optimizePass _ s h.nodes.pos, ?_, ?_, ?_, ?_⟩
  · intro k hk
    rw [optimizePass_numColors] at hk
    rw [hh, hnode, if_pos hk]
    exact (SumNode_exact sqrt s.hist _).1
  · intro k hk
    rw [optimizePass_numColors] at hk
    rw [hh, hnode, if_pos hk]
    exact (SumNode_exact sqrt s.hist _).2
  · intro k
    rw [hnode]
    split
    · apply SumNode_avg_box
      · exact h.avg_box k
      · intro id hid
        exact h.col_box id ((mem_assigned _ s k id).mp hid).1
    · exact h.avg_box k
  · intro id hid
    rw [hashEntries_congr s (optimizePass (exactOps sqrt) s) (optimizePass_pHash _ s)] at hid
    rw [hh]
    exact h.col_box id hid

theorem totalErr_optimizePass_le (s : ExqData K) (h : ExactInv s) :
    totalErr (optimizePass (exactOps sqrt) s) ≤ totalErr s := by
  -- the cost of an entry under the new assignment
  let m : Nat → K := fun id =>
    dist2 (s.hist id).color (s.node (assign (exactOps sqrt) s id)).avg * ((s.hist id).num : K)
  have hmin : ∀ k, k < s.numColors → ∀ id, id ∈ hashEntries s →
      m id ≤ dist2 (s.hist id).color (s.node k).avg * ((s.hist id).num : K) := by
    intro k hk id hid
    apply mul_le_mul_of_nonneg_right _ (Nat.cast_nonneg _)
    exact FindNearestColor_le sqrt s (s.hist id).color k hk
      (dist2_lt_16 _ _ (h.col_box id hid) (h.avg_box k)) k hk
  -- before the pass
  have h1 : ((List.range s.numColors).map
      (fun k => ((s.node k).pHistogram.map m).sum)).sum ≤ totalErr s := by
    unfold totalErr
    apply List.sum_le_sum
    intro k hk
    have hk2 := List.mem_range.mp hk
    rw [h.err_eq k hk2, errOf_eq_wD s.hist (s.node k).avg _ (h.avg_eq k hk2)]
    unfold wD
    apply List.sum_le_sum
    intro id hid
    exact hmin k hk2 id (h.nodes.mem_hashEntries k id hk2 hid)
  -- after the pass
  have h2 : totalErr (optimizePass (exactOps sqrt) s)
      ≤ ((List.range s.numColors).map
        (fun k => ((assigned (exactOps sqrt) s k).map m).sum)).sum := by
    unfold totalErr
    rw [optimizePass_numColors]
    apply List.sum_le_sum
    intro k hk
    have hk2 := List.mem_range.mp hk
    rw [optimizePass_node _ s k hk2, SumNode_err]
    refine le_trans (errOf_le_wD s.hist (s.node k).avg _) (le_of_eq ?_)
    unfold wD
    congr 1
    apply List.map_congr_left
    intro id hid
    have := ((mem_assigned _ s k id).mp hid).2
    show _ = dist2 (s.hist id).color (s.node (assign (exactOps sqrt) s id)).avg
      * ((s.hist id).num : K)
    rw [this]
  have h3 : ((List.range s.numColors).map
        (fun k => ((assigned (exactOps sqrt) s k).map m).sum)).sum
      = ((List.range s.numColors).map (fun k => ((s.node k).pHistogram.map m).sum)).sum := by
    rw [sum_map_flatMap_field, sum_map_flatMap_field]
    exact (((assigned_flatMap_perm _ s h.nodes.pos).trans h.nodes.members.symm).map m).sum_eq
  linarith

end LloydPass

section ExactRun

variable {K : Type} [LinearOrderedField K] [FloorRing K] (sqrt : K → K)

theorem ExactInv_optimized (s : ExqData K) (b : Bool) (h : ExactInv s) :
    ExactInv { s with optimized := b } := by
  refine ⟨NodeInv_optimized s b h.nodes, h.err_eq, h.avg_eq, h.avg_box, ?_⟩
  intro id hid
  rw [hashEntries_congr s { s with optimized := b } rfl] at hid
  exact h.col_box id hid

theorem totalErr_optimized (s : ExqData K) (b : Bool) :
    totalErr { s with optimized := b } = totalErr s := rfl

theorem ExactInv_iterate (k : Nat) (s : ExqData K) (h : ExactInv s) :
    ExactInv ((optimizePass (exactOps sqrt))^[k] s) ∧
    totalErr ((optimizePass (exactOps sqrt))^[k] s) ≤ totalErr s := by
  induction k generalizing s with
  | zero => exact ⟨h, le_refl _⟩
  | succ k ih =>
    rw [Function.iterate_succ_apply]
    obtain ⟨h1, h2⟩ := ih _ (ExactInv_optimizePass sqrt s h)
    exact ⟨h1, le_trans h2 (totalErr_optimizePass_le sqrt s h)⟩

theorem ExactInv_OptimizePalette (s : ExqData K) (k : Nat) (h : ExactInv s) :
    ExactInv (OptimizePalette (exactOps sqrt) s k) ∧
    totalErr (OptimizePalette (exactOps sqrt) s k) ≤ totalErr s :=
  ExactInv_iterate sqrt k _ (ExactInv_optimized s true h)

theorem OptimizePalette_succ (ops : Arith F) (s : ExqData F) (k : Nat) :
    OptimizePalette ops s (k + 1) = optimizePass ops (OptimizePalette ops s k) := by
  unfold OptimizePalette
  rw [Function.iterate_succ_apply']

theorem ExactInv_splitStep (hq : Bool) (s : ExqData K) (h : ExactInv s) :
    ExactInv (splitStep (exactOps sqrt) hq s s.numColors) ∧
    totalErr (splitStep (exactOps sqrt) hq s s.numColors) ≤ totalErr s := by
  obtain ⟨h1, h2⟩ := ExactInv_splitStep_false sqrt s h
  cases hq with
  | false => exact ⟨h1, h2⟩
  | true =>
    rw [splitStep_hq]
    obtain ⟨h3, h4⟩ := ExactInv_OptimizePalette sqrt _ 1 h1
    exact ⟨h3, le_trans h4 h2⟩

theorem ExactInv_splitLoop (hq : Bool) (len : Nat) (s : ExqData K) (h : ExactInv s) :
    ExactInv ((List.range' s.numColors len).foldl (splitStep (exactOps sqrt) hq) s) ∧
    totalErr ((List.range' s.numColors len).foldl (splitStep (exactOps sqrt) hq) s)
      ≤ totalErr s := by
  induction len generalizing s with
  | zero => exact ⟨h, le_refl _⟩
  | succ len ih =>
    rw [List.range'_succ, List.foldl_cons]
    obtain ⟨h1, h2⟩ := ExactInv_splitStep sqrt hq s h
    have := ih _ h1
    rw [splitStep_numColors] at this
    exact ⟨this.1, le_trans this.2 h2⟩

theorem ExactInv_seeded (s : ExqData K) (h : Ready s) :
    ExactInv (if s.numColors = 0 then seedNode (exactOps sqrt) s else s) := by
  split
  · next h0 =>
    rcases h with ⟨-, h1, h2⟩ | h
    · exact ExactInv_seedNode sqrt s h1 h2
    · exact absurd h0 (by have := h.nodes.pos; omega)
  · next h0 =>
    rcases h with ⟨h1, -, -⟩ | h
    · exact absurd h1 h0
    · exact h

theorem ExactInv_QuantizeEx (s : ExqData K) (nColors : Int) (hq : Bool) (h : Ready s) :
    ExactInv (QuantizeEx (exactOps sqrt) s nColors hq) := by
  unfold QuantizeEx
  dsimp only
  apply ExactInv_optimized
  exact (ExactInv_splitLoop sqrt hq _ _ (ExactInv_seeded sqrt s h)).1

theorem totalErr_QuantizeEx_mono (s : ExqData K) (k k2 : Int) (hq : Bool) (h : Ready s)
    (hk : k ≤ k2) :
    totalErr (QuantizeEx (exactOps sqrt) s k2 hq) ≤ totalErr (QuantizeEx (exactOps sqrt) s k hq) := by
  unfold QuantizeEx
  dsimp only
  rw [totalErr_optimized, totalErr_optimized]
  have h0 := ExactInv_seeded sqrt s h
  generalize (if s.numColors = 0 then seedNode (exactOps sqrt) s else s) = s0 at h0
  have hle : (if k > 256 then 256 else k).toNat - s0.numColors
      ≤ (if k2 > 256 then 256 else k2).toNat - s0.numColors := by
    split <;> split <;> omega
  obtain ⟨d, hd⟩ := Nat.exists_eq_add_of_le hle
  rw [hd, Nat.add_comm, ← List.range'_append_1, List.foldl_append]
  obtain ⟨h1, -⟩ := ExactInv_splitLoop sqrt hq
    ((if k > 256 then 256 else k).toNat - s0.numColors) s0 h0
  have hn := splitLoop_numColors (exactOps sqrt) hq
    ((if k > 256 then 256 else k).toNat - s0.numColors) s0.numColors s0 rfl
  have := (ExactInv_splitLoop sqrt hq d _ h1).2
  rw [hn] at this
  exact this

theorem quantized_ExactInv (qs : List (Int × Bool)) (s : ExqData K) (h : Ready s) (hqs : qs ≠ []) :
    ExactInv (quantized (exactOps sqrt) s qs) := by
  unfold quantized
  induction qs generalizing s with
  | nil => exact absurd rfl hqs
  | cons q qs ih =>
    rw [List.foldl_cons]
    have hq := ExactInv_QuantizeEx sqrt s q.1 q.2 h
    by_cases hqs2 : qs = []
    · subst hqs2
      exact hq
    · exact ih _ (Or.inr hq) hqs2

/-! ### The colours stored by `Feed` -/

theorem channel_box (v a : Nat) (M : K) (hM : 0 ≤ M) (hv : v ≤ 255) (ha : a ≤ 255) :
    0 ≤ (v : K) / 255 * M ∧ (v : K) / 255 * M ≤ M ∧
    0 ≤ (v : K) / 255 * M * ((a : K) / 255 * 1) ∧ (v : K) / 255 * M * ((a : K) / 255 * 1) ≤ M := by
  have hv0 : (0 : K) ≤ (v : K) / 255 := div_nonneg (Nat.cast_nonneg _) (by norm_num)
  have ha0 : (0 : K) ≤ (a : K) / 255 * 1 := by
    rw [mul_one]; exact div_nonneg (Nat.cast_nonneg _) (by norm_num)
  have hv1 : (v : K) / 255 ≤ 1 := by
    rw [div_le_one (by norm_num)]
    exact_mod_cast hv
  have ha1 : (a : K) / 255 * 1 ≤ 1 := by
    rw [mul_one, div_le_one (by norm_num)]
    exact_mod_cast ha
  have h1 : 0 ≤ (v : K) / 255 * M := mul_nonneg hv0 hM
  have h2 : (v : K) / 255 * M ≤ M := by
    have := mul_le_mul_of_nonneg_right hv1 hM
    linarith
  refine ⟨h1, h2, mul_nonneg h1 ha0, ?_⟩
  calc (v : K) / 255 * M * ((a : K) / 255 * 1) ≤ M * 1 :=
        mul_le_mul h2 ha1 ha0 hM
    _ = M := mul_one M

theorem newEntry_box (s : ExqData K) (p : Pixel) :
    InBox (newEntry (exactOps sqrt) s p).color := by
  have hr : p.r.val &&& (0xFF00 >>> s.numBitsPerChannel) ≤ 255 :=
    le_trans Nat.and_le_left (by have := p.r.isLt; omega)
  have hg : p.g.val &&& (0xFF00 >>> s.numBitsPerChannel) ≤ 255 :=
    le_trans Nat.and_le_left (by have := p.g.isLt; omega)
  have hb : p.b.val &&& (0xFF00 >>> s.numBitsPerChannel) ≤ 255 :=
    le_trans Nat.and_le_left (by have := p.b.isLt; omega)
  have ha : p.a.val ≤ 255 := by have := p.a.isLt; omega
  obtain ⟨r1, r2, r3, r4⟩ := channel_box (K := K) _ _ 1 (by norm_num) hr ha
  obtain ⟨g1, g2, g3, g4⟩ := channel_box (K := K) _ _ (6 / 5) (by norm_num) hg ha
  obtain ⟨b1, b2, b3, b4⟩ := channel_box (K := K) _ _ (4 / 5) (by norm_num) hb ha
  obtain ⟨a1, a2, -, -⟩ := channel_box (K := K) _ 0 1 (by norm_num) ha (by norm_num)
  have e12 : ((12 : Nat) : K) / 10 ^ 1 = 6 / 5 := by norm_num
  have e8 : ((8 : Nat) : K) / 10 ^ 1 = 4 / 5 := by norm_num
  unfold newEntry InBox
  simp only [_EXQ_SCALE_R, _EXQ_SCALE_G, _EXQ_SCALE_B, _EXQ_SCALE_A, exactOps_mul, exactOps_div,
    exactOps_ofInt, exactOps_dec, Int.cast_natCast, Int.cast_ofNat, Int.cast_one, e12, e8]
  split
  · exact ⟨r3, r4, g3, g4, b3, b4, a1, a2⟩
  · exact ⟨r1, r2, g1, g2, b1, b2, a1, a2⟩

theorem feedPixel_box (s : ExqData K) (p : Pixel)
    (h : ∀ id, id < s.nHist → InBox (s.hist id).color) :
    ∀ id, id < (feedPixel (exactOps sqrt) s p).nHist →
      InBox ((feedPixel (exactOps sqrt) s p).hist id).color := by
  intro id hid
  cases hw : walkChain s.hist p (s.pHash (pixelHash p)) with
  | some pCur =>
    obtain ⟨eh, en, -, -⟩ := feedPixel_hit (exactOps sqrt) s p pCur hw
    rw [en] at hid
    rw [eh]
    by_cases hc : id = pCur
    · subst hc
      rw [Function.update_same]
      exact h id hid
    · rw [Function.update_noteq hc]
      exact h id hid
  | none =>
    obtain ⟨eh, en, -, -⟩ := feedPixel_miss (exactOps sqrt) s p hw
    rw [en] at hid
    rw [eh]
    by_cases hc : id = s.nHist
    · subst hc
      rw [Function.update_same]
      exact newEntry_box sqrt s p
    · rw [Function.update_noteq hc]
      exact h id (by omega)

theorem Feed_box (pData : List Pixel) (s : ExqData K)
    (h : ∀ id, id < s.nHist → InBox (s.hist id).color) :
    ∀ id, id < (Feed (exactOps sqrt) s pData).nHist →
      InBox ((Feed (exactOps sqrt) s pData).hist id).color := by
  unfold Feed
  induction pData generalizing s with
  | nil => exact h
  | cons p ps ih =>
    rw [List.foldl_cons]
    exact ih _ (feedPixel_box sqrt s p h)

theorem feedPixel_node (ops : Arith F) (s : ExqData F) (p : Pixel) :
    (feedPixel ops s p).node = s.node := by
  cases hw : walkChain s.hist p (s.pHash (pixelHash p)) with
  | some pCur => exact (feedPixel_hit ops s p pCur hw).2.2.2
  | none => exact (feedPixel_miss ops s p hw).2.2.2

theorem Feed_node (ops : Arith F) (pData : List Pixel) (s : ExqData F) :
    (Feed ops s pData).node = s.node := by
  unfold Feed
  induction pData generalizing s with
  | nil => rfl
  | cons p ps ih => rw [List.foldl_cons, ih, feedPixel_node]

theorem InBox_new : InBox (ExqColor.new (exactOps sqrt)) := by
  unfold InBox ExqColor.new
  simp only [exactOps_ofInt, Int.cast_zero]
  norm_num

theorem fed_Ready (feeds : List (List Pixel)) : Ready (fed (exactOps sqrt) feeds) := by
  left
  have hbox : ∀ (fs : List (List Pixel)) (s : ExqData K),
      (∀ id, id < s.nHist → InBox (s.hist id).color) → (∀ i, InBox (s.node i).avg) →
      (∀ id, id < (fs.foldl (Feed (exactOps sqrt)) s).nHist →
        InBox ((fs.foldl (Feed (exactOps sqrt)) s).hist id).color) ∧
      (∀ i, InBox ((fs.foldl (Feed (exactOps sqrt)) s).node i).avg) := by
    intro fs
    induction fs with
    | nil => intro s h1 h2; exact ⟨h1, h2⟩
    | cons f fs ih =>
      intro s h1 h2
      rw [List.foldl_cons]
      apply ih
      · exact Feed_box sqrt f s h1
      · rw [Feed_node]; exact h2
  obtain ⟨h1, h2⟩ := hbox feeds (ExoQuant.new (exactOps sqrt))
    (fun id hid => absurd hid (Nat.not_lt_zero _)) (fun _ => InBox_new sqrt)
  refine ⟨fed_numColors _ feeds, h2, ?_⟩
  intro id hid
  apply h1
  exact List.mem_range.mp ((HistInv_fed (exactOps sqrt) feeds).entries.mem_iff.mp hid)

end ExactRun

section MeanError

variable {K : Type} [LinearOrderedField K] [FloorRing K] (sqrt : K → K)

theorem foldl_errorSums (node : Nat → ExqNode K) (L : List Nat) (acc : Nat × K) :
    L.foldl (fun acc i => (acc.1 + (node i).num, (exactOps sqrt).add acc.2 (node i).err)) acc
      = (acc.1 + (L.map (fun i => (node i).num)).sum,
         acc.2 + (L.map (fun i => (node i).err)).sum) := by
  induction L generalizing acc with
  | nil => simp
  | cons a L ih =>
    rw [List.foldl_cons, ih]
    simp only [exactOps_add, List.map_cons, List.sum_cons, Nat.add_assoc, add_assoc]

theorem errorSums_exact (s : ExqData K) :
    errorSums (exactOps sqrt) s = (activeNum s, totalErr s) := by
  unfold errorSums activeNum totalErr
  rw [foldl_errorSums]
  simp

theorem GetMeanError_mono (hsqrt : Monotone sqrt) (s t : ExqData K)
    (hn : activeNum t = activeNum s) (he : totalErr t ≤ totalErr s) :
    GetMeanError (exactOps sqrt) t ≤ GetMeanError (exactOps sqrt) s := by
  unfold GetMeanError
  rw [errorSums_exact, errorSums_exact]
  simp only [exactOps_mul, exactOps_div, exactOps_ofInt, Int.cast_natCast, Int.cast_ofNat, hn]
  have h1 : totalErr t / (activeNum s : K) ≤ totalErr s / (activeNum s : K) :=
    div_le_div_of_nonneg_right he (Nat.cast_nonneg _)
  have h2 := hsqrt h1
  have h3 : (0 : K) ≤ 256 := by norm_num
  exact mul_le_mul_of_nonneg_right h2 h3

theorem activeNum_congr (s t : ExqData F) (hs : NodeInv s) (ht : NodeInv t)
    (h1 : t.hist = s.hist) (h2 : t.pHash = s.pHash) : activeNum t = activeNum s := by
  rw [hs.sum_node_num, ht.sum_node_num, hashEntries_congr s t h2, h1]

end MeanError

section Monotone

variable {K : Type} [LinearOrderedField K] [FloorRing K] (sqrt : K → K)

theorem OptimizePalette_mono (s : ExqData K) (h : ExactInv s) (m d : Nat) :
    totalErr (OptimizePalette (exactOps sqrt) s (m + d))
      ≤ totalErr (OptimizePalette (exactOps sqrt) s m) := by
  induction d with
  | zero => exact le_refl _
  | succ d ih =>
    rw [← Nat.add_assoc, OptimizePalette_succ]
    exact le_trans
      (totalErr_optimizePass_le sqrt _ (ExactInv_OptimizePalette sqrt s (m + d) h).1) ih

theorem OptimizePalette_activeNum (s : ExqData K) (h : ExactInv s) (m : Nat) :
    activeNum (OptimizePalette (exactOps sqrt) s m) = activeNum s :=
  activeNum_congr s _ h.nodes (ExactInv_OptimizePalette sqrt s m h).1.nodes
    (OptimizePalette_hist _ s m) (OptimizePalette_pHash _ s m)

end Monotone

/-! ## The colours of the entries, and a buffer of one colour -/

theorem newEntry_color_congr (ops : Arith F) (s t : ExqData F) (p : Pixel)
    (h1 : t.numBitsPerChannel = s.numBitsPerChannel) (h2 : t.transparency = s.transparency) :
    (newEntry ops t p).color = (newEntry ops s p).color := by
  unfold newEntry
  simp only [h1, h2]

theorem feedPixel_config (ops : Arith F) (s : ExqData F) (p : Pixel) :
    (feedPixel ops s p).numBitsPerChannel = s.numBitsPerChannel ∧
    (feedPixel ops s p).transparency = s.transparency := by
  unfold feedPixel
  dsimp only
  split <;> exact ⟨rfl, rfl⟩

theorem Feed_config (ops : Arith F) (pData : List Pixel) (s : ExqData F) :
    (Feed ops s pData).numBitsPerChannel = s.numBitsPerChannel ∧
    (Feed ops s pData).transparency = s.transparency := by
  unfold Feed
  induction pData generalizing s with
  | nil => exact ⟨rfl, rfl⟩
  | cons p ps ih =>
    rw [List.foldl_cons]
    obtain ⟨h1, h2⟩ := ih (feedPixel ops s p)
    obtain ⟨g1, g2⟩ := feedPixel_config ops s p
    exact ⟨h1.trans g1, h2.trans g2⟩

theorem ColorInv_feedPixel (ops : Arith F) (s : ExqData F) (p : Pixel) (h : ColorInv ops s) :
    ColorInv ops (feedPixel ops s p) := by
  obtain ⟨h1, h2, h3⟩ := h
  obtain ⟨c1, c2⟩ := feedPixel_config ops s p
  refine ⟨c1.trans h1, c2.trans h2, ?_⟩
  intro id hid
  cases hw : walkChain s.hist p (s.pHash (pixelHash p)) with
  | some pCur =>
    obtain ⟨eh, en, -, -⟩ := feedPixel_hit ops s p pCur hw
    rw [en] at hid
    rw [eh]
    by_cases hc : id = pCur
    · subst hc
      rw [Function.update_same]
      exact h3 id hid
    · rw [Function.update_noteq hc]
      exact h3 id hid
  | none =>
    obtain ⟨eh, en, -, -⟩ := feedPixel_miss ops s p hw
    rw [en] at hid
    rw [eh]
    by_cases hc : id = s.nHist
    · subst hc
      rw [Function.update_same, entryPixel_newEntry]
      exact newEntry_color_congr ops (ExoQuant.new ops) s p h1 h2
    · rw [Function.update_noteq hc]
      exact h3 id (by omega)

theorem ColorInv_Feed (ops : Arith F) (pData : List Pixel) (s : ExqData F) (h : ColorInv ops s) :
    ColorInv ops (Feed ops s pData) := by
  unfold Feed
  induction pData generalizing s with
  | nil => exact h
  | cons p ps ih =>
    rw [List.foldl_cons]
    exact ih _ (ColorInv_feedPixel ops s p h)

theorem ColorInv_new (ops : Arith F) : ColorInv ops (ExoQuant.new ops) :=
  ⟨rfl, rfl, fun _ hid => absurd hid (Nat.not_lt_zero _)⟩

/-- The histogram after a buffer of `n + 1` pixels of one colour was fed. -/
theorem Feed_single (ops : Arith F) (c : Pixel) (n : Nat) :
    hashEntries (Feed ops (ExoQuant.new ops) (List.replicate (n + 1) c)) = [0] ∧
    (Feed ops (ExoQuant.new ops) (List.replicate (n + 1) c)).nHist = 1 ∧
    entryPixel ((Feed ops (ExoQuant.new ops) (List.replicate (n + 1) c)).hist 0) = c ∧
    ((Feed ops (ExoQuant.new ops) (List.replicate (n + 1) c)).hist 0).num = n + 1 ∧
    ((Feed ops (ExoQuant.new ops) (List.replicate (n + 1) c)).hist 0).color = pixColor ops c ∧
    ((Feed ops (ExoQuant.new ops) (List.replicate (n + 1) c)).hist 0).palIndex = -1 := by
  have hI : HistInv (Feed ops (ExoQuant.new ops) (List.replicate (n + 1) c))
      (List.replicate (n + 1) c) := by
    simpa using HistInv_Feed ops (List.replicate (n + 1) c) _ [] (HistInv_new ops)
  have hC := ColorInv_Feed ops (List.replicate (n + 1) c) _ (ColorInv_new ops)
  have hP := Feed_palIndex ops (List.replicate (n + 1) c) (ExoQuant.new ops)
    (fun _ hid => absurd hid (Nat.not_lt_zero _))
  generalize Feed ops (ExoQuant.new ops) (List.replicate (n + 1) c) = s at hI hC hP
  have hmem : c ∈ List.replicate (n + 1) c := by simp
  obtain ⟨id, hid, he⟩ := hI.covered c hmem
  have hall : ∀ j, j < s.nHist → j = id := by
    intro j hj
    apply hI.inj j id hj hid
    rw [he]
    exact List.eq_of_mem_replicate (hI.fed_mem j hj)
  have hn : s.nHist = 1 := by
    by_contra hne
    have h0 := hall 0 (by omega)
    have h1 := hall 1 (by omega)
    omega
  have hid0 : id = 0 := by omega
  subst hid0
  have hE : hashEntries s = [0] := by
    have := hI.entries
    rw [hn] at this
    exact List.perm_singleton.mp this
  refine ⟨hE, hn, he, ?_, ?_, hP 0 hid⟩
  · rw [hI.num_eq 0 hid, he]
    simp
  · rw [hC.2.2 0 hid, he]

section PaletteExact

variable {K : Type} [LinearOrderedField K] [FloorRing K] (sqrt : K → K)

theorem byte_mask (v : Nat) (hv : v < 256) : v &&& (0xFF00 >>> 8) = v := by
  have e : (0xFF00 >>> 8 : Nat) = 2 ^ 8 - 1 := by decide
  rw [e]
  exact Nat.and_pow_two_sub_one_of_lt_two_pow (by simpa using hv)

theorem pixColor_exact (p : Pixel) :
    pixColor (exactOps sqrt) p
      = { r := (p.r.val : K) / 255 * 1 * ((p.a.val : K) / 255 * 1)
          g := (p.g.val : K) / 255 * (6 / 5) * ((p.a.val : K) / 255 * 1)
          b := (p.b.val : K) / 255 * (4 / 5) * ((p.a.val : K) / 255 * 1)
          a := (p.a.val : K) / 255 * 1 } := by
  have e12 : ((12 : Nat) : K) / 10 ^ 1 = 6 / 5 := by norm_num
  have e8 : ((8 : Nat) : K) / 10 ^ 1 = 4 / 5 := by norm_num
  unfold pixColor newEntry
  have hb : (ExoQuant.new (exactOps sqrt)).numBitsPerChannel = 8 := rfl
  have ht : (ExoQuant.new (exactOps sqrt)).transparency = true := rfl
  simp only [hb, ht, if_true, byte_mask _ p.r.isLt, byte_mask _ p.g.isLt, byte_mask _ p.b.isLt,
    _EXQ_SCALE_R, _EXQ_SCALE_G, _EXQ_SCALE_B, _EXQ_SCALE_A, exactOps_mul, exactOps_div,
    exactOps_ofInt, exactOps_dec, Int.cast_natCast, Int.cast_ofNat, Int.cast_one, e12, e8]

theorem palByte (v : Nat) (hv : v ≤ 255) :
    (trunc ((v : K) / 255 * (2559 / 10)) % 256).toNat = v := by
  have h0 : (0 : K) ≤ (v : K) / 255 * (2559 / 10) :=
    mul_nonneg (div_nonneg (Nat.cast_nonneg _) (by norm_num)) (by norm_num)
  have hvK : (v : K) ≤ 255 := by exact_mod_cast hv
  have hv0 : (0 : K) ≤ (v : K) := Nat.cast_nonneg _
  unfold trunc
  rw [if_pos h0]
  have hf : ⌊(v : K) / 255 * (2559 / 10)⌋ = (v : Int) := by
    rw [Int.floor_eq_iff]
    constructor
    · have : ((v : Int) : K) = (v : K) := by norm_cast
      rw [this]
      linarith
    · have : ((v : Int) : K) = (v : K) := by norm_cast
      rw [this]
      linarith
  rw [hf]
  omega

theorem palByte_zero : (trunc ((0 : K) / 1 * (2559 / 10)) % 256).toNat = 0 := by
  have := palByte (K := K) 0 (by omega)
  simpa using this

end PaletteExact

section PaletteEntry

variable {K : Type} [LinearOrderedField K] [FloorRing K] (sqrt : K → K)

theorem mask_byte (v : Nat) (hv : v ≤ 255) :
    ((v + (1 <<< (8 - 8)) / 2) &&& (0xff00 >>> 8)) % 256 = v := by
  have e : (0xff00 >>> 8 : Nat) = 2 ^ 8 - 1 := by decide
  have e2 : (1 <<< (8 - 8)) / 2 = 0 := by decide
  rw [e, e2, Nat.add_zero, Nat.and_pow_two_sub_one_of_lt_two_pow (by omega : v < 2 ^ 8)]
  omega

theorem set_mask_self (L : List Nat) (j : Nat) (h : L.getD j 0 ≤ 255) :
    L.set j (((L.getD j 0 + (1 <<< (8 - 8)) / 2) &&& (0xff00 >>> 8)) % 256) = L := by
  rw [mask_byte _ h]
  apply List.ext_getElem?
  intro k
  by_cases hk : j = k
  · subst hk
    by_cases hj : j < L.length
    · rw [List.getElem?_set_self hj, List.getD_eq_getElem?_getD, List.getElem?_eq_getElem hj]
      rfl
    · rw [List.getElem?_eq_none (by simpa using hj), List.getElem?_eq_none (by simpa using hj)]
  · rw [List.getElem?_set_ne hk]

theorem getD_set4 (L : List Nat) (a b0 b1 b2 b3 : Nat) (hl : a + 4 ≤ L.length) :
    ((((L.set (a + 0) b0).set (a + 1) b1).set (a + 2) b2).set (a + 3) b3).getD (a + 0) 0 = b0 ∧
    ((((L.set (a + 0) b0).set (a + 1) b1).set (a + 2) b2).set (a + 3) b3).getD (a + 1) 0 = b1 ∧
    ((((L.set (a + 0) b0).set (a + 1) b1).set (a + 2) b2).set (a + 3) b3).getD (a + 2) 0 = b2 := by
  refine ⟨?_, ?_, ?_⟩
  · rw [List.getD_eq_getElem?_getD, List.getElem?_set_ne (by omega),
      List.getElem?_set_ne (by omega), List.getElem?_set_ne (by omega),
      List.getElem?_set_self (by omega)]
    rfl
  · rw [List.getD_eq_getElem?_getD, List.getElem?_set_ne (by omega),
      List.getElem?_set_ne (by omega), List.getElem?_set_self (by simp; omega)]
    rfl
  · rw [List.getD_eq_getElem?_getD, List.getElem?_set_ne (by omega),
      List.getElem?_set_self (by simp; omega)]
    rfl

/-- The four bytes written by `GetPalette` for a node whose mean is the colour
of the pixel `p`. -/
theorem paletteEntry_exact (t : ExqData K) (pPal : List Nat) (i : Nat) (p : Pixel)
    (hb : t.numBitsPerChannel = 8) (ht : t.transparency = true)
    (hav : (t.node i).avg = pixColor (exactOps sqrt) p) (hl : i * 4 + 4 ≤ pPal.length) :
    paletteEntry (exactOps sqrt) t pPal i
      = (((pPal.set (i * 4 + 0) ((paletteBytes p).getD 0 0)).set (i * 4 + 1)
          ((paletteBytes p).getD 1 0)).set (i * 4 + 2) ((paletteBytes p).getD 2 0)).set
          (i * 4 + 3) ((paletteBytes p).getD 3 0) := by
  have hr : p.r.val ≤ 255 := by have := p.r.isLt; omega
  have hg : p.g.val ≤ 255 := by have := p.g.isLt; omega
  have hbb : p.b.val ≤ 255 := by have := p.b.isLt; omega
  have ha : p.a.val ≤ 255 := by have := p.a.isLt; omega
  have e1 : ((2559 : Nat) : K) / 10 ^ 1 = 2559 / 10 := by norm_num
  have e12 : ((12 : Nat) : K) / 10 ^ 1 = 6 / 5 := by norm_num
  have e8 : ((8 : Nat) : K) / 10 ^ 1 = 4 / 5 := by norm_num
  -- the four values stored first
  have hvals :
      (exactOps sqrt).toUint8 ((exactOps sqrt).mul ((exactOps sqrt).div
        (if (t.transparency && !((exactOps sqrt).eq (t.node i).avg.a ((exactOps sqrt).ofInt 0)))
          then (exactOps sqrt).div (t.node i).avg.r (t.node i).avg.a else (t.node i).avg.r)
        (_EXQ_SCALE_R (exactOps sqrt))) ((exactOps sqrt).dec 2559 1)) = (paletteBytes p).getD 0 0 ∧
      (exactOps sqrt).toUint8 ((exactOps sqrt).mul ((exactOps sqrt).div
        (if (t.transparency && !((exactOps sqrt).eq (t.node i).avg.a ((exactOps sqrt).ofInt 0)))
          then (exactOps sqrt).div (t.node i).avg.g (t.node i).avg.a else (t.node i).avg.g)
        (_EXQ_SCALE_G (exactOps sqrt))) ((exactOps sqrt).dec 2559 1)) = (paletteBytes p).getD 1 0 ∧
      (exactOps sqrt).toUint8 ((exactOps sqrt).mul ((exactOps sqrt).div
        (if (t.transparency && !((exactOps sqrt).eq (t.node i).avg.a ((exactOps sqrt).ofInt 0)))
          then (exactOps sqrt).div (t.node i).avg.b (t.node i).avg.a else (t.node i).avg.b)
        (_EXQ_SCALE_B (exactOps sqrt))) ((exactOps sqrt).dec 2559 1)) = (paletteBytes p).getD 2 0 ∧
      (exactOps sqrt).toUint8 ((exactOps sqrt).mul ((exactOps sqrt).div (t.node i).avg.a
        (_EXQ_SCALE_A (exactOps sqrt))) ((exactOps sqrt).dec 2559 1)) = (paletteBytes p).getD 3 0 := by
    rw [hav, pixColor_exact, ht]
    simp only [_EXQ_SCALE_R, _EXQ_SCALE_G, _EXQ_SCALE_B, _EXQ_SCALE_A, exactOps_mul, exactOps_div,
      exactOps_ofInt, exactOps_dec, exactOps_eq, exactOps_toUint8, Int.cast_zero, Int.cast_one,
      e1, e12, e8, Bool.true_and, mul_one, div_one]
    unfold paletteBytes
    by_cases hz : p.a.val = 0
    · have hz2 : (p.a.val : K) / 255 = 0 := by rw [hz]; simp
      rw [if_pos hz]
      simp only [hz2, decide_True, Bool.not_true, mul_zero, zero_div, zero_mul,
        Bool.false_eq_true, if_false, List.getD_cons_zero, List.getD_cons_succ]
      have := palByte (K := K) 0 (by omega)
      simp only [Nat.cast_zero, zero_div, zero_mul] at this
      exact ⟨this, this, this, this⟩
    · have hz2 : (p.a.val : K) / 255 ≠ 0 := by
        have : (p.a.val : K) ≠ 0 := by exact_mod_cast hz
        exact div_ne_zero this (by norm_num)
      have hd : decide ((p.a.val : K) / 255 = 0) = false := by simpa using hz2
      rw [if_neg hz]
      simp only [hd, Bool.not_false, if_true, List.getD_cons_zero,
        List.getD_cons_succ, mul_div_cancel_right₀ _ hz2]
      have h65 : ((6 : K) / 5) ≠ 0 := by norm_num
      have h45 : ((4 : K) / 5) ≠ 0 := by norm_num
      rw [mul_div_cancel_right₀ _ h65, mul_div_cancel_right₀ _ h45]
      exact ⟨palByte p.r.val hr, palByte p.g.val hg, palByte p.b.val hbb, palByte p.a.val ha⟩
  obtain ⟨v0, v1, v2, v3⟩ := hvals
  have hB : ∀ k, (paletteBytes p).getD k 0 ≤ 255 := by
    intro k
    unfold paletteBytes
    split
    · rcases k with _ | _ | _ | _ | k <;> simp
    · rcases k with _ | _ | _ | _ | k <;> simp [hr, hg, hbb, ha]
  unfold paletteEntry
  simp only [hb, range_three, List.foldl_cons, List.foldl_nil]
  rw [v0, v1, v2, v3]
  have h0 := hB 0
  have h1 := hB 1
  have h2 := hB 2
  generalize (paletteBytes p).getD 0 0 = b0 at h0 ⊢
  generalize (paletteBytes p).getD 1 0 = b1 at h1 ⊢
  generalize (paletteBytes p).getD 2 0 = b2 at h2 ⊢
  generalize (paletteBytes p).getD 3 0 = b3
  obtain ⟨g0, g1, g2⟩ := getD_set4 pPal (i * 4) b0 b1 b2 b3 hl
  generalize (((pPal.set (i * 4 + 0) b0).set (i * 4 + 1) b1).set (i * 4 + 2) b2).set
    (i * 4 + 3) b3 = L at g0 g1 g2 ⊢
  rw [set_mask_self L (i * 4 + 0) (by rw [g0]; exact h0),
    set_mask_self L (i * 4 + 1) (by rw [g1]; exact h1),
    set_mask_self L (i * 4 + 2) (by rw [g2]; exact h2)]

end PaletteEntry

/-! ## One colour, one node -/

theorem set_replicate_zero (N m : Nat) : (List.replicate N 0).set m 0 = List.replicate N 0 := by
  apply List.ext_getElem?
  intro k
  by_cases hk : m = k
  · subst hk
    by_cases hm : m < N
    · rw [List.getElem?_set_self (by simpa using hm), List.getElem?_replicate, if_pos hm]
    · rw [List.getElem?_eq_none (by simpa using hm), List.getElem?_eq_none (by simpa using hm)]
  · rw [List.getElem?_set_ne hk]

/-- `MapImage` on a buffer of one colour when one colour is active and the
colour's entry has no cached index, or the cached index 0. -/
theorem mapLoop_single (ops : Arith F) (u : ExqData F) (c : Pixel) (N id0 : Nat)
    (hn : u.numColors = 1)
    (hw : walkChain u.hist c (u.pHash (pixelHash c)) = some id0)
    (hp : (u.hist id0).palIndex = -1 ∨ (u.hist id0).palIndex = 0) (m : Nat) (hm : m ≤ N) :
    ((List.range m).foldl (mapPixel ops (List.replicate N c)) (u, List.replicate N 0)).2
      = List.replicate N 0 ∧
    ((List.range m).foldl (mapPixel ops (List.replicate N c)) (u, List.replicate N 0)).1.numColors
      = 1 ∧
    ((List.range m).foldl (mapPixel ops (List.replicate N c)) (u, List.replicate N 0)).1.pHash
      = u.pHash ∧
    (∀ id, entryPixel (((List.range m).foldl (mapPixel ops (List.replicate N c))
      (u, List.replicate N 0)).1.hist id) = entryPixel (u.hist id)) ∧
    ((((List.range m).foldl (mapPixel ops (List.replicate N c))
        (u, List.replicate N 0)).1.hist id0).palIndex = 0 ∨
      (m = 0 ∧ (((List.range m).foldl (mapPixel ops (List.replicate N c))
        (u, List.replicate N 0)).1.hist id0).palIndex = -1)) := by
  induction m with
  | zero =>
    refine ⟨rfl, hn, rfl, fun _ => rfl, ?_⟩
    rcases hp with hp | hp
    · exact Or.inr ⟨rfl, hp⟩
    · exact Or.inl hp
  | succ m ih =>
    obtain ⟨i1, i2, i3, i4, i5⟩ := ih (by omega)
    rw [List.range_succ, List.foldl_append, List.foldl_cons, List.foldl_nil]
    generalize (List.range m).foldl (mapPixel ops (List.replicate N c)) (u, List.replicate N 0)
      = st at i1 i2 i3 i4 i5
    obtain ⟨t, out⟩ := st
    dsimp only at i1 i2 i3 i4 i5
    subst i1
    have hf : FindHistogram t (List.replicate N c) m = some id0 := by
      unfold FindHistogram
      rw [List.getElem?_replicate, if_pos (by omega)]
      dsimp only
      rw [i3, walkChain_congr u.hist t.hist c _ i4]
      exact hw
    rcases i5 with i5 | ⟨hm0, i5⟩
    · rw [mapPixel_cached ops _ t _ m id0 hf (by rw [i5]; decide), i5]
      exact ⟨set_replicate_zero N m, i2, i3, i4, Or.inl rfl⟩
    · subst hm0
      rw [mapPixel_first ops _ t _ 0 id0 hf i5, FindNearestColor_one ops t _ i2]
      refine ⟨set_replicate_zero N 0, i2, i3, ?_, Or.inl ?_⟩
      · intro id
        dsimp only
        by_cases h : id = id0
        · subst h; rw [Function.update_same, ← i4 id]; rfl
        · rw [Function.update_noteq h]; exact i4 id
      · dsimp only
        rw [Function.update_same]
        rfl

theorem MapImage_single (ops : Arith F) (u : ExqData F) (c : Pixel) (N id0 : Nat)
    (hn : u.numColors = 1) (ho : u.optimized = true)
    (hw : walkChain u.hist c (u.pHash (pixelHash c)) = some id0)
    (hp : (u.hist id0).palIndex = -1 ∨ (u.hist id0).palIndex = 0) :
    (MapImage ops u N (List.replicate N c)).1 = List.replicate N 0 := by
  unfold MapImage
  simp only [ho, Bool.not_true, Bool.false_eq_true, if_false]
  exact (mapLoop_single ops u c N id0 hn hw hp N (Nat.le_refl N)).1

section SingleExact

variable {K : Type} [LinearOrderedField K] [FloorRing K] (sqrt : K → K)

theorem single_avg (t : ExqData K) (h : ExactInv t) (hn : t.numColors = 1)
    (hE : hashEntries t = [0]) (hnum : (t.hist 0).num ≠ 0) :
    (t.node 0).avg = (t.hist 0).color := by
  have hm := h.nodes.members
  rw [hn, hE, List.range_succ, List.range_zero] at hm
  simp only [List.nil_append, List.flatMap_cons, List.flatMap_nil, List.append_nil] at hm
  have hl : (t.node 0).pHistogram = [0] := List.perm_singleton.mp hm
  have hN : wN t.hist (t.node 0).pHistogram ≠ 0 := by
    rw [hl]
    simpa [wN] using hnum
  have hK : ((t.hist 0).num : K) ≠ 0 := by exact_mod_cast hnum
  rw [h.avg_eq 0 (by omega) hN, hl]
  unfold meanOf
  simp only [wS, wN, List.map_cons, List.map_nil, List.sum_cons, List.sum_nil, add_zero,
    Nat.add_zero, mul_div_cancel_right₀ _ hK]

theorem paletteBytes_eq (p : Pixel) :
    [(paletteBytes p).getD 0 0, (paletteBytes p).getD 1 0, (paletteBytes p).getD 2 0,
      (paletteBytes p).getD 3 0] = paletteBytes p := by
  unfold paletteBytes
  split <;> rfl

/-- The run of the single-colour scenario in exact arithmetic. -/
theorem single_run (c : Pixel) (n : Nat) :
    (GetPalette (exactOps sqrt) (Quantize (exactOps sqrt)
      (Feed (exactOps sqrt) (ExoQuant.new (exactOps sqrt)) (List.replicate (n + 1) c)) 1) 1).1
      = paletteBytes c ∧
    (MapImage (exactOps sqrt) (GetPalette (exactOps sqrt) (Quantize (exactOps sqrt)
      (Feed (exactOps sqrt) (ExoQuant.new (exactOps sqrt)) (List.replicate (n + 1) c)) 1) 1).2
      (n + 1) (List.replicate (n + 1) c)).1 = List.replicate (n + 1) 0 ∧
    (MapImage (exactOps sqrt) (Quantize (exactOps sqrt)
      (Feed (exactOps sqrt) (ExoQuant.new (exactOps sqrt)) (List.replicate (n + 1) c)) 1)
      (n + 1) (List.replicate (n + 1) c)).1 = List.replicate (n + 1) 0 := by
  obtain ⟨hE, hnH, hpx, hnum, hcol, hpal⟩ := Feed_single (exactOps sqrt) c n
  have hI0 : HistInv (Feed (exactOps sqrt) (ExoQuant.new (exactOps sqrt))
      (List.replicate (n + 1) c)) (List.replicate (n + 1) c) := by
    simpa using HistInv_Feed (exactOps sqrt) (List.replicate (n + 1) c) _ [] (HistInv_new _)
  have hR : Ready (Feed (exactOps sqrt) (ExoQuant.new (exactOps sqrt))
      (List.replicate (n + 1) c)) := fed_Ready sqrt [List.replicate (n + 1) c]
  obtain ⟨cb, ct⟩ := Feed_config (exactOps sqrt) (List.replicate (n + 1) c)
    (ExoQuant.new (exactOps sqrt))
  have hnc0 : (Feed (exactOps sqrt) (ExoQuant.new (exactOps sqrt))
      (List.replicate (n + 1) c)).numColors = 0 := by
    rw [Feed_numColors]; rfl
  generalize Feed (exactOps sqrt) (ExoQuant.new (exactOps sqrt)) (List.replicate (n + 1) c) = s0
    at hE hnH hpx hnum hcol hpal hI0 hR cb ct hnc0
  obtain ⟨id, hw, hlt, -⟩ := hI0.walk c (by simp)
  have hid : id = 0 := by omega
  subst hid
  -- after Quantize(1)
  have hI1 := ExactInv_QuantizeEx sqrt s0 1 false hR
  obtain ⟨q1, q2, q3, q4, q5⟩ := QuantizeEx_hist_pHash (exactOps sqrt) s0 1 false
  have hnc1 : (QuantizeEx (exactOps sqrt) s0 1 false).numColors = 1 := by
    have := QuantizeEx_numColors_of_zero (exactOps sqrt) s0 hnc0 1 false
    omega
  have hopt1 : (QuantizeEx (exactOps sqrt) s0 1 false).optimized = false := rfl
  unfold Quantize
  generalize QuantizeEx (exactOps sqrt) s0 1 false = s1 at hI1 q1 q2 q3 q4 q5 hnc1 hopt1
  -- after the relaxation made by GetPalette or MapImage
  have hI2 := (ExactInv_OptimizePalette sqrt s1 4 hI1).1
  have hE2 : hashEntries (OptimizePalette (exactOps sqrt) s1 4) = [0] := by
    rw [hashEntries_congr s0 _ ((OptimizePalette_pHash _ s1 4).trans q2)]
    exact hE
  have hh2 : (OptimizePalette (exactOps sqrt) s1 4).hist = s0.hist :=
    (OptimizePalette_hist _ s1 4).trans q1
  have hp2 : (OptimizePalette (exactOps sqrt) s1 4).pHash = s0.pHash :=
    (OptimizePalette_pHash _ s1 4).trans q2
  have hnc2 : (OptimizePalette (exactOps sqrt) s1 4).numColors = 1 :=
    (OptimizePalette_numColors _ s1 4).trans hnc1
  have hb2 : (OptimizePalette (exactOps sqrt) s1 4).numBitsPerChannel = 8 :=
    ((OptimizePalette_numBits _ s1 4).trans q5).trans (cb.trans rfl)
  have ht2 : (OptimizePalette (exactOps sqrt) s1 4).transparency = true :=
    ((OptimizePalette_transparency _ s1 4).trans q4).trans (ct.trans rfl)
  have ho2 : (OptimizePalette (exactOps sqrt) s1 4).optimized = true :=
    OptimizePalette_optimized _ s1 4
  have havg : ((OptimizePalette (exactOps sqrt) s1 4).node 0).avg = pixColor (exactOps sqrt) c := by
    rw [single_avg _ hI2 hnc2 hE2 (by rw [hh2, hnum]; omega), hh2, hcol]
  have hG : GetPalette (exactOps sqrt) s1 1
      = (paletteBytes c, OptimizePalette (exactOps sqrt) s1 4) := by
    unfold GetPalette
    simp only [hopt1, hnc1, Bool.not_false, if_true, gt_iff_lt, lt_self_iff_false, if_false]
    rw [List.range_succ, List.range_zero, List.nil_append, List.foldl_cons, List.foldl_nil,
      paletteEntry_exact sqrt _ _ 0 c hb2 ht2 havg (by simp)]
    rw [← paletteBytes_eq c]
    rfl
  have hM : ((List.range (n + 1)).foldl (mapPixel (exactOps sqrt) (List.replicate (n + 1) c))
      (OptimizePalette (exactOps sqrt) s1 4, List.replicate (n + 1) 0)).2
      = List.replicate (n + 1) 0 :=
    (mapLoop_single (exactOps sqrt) _ c (n + 1) 0 hnc2 (by rw [hh2, hp2]; exact hw)
      (Or.inl (by rw [hh2]; exact hpal)) (n + 1) (Nat.le_refl _)).1
  refine ⟨by rw [hG], ?_, ?_⟩
  · rw [hG]
    unfold MapImage
    simp only [ho2, Bool.not_true, Bool.false_eq_true, if_false]
    exact hM
  · unfold MapImage
    simp only [hopt1, Bool.not_false, if_true]
    exact hM

end SingleExact

section RoundTrip

variable {K : Type} [LinearOrderedField K] [FloorRing K] (sqrt : K → K)

theorem trunc_byte (x : K) (z : Nat) (hz : z ≤ 255) (h1 : (z : K) ≤ x) (h2 : x < (z : K) + 1) :
    (trunc x % 256).toNat = z := by
  have h0 : (0 : K) ≤ x := le_trans (Nat.cast_nonneg _) h1
  unfold trunc
  rw [if_pos h0]
  have hf : ⌊x⌋ = (z : Int) := by
    rw [Int.floor_eq_iff]
    have : ((z : Int) : K) = (z : K) := by norm_cast
    rw [this]
    exact ⟨h1, h2⟩
  rw [hf]
  omega

/-- `GetPalette(1)` on a state whose node 0 was set by `SetPalette` from the
entry `(100, 100, 100, 128)`. -/
theorem GetPalette_after_SetPalette (s : ExqData K) (hb : s.numBitsPerChannel = 8)
    (ht : s.transparency = true) :
    (SetPalette (exactOps sqrt) s [100, 100, 100, 128] 1).map
        (fun s3 => (GetPalette (exactOps sqrt) s3 1).1) = some [199, 199, 199, 128] := by
  have ha : ((128 : K) / (2559 / 10)) ≠ 0 := by norm_num
  have hd : decide ((128 : K) / (2559 / 10) = 0) = false := by simp
  have v199 : (trunc ((100 : K) / (2559 / 10) / (128 / (2559 / 10)) * (2559 / 10)) % 256).toNat
      = 199 := by
    apply trunc_byte _ 199 (by omega) <;> norm_num
  have g199 : (trunc ((100 : K) * (12 / 10) / (2559 / 10) / (128 / (2559 / 10)) / (12 / 10)
      * (2559 / 10)) % 256).toNat = 199 := by
    apply trunc_byte _ 199 (by omega) <;> norm_num
  have b199 : (trunc ((100 : K) * (8 / 10) / (2559 / 10) / (128 / (2559 / 10)) / (8 / 10)
      * (2559 / 10)) % 256).toNat = 199 := by
    apply trunc_byte _ 199 (by omega) <;> norm_num
  have a128 : (trunc ((128 : K) / (2559 / 10) * (2559 / 10)) % 256).toNat = 128 := by
    apply trunc_byte _ 128 (by omega) <;> norm_num
  unfold SetPalette
  rw [if_neg (by omega)]
  simp only [Option.map_some', Option.some.injEq]
  unfold GetPalette
  simp only [Bool.not_true, Bool.false_eq_true, if_false, gt_iff_lt, lt_self_iff_false]
  rw [List.range_succ, List.range_zero, List.nil_append, List.foldl_cons, List.foldl_nil,
    List.foldl_cons, List.foldl_nil]
  unfold paletteEntry setPaletteEntry readByte
  simp only [hb, ht, range_three, List.foldl_cons, List.foldl_nil, Function.update_same,
    _EXQ_SCALE_R, _EXQ_SCALE_G, _EXQ_SCALE_B, _EXQ_SCALE_A, exactOps_mul, exactOps_div,
    exactOps_ofInt, exactOps_dec, exactOps_eq, exactOps_toUint8, Int.cast_zero, Int.cast_one,
    Int.cast_ofNat, Int.cast_natCast, Nat.cast_ofNat,
    pow_one, Bool.true_and, mul_one, div_one, zero_mul, zero_add,
    List.getElem?_cons_zero, List.getElem?_cons_succ, hd, Bool.not_false, if_true,
    v199, g199, b199, a128]
  decide

end RoundTrip

theorem GetPalette_config (ops : Arith F) (s : ExqData F) (nColors : Nat) :
    (GetPalette ops s nColors).2.numBitsPerChannel = s.numBitsPerChannel ∧
    (GetPalette ops s nColors).2.transparency = s.transparency := by
  unfold GetPalette
  dsimp only
  split <;> simp

theorem fed_quantized_config (ops : Arith F) (pData : List Pixel) (nColors : Int) (hq : Bool) :
    (QuantizeEx ops (Feed ops (ExoQuant.new ops) pData) nColors hq).numBitsPerChannel = 8 ∧
    (QuantizeEx ops (Feed ops (ExoQuant.new ops) pData) nColors hq).transparency = true := by
  obtain ⟨-, -, -, q4, q5⟩ := QuantizeEx_hist_pHash ops (Feed ops (ExoQuant.new ops) pData) nColors hq
  obtain ⟨cb, ct⟩ := Feed_config ops pData (ExoQuant.new ops)
  exact ⟨q5.trans (cb.trans rfl), q4.trans (ct.trans rfl)⟩

/-! ## The split scan of `SumNode` -/

theorem addMoments_n (ops : Arith F) (m : Moments F) (e : ExqHistogramEntry F) :
    (addMoments ops m e).n = m.n + e.num := rfl

section ScanExact

variable {K : Type} [LinearOrderedField K] [FloorRing K] (sqrt : K → K)

theorem splitScan_mono (hist : Nat → ExqHistogramEntry K) (n : Nat) (fsum fsum2 : ExqColor K)
    (l : List Nat) (m : Moments K) (vdif : K) (pS : Option Nat) :
    vdif ≤ (splitScan (exactOps sqrt) hist n fsum fsum2 l m vdif pS).1 := by
  induction l generalizing m vdif pS with
  | nil => exact le_refl _
  | cons a rest ih =>
    unfold splitScan
    dsimp only
    split
    · exact le_refl _
    · split
      · next hlt =>
        simp only [exactOps_lt, exactOps_neg, decide_eq_true_eq] at hlt
        exact le_trans (le_of_lt hlt) (ih _ _ _)
      · exact ih _ _ _

theorem splitScan_ge (hist : Nat → ExqHistogramEntry K) (n : Nat) (fsum fsum2 : ExqColor K)
    (a : Nat) (rest : List Nat) (m : Moments K) (vdif : K) (pS : Option Nat)
    (hn : n ≠ (addMoments (exactOps sqrt) m (hist a)).n) :
    -(splitValue (exactOps sqrt) n fsum fsum2 (addMoments (exactOps sqrt) m (hist a)))
      ≤ (splitScan (exactOps sqrt) hist n fsum fsum2 (a :: rest) m vdif pS).1 := by
  unfold splitScan
  dsimp only
  rw [if_neg hn]
  split
  · exact splitScan_mono sqrt hist n fsum fsum2 rest _ _ _
  · next hlt =>
    simp only [exactOps_lt, exactOps_neg, decide_eq_true_eq, not_lt] at hlt
    exact le_trans hlt (splitScan_mono sqrt hist n fsum fsum2 rest _ _ _)

/-- Where the scan leaves `pSplit`, when the count `n` is reached exactly at
the last member. -/
theorem splitScan_pSplit (hist : Nat → ExqHistogramEntry K) (n : Nat) (fsum fsum2 : ExqColor K)
    (l : List Nat) (m : Moments K) (vdif : K) (pS : Option Nat) (hl : l ≠ [])
    (hsum : m.n + wN hist l = n) (hnum : ∀ x, x ∈ l → 1 ≤ (hist x).num) :
    (pS = none → ∃ y, y ∈ l ∧
      (splitScan (exactOps sqrt) hist n fsum fsum2 l m vdif pS).2 = some y) ∧
    (∀ z, pS = some z →
      (splitScan (exactOps sqrt) hist n fsum fsum2 l m vdif pS).2 = some z ∨
      ∃ y, y ∈ l.tail ∧ (splitScan (exactOps sqrt) hist n fsum fsum2 l m vdif pS).2 = some y) := by
  induction l generalizing m vdif pS with
  | nil => exact absurd rfl hl
  | cons a rest ih =>
    rw [wN_cons] at hsum
    have hrest : n ≠ (addMoments (exactOps sqrt) m (hist a)).n → rest ≠ [] := by
      intro hne hr
      subst hr
      rw [addMoments_n, wN_nil] at *
      omega
    have hsum2 : (addMoments (exactOps sqrt) m (hist a)).n + wN hist rest = n := by
      rw [addMoments_n]; omega
    have hnum2 : ∀ x, x ∈ rest → 1 ≤ (hist x).num := fun x hx => hnum x (List.mem_cons_of_mem _ hx)
    unfold splitScan
    dsimp only
    constructor
    · intro hpS
      subst hpS
      simp only [if_true]
      split
      · exact ⟨a, List.mem_cons_self _ _, rfl⟩
      · next hne =>
        have hr := hrest hne
        split
        · obtain ⟨y, hy, e⟩ := (ih _ _ none hr hsum2 hnum2).1 rfl
          exact ⟨y, List.mem_cons_of_mem _ hy, e⟩
        · rcases (ih _ vdif (some a) hr hsum2 hnum2).2 a rfl with e | ⟨y, hy, e⟩
          · exact ⟨a, List.mem_cons_self _ _, e⟩
          · exact ⟨y, List.mem_cons_of_mem _ (List.mem_of_mem_tail hy), e⟩
    · intro z hpS
      subst hpS
      simp only [reduceCtorEq, if_false]
      split
      · exact Or.inl rfl
      · next hne =>
        have hr := hrest hne
        split
        · obtain ⟨y, hy, e⟩ := (ih _ _ none hr hsum2 hnum2).1 rfl
          exact Or.inr ⟨y, hy, e⟩
        · rcases (ih _ vdif (some z) hr hsum2 hnum2).2 z rfl with e | ⟨y, hy, e⟩
          · exact Or.inl e
          · exact Or.inr ⟨y, List.mem_of_mem_tail hy, e⟩

end ScanExact

section ScanGain

variable {K : Type} [LinearOrderedField K] [FloorRing K] (sqrt : K → K)

theorem splitScan_ge_second (hist : Nat → ExqHistogramEntry K) (n : Nat)
    (fsum fsum2 : ExqColor K) (a b : Nat) (rest : List Nat) (m : Moments K) (vdif : K)
    (pS : Option Nat) (hn : n ≠ (addMoments (exactOps sqrt) m (hist a)).n)
    (hn2 : n ≠ (addMoments (exactOps sqrt) (addMoments (exactOps sqrt) m (hist a)) (hist b)).n) :
    -(splitValue (exactOps sqrt) n fsum fsum2
        (addMoments (exactOps sqrt) (addMoments (exactOps sqrt) m (hist a)) (hist b)))
      ≤ (splitScan (exactOps sqrt) hist n fsum fsum2 (a :: b :: rest) m vdif pS).1 := by
  rw [splitScan]
  dsimp only
  rw [if_neg hn]
  split
  · exact splitScan_ge sqrt hist n fsum fsum2 b rest _ _ _ hn2
  · exact splitScan_ge sqrt hist n fsum fsum2 b rest _ _ _ hn2

theorem chan_gain (N N1 S S1 Q Q1 : K) (h1 : 0 < N1) (h2 : N1 < N) :
    (Q - S * (S / N)) - ((Q1 - S1 * S1 / N1) + ((Q - Q1) - (S - S1) * (S - S1) / (N - N1)))
      = (S1 * N - S * N1) ^ 2 / (N1 * (N - N1) * N) := by
  have h3 : 0 < N - N1 := by linarith
  have h4 : 0 < N := by linarith
  field_simp
  ring

theorem chan_gain_nonneg (N N1 S S1 Q Q1 : K) (h1 : 0 < N1) (h2 : N1 < N) :
    0 ≤ (Q - S * (S / N)) - ((Q1 - S1 * S1 / N1) + ((Q - Q1) - (S - S1) * (S - S1) / (N - N1))) := by
  rw [chan_gain N N1 S S1 Q Q1 h1 h2]
  have h3 : 0 < N - N1 := by linarith
  have h4 : 0 < N := by linarith
  exact div_nonneg (sq_nonneg _) (le_of_lt (mul_pos (mul_pos h1 h3) h4))

theorem chan_gain_zero (N N1 S S1 Q Q1 : K) (h1 : 0 < N1) (h2 : N1 < N)
    (h : (Q - S * (S / N)) - ((Q1 - S1 * S1 / N1) + ((Q - Q1) - (S - S1) * (S - S1) / (N - N1)))
      ≤ 0) : S1 * N = S * N1 := by
  rw [chan_gain N N1 S S1 Q Q1 h1 h2] at h
  have h3 : 0 < N - N1 := by linarith
  have h4 : 0 < N := by linarith
  have hpos : 0 < N1 * (N - N1) * N := mul_pos (mul_pos h1 h3) h4
  have h5 : (S1 * N - S * N1) ^ 2 ≤ 0 := by
    have := (div_le_iff₀ hpos).mp h
    simpa using this
  have h6 : (S1 * N - S * N1) ^ 2 = 0 := le_antisymm h5 (sq_nonneg _)
  have h7 : S1 * N - S * N1 = 0 := by
    rcases sq_eq_zero_iff.mp h6 with h
    exact h
  linarith

theorem addMoments_scanned (hist : Nat → ExqHistogramEntry K) (P : List Nat) (a : Nat) :
    addMoments (exactOps sqrt) (prefixMoments hist P) (hist a) = prefixMoments hist (P ++ [a]) := by
  unfold addMoments prefixMoments
  simp only [exactOps_add, exactOps_mul, exactOps_ofInt, Int.cast_natCast, wN_append, wS_append,
    wN_cons, wS_cons, wN_nil, wS_nil, add_zero, Nat.add_zero]

theorem Moments_zero_scanned (hist : Nat → ExqHistogramEntry K) :
    Moments.zero (exactOps sqrt) = prefixMoments hist [] := by
  unfold Moments.zero prefixMoments ExqColor.new
  simp only [exactOps_ofInt, Int.cast_zero, wN_nil, wS_nil]

/-- If splitting off the prefix `P` does not reduce the variance of the list
`l`, then in every channel the weighted sums of `P` and of `l` are in the
ratio of their counts. -/
theorem gain_zero (hist : Nat → ExqHistogramEntry K) (l P : List Nat)
    (h1 : 0 < wN hist P) (h2 : wN hist P < wN hist l)
    (h : listVar hist l - splitValue (exactOps sqrt) (wN hist l)
        (prefixMoments hist l).sum (prefixMoments hist l).sum2 (prefixMoments hist P) ≤ 0) :
    wS hist (fun c => c.r) P * (wN hist l : K) = wS hist (fun c => c.r) l * (wN hist P : K) ∧
    wS hist (fun c => c.g) P * (wN hist l : K) = wS hist (fun c => c.g) l * (wN hist P : K) ∧
    wS hist (fun c => c.b) P * (wN hist l : K) = wS hist (fun c => c.b) l * (wN hist P : K) ∧
    wS hist (fun c => c.a) P * (wN hist l : K) = wS hist (fun c => c.a) l * (wN hist P : K) := by
  have p1 : (0 : K) < (wN hist P : K) := by exact_mod_cast h1
  have p2 : (wN hist P : K) < (wN hist l : K) := by exact_mod_cast h2
  have hcast : (((wN hist l : Nat) : Int) : K) - (((wN hist P : Nat) : Int) : K)
      = (wN hist l : K) - (wN hist P : K) := by norm_cast
  unfold listVar chanVar splitValue prefixMoments at h
  simp only [exactOps_add, exactOps_sub, exactOps_mul, exactOps_div, exactOps_ofInt,
    Int.cast_natCast, Int.cast_sub] at h
  have key : ∀ (N N1 Sr S1r Qr Q1r Sg S1g Qg Q1g Sb S1b Qb Q1b Sa S1a Qa Q1a : K),
      (Qr - Sr * (Sr / N) + (Qg - Sg * (Sg / N)) + (Qb - Sb * (Sb / N)) + (Qa - Sa * (Sa / N)))
        - (Q1r - S1r * S1r / N1 + (Q1g - S1g * S1g / N1) + (Q1b - S1b * S1b / N1)
          + (Q1a - S1a * S1a / N1) + (Qr - Q1r - (Sr - S1r) * (Sr - S1r) / (N - N1))
          + (Qg - Q1g - (Sg - S1g) * (Sg - S1g) / (N - N1))
          + (Qb - Q1b - (Sb - S1b) * (Sb - S1b) / (N - N1))
          + (Qa - Q1a - (Sa - S1a) * (Sa - S1a) / (N - N1)))
      = ((Qr - Sr * (Sr / N)) - ((Q1r - S1r * S1r / N1)
          + ((Qr - Q1r) - (Sr - S1r) * (Sr - S1r) / (N - N1))))
        + ((Qg - Sg * (Sg / N)) - ((Q1g - S1g * S1g / N1)
          + ((Qg - Q1g) - (Sg - S1g) * (Sg - S1g) / (N - N1))))
        + ((Qb - Sb * (Sb / N)) - ((Q1b - S1b * S1b / N1)
          + ((Qb - Q1b) - (Sb - S1b) * (Sb - S1b) / (N - N1))))
        + ((Qa - Sa * (Sa / N)) - ((Q1a - S1a * S1a / N1)
          + ((Qa - Q1a) - (Sa - S1a) * (Sa - S1a) / (N - N1)))) := by
    intros
    ring
  rw [key] at h
  have gr := chan_gain_nonneg (wN hist l : K) (wN hist P : K) (wS hist (fun c => c.r) l)
    (wS hist (fun c => c.r) P) (wS hist (fun c => c.r * c.r) l)
    (wS hist (fun c => c.r * c.r) P) p1 p2
  have gg := chan_gain_nonneg (wN hist l : K) (wN hist P : K) (wS hist (fun c => c.g) l)
    (wS hist (fun c => c.g) P) (wS hist (fun c => c.g * c.g) l)
    (wS hist (fun c => c.g * c.g) P) p1 p2
  have gb := chan_gain_nonneg (wN hist l : K) (wN hist P : K) (wS hist (fun c => c.b) l)
    (wS hist (fun c => c.b) P) (wS hist (fun c => c.b * c.b) l)
    (wS hist (fun c => c.b * c.b) P) p1 p2
  have ga := chan_gain_nonneg (wN hist l : K) (wN hist P : K) (wS hist (fun c => c.a) l)
    (wS hist (fun c => c.a) P) (wS hist (fun c => c.a * c.a) l)
    (wS hist (fun c => c.a * c.a) P) p1 p2
  have hr := chan_gain_zero (wN hist l : K) (wN hist P : K) (wS hist (fun c => c.r) l)
    (wS hist (fun c => c.r) P) (wS hist (fun c => c.r * c.r) l)
    (wS hist (fun c => c.r * c.r) P) p1 p2
  have hg := chan_gain_zero (wN hist l : K) (wN hist P : K) (wS hist (fun c => c.g) l)
    (wS hist (fun c => c.g) P) (wS hist (fun c => c.g * c.g) l)
    (wS hist (fun c => c.g * c.g) P) p1 p2
  have hb := chan_gain_zero (wN hist l : K) (wN hist P : K) (wS hist (fun c => c.b) l)
    (wS hist (fun c => c.b) P) (wS hist (fun c => c.b * c.b) l)
    (wS hist (fun c => c.b * c.b) P) p1 p2
  have ha := chan_gain_zero (wN hist l : K) (wN hist P : K) (wS hist (fun c => c.a) l)
    (wS hist (fun c => c.a) P) (wS hist (fun c => c.a * c.a) l)
    (wS hist (fun c => c.a * c.a) P) p1 p2
  generalize (wS hist (fun c => c.r * c.r) l - wS hist (fun c => c.r) l
      * (wS hist (fun c => c.r) l / (wN hist l : K)))
    - ((wS hist (fun c => c.r * c.r) P - wS hist (fun c => c.r) P * wS hist (fun c => c.r) P
        / (wN hist P : K))
      + ((wS hist (fun c => c.r * c.r) l - wS hist (fun c => c.r * c.r) P)
        - (wS hist (fun c => c.r) l - wS hist (fun c => c.r) P)
          * (wS hist (fun c => c.r) l - wS hist (fun c => c.r) P)
          / ((wN hist l : K) - (wN hist P : K)))) = tr at h gr hr
  generalize (wS hist (fun c => c.g * c.g) l - wS hist (fun c => c.g) l
      * (wS hist (fun c => c.g) l / (wN hist l : K)))
    - ((wS hist (fun c => c.g * c.g) P - wS hist (fun c => c.g) P * wS hist (fun c => c.g) P
        / (wN hist P : K))
      + ((wS hist (fun c => c.g * c.g) l - wS hist (fun c => c.g * c.g) P)
        - (wS hist (fun c => c.g) l - wS hist (fun c => c.g) P)
          * (wS hist (fun c => c.g) l - wS hist (fun c => c.g) P)
          / ((wN hist l : K) - (wN hist P : K)))) = tg at h gg hg
  generalize (wS hist (fun c => c.b * c.b) l - wS hist (fun c => c.b) l
      * (wS hist (fun c => c.b) l / (wN hist l : K)))
    - ((wS hist (fun c => c.b * c.b) P - wS hist (fun c => c.b) P * wS hist (fun c => c.b) P
        / (wN hist P : K))
      + ((wS hist (fun c => c.b * c.b) l - wS hist (fun c => c.b * c.b) P)
        - (wS hist (fun c => c.b) l - wS hist (fun c => c.b) P)
          * (wS hist (fun c => c.b) l - wS hist (fun c => c.b) P)
          / ((wN hist l : K) - (wN hist P : K)))) = tb at h gb hb
  generalize (wS hist (fun c => c.a * c.a) l - wS hist (fun c => c.a) l
      * (wS hist (fun c => c.a) l / (wN hist l : K)))
    - ((wS hist (fun c => c.a * c.a) P - wS hist (fun c => c.a) P * wS hist (fun c => c.a) P
        / (wN hist P : K))
      + ((wS hist (fun c => c.a * c.a) l - wS hist (fun c => c.a * c.a) P)
        - (wS hist (fun c => c.a) l - wS hist (fun c => c.a) P)
          * (wS hist (fun c => c.a) l - wS hist (fun c => c.a) P)
          / ((wN hist l : K) - (wN hist P : K)))) = ta at h ga ha
  exact ⟨hr (by linarith), hg (by linarith), hb (by linarith), ha (by linarith)⟩

end ScanGain

section SumNodeScan

variable {K : Type} [LinearOrderedField K] [FloorRing K] (sqrt : K → K)

/-- The fields `vdif` and `pSplit` left by `SumNode` for a node with a
non-zero count, in terms of the scan over the sorted member list. -/
theorem SumNode_scan (hist : Nat → ExqHistogramEntry K) (nd : ExqNode K)
    (hN : wN hist nd.pHistogram ≠ 0) :
    ∃ l2, (SumNode (exactOps sqrt) hist nd).pHistogram = l2 ∧ l2.Perm nd.pHistogram ∧
      (SumNode (exactOps sqrt) hist nd).vdif
        = (nodeScan sqrt hist nd.pHistogram l2).1 + listVar hist nd.pHistogram ∧
      (SumNode (exactOps sqrt) hist nd).pSplit
        = (match l2 with
          | [] => (nodeScan sqrt hist nd.pHistogram l2).2
          | pHistogram :: rest =>
            if (nodeScan sqrt hist nd.pHistogram l2).2 = some pHistogram then rest.head?
            else (nodeScan sqrt hist nd.pHistogram l2).2) := by
  have hp := SumNode_perm (exactOps sqrt) hist nd
  revert hp
  unfold SumNode
  rw [nodeMoments_exact]
  simp only [if_neg hN]
  unfold nodeScan listVar chanVar prefixMoments
  simp only [exactOps_add, exactOps_sub, exactOps_mul, exactOps_div, exactOps_ofInt,
    exactOps_neg, Int.cast_natCast]
  intro hp
  exact ⟨_, rfl, hp, rfl, rfl⟩

end SumNodeScan

section SumNodeSep

variable {K : Type} [LinearOrderedField K] [FloorRing K] (sqrt : K → K)

theorem prefixMoments_perm (hist : Nat → ExqHistogramEntry K) {l1 l2 : List Nat}
    (h : l1.Perm l2) : prefixMoments hist l1 = prefixMoments hist l2 := by
  unfold prefixMoments
  rw [wN_perm hist h, wS_perm hist _ h, wS_perm hist _ h, wS_perm hist _ h, wS_perm hist _ h,
    wS_perm hist _ h, wS_perm hist _ h, wS_perm hist _ h, wS_perm hist _ h]

theorem nodeScan_perm (hist : Nat → ExqHistogramEntry K) {l l2 : List Nat} (h : l2.Perm l) :
    nodeScan sqrt hist l l2 = nodeScan sqrt hist l2 l2 := by
  unfold nodeScan
  rw [wN_perm hist h, prefixMoments_perm hist h, listVar_perm hist h]

theorem chan_eq_of_two (c1 c2 n1 n2 N S : K) (h1 : 0 < n1) (h2 : 0 < n2) (hN : 0 < N)
    (e1 : c1 * n1 * N = S * n1) (e2 : (c1 * n1 + c2 * n2) * N = S * (n1 + n2)) : c1 = c2 := by
  have hS : S = c1 * N := by
    have : (c1 * N - S) * n1 = 0 := by linarith
    rcases mul_eq_zero.mp this with h | h
    · linarith
    · exact absurd h (ne_of_gt h1)
  rw [hS] at e2
  have : (c2 - c1) * (n2 * N) = 0 := by linarith
  rcases mul_eq_zero.mp this with h | h
  · linarith
  · exact absurd h (ne_of_gt (mul_pos h2 hN))

/-- The scan over a list of one member. -/
theorem nodeScan_single (hist : Nat → ExqHistogramEntry K) (x : Nat) :
    nodeScan sqrt hist [x] [x] = (-(listVar hist [x]), some x) := by
  unfold nodeScan
  rw [splitScan]
  have : wN hist [x] = (addMoments (exactOps sqrt) (Moments.zero (exactOps sqrt)) (hist x)).n := by
    rw [addMoments_n, wN_cons, wN_nil]
    simp [Moments.zero]
  simp only [List.head?_cons, reduceCtorEq, if_false, if_pos this]

/-- The scan over a list of at least two members with counts at least 1 whose
first two members have different colours: the gain found is positive. -/
theorem nodeScan_pos (hist : Nat → ExqHistogramEntry K) (x1 x2 : Nat) (rest : List Nat)
    (hnum : ∀ x, x ∈ x1 :: x2 :: rest → 1 ≤ (hist x).num)
    (hc : (hist x1).color ≠ (hist x2).color) :
    0 < (nodeScan sqrt hist (x1 :: x2 :: rest) (x1 :: x2 :: rest)).1
      + listVar hist (x1 :: x2 :: rest) := by
  by_contra hle
  rw [not_lt] at hle
  have hn1 : 1 ≤ (hist x1).num := hnum x1 (by simp)
  have hn2 : 1 ≤ (hist x2).num := hnum x2 (by simp)
  have hm1 : addMoments (exactOps sqrt) (Moments.zero (exactOps sqrt)) (hist x1)
      = prefixMoments hist [x1] := by
    rw [Moments_zero_scanned sqrt hist, addMoments_scanned]
    rfl
  have hm2 : addMoments (exactOps sqrt) (prefixMoments hist [x1]) (hist x2)
      = prefixMoments hist [x1, x2] := by
    rw [addMoments_scanned]
    rfl
  have hN : wN hist (x1 :: x2 :: rest) = (hist x1).num + ((hist x2).num + wN hist rest) := by
    rw [wN_cons, wN_cons]
  have hne1 : wN hist (x1 :: x2 :: rest)
      ≠ (addMoments (exactOps sqrt) (Moments.zero (exactOps sqrt)) (hist x1)).n := by
    rw [hm1, hN]
    simp only [prefixMoments, wN_cons, wN_nil]
    omega
  -- the first prefix
  have g1 := splitScan_ge sqrt hist (wN hist (x1 :: x2 :: rest))
    (prefixMoments hist (x1 :: x2 :: rest)).sum (prefixMoments hist (x1 :: x2 :: rest)).sum2
    x1 (x2 :: rest) (Moments.zero (exactOps sqrt)) (-(listVar hist (x1 :: x2 :: rest)))
    (some x1) hne1
  rw [hm1] at g1
  have z1 := gain_zero sqrt hist (x1 :: x2 :: rest) [x1]
    (by simp only [wN_cons, wN_nil]; omega) (by rw [hN]; simp only [wN_cons, wN_nil]; omega)
    (by unfold nodeScan at hle; simp only [List.head?_cons] at hle; linarith)
  -- the second prefix
  have z2 : wS hist (fun c => c.r) [x1, x2] * (wN hist (x1 :: x2 :: rest) : K)
        = wS hist (fun c => c.r) (x1 :: x2 :: rest) * (wN hist [x1, x2] : K) ∧
      wS hist (fun c => c.g) [x1, x2] * (wN hist (x1 :: x2 :: rest) : K)
        = wS hist (fun c => c.g) (x1 :: x2 :: rest) * (wN hist [x1, x2] : K) ∧
      wS hist (fun c => c.b) [x1, x2] * (wN hist (x1 :: x2 :: rest) : K)
        = wS hist (fun c => c.b) (x1 :: x2 :: rest) * (wN hist [x1, x2] : K) ∧
      wS hist (fun c => c.a) [x1, x2] * (wN hist (x1 :: x2 :: rest) : K)
        = wS hist (fun c => c.a) (x1 :: x2 :: rest) * (wN hist [x1, x2] : K) := by
    by_cases hr : rest = []
    · subst hr
      exact ⟨rfl, rfl, rfl, rfl⟩
    · have hrest : 1 ≤ wN hist rest := by
        cases rest with
        | nil => exact absurd rfl hr
        | cons y ys =>
          have := hnum y (by simp)
          rw [wN_cons]
          omega
      have hne2 : wN hist (x1 :: x2 :: rest)
          ≠ (addMoments (exactOps sqrt) (addMoments (exactOps sqrt)
            (Moments.zero (exactOps sqrt)) (hist x1)) (hist x2)).n := by
        rw [hm1, hm2, hN]
        simp only [prefixMoments, wN_cons, wN_nil]
        omega
      have g2 := splitScan_ge_second sqrt hist (wN hist (x1 :: x2 :: rest))
        (prefixMoments hist (x1 :: x2 :: rest)).sum (prefixMoments hist (x1 :: x2 :: rest)).sum2
        x1 x2 rest (Moments.zero (exactOps sqrt)) (-(listVar hist (x1 :: x2 :: rest)))
        (some x1) hne1 hne2
      rw [hm1, hm2] at g2
      exact gain_zero sqrt hist (x1 :: x2 :: rest) [x1, x2]
        (by simp only [wN_cons, wN_nil]; omega) (by rw [hN]; simp only [wN_cons, wN_nil]; omega)
        (by unfold nodeScan at hle; simp only [List.head?_cons] at hle; linarith)
  -- both colours are the mean
  have p1 : (0 : K) < ((hist x1).num : K) := by exact_mod_cast hn1
  have p2 : (0 : K) < ((hist x2).num : K) := by exact_mod_cast hn2
  have pN : (0 : K) < (wN hist (x1 :: x2 :: rest) : K) := by
    have : 0 < wN hist (x1 :: x2 :: rest) := by rw [hN]; omega
    exact_mod_cast this
  simp only [wS_cons, wS_nil, wN_cons, wN_nil, add_zero, Nat.add_zero, Nat.cast_add] at z1 z2
  simp only [wN_cons, Nat.cast_add] at pN
  apply hc
  have er := chan_eq_of_two _ _ _ _ _ _ p1 p2 pN z1.1 z2.1
  have eg := chan_eq_of_two _ _ _ _ _ _ p1 p2 pN z1.2.1 z2.2.1
  have eb := chan_eq_of_two _ _ _ _ _ _ p1 p2 pN z1.2.2.1 z2.2.2.1
  have ea := chan_eq_of_two _ _ _ _ _ _ p1 p2 pN z1.2.2.2 z2.2.2.2
  cases h1 : (hist x1).color
  cases h2 : (hist x2).color
  rw [h1] at er eg eb ea
  rw [h2] at er eg eb ea
  simp only at er eg eb ea
  rw [er, eg, eb, ea]

end SumNodeSep

/-! ## Splits when different entries hold different colours -/

section SepSplit

variable {K : Type} [LinearOrderedField K] [FloorRing K] (sqrt : K → K)

/-- The fields `vdif` and `pSplit` left by `SumNode` on a node whose members
are pairwise different entries with different colours. -/
theorem SumNode_sep (hist : Nat → ExqHistogramEntry K) (nd : ExqNode K)
    (hnd : nd.pHistogram.Nodup)
    (hnum : ∀ x, x ∈ nd.pHistogram → 1 ≤ (hist x).num)
    (hcol : ∀ x, x ∈ nd.pHistogram → ∀ y, y ∈ nd.pHistogram →
      (hist x).color = (hist y).color → x = y) :
    ((SumNode (exactOps sqrt) hist nd).pHistogram.length ≤ 1 →
      (SumNode (exactOps sqrt) hist nd).vdif = 0) ∧
    (2 ≤ (SumNode (exactOps sqrt) hist nd).pHistogram.length →
      0 < (SumNode (exactOps sqrt) hist nd).vdif ∧
      ∃ y, (SumNode (exactOps sqrt) hist nd).pSplit = some y ∧
        y ∈ (SumNode (exactOps sqrt) hist nd).pHistogram.tail) := by
  by_cases hN : wN hist nd.pHistogram = 0
  · have he : nd.pHistogram = [] := by
      cases hl : nd.pHistogram with
      | nil => rfl
      | cons x t =>
        have := hnum x (by rw [hl]; simp)
        rw [hl, wN_cons] at hN
        omega
    constructor
    · intro _
      unfold SumNode
      rw [nodeMoments_exact]
      simp only [if_pos hN]
      simp
    · intro h2
      have := (SumNode_perm (exactOps sqrt) hist nd).length_eq
      rw [he] at this
      simp only [List.length_nil] at this
      omega
  · obtain ⟨l2, hl2, hp, hv, hs⟩ := SumNode_scan sqrt hist nd hN
    rw [nodeScan_perm sqrt hist hp] at hv hs
    rw [← listVar_perm hist hp] at hv
    rw [hl2, hv, hs]
    have hnd2 : l2.Nodup := hp.nodup_iff.mpr hnd
    have hnum2 : ∀ x, x ∈ l2 → 1 ≤ (hist x).num := fun x hx => hnum x (hp.subset hx)
    have hcol2 : ∀ x, x ∈ l2 → ∀ y, y ∈ l2 → (hist x).color = (hist y).color → x = y :=
      fun x hx y hy => hcol x (hp.subset hx) y (hp.subset hy)
    clear hv hs hl2
    cases l2 with
    | nil =>
      have := wN_perm hist hp
      rw [wN_nil] at this
      exact absurd this.symm hN
    | cons x1 t =>
      cases t with
      | nil =>
        constructor
        · intro _
          rw [nodeScan_single]
          simp
        · intro h
          simp at h
      | cons x2 rest =>
        have hx12 : x1 ≠ x2 := by
          intro h
          rw [h] at hnd2
          simp at hnd2
        constructor
        · intro h
          simp at h
        · intro _
          constructor
          · apply nodeScan_pos sqrt hist x1 x2 rest hnum2
            intro hc
            exact hx12 (hcol2 x1 (by simp) x2 (by simp) hc)
          · have hps := (splitScan_pSplit sqrt hist (wN hist (x1 :: x2 :: rest))
              (prefixMoments hist (x1 :: x2 :: rest)).sum
              (prefixMoments hist (x1 :: x2 :: rest)).sum2 (x1 :: x2 :: rest)
              (Moments.zero (exactOps sqrt)) (-(listVar hist (x1 :: x2 :: rest))) (some x1)
              (by simp) (by simp [Moments.zero]) hnum2).2 x1 rfl
            have hscan : nodeScan sqrt hist (x1 :: x2 :: rest) (x1 :: x2 :: rest)
                = splitScan (exactOps sqrt) hist (wN hist (x1 :: x2 :: rest))
                  (prefixMoments hist (x1 :: x2 :: rest)).sum
                  (prefixMoments hist (x1 :: x2 :: rest)).sum2 (x1 :: x2 :: rest)
                  (Moments.zero (exactOps sqrt)) (-(listVar hist (x1 :: x2 :: rest)))
                  (some x1) := rfl
            rw [← hscan] at hps
            rcases hps with h1 | ⟨y, hy, h1⟩
            · refine ⟨x2, ?_, by simp⟩
              simp only [h1, if_true, List.head?_cons]
            · refine ⟨y, ?_, hy⟩
              have hyx : y ≠ x1 := by
                intro h
                rw [h] at hy
                simp only [List.tail_cons] at hy
                exact (List.nodup_cons.mp hnd2).1 hy
              rw [h1]
              show (if some y = some x1 then (x2 :: rest).head? else some y) = some y
              rw [if_neg]
              intro h
              exact hyx (Option.some.inj h)

theorem bestStep_exact (node : Nat → ExqNode K) (st : K × Nat) (j : Nat) :
    bestStep (exactOps sqrt) node st j
      = if st.1 ≤ (node j).vdif then ((node j).vdif, j) else st := by
  unfold bestStep
  simp only [exactOps_le, decide_eq_true_eq]

theorem foldl_best_exact (node : Nat → ExqNode K) (L : List Nat) (st : K × Nat) :
    st.1 ≤ (L.foldl (bestStep (exactOps sqrt) node) st).1 ∧
    (∀ i, i ∈ L → (node i).vdif ≤ (L.foldl (bestStep (exactOps sqrt) node) st).1) ∧
    (L.foldl (bestStep (exactOps sqrt) node) st = st ∨
      ((L.foldl (bestStep (exactOps sqrt) node) st).2 ∈ L ∧
        (L.foldl (bestStep (exactOps sqrt) node) st).1
          = (node (L.foldl (bestStep (exactOps sqrt) node) st).2).vdif)) := by
  induction L generalizing st with
  | nil => exact ⟨le_refl _, fun i hi => absurd hi (List.not_mem_nil _), Or.inl rfl⟩
  | cons a L ih =>
    rw [List.foldl_cons]
    obtain ⟨h1, h2, h3⟩ := ih (bestStep (exactOps sqrt) node st a)
    have hstep : st.1 ≤ (bestStep (exactOps sqrt) node st a).1 ∧
        (node a).vdif ≤ (bestStep (exactOps sqrt) node st a).1 := by
      rw [bestStep_exact]
      split
      · next hle => exact ⟨hle, le_refl _⟩
      · next hle => exact ⟨le_refl _, le_of_lt (not_le.mp hle)⟩
    refine ⟨le_trans hstep.1 h1, ?_, ?_⟩
    · intro i hi
      rcases List.mem_cons.mp hi with rfl | hi
      · exact le_trans hstep.2 h1
      · exact h2 i hi
    · rcases h3 with h3 | ⟨h3, h4⟩
      · rw [h3, bestStep_exact]
        split
        · exact Or.inr ⟨List.mem_cons_self _ _, rfl⟩
        · exact Or.inl rfl
      · exact Or.inr ⟨List.mem_cons_of_mem _ h3, h4⟩

/-- The node chosen for a split has a positive gain as soon as one node has. -/
theorem bestIndex_pos (node : Nat → ExqNode K) (i j : Nat) (hj : j < i)
    (hv : 0 < (node j).vdif) :
    bestIndex (exactOps sqrt) node i < i ∧ 0 < (node (bestIndex (exactOps sqrt) node i)).vdif := by
  unfold bestIndex
  obtain ⟨-, h2, h3⟩ := foldl_best_exact sqrt node (List.range i) ((exactOps sqrt).ofInt 0, 0)
  have hpos := lt_of_lt_of_le hv (h2 j (List.mem_range.mpr hj))
  rcases h3 with h3 | ⟨h3, h4⟩
  · rw [h3] at hpos
    simp at hpos
  · exact ⟨List.mem_range.mp h3, by rw [← h4]; exact hpos⟩

end SepSplit

theorem moveUntil_dst (p : Option Nat) (l dst : List Nat) (h : dst ≠ []) :
    (moveUntil p l dst).2 ≠ [] := by
  induction l generalizing dst with
  | nil => exact h
  | cons a l ih =>
    unfold moveUntil
    split
    · exact h
    · exact ih _ (by simp)

theorem moveUntil_src (y : Nat) (l dst : List Nat) (h : y ∈ l) :
    (moveUntil (some y) l dst).1 ≠ [] := by
  induction l generalizing dst with
  | nil => exact absurd h (List.not_mem_nil _)
  | cons a l ih =>
    unfold moveUntil
    split
    · simp
    · next hne =>
      rcases List.mem_cons.mp h with rfl | h
      · exact absurd rfl hne
      · exact ih _ h

/-- A split at a point after the first member leaves two non-empty lists. -/
theorem moveUntil_two (y : Nat) (l : List Nat) (hy : y ∈ l.tail) (hn : l.Nodup) :
    (moveUntil (some y) l []).1 ≠ [] ∧ (moveUntil (some y) l []).2 ≠ [] := by
  cases l with
  | nil => exact absurd hy (List.not_mem_nil _)
  | cons x t =>
    simp only [List.tail_cons] at hy
    have hxy : ¬ some x = some y := by
      intro h
      have := Option.some.inj h
      rw [this] at hn
      exact (List.nodup_cons.mp hn).1 hy
    refine ⟨moveUntil_src y _ _ (List.mem_cons_of_mem _ hy), ?_⟩
    unfold moveUntil
    rw [if_neg hxy]
    exact moveUntil_dst _ _ _ (by simp)

theorem flatMap_length_le (f : Nat → List Nat) (n : Nat) (h : ∀ i, i < n → (f i).length ≤ 1) :
    ((List.range n).flatMap f).length ≤ n := by
  induction n with
  | zero => simp
  | succ n ih =>
    rw [List.range_succ, List.flatMap_append, List.length_append]
    have := ih (fun i hi => h i (by omega))
    have := h n (by omega)
    simp only [List.flatMap_cons, List.flatMap_nil, List.append_nil]
    omega

theorem exists_long (f : Nat → List Nat) (n : Nat) (h : n < ((List.range n).flatMap f).length) :
    ∃ i, i < n ∧ 2 ≤ (f i).length := by
  by_contra hc
  have := flatMap_length_le f n (fun i hi => by
    by_contra h2
    exact hc ⟨i, hi, by omega⟩)
  omega

theorem flatMap_length_ge (f : Nat → List Nat) (n : Nat) (h : ∀ i, i < n → f i ≠ []) :
    n ≤ ((List.range n).flatMap f).length ∧
    (((List.range n).flatMap f).length ≤ n → ∀ i, i < n → (f i).length = 1) := by
  induction n with
  | zero => exact ⟨Nat.zero_le _, fun _ i hi => absurd hi (Nat.not_lt_zero _)⟩
  | succ n ih =>
    rw [List.range_succ, List.flatMap_append, List.length_append]
    obtain ⟨h1, h2⟩ := ih (fun i hi => h i (by omega))
    have h3 : 1 ≤ (f n).length := by
      have := h n (by omega)
      cases hf : f n with
      | nil => exact absurd hf this
      | cons a t => simp
    simp only [List.flatMap_cons, List.flatMap_nil, List.append_nil]
    refine ⟨by omega, ?_⟩
    intro hle i hi
    by_cases hin : i = n
    · subst hin
      omega
    · exact h2 (by omega) i (by omega)

/-! ## The nodes during the splits of distinct colours -/

section SplitInvariant

variable {K : Type} [LinearOrderedField K] [FloorRing K] (sqrt : K → K)

theorem Sep_congr (s t : ExqData K) (hh : t.hist = s.hist) (hp : t.pHash = s.pHash)
    (h : Sep s) : Sep t := by
  have hE := hashEntries_congr s t hp
  refine ⟨?_, ?_, ?_⟩
  · rw [hE]; exact h.nodup
  · rw [hE, hh]; exact h.num_pos
  · rw [hE, hh]; exact h.col_inj

/-- The member list of an active node has no repetition and holds entries of
the hash table. -/
theorem NodeInv.list_facts {s : ExqData K} (hI : NodeInv s) (hS : Sep s) (i : Nat)
    (hi : i < s.numColors) :
    (s.node i).pHistogram.Nodup ∧ ∀ x, x ∈ (s.node i).pHistogram → x ∈ hashEntries s := by
  have hnd : ((List.range s.numColors).flatMap (fun i => (s.node i).pHistogram)).Nodup :=
    hI.members.nodup_iff.mpr hS.nodup
  refine ⟨(List.nodup_flatMap.mp hnd).1 i (List.mem_range.mpr hi), ?_⟩
  intro x hx
  exact hI.members.subset (List.mem_flatMap.mpr ⟨i, List.mem_range.mpr hi, hx⟩)

/-- Two active nodes with a common member are the same node. -/
theorem NodeInv.list_disjoint {s : ExqData K} (hI : NodeInv s) (hS : Sep s) (i j x : Nat)
    (hi : i < s.numColors) (hj : j < s.numColors)
    (hxi : x ∈ (s.node i).pHistogram) (hxj : x ∈ (s.node j).pHistogram) : i = j := by
  have hnd : ((List.range s.numColors).flatMap (fun i => (s.node i).pHistogram)).Nodup :=
    hI.members.nodup_iff.mpr hS.nodup
  have hp := (List.nodup_flatMap.mp hnd).2
  by_contra hne
  have hsym : Symmetric (Function.onFun List.Disjoint (fun i => (s.node i).pHistogram)) := by
    intro a b hab
    exact List.Disjoint.symm hab
  have := hp.forall hsym (List.mem_range.mpr hi) (List.mem_range.mpr hj) hne
  exact this hxi hxj

/-- The three facts of the split invariant for a node just summed. -/
theorem SumNode_split_facts (hist : Nat → ExqHistogramEntry K) (nd : ExqNode K)
    (hne : nd.pHistogram ≠ []) (hnd : nd.pHistogram.Nodup)
    (hnum : ∀ x, x ∈ nd.pHistogram → 1 ≤ (hist x).num)
    (hcol : ∀ x, x ∈ nd.pHistogram → ∀ y, y ∈ nd.pHistogram →
      (hist x).color = (hist y).color → x = y) :
    (SumNode (exactOps sqrt) hist nd).pHistogram ≠ [] ∧
    ((SumNode (exactOps sqrt) hist nd).pHistogram.length ≤ 1 →
      (SumNode (exactOps sqrt) hist nd).vdif = 0) ∧
    (2 ≤ (SumNode (exactOps sqrt) hist nd).pHistogram.length →
      0 < (SumNode (exactOps sqrt) hist nd).vdif ∧
      ∃ y, (SumNode (exactOps sqrt) hist nd).pSplit = some y ∧
        y ∈ (SumNode (exactOps sqrt) hist nd).pHistogram.tail) := by
  obtain ⟨h1, h2⟩ := SumNode_sep sqrt hist nd hnd hnum hcol
  refine ⟨?_, h1, h2⟩
  intro he
  have := (SumNode_perm (exactOps sqrt) hist nd).length_eq
  rw [he] at this
  exact hne (List.length_eq_zero.mp this.symm)

theorem SplitInv_seedNode (s : ExqData K) (hS : Sep s) (hE : hashEntries s ≠ []) :
    SplitInv (seedNode (exactOps sqrt) s) := by
  obtain ⟨e1, -⟩ := seedNode_node (exactOps sqrt) s
  have hnc : (seedNode (exactOps sqrt) s).numColors = 1 := rfl
  have hf := SumNode_split_facts sqrt s.hist
    { s.node 0 with pHistogram := (hashEntries s).reverse }
    (by simpa using hE) (List.nodup_reverse.mpr hS.nodup)
    (fun x hx => hS.num_pos x (List.mem_reverse.mp hx))
    (fun x hx y hy => hS.col_inj x (List.mem_reverse.mp hx) y (List.mem_reverse.mp hy))
  rw [← e1] at hf
  refine ⟨?_, ?_, ?_⟩
  · intro i hi
    rw [hnc] at hi
    have : i = 0 := by omega
    subst this
    exact hf.1
  · intro i hi
    rw [hnc] at hi
    have : i = 0 := by omega
    subst this
    exact hf.2.1
  · intro i hi
    rw [hnc] at hi
    have : i = 0 := by omega
    subst this
    exact hf.2.2

/-- A split step keeps the split invariant as long as there are more entries
than active nodes. -/
theorem SplitInv_splitStep (s : ExqData K) (hI : NodeInv s) (hS : Sep s) (hV : SplitInv s)
    (hlt : s.numColors < (hashEntries s).length) :
    SplitInv (splitStep (exactOps sqrt) false s s.numColors) := by
  -- a node of two members exists, so the chosen node has a positive gain
  have hlen : s.numColors
      < ((List.range s.numColors).flatMap (fun i => (s.node i).pHistogram)).length := by
    rw [hI.members.length_eq]
    exact hlt
  obtain ⟨j, hj, hj2⟩ := exists_long (fun i => (s.node i).pHistogram) s.numColors hlen
  obtain ⟨hb, hbv⟩ := bestIndex_pos sqrt s.node s.numColors j hj (hV.split j hj hj2).1
  obtain ⟨e1, e2, e3⟩ := splitStep_node (exactOps sqrt) s s.numColors (by omega)
  have hmv := moveUntil_spec (s.node (bestIndex (exactOps sqrt) s.node s.numColors)).pSplit
    (s.node (bestIndex (exactOps sqrt) s.node s.numColors)).pHistogram []
  generalize bestIndex (exactOps sqrt) s.node s.numColors = b at hb hbv e1 e2 e3 hmv
  have hb2 : 2 ≤ (s.node b).pHistogram.length := by
    by_contra hc
    have := hV.flat b hb (by omega)
    rw [this] at hbv
    exact lt_irrefl _ hbv
  obtain ⟨-, y, hy, hyt⟩ := hV.split b hb hb2
  obtain ⟨hnd, hmem⟩ := hI.list_facts hS b hb
  rw [hy] at hmv e1 e2
  obtain ⟨m1, m2⟩ := moveUntil_two y (s.node b).pHistogram hyt hnd
  simp only [List.reverse_nil, List.nil_append] at hmv
  have hsub1 : ∀ x, x ∈ (moveUntil (some y) (s.node b).pHistogram []).1 →
      x ∈ (s.node b).pHistogram := by
    intro x hx
    rw [← hmv]
    exact List.mem_append_right _ hx
  have hsub2 : ∀ x, x ∈ (moveUntil (some y) (s.node b).pHistogram []).2 →
      x ∈ (s.node b).pHistogram := by
    intro x hx
    rw [← hmv]
    exact List.mem_append_left _ (List.mem_reverse.mpr hx)
  have hnd12 := hnd
  rw [← hmv] at hnd12
  have hnd1 : (moveUntil (some y) (s.node b).pHistogram []).1.Nodup := hnd12.of_append_right
  have hnd2 : (moveUntil (some y) (s.node b).pHistogram []).2.Nodup :=
    List.nodup_reverse.mp hnd12.of_append_left
  have f1 := SumNode_split_facts sqrt s.hist
    { s.node b with pHistogram := (moveUntil (some y) (s.node b).pHistogram []).1.reverse }
    (by simpa using m1) (List.nodup_reverse.mpr hnd1)
    (fun x hx => hS.num_pos x (hmem x (hsub1 x (List.mem_reverse.mp hx))))
    (fun x hx z hz => hS.col_inj x (hmem x (hsub1 x (List.mem_reverse.mp hx)))
      z (hmem z (hsub1 z (List.mem_reverse.mp hz))))
  have f2 := SumNode_split_facts sqrt s.hist
    { s.node s.numColors with pHistogram := (moveUntil (some y) (s.node b).pHistogram []).2 }
    m2 hnd2
    (fun x hx => hS.num_pos x (hmem x (hsub2 x hx)))
    (fun x hx z hz => hS.col_inj x (hmem x (hsub2 x hx)) z (hmem z (hsub2 z hz)))
  rw [← e1] at f1
  rw [← e2] at f2
  refine ⟨?_, ?_, ?_⟩
  · intro k hk
    rw [splitStep_numColors] at hk
    by_cases hkb : k = b
    · rw [hkb]; exact f1.1
    · by_cases hki : k = s.numColors
      · rw [hki]; exact f2.1
      · rw [e3 k hkb hki]; exact hV.nonempty k (by omega)
  · intro k hk
    rw [splitStep_numColors] at hk
    by_cases hkb : k = b
    · rw [hkb]; exact f1.2.1
    · by_cases hki : k = s.numColors
      · rw [hki]; exact f2.2.1
      · rw [e3 k hkb hki]; exact hV.flat k (by omega)
  · intro k hk
    rw [splitStep_numColors] at hk
    by_cases hkb : k = b
    · rw [hkb]; exact f1.2.2
    · by_cases hki : k = s.numColors
      · rw [hki]; exact f2.2.2
      · rw [e3 k hkb hki]; exact hV.split k (by omega)

theorem SplitInv_splitLoop (len : Nat) (s : ExqData K) (hI : NodeInv s) (hS : Sep s)
    (hV : SplitInv s) (hlen : s.numColors + len ≤ (hashEntries s).length) :
    SplitInv ((List.range' s.numColors len).foldl (splitStep (exactOps sqrt) false) s) := by
  induction len generalizing s with
  | zero => exact hV
  | succ len ih =>
    rw [List.range'_succ, List.foldl_cons]
    have hf := splitStep_fields (exactOps sqrt) s s.numColors
    have hE := hashEntries_congr s (splitStep (exactOps sqrt) false s s.numColors) hf.2.2.1
    have := ih (splitStep (exactOps sqrt) false s s.numColors)
      (NodeInv_splitStep_false (exactOps sqrt) s hI)
      (Sep_congr s _ hf.1 hf.2.2.1 hS)
      (SplitInv_splitStep sqrt s hI hS hV (by omega))
      (by rw [hE, splitStep_numColors]; omega)
    rw [splitStep_numColors] at this
    exact this

end SplitInvariant

/-! ## One member per node -/

section OneMember

variable {K : Type} [LinearOrderedField K] [FloorRing K] (sqrt : K → K)

theorem meanOf_single (hist : Nat → ExqHistogramEntry K) (x : Nat) (h : (hist x).num ≠ 0) :
    meanOf hist [x] = (hist x).color := by
  have hK : ((hist x).num : K) ≠ 0 := by exact_mod_cast h
  unfold meanOf
  simp only [wS, wN, List.map_cons, List.map_nil, List.sum_cons, List.sum_nil, add_zero,
    Nat.add_zero, mul_div_cancel_right₀ _ hK]

theorem dist2_self (c : ExqColor K) : dist2 c c = 0 := by
  unfold dist2
  ring

theorem dist2_eq_zero (x c : ExqColor K) (h : dist2 x c = 0) : c = x := by
  unfold dist2 at h
  have h1 := mul_self_nonneg (x.r - c.r)
  have h2 := mul_self_nonneg (x.g - c.g)
  have h3 := mul_self_nonneg (x.b - c.b)
  have h4 := mul_self_nonneg (x.a - c.a)
  have e1 : (x.r - c.r) * (x.r - c.r) = 0 := by linarith
  have e2 : (x.g - c.g) * (x.g - c.g) = 0 := by linarith
  have e3 : (x.b - c.b) * (x.b - c.b) = 0 := by linarith
  have e4 : (x.a - c.a) * (x.a - c.a) = 0 := by linarith
  have r1 := mul_self_eq_zero.mp e1
  have r2 := mul_self_eq_zero.mp e2
  have r3 := mul_self_eq_zero.mp e3
  have r4 := mul_self_eq_zero.mp e4
  cases x
  cases c
  simp only at r1 r2 r3 r4
  simp only [ExqColor.mk.injEq]
  exact ⟨by linarith, by linarith, by linarith, by linarith⟩

theorem eq_singleton_of_nodup (l : List Nat) (a : Nat) (hn : l.Nodup)
    (h : ∀ x, x ∈ l ↔ x = a) : l = [a] := by
  apply List.perm_singleton.mp
  apply (List.perm_ext_iff_of_nodup hn (List.nodup_singleton a)).mpr
  intro x
  rw [h x, List.mem_singleton]

/-- When as many nodes are active as there are entries, the split invariant
leaves one entry in each node. -/
theorem OneEach_of_split (s : ExqData K) (hX : ExactInv s) (hS : Sep s) (hV : SplitInv s)
    (hn : s.numColors = (hashEntries s).length) : OneEach s := by
  have hI := hX.nodes
  have hlen := (flatMap_length_ge (fun i => (s.node i).pHistogram) s.numColors hV.nonempty).2
    (by rw [hI.members.length_eq, hn])
  constructor
  intro i hi
  obtain ⟨x, hx⟩ := List.length_eq_one.mp (hlen i hi)
  refine ⟨x, hx, ?_⟩
  have hxE : x ∈ hashEntries s := (hI.list_facts hS i hi).2 x (by rw [hx]; simp)
  have hnum := hS.num_pos x hxE
  rw [hX.avg_eq i hi (by rw [hx, wN_cons, wN_nil]; omega), hx]
  exact meanOf_single s.hist x (by omega)

/-- With one entry per node and pairwise different colours, the relaxation
gives every entry back to its own node. -/
theorem assign_own (s : ExqData K) (hI : NodeInv s) (hS : Sep s) (hO : OneEach s)
    (i x : Nat) (hi : i < s.numColors) (hx : (s.node i).pHistogram = [x]) :
    assign (exactOps sqrt) s x = i := by
  obtain ⟨x2, hx2, hav⟩ := hO.single i hi
  rw [hx] at hx2
  have hxx : x2 = x := by simpa using hx2.symm
  subst hxx
  have ha : FindNearestColor (exactOps sqrt) s (s.hist x2).color < s.numColors :=
    FindNearestColor_lt (exactOps sqrt) s _ hI.pos
  have hle := FindNearestColor_le sqrt s (s.hist x2).color i hi
    (by rw [hav, dist2_self]; norm_num) i hi
  rw [hav, dist2_self] at hle
  have hz : dist2 (s.hist x2).color
      (s.node (FindNearestColor (exactOps sqrt) s (s.hist x2).color)).avg = 0 :=
    le_antisymm hle (dist2_nonneg _ _)
  have hc := dist2_eq_zero _ _ hz
  unfold assign
  generalize FindNearestColor (exactOps sqrt) s (s.hist x2).color = a at ha hc
  obtain ⟨xa, hxa, hava⟩ := hO.single a ha
  rw [hava] at hc
  have m1 : xa ∈ hashEntries s := (hI.list_facts hS a ha).2 xa (by rw [hxa]; simp)
  have m2 : x2 ∈ hashEntries s := (hI.list_facts hS i hi).2 x2 (by rw [hx]; simp)
  have hxe := hS.col_inj xa m1 x2 m2 hc
  exact hI.list_disjoint hS a i x2 ha hi (by rw [hxa, hxe]; simp) (by rw [hx]; simp)

theorem OneEach_optimizePass (s : ExqData K) (hI : NodeInv s) (hS : Sep s) (hO : OneEach s) :
    OneEach (optimizePass (exactOps sqrt) s) := by
  constructor
  intro j hj
  rw [optimizePass_numColors] at hj
  obtain ⟨x, hx, -⟩ := hO.single j hj
  have hxE : x ∈ hashEntries s := (hI.list_facts hS j hj).2 x (by rw [hx]; simp)
  have hmem : ∀ z, z ∈ assigned (exactOps sqrt) s j ↔ z = x := by
    intro z
    rw [mem_assigned]
    constructor
    · rintro ⟨hz, ha⟩
      obtain ⟨i, hi, hzi⟩ := List.mem_flatMap.mp (hI.members.symm.subset hz)
      have hi2 := List.mem_range.mp hi
      obtain ⟨xi, hxi, -⟩ := hO.single i hi2
      rw [hxi] at hzi
      have hzx : z = xi := by simpa using hzi
      rw [← hzx] at hxi
      have := assign_own sqrt s hI hS hO i z hi2 hxi
      rw [ha] at this
      rw [this, hxi] at hx
      simpa using hx
    · intro hz
      rw [hz]
      exact ⟨hxE, assign_own sqrt s hI hS hO j x hj hx⟩
  have hnd : (assigned (exactOps sqrt) s j).Nodup := by
    unfold assigned
    exact List.nodup_reverse.mpr (hS.nodup.filter _)
  have hone := eq_singleton_of_nodup _ x hnd hmem
  refine ⟨x, ?_, ?_⟩
  · rw [optimizePass_node (exactOps sqrt) s j hj]
    have := SumNode_perm (exactOps sqrt) s.hist
      { s.node j with pHistogram := assigned (exactOps sqrt) s j }
    rw [hone] at this ⊢
    exact List.perm_singleton.mp this
  · rw [optimizePass_node (exactOps sqrt) s j hj, SumNode_avg, hone]
    have hnum := hS.num_pos x hxE
    rw [if_neg (by rw [wN_cons, wN_nil]; omega)]
    exact meanOf_single s.hist x (by omega)

theorem OneEach_iterate (k : Nat) (s : ExqData K) (hI : NodeInv s) (hS : Sep s)
    (hO : OneEach s) : OneEach ((optimizePass (exactOps sqrt))^[k] s) := by
  induction k generalizing s with
  | zero => exact hO
  | succ k ih =>
    rw [Function.iterate_succ_apply]
    exact ih _ (NodeInv_optimizePass (exactOps sqrt) s hI.pos)
      (Sep_congr s _ rfl (optimizePass_pHash _ s) hS) (OneEach_optimizePass sqrt s hI hS hO)

theorem OneEach_OptimizePalette (k : Nat) (s : ExqData K) (hI : NodeInv s) (hS : Sep s)
    (hO : OneEach s) : OneEach (OptimizePalette (exactOps sqrt) s k) := by
  unfold OptimizePalette
  exact OneEach_iterate sqrt k _ (NodeInv_optimized s true hI) (Sep_congr s _ rfl rfl hS)
    ⟨hO.single⟩

end OneMember

/-! ## A palette of as many colours as the image has -/

section Distinct

variable {K : Type} [LinearOrderedField K] [FloorRing K] (sqrt : K → K)

/-- Pixels that are not fully transparent and differ in a byte have different
colours in the weighted-normalised space. -/
theorem pixColor_inj (p q : Pixel) (hp : p.a.val ≠ 0)
    (h : pixColor (exactOps sqrt) p = pixColor (exactOps sqrt) q) : p = q := by
  rw [pixColor_exact, pixColor_exact] at h
  simp only [ExqColor.mk.injEq] at h
  obtain ⟨h1, h2, h3, h4⟩ := h
  rw [← h4] at h1 h2 h3
  have hA : (p.a.val : K) / 255 * 1 ≠ 0 := by
    have : (p.a.val : K) ≠ 0 := by exact_mod_cast hp
    simp [this]
  have r1 := mul_right_cancel₀ hA h1
  have r2 := mul_right_cancel₀ hA h2
  have r3 := mul_right_cancel₀ hA h3
  have er : (p.r.val : K) = (q.r.val : K) := by linarith
  have eg : (p.g.val : K) = (q.g.val : K) := by linarith
  have eb : (p.b.val : K) = (q.b.val : K) := by linarith
  have ea : (p.a.val : K) = (q.a.val : K) := by linarith
  have er2 : p.r.val = q.r.val := by exact_mod_cast er
  have eg2 : p.g.val = q.g.val := by exact_mod_cast eg
  have eb2 : p.b.val = q.b.val := by exact_mod_cast eb
  have ea2 : p.a.val = q.a.val := by exact_mod_cast ea
  cases p
  cases q
  simp only [Pixel.mk.injEq]
  exact ⟨Fin.ext er2, Fin.ext eg2, Fin.ext eb2, Fin.ext ea2⟩

/-- After pixels that are not fully transparent were fed to a fresh quantizer,
the entries have counts of at least 1 and pairwise different colours. -/
theorem Sep_Feed (px : List Pixel) (ha : ∀ p, p ∈ px → p.a.val ≠ 0) :
    Sep (Feed (exactOps sqrt) (ExoQuant.new (exactOps sqrt)) px) := by
  have hH : HistInv (Feed (exactOps sqrt) (ExoQuant.new (exactOps sqrt)) px) px := by
    simpa using HistInv_Feed (exactOps sqrt) px _ [] (HistInv_new _)
  have hC := ColorInv_Feed (exactOps sqrt) px _ (ColorInv_new (exactOps sqrt))
  generalize Feed (exactOps sqrt) (ExoQuant.new (exactOps sqrt)) px = s at hH hC
  have hlt : ∀ x, x ∈ hashEntries s → x < s.nHist :=
    fun x hx => List.mem_range.mp (hH.entries.subset hx)
  refine ⟨hH.entries.nodup_iff.mpr (List.nodup_range _), ?_, ?_⟩
  · intro x hx
    rw [hH.num_eq x (hlt x hx)]
    exact List.count_pos_iff.mpr (hH.fed_mem x (hlt x hx))
  · intro x hx y hy hc
    rw [hC.2.2 x (hlt x hx), hC.2.2 y (hlt y hy)] at hc
    exact hH.inj x y (hlt x hx) (hlt y hy)
      (pixColor_inj sqrt _ _ (ha _ (hH.fed_mem x (hlt x hx))) hc)

theorem SplitInv_optimized (s : ExqData K) (b : Bool) (h : SplitInv s) :
    SplitInv { s with optimized := b } :=
  ⟨h.nonempty, h.flat, h.split⟩

/-- The first `Quantize(n)` on a histogram of at least `n` entries with
pairwise different colours leaves the split invariant. -/
theorem SplitInv_QuantizeEx (s : ExqData K) (h0 : s.numColors = 0) (hS : Sep s) (n : Nat)
    (hn : n ≤ (hashEntries s).length) (hE : hashEntries s ≠ []) (h256 : n ≤ 256) :
    SplitInv (QuantizeEx (exactOps sqrt) s (n : Int) false) := by
  unfold QuantizeEx
  have hc : ¬ ((n : Int) > 256) := by omega
  simp only [h0, if_true, if_neg hc, Int.toNat_ofNat]
  apply SplitInv_optimized
  have hE2 := hashEntries_congr s (seedNode (exactOps sqrt) s) rfl
  apply SplitInv_splitLoop sqrt _ _ (NodeInv_seedNode (exactOps sqrt) s)
    (Sep_congr s _ rfl rfl hS) (SplitInv_seedNode sqrt s hS hE)
  rw [hE2]
  have h1 : (seedNode (exactOps sqrt) s).numColors = 1 := rfl
  have : 1 ≤ (hashEntries s).length := by
    cases hl : hashEntries s with
    | nil => exact absurd hl hE
    | cons a t => simp
  rw [h1]
  omega

theorem paletteBytes_length (p : Pixel) : (paletteBytes p).length = 4 := by
  unfold paletteBytes
  split <;> rfl

theorem set4_append (A D : List Nat) (a b0 b1 b2 b3 : Nat) (hA : A.length = a)
    (hD : 4 ≤ D.length) :
    ((((A ++ D).set (a + 0) b0).set (a + 1) b1).set (a + 2) b2).set (a + 3) b3
      = A ++ [b0, b1, b2, b3] ++ D.drop 4 := by
  subst hA
  match D, hD with
  | d0 :: d1 :: d2 :: d3 :: D2, _ =>
    rw [List.set_append_right _ _ (by omega)]
    simp only [Nat.add_sub_cancel_left, List.set_cons_zero]
    rw [List.set_append_right _ _ (by omega)]
    simp only [Nat.add_sub_cancel_left, List.set_cons_zero, List.set_cons_succ]
    rw [List.set_append_right _ _ (by omega)]
    simp only [Nat.add_sub_cancel_left, List.set_cons_zero, List.set_cons_succ]
    rw [List.set_append_right _ _ (by omega)]
    simp only [Nat.add_sub_cancel_left, List.set_cons_zero, List.set_cons_succ]
    simp

/-- The loop of `GetPalette` over nodes whose means are the colours of the
pixels `f i`. -/
theorem foldl_paletteEntry_exact (t : ExqData K) (hb : t.numBitsPerChannel = 8)
    (ht : t.transparency = true) (f : Nat → Pixel) (k n : Nat) (hnk : n ≤ k)
    (hav : ∀ i, i < n → (t.node i).avg = pixColor (exactOps sqrt) (f i))
    (B : List Nat) (hB : B.length = k * 4) :
    (List.range n).foldl (paletteEntry (exactOps sqrt) t) B
      = ((List.range n).map (fun i => paletteBytes (f i))).flatten ++ B.drop (n * 4) := by
  induction n with
  | zero => simp
  | succ n ih =>
    have hlenA : (((List.range n).map (fun i => paletteBytes (f i))).flatten).length = n * 4 := by
      rw [List.length_flatten, List.map_map]
      have : (List.length ∘ fun i => paletteBytes (f i)) = fun _ => 4 := by
        funext i
        exact paletteBytes_length (f i)
      rw [this]
      simp
    rw [List.range_succ, List.foldl_append, List.foldl_cons, List.foldl_nil,
      ih (by omega) (fun i hi => hav i (by omega)),
      paletteEntry_exact sqrt t _ n (f n) hb ht (hav n (by omega))
        (by rw [List.length_append, hlenA, List.length_drop, hB]; omega),
      set4_append _ _ _ _ _ _ _ hlenA (by rw [List.length_drop, hB]; omega),
      paletteBytes_eq, List.map_append, List.flatten_append, List.drop_drop]
    simp only [List.map_cons, List.map_nil, List.flatten_cons, List.flatten_nil, List.append_nil]
    congr 2
    omega

theorem flatMap_eq_map_of_single (g : Nat → List Nat) (h : Nat → Nat) (l : List Nat)
    (hs : ∀ i, i ∈ l → g i = [h i]) : l.flatMap g = l.map h := by
  induction l with
  | nil => rfl
  | cons a l ih =>
    rw [List.flatMap_cons, List.map_cons, hs a (List.mem_cons_self _ _),
      ih (fun i hi => hs i (List.mem_cons_of_mem _ hi))]
    rfl

/-- The run `Feed`, `Quantize(k)`, `GetPalette(k)` on an image of exactly `k`
colours, none fully transparent, in exact arithmetic. -/
theorem distinct_run (px : List Pixel) (k : Nat) (ha : ∀ p, p ∈ px → p.a.val ≠ 0)
    (hk : px.dedup.length = k) (h256 : k ≤ 256) :
    ∃ L : List Pixel, L.Perm px.dedup ∧
      (GetPalette (exactOps sqrt) (Quantize (exactOps sqrt)
        (Feed (exactOps sqrt) (ExoQuant.new (exactOps sqrt)) px) (k : Int)) k).1
        = (L.map pixelBytes).flatten := by
  have hH : HistInv (Feed (exactOps sqrt) (ExoQuant.new (exactOps sqrt)) px) px := by
    simpa using HistInv_Feed (exactOps sqrt) px _ [] (HistInv_new _)
  have hC := ColorInv_Feed (exactOps sqrt) px _ (ColorInv_new (exactOps sqrt))
  have hS := Sep_Feed sqrt px ha
  have hR : Ready (Feed (exactOps sqrt) (ExoQuant.new (exactOps sqrt)) px) :=
    fed_Ready sqrt [px]
  have hnc0 : (Feed (exactOps sqrt) (ExoQuant.new (exactOps sqrt)) px).numColors = 0 := by
    rw [Feed_numColors]; rfl
  generalize Feed (exactOps sqrt) (ExoQuant.new (exactOps sqrt)) px = s0
    at hH hC hS hR hnc0
  have hEk : (hashEntries s0).length = k := by
    rw [← hk, ← hH.tuples_perm.length_eq, List.length_map]
  by_cases hk0 : k = 0
  · subst hk0
    refine ⟨[], ?_, ?_⟩
    · rw [List.length_eq_zero.mp hk]
    · apply List.length_eq_zero.mp
      rw [GetPalette_length]
  · have hEne : hashEntries s0 ≠ [] := by
      intro h
      rw [h] at hEk
      simp only [List.length_nil] at hEk
      omega
    unfold Quantize
    have hV := SplitInv_QuantizeEx sqrt s0 hnc0 hS k (by omega) hEne h256
    have hX := ExactInv_QuantizeEx sqrt s0 (k : Int) false hR
    obtain ⟨q1, q2, q3, q4, q5⟩ := QuantizeEx_hist_pHash (exactOps sqrt) s0 (k : Int) false
    have hnc1 : (QuantizeEx (exactOps sqrt) s0 (k : Int) false).numColors = k := by
      have := QuantizeEx_numColors_of_zero (exactOps sqrt) s0 hnc0 (k : Int) false
      omega
    have hopt1 : (QuantizeEx (exactOps sqrt) s0 (k : Int) false).optimized = false := rfl
    generalize QuantizeEx (exactOps sqrt) s0 (k : Int) false = s1
      at hV hX q1 q2 q3 q4 q5 hnc1 hopt1
    have hE1 : hashEntries s1 = hashEntries s0 := hashEntries_congr s0 s1 q2
    have hS1 : Sep s1 := Sep_congr s0 s1 q1 q2 hS
    have hO1 : OneEach s1 := OneEach_of_split s1 hX hS1 hV (by rw [hE1, hEk, hnc1])
    -- after the relaxation made by GetPalette
    have hO2 := OneEach_OptimizePalette sqrt 4 s1 hX.nodes hS1 hO1
    have hI2 := NodeInv_OptimizePalette (exactOps sqrt) s1 4 hX.nodes
    have hh2 : (OptimizePalette (exactOps sqrt) s1 4).hist = s0.hist :=
      (OptimizePalette_hist _ s1 4).trans q1
    have hp2 : (OptimizePalette (exactOps sqrt) s1 4).pHash = s0.pHash :=
      (OptimizePalette_pHash _ s1 4).trans q2
    have hnc2 : (OptimizePalette (exactOps sqrt) s1 4).numColors = k :=
      (OptimizePalette_numColors _ s1 4).trans hnc1
    have hb2 : (OptimizePalette (exactOps sqrt) s1 4).numBitsPerChannel = 8 :=
      ((OptimizePalette_numBits _ s1 4).trans q5).trans hC.1
    have ht2 : (OptimizePalette (exactOps sqrt) s1 4).transparency = true :=
      ((OptimizePalette_transparency _ s1 4).trans q4).trans hC.2.1
    have hE2 : hashEntries (OptimizePalette (exactOps sqrt) s1 4) = hashEntries s0 :=
      hashEntries_congr s0 _ hp2
    have hG : (GetPalette (exactOps sqrt) s1 k).1
        = (List.range k).foldl (paletteEntry (exactOps sqrt) (OptimizePalette (exactOps sqrt) s1 4))
            (List.replicate (k * 4) 0) := by
      unfold GetPalette
      simp only [hopt1, hnc1, Bool.not_false, if_true, gt_iff_lt, lt_self_iff_false, if_false]
    rw [hG]
    generalize OptimizePalette (exactOps sqrt) s1 4 = t at hO2 hI2 hh2 hp2 hnc2 hb2 ht2 hE2
    have hsingle : ∀ i, i ∈ List.range k →
        (t.node i).pHistogram = [(t.node i).pHistogram.headD 0] := by
      intro i hi
      obtain ⟨x, hx, -⟩ := hO2.single i (by rw [hnc2]; exact List.mem_range.mp hi)
      rw [hx]
      rfl
    have hmemE : ∀ i, i < k → (t.node i).pHistogram.headD 0 ∈ hashEntries s0 := by
      intro i hi
      rw [← hE2]
      apply hI2.members.subset
      refine List.mem_flatMap.mpr ⟨i, by rw [hnc2]; exact List.mem_range.mpr hi, ?_⟩
      rw [hsingle i (List.mem_range.mpr hi)]
      simp
    have hlt : ∀ x, x ∈ hashEntries s0 → x < s0.nHist :=
      fun x hx => List.mem_range.mp (hH.entries.subset hx)
    have hav : ∀ i, i < k → (t.node i).avg = pixColor (exactOps sqrt)
        (entryPixel (s0.hist ((t.node i).pHistogram.headD 0))) := by
      intro i hi
      obtain ⟨x, hx, hxa⟩ := hO2.single i (by rw [hnc2]; exact hi)
      have hxE := hmemE i hi
      rw [hx] at hxE ⊢
      simp only [List.headD_cons] at hxE ⊢
      rw [hxa, hh2]
      exact hC.2.2 x (hlt x hxE)
    rw [foldl_paletteEntry_exact sqrt t hb2 ht2
      (fun i => entryPixel (s0.hist ((t.node i).pHistogram.headD 0))) k k (Nat.le_refl k) hav
      _ (List.length_replicate _ _)]
    refine ⟨(List.range k).map
      (fun i => entryPixel (s0.hist ((t.node i).pHistogram.headD 0))), ?_, ?_⟩
    · have hfm := flatMap_eq_map_of_single (fun i => (t.node i).pHistogram)
        (fun i => (t.node i).pHistogram.headD 0) (List.range k) hsingle
      have hperm := hI2.members
      rw [hnc2, hfm, hE2] at hperm
      have := (hperm.map (fun id => entryPixel (s0.hist id))).trans hH.tuples_perm
      rw [List.map_map] at this
      exact this
    · rw [List.drop_eq_nil_of_le (by rw [List.length_replicate]), List.append_nil, List.map_map]
      congr 1
      apply List.map_congr_left
      intro i hi
      have hi2 := List.mem_range.mp hi
      have hmem := hH.fed_mem _ (hlt _ (hmemE i hi2))
      have hne := ha _ hmem
      simp only [Function.comp]
      unfold paletteBytes pixelBytes
      rw [if_neg hne]

end Distinct
/-! ## The claims -/

/-- C5: for every integer target `nColors` and both quality modes, `QuantizeEx`
on a fresh quantizer after any `Feed` calls leaves
`numColors = min (max nColors 1) 256`; in particular a target above 256
behaves like 256 and `numColors` never exceeds the 256 cells of the node table. -/
theorem QuantizeEx_numColors_fresh (ops : Arith F) (feeds : List (List Pixel)) (nColors : Int)
    (hq : Bool) :
    ((QuantizeEx ops (fed ops feeds) nColors hq).numColors : Int) = min (max nColors 1) 256 ∧
    (QuantizeEx ops (fed ops feeds) nColors hq).numColors ≤ 256 ∧
    QuantizeEx ops (fed ops feeds) nColors hq = QuantizeEx ops (fed ops feeds) (min nColors 256) hq := by
  have key : ∀ n : Int, ((QuantizeEx ops (fed ops feeds) n hq).numColors : Int)
      = min (max n 1) 256 :=
    fun n => QuantizeEx_numColors_of_zero ops _ (fed_numColors ops feeds) n hq
  refine ⟨key nColors, ?_, ?_⟩
  · have := key nColors
    omega
  · unfold QuantizeEx
    have : (if nColors > 256 then (256 : Int) else nColors)
        = (if min nColors 256 > 256 then (256 : Int) else min nColors 256) := by
      split <;> split <;> omega
    rw [this]


/-- C4 (as stated, refuted): after one pixel is fed and `Quantize(1)` has run,
one node is active, yet `GetPalette(2)` returns a buffer of 8 bytes (two
entries), not the `4 * min 2 1 = 4` bytes of the claim. -/
theorem GetPalette_length_counterexample :
    (Quantize exactQ (Feed exactQ (ExoQuant.new exactQ) [⟨255, 255, 255, 255⟩]) 1).numColors = 1 ∧
    (GetPalette exactQ
      (Quantize exactQ (Feed exactQ (ExoQuant.new exactQ) [⟨255, 255, 255, 255⟩]) 1) 2).1.length = 8 ∧
    ¬ ((GetPalette exactQ
      (Quantize exactQ (Feed exactQ (ExoQuant.new exactQ) [⟨255, 255, 255, 255⟩]) 1) 2).1.length
        = 4 * min 2
          (Quantize exactQ (Feed exactQ (ExoQuant.new exactQ) [⟨255, 255, 255, 255⟩]) 1).numColors) := by
  have h : (Quantize exactQ (Feed exactQ (ExoQuant.new exactQ) [⟨255, 255, 255, 255⟩]) 1).numColors
      = 1 := by
    have := QuantizeEx_numColors_of_zero exactQ
      (Feed exactQ (ExoQuant.new exactQ) [⟨255, 255, 255, 255⟩]) (by simp; rfl) 1 false
    unfold Quantize
    omega
  refine ⟨h, ?_, ?_⟩
  · rw [GetPalette_length]
  · rw [GetPalette_length, h]
    decide

/-- C4 (amended): for every state and every `nColors`, `GetPalette(nColors)`
returns a buffer of exactly `4 * nColors` bytes, the active colour count is
left unchanged, and every byte after the first `min nColors numColors`
entries is 0: only the active entries are written. -/
theorem GetPalette_buffer (ops : Arith F) (s : ExqData F) (nColors : Nat) :
    (GetPalette ops s nColors).1.length = 4 * nColors ∧
    (GetPalette ops s nColors).2.numColors = s.numColors ∧
    (GetPalette ops s nColors).1.drop (4 * min nColors s.numColors)
      = List.replicate (4 * nColors - 4 * min nColors s.numColors) 0 := by
  refine ⟨?_, GetPalette_numColors ops s nColors, GetPalette_tail ops s nColors⟩
  rw [GetPalette_length]
  omega

/-- C2: after `Feed` of a buffer of whole pixels on a fresh quantizer, the
entries held by the hash table carry, up to order, exactly the distinct RGBA
tuples of the buffer (one entry per tuple); the count `num` of every entry is
the number of pixels of the buffer with its tuple; and `FindHistogram` on a
pixel returns the entry carrying that pixel's tuple when the tuple was fed and
null otherwise, whatever the hash values are. -/
theorem Feed_histogram (ops : Arith F) (pData : List Pixel) (pCol : List Pixel) (index : Nat) :
    ((hashEntries (Feed ops (ExoQuant.new ops) pData)).map
      (fun id => entryPixel ((Feed ops (ExoQuant.new ops) pData).hist id))).Perm pData.dedup ∧
    (hashEntries (Feed ops (ExoQuant.new ops) pData)).map
        (fun id => ((Feed ops (ExoQuant.new ops) pData).hist id).num)
      = (hashEntries (Feed ops (ExoQuant.new ops) pData)).map
        (fun id => pData.count (entryPixel ((Feed ops (ExoQuant.new ops) pData).hist id))) ∧
    (match pCol[index]?, FindHistogram (Feed ops (ExoQuant.new ops) pData) pCol index with
      | some p, some id =>
          id ∈ hashEntries (Feed ops (ExoQuant.new ops) pData) ∧
          entryPixel ((Feed ops (ExoQuant.new ops) pData).hist id) = p ∧
          ((Feed ops (ExoQuant.new ops) pData).hist id).num = pData.count p ∧ p ∈ pData
      | some p, none => p ∉ pData
      | none, r => r = none) := by
  have hs : HistInv (Feed ops (ExoQuant.new ops) pData) pData := by
    simpa using HistInv_Feed ops pData _ [] (HistInv_new ops)
  exact ⟨hs.tuples_perm, hs.nums, hs.find pCol index⟩

/-- C1: on a fresh quantizer, after any sequence of `Feed` calls followed by
any non-empty sequence of `Quantize` / `QuantizeHq` calls with any targets,
the sum of `node.num` over the active nodes `[0, numColors)` is the total
number of pixels fed. -/
theorem activeNum_eq_pixels (ops : Arith F) (feeds : List (List Pixel)) (q : Int × Bool)
    (qs : List (Int × Bool)) :
    activeNum (quantized ops (fed ops feeds) (q :: qs)) = (feeds.map List.length).sum := by
  obtain ⟨⟨h1, h2, -, -, -⟩, hn⟩ :=
    quantized_spec ops (q :: qs) (fed ops feeds) (Or.inl (fed_numColors ops feeds))
  have hN := hn (List.cons_ne_nil _ _)
  rw [hN.sum_node_num, hashEntries_congr (fed ops feeds) _ h2, h1, (HistInv_fed ops feeds).sum_entry_num,
    List.length_flatten]

/-- C3 (the code at the failing input): the buffer holds the pixels red, blue,
blue.  After `Feed` and `Quantize(1)` one colour is active, so the nearest
colour of every pixel is index 0; yet `MapImage` returns `[0, 0, 1]`: the
second blue pixel gets the pixel index 1 that was cached for its colour by
`pHist.palIndex = i`, which is not below the active colour count.  This holds
for every arithmetic. -/
theorem MapImage_cache_holds_pixel_index (ops : Arith F) :
    (MapImage ops (Quantize ops (Feed ops (ExoQuant.new ops)
        [⟨255, 0, 0, 255⟩, ⟨0, 0, 255, 255⟩, ⟨0, 0, 255, 255⟩]) 1) 3
        [⟨255, 0, 0, 255⟩, ⟨0, 0, 255, 255⟩, ⟨0, 0, 255, 255⟩]).1 = [0, 0, 1] ∧
    (MapImage ops (Quantize ops (Feed ops (ExoQuant.new ops)
        [⟨255, 0, 0, 255⟩, ⟨0, 0, 255, 255⟩, ⟨0, 0, 255, 255⟩]) 1) 3
        [⟨255, 0, 0, 255⟩, ⟨0, 0, 255, 255⟩, ⟨0, 0, 255, 255⟩]).2.numColors = 1 ∧
    FindNearestColor ops
      (MapImage ops (Quantize ops (Feed ops (ExoQuant.new ops)
        [⟨255, 0, 0, 255⟩, ⟨0, 0, 255, 255⟩, ⟨0, 0, 255, 255⟩]) 1) 3
        [⟨255, 0, 0, 255⟩, ⟨0, 0, 255, 255⟩, ⟨0, 0, 255, 255⟩]).2
      (pixelColor ops
        (MapImage ops (Quantize ops (Feed ops (ExoQuant.new ops)
          [⟨255, 0, 0, 255⟩, ⟨0, 0, 255, 255⟩, ⟨0, 0, 255, 255⟩]) 1) 3
          [⟨255, 0, 0, 255⟩, ⟨0, 0, 255, 255⟩, ⟨0, 0, 255, 255⟩]).2
        [⟨255, 0, 0, 255⟩, ⟨0, 0, 255, 255⟩, ⟨0, 0, 255, 255⟩] 2) = 0 := by
  obtain ⟨h1, h2⟩ := MapImage_repeat ops ⟨255, 0, 0, 255⟩ ⟨0, 0, 255, 255⟩ (by decide)
  exact ⟨h1, h2, FindNearestColor_one ops _ _ h2⟩

/-- C9: in exact arithmetic (any ordered field, `Math.sqrt` any monotone
function), on every state reached from a fresh quantizer by `Feed` calls
followed by `Quantize` / `QuantizeHq` calls, one pass of `OptimizePalette`
does not increase the sum of `node.err` over the active nodes nor
`GetMeanError`, and `OptimizePalette(m)` is monotone in `m`: more passes never
give a larger sum or mean error. -/
theorem OptimizePalette_error_mono {K : Type} [LinearOrderedField K] [FloorRing K]
    (sqrt : K → K) (hsqrt : Monotone sqrt) (feeds : List (List Pixel)) (q : Int × Bool)
    (qs : List (Int × Bool)) (m m2 : Nat) (hm : m ≤ m2) :
    (errorSums (exactOps sqrt) (OptimizePalette (exactOps sqrt)
        (quantized (exactOps sqrt) (fed (exactOps sqrt) feeds) (q :: qs)) 1)).2
      ≤ (errorSums (exactOps sqrt)
        (quantized (exactOps sqrt) (fed (exactOps sqrt) feeds) (q :: qs))).2 ∧
    GetMeanError (exactOps sqrt) (OptimizePalette (exactOps sqrt)
        (quantized (exactOps sqrt) (fed (exactOps sqrt) feeds) (q :: qs)) 1)
      ≤ GetMeanError (exactOps sqrt)
        (quantized (exactOps sqrt) (fed (exactOps sqrt) feeds) (q :: qs)) ∧
    (errorSums (exactOps sqrt) (OptimizePalette (exactOps sqrt)
        (quantized (exactOps sqrt) (fed (exactOps sqrt) feeds) (q :: qs)) m2)).2
      ≤ (errorSums (exactOps sqrt) (OptimizePalette (exactOps sqrt)
        (quantized (exactOps sqrt) (fed (exactOps sqrt) feeds) (q :: qs)) m)).2 ∧
    GetMeanError (exactOps sqrt) (OptimizePalette (exactOps sqrt)
        (quantized (exactOps sqrt) (fed (exactOps sqrt) feeds) (q :: qs)) m2)
      ≤ GetMeanError (exactOps sqrt) (OptimizePalette (exactOps sqrt)
        (quantized (exactOps sqrt) (fed (exactOps sqrt) feeds) (q :: qs)) m) := by
  have hI := quantized_ExactInv sqrt (q :: qs) _ (fed_Ready sqrt feeds) (List.cons_ne_nil _ _)
  generalize quantized (exactOps sqrt) (fed (exactOps sqrt) feeds) (q :: qs) = s at hI
  obtain ⟨d, rfl⟩ := Nat.exists_eq_add_of_le hm
  have h1 := (ExactInv_OptimizePalette sqrt s 1 hI).2
  have h2 := OptimizePalette_mono sqrt s hI m d
  simp only [errorSums_exact]
  refine ⟨h1, ?_, h2, ?_⟩
  · exact GetMeanError_mono sqrt hsqrt _ _ (OptimizePalette_activeNum sqrt s hI 1) h1
  · exact GetMeanError_mono sqrt hsqrt _ _
      ((OptimizePalette_activeNum sqrt s hI (m + d)).trans
        (OptimizePalette_activeNum sqrt s hI m).symm) h2

/-- C9 (witness): the hypotheses hold for rational arithmetic with the
identity as monotone function, one white pixel, `Quantize(1)` and `0 ≤ 1`
passes. -/
theorem OptimizePalette_error_mono_witness :
    Monotone (fun x : ℚ => x) ∧ (0 : Nat) ≤ 1 ∧
    (errorSums (exactOps (fun x : ℚ => x)) (OptimizePalette (exactOps (fun x : ℚ => x))
        (quantized (exactOps (fun x : ℚ => x))
          (fed (exactOps (fun x : ℚ => x)) [[⟨255, 255, 255, 255⟩]]) [(1, false)]) 1)).2
      ≤ (errorSums (exactOps (fun x : ℚ => x)) (OptimizePalette (exactOps (fun x : ℚ => x))
        (quantized (exactOps (fun x : ℚ => x))
          (fed (exactOps (fun x : ℚ => x)) [[⟨255, 255, 255, 255⟩]]) [(1, false)]) 0)).2 :=
  ⟨monotone_id, by decide,
    (OptimizePalette_error_mono (fun x : ℚ => x) monotone_id [[⟨255, 255, 255, 255⟩]]
      (1, false) [] 0 1 (by decide)).2.2.1⟩

/-- C10: in exact arithmetic (any ordered field, `Math.sqrt` any monotone
function), for a fixed fed input and targets `k ≤ k2`, the sum of `node.err`
over the active nodes and `GetMeanError` after `QuantizeEx(k2, hq)` are at most
those after `QuantizeEx(k, hq)`, in both quality modes: the run for `k2`
continues the run for `k`, and every split step replaces the `err` of the
split node by two whose sum is no larger. -/
theorem Quantize_error_mono {K : Type} [LinearOrderedField K] [FloorRing K]
    (sqrt : K → K) (hsqrt : Monotone sqrt) (feeds : List (List Pixel)) (k k2 : Int) (hq : Bool)
    (hk : k ≤ k2) :
    (errorSums (exactOps sqrt) (QuantizeEx (exactOps sqrt) (fed (exactOps sqrt) feeds) k2 hq)).2
      ≤ (errorSums (exactOps sqrt)
        (QuantizeEx (exactOps sqrt) (fed (exactOps sqrt) feeds) k hq)).2 ∧
    GetMeanError (exactOps sqrt) (QuantizeEx (exactOps sqrt) (fed (exactOps sqrt) feeds) k2 hq)
      ≤ GetMeanError (exactOps sqrt)
        (QuantizeEx (exactOps sqrt) (fed (exactOps sqrt) feeds) k hq) := by
  have hR := fed_Ready sqrt feeds
  have h1 := totalErr_QuantizeEx_mono sqrt _ k k2 hq hR hk
  have hI := ExactInv_QuantizeEx sqrt _ k hq hR
  have hI2 := ExactInv_QuantizeEx sqrt _ k2 hq hR
  obtain ⟨g1, g2, -, -, -⟩ := QuantizeEx_hist_pHash (exactOps sqrt) (fed (exactOps sqrt) feeds) k hq
  obtain ⟨f1, f2, -, -, -⟩ := QuantizeEx_hist_pHash (exactOps sqrt) (fed (exactOps sqrt) feeds) k2 hq
  simp only [errorSums_exact]
  refine ⟨h1, GetMeanError_mono sqrt hsqrt _ _ ?_ h1⟩
  exact activeNum_congr _ _ hI.nodes hI2.nodes (f1.trans g1.symm) (f2.trans g2.symm)

/-- C10 (witness): the hypotheses hold for rational arithmetic with the
identity as monotone function, the targets `1 ≤ 2` and one white pixel. -/
theorem Quantize_error_mono_witness :
    Monotone (fun x : ℚ => x) ∧ (1 : Int) ≤ 2 ∧
    (errorSums (exactOps (fun x : ℚ => x)) (QuantizeEx (exactOps (fun x : ℚ => x))
        (fed (exactOps (fun x : ℚ => x)) [[⟨255, 255, 255, 255⟩]]) 2 false)).2
      ≤ (errorSums (exactOps (fun x : ℚ => x)) (QuantizeEx (exactOps (fun x : ℚ => x))
        (fed (exactOps (fun x : ℚ => x)) [[⟨255, 255, 255, 255⟩]]) 1 false)).2 :=
  ⟨monotone_id, by decide,
    (Quantize_error_mono (fun x : ℚ => x) monotone_id [[⟨255, 255, 255, 255⟩]] 1 2 false
      (by decide)).1⟩

/-- C6 (the code at the failing input, in exact arithmetic over any ordered
field): one pixel `(100, 100, 100, 128)` is fed and `Quantize(1)` is run in
the default transparency mode.  `P = GetPalette(1)` is `(100, 100, 100, 128)`;
after `SetPalette(P, 1)` the next `GetPalette(1)` returns
`(199, 199, 199, 128)`: `SetPalette` stores the bytes without the premultiply
by alpha that `GetPalette` undoes, so the colour bytes are off by 99. -/
theorem palette_round_trip_fails {K : Type} [LinearOrderedField K] [FloorRing K] (sqrt : K → K) :
    (GetPalette (exactOps sqrt) (Quantize (exactOps sqrt)
      (Feed (exactOps sqrt) (ExoQuant.new (exactOps sqrt)) [⟨100, 100, 100, 128⟩]) 1) 1).1
      = [100, 100, 100, 128] ∧
    (SetPalette (exactOps sqrt) (GetPalette (exactOps sqrt) (Quantize (exactOps sqrt)
      (Feed (exactOps sqrt) (ExoQuant.new (exactOps sqrt)) [⟨100, 100, 100, 128⟩]) 1) 1).2
      [100, 100, 100, 128] 1).map (fun s3 => (GetPalette (exactOps sqrt) s3 1).1)
      = some [199, 199, 199, 128] := by
  refine ⟨(single_run sqrt ⟨100, 100, 100, 128⟩ 0).1, ?_⟩
  obtain ⟨h1, h2⟩ := GetPalette_config (exactOps sqrt) (Quantize (exactOps sqrt)
    (Feed (exactOps sqrt) (ExoQuant.new (exactOps sqrt)) [⟨100, 100, 100, 128⟩]) 1) 1
  obtain ⟨h3, h4⟩ := fed_quantized_config (exactOps sqrt) [⟨100, 100, 100, 128⟩] 1 false
  exact GetPalette_after_SetPalette sqrt _ (h1.trans h3) (h2.trans h4)

/-- C8 (as stated, refuted): for the fully transparent red pixel
`(255, 0, 0, 0)` fed once, `Quantize(1)` and `GetPalette(1)` give the entry
`(0, 0, 0, 0)`, whose red byte is 255 away from the colour fed. -/
theorem single_colour_counterexample :
    (GetPalette exactQ (Quantize exactQ (Feed exactQ (ExoQuant.new exactQ) [⟨255, 0, 0, 0⟩]) 1) 1).1
      = [0, 0, 0, 0] ∧
    closeBytes
      (GetPalette exactQ (Quantize exactQ (Feed exactQ (ExoQuant.new exactQ) [⟨255, 0, 0, 0⟩]) 1) 1).1
      (pixelBytes ⟨255, 0, 0, 0⟩) = false := by
  have h := (single_run Rat.sqrt ⟨255, 0, 0, 0⟩ 0).1
  have e : (GetPalette exactQ (Quantize exactQ
      (Feed exactQ (ExoQuant.new exactQ) [⟨255, 0, 0, 0⟩]) 1) 1).1 = [0, 0, 0, 0] := h
  rw [e]
  exact ⟨rfl, by decide⟩

/-- C8 (amended): in exact arithmetic (any ordered field), for every RGBA
colour `c` and every `n`, after a buffer of `n + 1` pixels all equal to `c` is
fed into a fresh quantizer and `Quantize(1)` is run, `GetPalette(1)` is the
single entry `c` when the alpha of `c` is not 0, and `(0, 0, 0, 0)` when it is
0 (the colour is premultiplied by alpha); `MapImage` on the same buffer,
before or after `GetPalette`, returns index 0 for all `n + 1` pixels. -/
theorem single_colour_palette {K : Type} [LinearOrderedField K] [FloorRing K] (sqrt : K → K)
    (c : Pixel) (n : Nat) :
    (GetPalette (exactOps sqrt) (Quantize (exactOps sqrt)
      (Feed (exactOps sqrt) (ExoQuant.new (exactOps sqrt)) (List.replicate (n + 1) c)) 1) 1).1
      = (if c.a.val = 0 then [0, 0, 0, 0] else [c.r.val, c.g.val, c.b.val, c.a.val]) ∧
    (MapImage (exactOps sqrt) (GetPalette (exactOps sqrt) (Quantize (exactOps sqrt)
      (Feed (exactOps sqrt) (ExoQuant.new (exactOps sqrt)) (List.replicate (n + 1) c)) 1) 1).2
      (n + 1) (List.replicate (n + 1) c)).1 = List.replicate (n + 1) 0 ∧
    (MapImage (exactOps sqrt) (Quantize (exactOps sqrt)
      (Feed (exactOps sqrt) (ExoQuant.new (exactOps sqrt)) (List.replicate (n + 1) c)) 1)
      (n + 1) (List.replicate (n + 1) c)).1 = List.replicate (n + 1) 0 :=
  single_run sqrt c n

/-- C7: in exact arithmetic (any ordered field), for every `k ≤ 256` and every
pixel buffer whose pixels take exactly `k` pairwise distinct RGBA colours, all
with non-zero alpha, `Feed`, then `Quantize(k)`, then `GetPalette(k)` on a
fresh quantizer returns `k` entries that are, in some order, exactly the `k`
input colours: every entry equals one input colour and every input colour is
one entry. -/
theorem Quantize_distinct_colours {K : Type} [LinearOrderedField K] [FloorRing K]
    (sqrt : K → K) (px : List Pixel) (k : Nat) (ha : ∀ p, p ∈ px → p.a.val ≠ 0)
    (hk : px.dedup.length = k) (h256 : k ≤ 256) :
    ∃ L : List Pixel, L.length = k ∧ L.Perm px.dedup ∧
      (GetPalette (exactOps sqrt) (Quantize (exactOps sqrt)
        (Feed (exactOps sqrt) (ExoQuant.new (exactOps sqrt)) px) (k : Int)) k).1
        = (L.map pixelBytes).flatten := by
  obtain ⟨L, h1, h2⟩ := distinct_run sqrt px k ha hk h256
  exact ⟨L, by rw [h1.length_eq, hk], h1, h2⟩

/-- C7, witness: the 2×2 image red, green, blue, white with `k = 4`, in exact
rational arithmetic. -/
theorem Quantize_distinct_colours_witness :
    (∀ p, p ∈ ([⟨255, 0, 0, 255⟩, ⟨0, 255, 0, 255⟩, ⟨0, 0, 255, 255⟩,
        ⟨255, 255, 255, 255⟩] : List Pixel) → p.a.val ≠ 0) ∧
    ([⟨255, 0, 0, 255⟩, ⟨0, 255, 0, 255⟩, ⟨0, 0, 255, 255⟩,
        ⟨255, 255, 255, 255⟩] : List Pixel).dedup.length = 4 ∧
    ∃ L : List Pixel, L.length = 4 ∧
      L.Perm ([⟨255, 0, 0, 255⟩, ⟨0, 255, 0, 255⟩, ⟨0, 0, 255, 255⟩,
        ⟨255, 255, 255, 255⟩] : List Pixel).dedup ∧
      (GetPalette exactQ (Quantize exactQ (Feed exactQ (ExoQuant.new exactQ)
        [⟨255, 0, 0, 255⟩, ⟨0, 255, 0, 255⟩, ⟨0, 0, 255, 255⟩, ⟨255, 255, 255, 255⟩])
        ((4 : Nat) : Int)) 4).1 = (L.map pixelBytes).flatten :=
  ⟨by decide, by decide,
    Quantize_distinct_colours Rat.sqrt
      [⟨255, 0, 0, 255⟩, ⟨0, 255, 0, 255⟩, ⟨0, 0, 255, 255⟩, ⟨255, 255, 255, 255⟩] 4
      (by decide) (by decide) (by decide)⟩

/-! ## Dithered mapping: the indices written -/

theorem storeUint8_le (n : Nat) : storeUint8 (n : Int) ≤ n := by
  unfold storeUint8
  omega

theorem storeUint8_of_lt (n : Nat) (h : n < 256) : storeUint8 (n : Int) = n := by
  unfold storeUint8
  omega

theorem storeUint8_lt_of_nonneg (v : Int) (n : Nat) (h0 : 0 ≤ v) (h : v < (n : Int)) :
    storeUint8 v < n := by
  unfold storeUint8
  omega

/-- The work on an entry changes its dither fields only. -/
theorem ditherEntry_frame (ops : Arith F) (s : ExqData F) (p : ExqColor F) (d : Nat)
    (e : ExqHistogramEntry F) :
    entryPixel (ditherEntry ops s p d e).1 = entryPixel e ∧
    (ditherEntry ops s p d e).1.color = e.color ∧
    (ditherEntry ops s p d e).1.num = e.num ∧
    (ditherEntry ops s p d e).1.palIndex = e.palIndex := by
  unfold ditherEntry
  dsimp only
  split_ifs <;> exact ⟨rfl, rfl, rfl, rfl⟩

/-- The dither fields left in an entry and the byte emitted. -/
theorem ditherEntry_eq (ops : Arith F) (s : ExqData F) (p : ExqColor F) (d : Nat)
    (e : ExqHistogramEntry F) :
    (ditherEntry ops s p d e).1.ditherScale
      = (if ops.lt e.ditherScale.r (ops.ofInt 0) = true then ditherScaleOf ops s p
          else e.ditherScale) ∧
    (ditherEntry ops s p d e).2
      = (if e.ditherIndex d ≥ 0 then storeUint8 (e.ditherIndex d)
          else storeUint8 (FindNearestColor ops s (ditherTarget ops p
            (if ops.lt e.ditherScale.r (ops.ofInt 0) = true then ditherScaleOf ops s p
              else e.ditherScale) d))) ∧
    (ditherEntry ops s p d e).1.ditherIndex
      = (if e.ditherIndex d ≥ 0 then e.ditherIndex
          else Function.update e.ditherIndex d ((ditherEntry ops s p d e).2 : Int)) := by
  unfold ditherEntry
  dsimp only
  split_ifs <;> exact ⟨rfl, rfl, rfl⟩

/-- The index emitted for an entry is below the number of active colours, and
the cached indices stay unset or below that number. -/
theorem ditherEntry_index (ops : Arith F) (s : ExqData F) (p : ExqColor F) (d : Nat)
    (e : ExqHistogramEntry F) (h1 : 1 ≤ s.numColors)
    (he : ∀ k, e.ditherIndex k < 0 ∨ e.ditherIndex k < (s.numColors : Int)) :
    (ditherEntry ops s p d e).2 < s.numColors ∧
    ∀ k, (ditherEntry ops s p d e).1.ditherIndex k < 0 ∨
      (ditherEntry ops s p d e).1.ditherIndex k < (s.numColors : Int) := by
  have hfn : ∀ c, storeUint8 (FindNearestColor ops s c : Int) < s.numColors := by
    intro c
    exact lt_of_le_of_lt (storeUint8_le _) (FindNearestColor_lt ops s c h1)
  obtain ⟨-, h2, h3⟩ := ditherEntry_eq ops s p d e
  have hout : (ditherEntry ops s p d e).2 < s.numColors := by
    rw [h2]
    by_cases hge : e.ditherIndex d ≥ 0
    · rw [if_pos hge]
      rcases he d with h | h
      · omega
      · exact storeUint8_lt_of_nonneg _ _ hge h
    · rw [if_neg hge]
      exact hfn _
  refine ⟨hout, ?_⟩
  intro k
  rw [h3]
  by_cases hge : e.ditherIndex d ≥ 0
  · rw [if_pos hge]
    exact he k
  · rw [if_neg hge]
    by_cases hk : k = d
    · rw [hk, Function.update_same]
      right
      exact_mod_cast hout
    · rw [Function.update_noteq hk]
      exact he k

/-- What a step of the dither loops leaves alone: the nodes, the hash chains
and the configuration, and in every entry the bytes, the colour and the count. -/
theorem ditherPixel_frame (ops : Arith F) (width : Nat) (pIn : List Pixel) (ordered : Bool)
    (random : Nat → F) (st : ExqData F × List Nat) (y x : Nat) :
    (ditherPixel ops width pIn ordered random st y x).1.node = st.1.node ∧
    (ditherPixel ops width pIn ordered random st y x).1.numColors = st.1.numColors ∧
    (ditherPixel ops width pIn ordered random st y x).1.pHash = st.1.pHash ∧
    (ditherPixel ops width pIn ordered random st y x).1.nHist = st.1.nHist ∧
    (ditherPixel ops width pIn ordered random st y x).1.transparency = st.1.transparency ∧
    (ditherPixel ops width pIn ordered random st y x).1.optimized = st.1.optimized ∧
    (ditherPixel ops width pIn ordered random st y x).2.length = st.2.length ∧
    ∀ id, entryPixel ((ditherPixel ops width pIn ordered random st y x).1.hist id)
        = entryPixel (st.1.hist id) ∧
      ((ditherPixel ops width pIn ordered random st y x).1.hist id).color = (st.1.hist id).color ∧
      ((ditherPixel ops width pIn ordered random st y x).1.hist id).num = (st.1.hist id).num := by
  unfold ditherPixel
  dsimp only
  split
  · refine ⟨rfl, rfl, rfl, rfl, rfl, rfl, by simp, fun id => ⟨rfl, rfl, rfl⟩⟩
  · next pHist hf =>
    refine ⟨rfl, rfl, rfl, rfl, rfl, rfl, by simp, fun id => ?_⟩
    dsimp only
    by_cases hc : id = pHist
    · subst hc
      rw [Function.update_same]
      obtain ⟨h1, h2, h3, -⟩ := ditherEntry_frame ops st.1
        (pixelColor ops st.1 pIn (y * width + x))
        (ditherPhase ops ordered x y (random (y * width + x))) (st.1.hist id)
      exact ⟨h1, h2, h3⟩
    · rw [Function.update_noteq hc]
      exact ⟨rfl, rfl, rfl⟩

theorem FindHistogram_some (s : ExqData F) (pIn : List Pixel) (i id : Nat)
    (h : FindHistogram s pIn i = some id) :
    ∃ p, pIn[i]? = some p ∧ id ∈ s.pHash (pixelHash p) ∧ entryPixel (s.hist id) = p := by
  unfold FindHistogram at h
  cases hp : pIn[i]? with
  | none => rw [hp] at h; exact absurd h (by simp)
  | some p =>
    rw [hp] at h
    obtain ⟨h1, h2⟩ := walkChain_some _ _ _ _ h
    exact ⟨p, rfl, h1, h2⟩

/-- A step of the dither loops writes an index below the number of active
colours and keeps every cached index unset or below that number. -/
theorem ditherPixel_index (ops : Arith F) (width : Nat) (pIn : List Pixel) (ordered : Bool)
    (random : Nat → F) (st : ExqData F × List Nat) (y x : Nat) (h1 : 1 ≤ st.1.numColors)
    (hinv : ∀ h id, id ∈ st.1.pHash h → ∀ d, (st.1.hist id).ditherIndex d < 0 ∨
      (st.1.hist id).ditherIndex d < (st.1.numColors : Int))
    (hout : ∀ v, v ∈ st.2 → v < st.1.numColors) :
    (∀ h id, id ∈ st.1.pHash h → ∀ d,
      ((ditherPixel ops width pIn ordered random st y x).1.hist id).ditherIndex d < 0 ∨
      ((ditherPixel ops width pIn ordered random st y x).1.hist id).ditherIndex d
        < (st.1.numColors : Int)) ∧
    (∀ v, v ∈ (ditherPixel ops width pIn ordered random st y x).2 → v < st.1.numColors) := by
  have hfn : ∀ c, storeUint8 (FindNearestColor ops st.1 c : Int) < st.1.numColors := by
    intro c
    exact lt_of_le_of_lt (storeUint8_le _) (FindNearestColor_lt ops st.1 c h1)
  have hset : ∀ (l : List Nat) (i v : Nat), (∀ u, u ∈ l → u < st.1.numColors) →
      v < st.1.numColors → ∀ u, u ∈ l.set i v → u < st.1.numColors := by
    intro l i v hl hv u hu
    rcases List.mem_or_eq_of_mem_set hu with h | h
    · exact hl u h
    · rw [h]; exact hv
  unfold ditherPixel
  dsimp only
  split
  · exact ⟨hinv, hset _ _ _ hout (hfn _)⟩
  · next pHist hf =>
    obtain ⟨q, -, hq, -⟩ := FindHistogram_some _ _ _ _ hf
    obtain ⟨e1, e2⟩ := ditherEntry_index ops st.1 (pixelColor ops st.1 pIn (y * width + x))
      (ditherPhase ops ordered x y (random (y * width + x))) (st.1.hist pHist) h1
      (hinv _ pHist hq)
    refine ⟨?_, hset _ _ _ hout e1⟩
    intro h id hid d
    dsimp only
    by_cases hc : id = pHist
    · subst hc
      rw [Function.update_same]
      exact e2 d
    · rw [Function.update_noteq hc]
      exact hinv h id hid d

/-- The loops of `MapImageDither` keep the nodes, the chains and the
configuration, and write indices below the number of active colours. -/
theorem ditherLoop_index (ops : Arith F) (width : Nat) (pIn : List Pixel) (ordered : Bool)
    (random : Nat → F) (ys : List Nat) (st : ExqData F × List Nat) (h1 : 1 ≤ st.1.numColors)
    (hinv : ∀ h id, id ∈ st.1.pHash h → ∀ d, (st.1.hist id).ditherIndex d < 0 ∨
      (st.1.hist id).ditherIndex d < (st.1.numColors : Int))
    (hout : ∀ v, v ∈ st.2 → v < st.1.numColors) :
    ∀ v, v ∈ (ys.foldl (fun st y => (List.range width).foldl
        (fun st x => ditherPixel ops width pIn ordered random st y x) st) st).2 →
      v < st.1.numColors := by
  have inner : ∀ (y : Nat) (xs : List Nat) (st : ExqData F × List Nat), 1 ≤ st.1.numColors →
      (∀ h id, id ∈ st.1.pHash h → ∀ d, (st.1.hist id).ditherIndex d < 0 ∨
        (st.1.hist id).ditherIndex d < (st.1.numColors : Int)) →
      (∀ v, v ∈ st.2 → v < st.1.numColors) →
      (xs.foldl (fun st x => ditherPixel ops width pIn ordered random st y x) st).1.numColors
        = st.1.numColors ∧
      (xs.foldl (fun st x => ditherPixel ops width pIn ordered random st y x) st).1.pHash
        = st.1.pHash ∧
      (∀ h id, id ∈ st.1.pHash h → ∀ d,
        ((xs.foldl (fun st x => ditherPixel ops width pIn ordered random st y x) st).1.hist
          id).ditherIndex d < 0 ∨
        ((xs.foldl (fun st x => ditherPixel ops width pIn ordered random st y x) st).1.hist
          id).ditherIndex d < (st.1.numColors : Int)) ∧
      (∀ v, v ∈ (xs.foldl (fun st x => ditherPixel ops width pIn ordered random st y x) st).2 →
        v < st.1.numColors) := by
    intro y xs
    induction xs with
    | nil => intro st _ hi ho; exact ⟨rfl, rfl, hi, ho⟩
    | cons x xs ih =>
      intro st h1 hi ho
      rw [List.foldl_cons]
      obtain ⟨-, f2, f3, -⟩ := ditherPixel_frame ops width pIn ordered random st y x
      obtain ⟨i1, i2⟩ := ditherPixel_index ops width pIn ordered random st y x h1 hi ho
      have := ih (ditherPixel ops width pIn ordered random st y x) (by rw [f2]; exact h1)
        (by rw [f2, f3]; exact i1) (by rw [f2]; exact i2)
      rw [f2, f3] at this
      exact this
  induction ys generalizing st with
  | nil => exact hout
  | cons y ys ih =>
    rw [List.foldl_cons]
    obtain ⟨g1, g2, g3, g4⟩ := inner y (List.range width) st h1 hinv hout
    have := ih _ (by rw [g1]; exact h1) (by rw [g1, g2]; exact g3) (by rw [g1]; exact g4)
    rw [g1] at this
    exact this

theorem feedPixel_ditherIndex (ops : Arith F) (s : ExqData F) (p : Pixel)
    (h : ∀ id, id < s.nHist → ∀ d, (s.hist id).ditherIndex d = -1) :
    ∀ id, id < (feedPixel ops s p).nHist → ∀ d, ((feedPixel ops s p).hist id).ditherIndex d = -1 := by
  intro id hid
  cases hw : walkChain s.hist p (s.pHash (pixelHash p)) with
  | some pCur =>
    obtain ⟨eh, en, -, -⟩ := feedPixel_hit ops s p pCur hw
    rw [en] at hid
    rw [eh]
    by_cases hc : id = pCur
    · subst hc
      rw [Function.update_same]
      exact h id hid
    · rw [Function.update_noteq hc]
      exact h id hid
  | none =>
    obtain ⟨eh, en, -, -⟩ := feedPixel_miss ops s p hw
    rw [en] at hid
    rw [eh]
    by_cases hc : id = s.nHist
    · subst hc
      rw [Function.update_same]
      intro d
      rfl
    · rw [Function.update_noteq hc]
      exact h id (by omega)

theorem Feed_ditherIndex (ops : Arith F) (pData : List Pixel) (s : ExqData F)
    (h : ∀ id, id < s.nHist → ∀ d, (s.hist id).ditherIndex d = -1) :
    ∀ id, id < (Feed ops s pData).nHist → ∀ d, ((Feed ops s pData).hist id).ditherIndex d = -1 := by
  unfold Feed
  induction pData generalizing s with
  | nil => exact h
  | cons p ps ih =>
    rw [List.foldl_cons]
    exact ih _ (feedPixel_ditherIndex ops s p h)

theorem fed_ditherIndex (ops : Arith F) (feeds : List (List Pixel)) :
    ∀ id, id < (fed ops feeds).nHist → ∀ d, ((fed ops feeds).hist id).ditherIndex d = -1 := by
  unfold fed
  have : ∀ (s : ExqData F), (∀ id, id < s.nHist → ∀ d, (s.hist id).ditherIndex d = -1) →
      ∀ id, id < (feeds.foldl (Feed ops) s).nHist →
        ∀ d, ((feeds.foldl (Feed ops) s).hist id).ditherIndex d = -1 := by
    induction feeds with
    | nil => intro s h; exact h
    | cons f fs ih =>
      intro s h
      rw [List.foldl_cons]
      exact ih _ (Feed_ditherIndex ops f s h)
  exact this _ (fun id hid => absurd hid (Nat.not_lt_zero _))

/-- After `Feed` and `Quantize` calls and no mapping call, `MapImageRandom`
writes indices below the number of active colours, whatever the random source
returns. -/
theorem MapImageRandom_index (ops : Arith F) (feeds : List (List Pixel)) (q : Int × Bool)
    (qs : List (Int × Bool)) (nPixels : Nat) (pIn : List Pixel) (random : Nat → F) :
    1 ≤ (quantized ops (fed ops feeds) (q :: qs)).numColors ∧
    ∀ v, v ∈ (MapImageRandom ops (quantized ops (fed ops feeds) (q :: qs)) nPixels pIn random).1 →
      v < (quantized ops (fed ops feeds) (q :: qs)).numColors := by
  obtain ⟨⟨q1, q2, q3, -, -⟩, hN⟩ := quantized_spec ops (q :: qs) (fed ops feeds)
    (Or.inl (fed_numColors ops feeds))
  have hI := hN (by simp)
  have hH := HistInv_fed ops feeds
  have hD := fed_ditherIndex ops feeds
  refine ⟨hI.pos, ?_⟩
  generalize quantized ops (fed ops feeds) (q :: qs) = s at q1 q2 q3 hI
  have hinv : ∀ h id, id ∈ s.pHash h → ∀ d, (s.hist id).ditherIndex d < 0 ∨
      (s.hist id).ditherIndex d < (s.numColors : Int) := by
    intro h id hid d
    left
    rw [q2] at hid
    rw [q1, hD id (hH.chain_lt h id hid) d]
    decide
  unfold MapImageRandom MapImageDither
  dsimp only
  by_cases ho : s.optimized = true
  · simp only [ho, Bool.not_true, Bool.false_eq_true, if_false]
    apply ditherLoop_index ops nPixels pIn false random (List.range 1) (s, _) hI.pos hinv
    intro v hv
    rw [List.eq_of_mem_replicate hv]
    exact hI.pos
  · simp only [ho, Bool.not_false, if_true]
    have := ditherLoop_index ops nPixels pIn false random (List.range 1)
      (OptimizePalette ops s 4, List.replicate (nPixels * 1) 0)
      (by rw [OptimizePalette_numColors]; exact hI.pos)
      (by
        intro h id hid d
        rw [OptimizePalette_pHash] at hid
        rw [OptimizePalette_hist, OptimizePalette_numColors]
        exact hinv h id hid d)
      (by
        intro v hv
        rw [List.eq_of_mem_replicate hv, OptimizePalette_numColors]
        exact hI.pos)
    rw [OptimizePalette_numColors] at this
    exact this

/-! ## Nearest-colour search on colours far from every node -/

section FarColour

variable {K : Type} [LinearOrderedField K] [FloorRing K] (sqrt : K → K)

/-- The search over two nodes, spelled out. -/
theorem FindNearestColor_two (s : ExqData K) (hn : s.numColors = 2) (c : ExqColor K) :
    FindNearestColor (exactOps sqrt) s c
      = if dist2 c (s.node 0).avg < 16 then
          (if dist2 c (s.node 1).avg < dist2 c (s.node 0).avg then 1 else 0)
        else (if dist2 c (s.node 1).avg < 16 then 1 else 0) := by
  have r2 : List.range 2 = [0, 1] := rfl
  unfold FindNearestColor
  rw [hn, r2]
  simp only [List.foldl_cons, List.foldl_nil, nearestStep_exact, exactOps_ofInt]
  have e16 : ((16 : Int) : K) = 16 := by norm_num
  rw [e16]
  by_cases h0 : dist2 c (s.node 0).avg < 16
  · simp only [h0, if_true]
    by_cases h1 : dist2 c (s.node 1).avg < dist2 c (s.node 0).avg
    · simp only [h1, if_true]
    · simp only [h1, if_false]
  · simp only [h0, if_false]
    by_cases h1 : dist2 c (s.node 1).avg < 16
    · simp only [h1, if_true]
    · simp only [h1, if_false]

/-- The palette `(0,0,0,0), (0,0,0,255)` set by `SetPalette` on a fresh
quantizer. -/
theorem far_state :
    SetPalette (exactOps sqrt) (ExoQuant.new (exactOps sqrt)) [0, 0, 0, 0, 0, 0, 0, 255] 2
    = some { ExoQuant.new (exactOps sqrt) with
        numColors := 2
        node := Function.update (Function.update (ExoQuant.new (exactOps sqrt)).node 0
            { ExqNode.new (exactOps sqrt) with avg := ⟨0, 0, 0, 0⟩ }) 1
            { ExqNode.new (exactOps sqrt) with avg := ⟨0, 0, 0, 2550 / 2559⟩ }
        optimized := true } := by
  unfold SetPalette
  rw [if_neg (by omega)]
  have r2 : List.range 2 = [0, 1] := rfl
  simp only [r2, List.foldl_cons, List.foldl_nil]
  unfold setPaletteEntry readByte
  simp only [ExoQuant.new, ExqNode.new, ExqColor.new, Function.update_same,
    Function.update_noteq (show (1:Nat) ≠ 0 by decide),
    _EXQ_SCALE_R, _EXQ_SCALE_G, _EXQ_SCALE_B, _EXQ_SCALE_A, exactOps_mul, exactOps_div,
    exactOps_ofInt, exactOps_dec, List.getElem?_cons_zero, List.getElem?_cons_succ]
  norm_num

/-- On a palette of transparent black and opaque black, the colour that the
ditherer extrapolates from an opaque white pixel is more than 4 away from both
nodes: the search returns node 0 although node 1 is strictly nearer, and the
dither scale of white becomes non-zero. -/
theorem far_colour (s : ExqData K) (hn : s.numColors = 2) (ht : s.transparency = true)
    (h0 : (s.node 0).avg = ⟨0, 0, 0, 0⟩) (h1 : (s.node 1).avg = ⟨0, 0, 0, 2550 / 2559⟩) :
    FindNearestColor (exactOps sqrt) s ⟨4, 24 / 5, 16 / 5, 862 / 853⟩ = 0 ∧
    dist2 (⟨4, 24 / 5, 16 / 5, 862 / 853⟩ : ExqColor K) (s.node 1).avg
      < dist2 (⟨4, 24 / 5, 16 / 5, 862 / 853⟩ : ExqColor K) (s.node 0).avg ∧
    pixelColor (exactOps sqrt) s [⟨255, 255, 255, 255⟩] 0 = ⟨1, 6 / 5, 4 / 5, 1⟩ ∧
    FindNearestColor (exactOps sqrt) s ⟨1, 6 / 5, 4 / 5, 1⟩ = 1 ∧
    ditherScaleOf (exactOps sqrt) s ⟨1, 6 / 5, 4 / 5, 1⟩ = ⟨0, 0, 0, 680 / 853⟩ := by
  have f1 : FindNearestColor (exactOps sqrt) s ⟨1, 6 / 5, 4 / 5, 1⟩ = 1 := by
    rw [FindNearestColor_two sqrt s hn, h0, h1]
    unfold dist2
    norm_num
  have f2 : FindNearestColor (exactOps sqrt) s ⟨4 / 3, 8 / 5, 16 / 15, 854 / 853⟩ = 1 := by
    rw [FindNearestColor_two sqrt s hn, h0, h1]
    unfold dist2
    norm_num
  have f3 : FindNearestColor (exactOps sqrt) s ⟨4, 24 / 5, 16 / 5, 862 / 853⟩ = 0 := by
    rw [FindNearestColor_two sqrt s hn, h0, h1]
    unfold dist2
    norm_num
  refine ⟨f3, ?_, ?_, f1, ?_⟩
  · rw [h0, h1]
    unfold dist2
    norm_num
  · have e : (((255 : Fin 256) : Nat) : Int) = 255 := rfl
    unfold pixelColor
    simp only [ht, List.getElem?_cons_zero, if_true, _EXQ_SCALE_R, _EXQ_SCALE_G,
      _EXQ_SCALE_B, _EXQ_SCALE_A, exactOps_mul, exactOps_div, exactOps_ofInt, exactOps_dec, e]
    norm_num
  · have t1 : (⟨(1 : K) - ((0 : K) - 1) / 3, (6 / 5 : K) - ((0 : K) - 6 / 5) / 3,
        (4 / 5 : K) - ((0 : K) - 4 / 5) / 3, (1 : K) - ((2550 / 2559 : K) - 1) / 3⟩ : ExqColor K)
        = ⟨4 / 3, 8 / 5, 16 / 15, 854 / 853⟩ := by
      norm_num
    have t2 : (⟨(1 : K) - ((0 : K) - 1) * 3, (6 / 5 : K) - ((0 : K) - 6 / 5) * 3,
        (4 / 5 : K) - ((0 : K) - 4 / 5) * 3, (1 : K) - ((2550 / 2559 : K) - 1) * 3⟩ : ExqColor K)
        = ⟨4, 24 / 5, 16 / 5, 862 / 853⟩ := by
      norm_num
    have e3 : ((3 : Int) : K) = 3 := by norm_num
    have e0 : ((0 : Int) : K) = 0 := by norm_num
    unfold ditherScaleOf
    simp only [f1, h1, h0, exactOps_sub, exactOps_div, exactOps_mul, exactOps_ofInt, e3, e0,
      t1, t2, f2, f3, if_true, exactOps_dec, exactOps_lt, exactOps_neg]
    norm_num

end FarColour

/-! ## The split search of `SumNode`, characterised -/

section SplitSearch

variable {K : Type} [LinearOrderedField K] [FloorRing K] (sqrt : K → K)

theorem splitValue_append (hist : Nat → ExqHistogramEntry K) (P R : List Nat) :
    splitValue (exactOps sqrt) (wN hist (P ++ R)) (prefixMoments hist (P ++ R)).sum
      (prefixMoments hist (P ++ R)).sum2 (prefixMoments hist P)
      = listVar hist P + listVar hist R := by
  have hc : ((wN hist P + wN hist R : Nat) : K) - (wN hist P : K) = (wN hist R : K) := by
    push_cast
    ring
  unfold splitValue prefixMoments listVar chanVar
  simp only [exactOps_add, exactOps_sub, exactOps_mul, exactOps_div, exactOps_ofInt,
    Int.cast_sub, wN_append, wS_append, Int.cast_natCast, add_sub_cancel_left]
  rw [hc]
  ring

theorem scanGain_eq (hist : Nat → ExqHistogramEntry K) (L : List Nat) (k : Nat) :
    scanGain sqrt hist L k = -(splitCost hist L k) := by
  unfold scanGain splitCost
  have := splitValue_append sqrt hist (L.take k) (L.drop k)
  rw [List.take_append_drop] at this
  rw [this]

/-- The split scan from the member after the prefix `P` on: the value left is
at least every gain met, and it is either the value the scan started with
(and `pSplit` is the one it started with, or the first member met when it
started with none), or the gain after the first `k` members for the first
`k` that attains the largest gain (and `pSplit` is the member after them). -/
theorem splitScan_char (hist : Nat → ExqHistogramEntry K) (L : List Nat)
    (hnum : ∀ x, x ∈ L → 1 ≤ (hist x).num) :
    ∀ (rest P : List Nat) (vdif : K) (pS : Option Nat), P ++ rest = L → rest ≠ [] →
      (∀ k, P.length < k → k < L.length → scanGain sqrt hist L k
        ≤ (splitScan (exactOps sqrt) hist (wN hist L) (prefixMoments hist L).sum
            (prefixMoments hist L).sum2 rest (prefixMoments hist P) vdif pS).1) ∧
      (((splitScan (exactOps sqrt) hist (wN hist L) (prefixMoments hist L).sum
            (prefixMoments hist L).sum2 rest (prefixMoments hist P) vdif pS).1 = vdif ∧
        (splitScan (exactOps sqrt) hist (wN hist L) (prefixMoments hist L).sum
            (prefixMoments hist L).sum2 rest (prefixMoments hist P) vdif pS).2
          = (if pS = none then rest.head? else pS)) ∨
       ∃ k, P.length < k ∧ k < L.length ∧
        (splitScan (exactOps sqrt) hist (wN hist L) (prefixMoments hist L).sum
            (prefixMoments hist L).sum2 rest (prefixMoments hist P) vdif pS).1
          = scanGain sqrt hist L k ∧
        vdif < scanGain sqrt hist L k ∧
        (∀ k2, P.length < k2 → k2 < k → scanGain sqrt hist L k2 < scanGain sqrt hist L k) ∧
        (splitScan (exactOps sqrt) hist (wN hist L) (prefixMoments hist L).sum
            (prefixMoments hist L).sum2 rest (prefixMoments hist P) vdif pS).2 = L[k]?) := by
  intro rest
  induction rest with
  | nil => intro P vdif pS _ hne; exact absurd rfl hne
  | cons a rest ih =>
    intro P vdif pS hL _
    have hm : addMoments (exactOps sqrt) (prefixMoments hist P) (hist a)
        = prefixMoments hist (P ++ [a]) := addMoments_scanned sqrt hist P a
    have hL2 : (P ++ [a]) ++ rest = L := by
      rw [List.append_assoc]
      exact hL
    have hPa : (P ++ [a]).length = P.length + 1 := by simp
    have htake : L.take (P.length + 1) = P ++ [a] := by
      rw [← hL2]
      exact List.take_left' hPa
    have hlen : L.length = P.length + 1 + rest.length := by
      rw [← hL2, List.length_append, hPa]
    have hwN : wN hist L = wN hist (P ++ [a]) + wN hist rest := by
      rw [← hL2, wN_append]
    have hnum2 : ∀ x, x ∈ rest → 1 ≤ (hist x).num := by
      intro x hx
      apply hnum
      rw [← hL]
      exact List.mem_append_right _ (List.mem_cons_of_mem _ hx)
    have hg0 : -(splitValue (exactOps sqrt) (wN hist L) (prefixMoments hist L).sum
        (prefixMoments hist L).sum2 (prefixMoments hist (P ++ [a])))
        = scanGain sqrt hist L (P.length + 1) := by
      unfold scanGain
      rw [htake]
    have hidx : L[P.length + 1]? = rest.head? := by
      rw [← hL2, List.getElem?_append_right (by rw [hPa]), hPa, Nat.sub_self]
      exact (List.head?_eq_getElem? rest).symm
    rw [splitScan]
    dsimp only
    rw [hm]
    by_cases hn : wN hist L = (prefixMoments hist (P ++ [a])).n
    · rw [if_pos hn]
      have hr : rest = [] := by
        cases rest with
        | nil => rfl
        | cons b t =>
          have := hnum2 b (List.mem_cons_self _ _)
          have e : (prefixMoments hist (P ++ [a])).n = wN hist (P ++ [a]) := rfl
          rw [wN_cons] at hwN
          omega
      refine ⟨?_, Or.inl ⟨rfl, ?_⟩⟩
      · intro k h1 h2
        rw [hlen, hr] at h2
        simp only [List.length_nil] at h2
        omega
      · simp only [List.head?_cons]
    · rw [if_neg hn]
      have hr : rest ≠ [] := by
        intro hr
        apply hn
        rw [hwN, hr, wN_nil]
        rfl
      simp only [exactOps_lt, exactOps_neg, decide_eq_true_eq]
      rw [hg0]
      by_cases hlt : vdif < scanGain sqrt hist L (P.length + 1)
      · rw [if_pos hlt]
        obtain ⟨i1, i2⟩ := ih (P ++ [a]) (scanGain sqrt hist L (P.length + 1)) none hL2 hr
        have mono := splitScan_mono sqrt hist (wN hist L) (prefixMoments hist L).sum
          (prefixMoments hist L).sum2 rest (prefixMoments hist (P ++ [a]))
          (scanGain sqrt hist L (P.length + 1)) none
        rw [hPa] at i1 i2
        refine ⟨?_, Or.inr ?_⟩
        · intro k h1 h2
          by_cases hk : k = P.length + 1
          · rw [hk]; exact mono
          · exact i1 k (by omega) h2
        · rcases i2 with ⟨e1, e2⟩ | ⟨k, k1, k2, k3, k4, k5, k6⟩
          · refine ⟨P.length + 1, by omega, ?_, e1, hlt, ?_, ?_⟩
            · have : 1 ≤ rest.length := by
                cases rest with
                | nil => exact absurd rfl hr
                | cons b t => simp
              omega
            · intro k2 h1 h2
              omega
            · rw [e2, hidx]
              simp
          · refine ⟨k, by omega, k2, k3, lt_trans hlt k4, ?_, k6⟩
            intro k2 h1 h2
            by_cases hk : k2 = P.length + 1
            · rw [hk]; exact k4
            · exact k5 k2 (by omega) h2
      · rw [if_neg hlt]
        obtain ⟨i1, i2⟩ := ih (P ++ [a]) vdif (if pS = none then some a else pS) hL2 hr
        have mono := splitScan_mono sqrt hist (wN hist L) (prefixMoments hist L).sum
          (prefixMoments hist L).sum2 rest (prefixMoments hist (P ++ [a]))
          vdif (if pS = none then some a else pS)
        rw [hPa] at i1 i2
        have hps : (if pS = none then some a else pS) ≠ none := by
          split
          · simp
          · next h => exact h
        refine ⟨?_, ?_⟩
        · intro k h1 h2
          by_cases hk : k = P.length + 1
          · rw [hk]; exact le_trans (not_lt.mp hlt) mono
          · exact i1 k (by omega) h2
        · rcases i2 with ⟨e1, e2⟩ | ⟨k, k1, k2, k3, k4, k5, k6⟩
          · left
            refine ⟨e1, ?_⟩
            rw [e2, if_neg hps]
            simp only [List.head?_cons]
          · right
            refine ⟨k, by omega, k2, k3, k4, ?_, k6⟩
            intro k2 h1 h2
            by_cases hk : k2 = P.length + 1
            · rw [hk]; exact lt_of_le_of_lt (not_lt.mp hlt) k4
            · exact k5 k2 (by omega) h2

theorem foldl_min_spec (l : List K) (e : K) :
    l.foldl min e ≤ e ∧ (∀ x, x ∈ l → l.foldl min e ≤ x) ∧
    (l.foldl min e = e ∨ l.foldl min e ∈ l) := by
  induction l generalizing e with
  | nil => exact ⟨le_refl _, fun x hx => absurd hx (List.not_mem_nil _), Or.inl rfl⟩
  | cons a l ih =>
    rw [List.foldl_cons]
    obtain ⟨h1, h2, h3⟩ := ih (min e a)
    refine ⟨le_trans h1 (min_le_left _ _), ?_, ?_⟩
    · intro x hx
      rcases List.mem_cons.mp hx with rfl | hx
      · exact le_trans h1 (min_le_right _ _)
      · exact h2 x hx
    · rcases h3 with h3 | h3
      · rcases min_choice e a with hm | hm
        · left; rw [h3, hm]
        · right; rw [h3, hm]; exact List.mem_cons_self _ _
      · right; exact List.mem_cons_of_mem _ h3

/-- The gain left by `SumNode` is never negative. -/
theorem SumNode_vdif_nonneg (hist : Nat → ExqHistogramEntry K) (nd : ExqNode K) :
    0 ≤ (SumNode (exactOps sqrt) hist nd).vdif := by
  by_cases hN : wN hist nd.pHistogram = 0
  · have : (SumNode (exactOps sqrt) hist nd).vdif = 0 := by
      unfold SumNode
      rw [nodeMoments_exact]
      simp only [if_pos hN]
      simp
    rw [this]
  · obtain ⟨l2, -, -, hv, -⟩ := SumNode_scan sqrt hist nd hN
    rw [hv]
    have := splitScan_mono sqrt hist (wN hist nd.pHistogram)
      (prefixMoments hist nd.pHistogram).sum (prefixMoments hist nd.pHistogram).sum2 l2
      (Moments.zero (exactOps sqrt)) (-(listVar hist nd.pHistogram)) l2.head?
    unfold nodeScan
    linarith

/-- The split search of `SumNode` on a node of two or more members: `vdif` is
`err` less the least variance that a split of the sorted list after a proper
non-empty prefix leaves, when that is below `err`, and `0` otherwise; `pSplit`
is the member after the first prefix that attains the least variance, and the
second member when no split improves. -/
theorem SumNode_search (hist : Nat → ExqHistogramEntry K) (nd : ExqNode K)
    (hnd : nd.pHistogram.Nodup) (hnum : ∀ x, x ∈ nd.pHistogram → 1 ≤ (hist x).num)
    (h2 : 2 ≤ nd.pHistogram.length) :
    (∀ k, 0 < k → k < (SumNode (exactOps sqrt) hist nd).pHistogram.length →
      (SumNode (exactOps sqrt) hist nd).err
          - splitCost hist (SumNode (exactOps sqrt) hist nd).pHistogram k
        ≤ (SumNode (exactOps sqrt) hist nd).vdif) ∧
    (((SumNode (exactOps sqrt) hist nd).vdif = 0 ∧
        (SumNode (exactOps sqrt) hist nd).pSplit
          = (SumNode (exactOps sqrt) hist nd).pHistogram[1]?) ∨
      ∃ k, 0 < k ∧ k < (SumNode (exactOps sqrt) hist nd).pHistogram.length ∧
        splitCost hist (SumNode (exactOps sqrt) hist nd).pHistogram k
          < (SumNode (exactOps sqrt) hist nd).err ∧
        (SumNode (exactOps sqrt) hist nd).vdif = (SumNode (exactOps sqrt) hist nd).err
          - splitCost hist (SumNode (exactOps sqrt) hist nd).pHistogram k ∧
        (∀ k2, 0 < k2 → k2 < k →
          splitCost hist (SumNode (exactOps sqrt) hist nd).pHistogram k
            < splitCost hist (SumNode (exactOps sqrt) hist nd).pHistogram k2) ∧
        (SumNode (exactOps sqrt) hist nd).pSplit
          = (SumNode (exactOps sqrt) hist nd).pHistogram[k]?) := by
  have hN : wN hist nd.pHistogram ≠ 0 := by
    cases hl : nd.pHistogram with
    | nil => rw [hl] at h2; simp at h2
    | cons x t =>
      have := hnum x (by rw [hl]; simp)
      rw [wN_cons]
      omega
  have herr : (SumNode (exactOps sqrt) hist nd).err = listVar hist nd.pHistogram := by
    rw [SumNode_err]
    unfold errOf
    rw [if_neg hN]
  obtain ⟨l2, hl2, hp, hv, hs⟩ := SumNode_scan sqrt hist nd hN
  rw [nodeScan_perm sqrt hist hp] at hv hs
  rw [← listVar_perm hist hp] at hv herr
  rw [hl2, hv, hs, herr]
  have hnd2 : l2.Nodup := hp.nodup_iff.mpr hnd
  have hnum2 : ∀ x, x ∈ l2 → 1 ≤ (hist x).num := fun x hx => hnum x (hp.subset hx)
  have hlen : 2 ≤ l2.length := by rw [hp.length_eq]; exact h2
  clear hv hs hl2 herr
  cases l2 with
  | nil => simp at hlen
  | cons x1 t =>
    obtain ⟨c1, c2⟩ := splitScan_char sqrt hist (x1 :: t) hnum2 (x1 :: t) []
      (-(listVar hist (x1 :: t))) (some x1) rfl (by simp)
    rw [← Moments_zero_scanned sqrt hist] at c1 c2
    have hscan : nodeScan sqrt hist (x1 :: t) (x1 :: t)
        = splitScan (exactOps sqrt) hist (wN hist (x1 :: t))
          (prefixMoments hist (x1 :: t)).sum (prefixMoments hist (x1 :: t)).sum2 (x1 :: t)
          (Moments.zero (exactOps sqrt)) (-(listVar hist (x1 :: t))) (some x1) := rfl
    rw [← hscan] at c1 c2
    simp only [List.length_nil] at c1 c2
    refine ⟨?_, ?_⟩
    · intro k k1 k2
      have := c1 k k1 k2
      rw [scanGain_eq] at this
      linarith
    · rcases c2 with ⟨e1, e2⟩ | ⟨k, k1, k2, k3, k4, k5, k6⟩
      · left
        refine ⟨by rw [e1]; ring, ?_⟩
        simp only [reduceCtorEq, if_false] at e2
        show (if (nodeScan sqrt hist (x1 :: t) (x1 :: t)).2 = some x1 then t.head?
          else (nodeScan sqrt hist (x1 :: t) (x1 :: t)).2) = (x1 :: t)[1]?
        rw [if_pos e2, List.getElem?_cons_succ]
        exact List.head?_eq_getElem? t
      · right
        rw [scanGain_eq] at k3 k4
        refine ⟨k, k1, k2, by linarith, by rw [k3]; ring, ?_, ?_⟩
        · intro k7 h7 h8
          have := k5 k7 h7 h8
          rw [scanGain_eq, scanGain_eq] at this
          linarith
        · show (if (nodeScan sqrt hist (x1 :: t) (x1 :: t)).2 = some x1 then t.head?
            else (nodeScan sqrt hist (x1 :: t) (x1 :: t)).2) = (x1 :: t)[k]?
          rw [k6, if_neg]
          intro h
          obtain ⟨j, rfl⟩ : ∃ j, k = j + 1 := ⟨k - 1, by omega⟩
          rw [List.getElem?_cons_succ] at h
          have hmem : x1 ∈ t := List.getElem?_mem h
          exact (List.nodup_cons.mp hnd2).1 hmem

/-- The gain in closed form: `vdif = err - min(err, least split variance)`. -/
theorem SumNode_vdif_eq (hist : Nat → ExqHistogramEntry K) (nd : ExqNode K)
    (hnd : nd.pHistogram.Nodup) (hnum : ∀ x, x ∈ nd.pHistogram → 1 ≤ (hist x).num)
    (h2 : 2 ≤ nd.pHistogram.length) :
    (SumNode (exactOps sqrt) hist nd).vdif = (SumNode (exactOps sqrt) hist nd).err
      - bestCost hist (SumNode (exactOps sqrt) hist nd).pHistogram
          (SumNode (exactOps sqrt) hist nd).err := by
  obtain ⟨s1, s2⟩ := SumNode_search sqrt hist nd hnd hnum h2
  have hlen : 2 ≤ (SumNode (exactOps sqrt) hist nd).pHistogram.length := by
    rw [(SumNode_perm (exactOps sqrt) hist nd).length_eq]; exact h2
  generalize (SumNode (exactOps sqrt) hist nd).pHistogram = L at s1 s2 hlen
  generalize (SumNode (exactOps sqrt) hist nd).err = err at s1 s2
  generalize (SumNode (exactOps sqrt) hist nd).vdif = vdif at s1 s2
  generalize (SumNode (exactOps sqrt) hist nd).pSplit = pS at s2
  obtain ⟨m1, m2, m3⟩ := foldl_min_spec ((List.range' 1 (L.length - 1)).map (splitCost hist L)) err
  have hmem : ∀ x, x ∈ (List.range' 1 (L.length - 1)).map (splitCost hist L) ↔
      ∃ k, 0 < k ∧ k < L.length ∧ splitCost hist L k = x := by
    intro x
    rw [List.mem_map]
    constructor
    · rintro ⟨k, hk, e⟩
      rw [List.mem_range'_1] at hk
      exact ⟨k, by omega, by omega, e⟩
    · rintro ⟨k, k1, k2, e⟩
      exact ⟨k, by rw [List.mem_range'_1]; omega, e⟩
  unfold bestCost
  rcases s2 with ⟨e1, -⟩ | ⟨k, k1, k2, k3, k4, -, -⟩
  · rcases m3 with m3 | m3
    · rw [m3, e1]; ring
    · obtain ⟨k, k1, k2, e⟩ := (hmem _).mp m3
      have := s1 k k1 k2
      rw [e1, e] at this
      have : List.foldl min err ((List.range' 1 (L.length - 1)).map (splitCost hist L)) = err :=
        le_antisymm m1 (by linarith)
      rw [this, e1]; ring
  · have hle := m2 _ ((hmem _).mpr ⟨k, k1, k2, rfl⟩)
    rcases m3 with m3 | m3
    · rw [m3] at hle
      linarith
    · obtain ⟨k7, h7, h8, e⟩ := (hmem _).mp m3
      have := s1 k7 h7 h8
      rw [e, k4] at this
      have : List.foldl min err ((List.range' 1 (L.length - 1)).map (splitCost hist L))
          = splitCost hist L k := le_antisymm hle (by linarith)
      rw [this, k4]

end SplitSearch

/-! ## Dithered mapping: the caches are transparent -/

theorem FindNearestColor_frame (ops : Arith F) (s t : ExqData F) (hn : t.node = s.node)
    (hc : t.numColors = s.numColors) (c : ExqColor F) :
    FindNearestColor ops t c = FindNearestColor ops s c := by
  unfold FindNearestColor
  rw [hn, hc]

theorem ditherScaleOf_frame (ops : Arith F) (s t : ExqData F) (hn : t.node = s.node)
    (hc : t.numColors = s.numColors) (p : ExqColor F) :
    ditherScaleOf ops t p = ditherScaleOf ops s p := by
  unfold ditherScaleOf
  simp only [FindNearestColor_frame ops s t hn hc, hn]

theorem ditherValue_frame (ops : Arith F) (s t : ExqData F) (hn : t.node = s.node)
    (hc : t.numColors = s.numColors) (p : ExqColor F) (d : Nat) :
    ditherValue ops t p d = ditherValue ops s p d := by
  unfold ditherValue
  rw [FindNearestColor_frame ops s t hn hc, ditherScaleOf_frame ops s t hn hc]

theorem pixelColor_frame (ops : Arith F) (s t : ExqData F) (ht : t.transparency = s.transparency)
    (pIn : List Pixel) (i : Nat) : pixelColor ops t pIn i = pixelColor ops s pIn i := by
  unfold pixelColor
  rw [ht]

theorem pixelColor_at (ops : Arith F) (s : ExqData F) (pIn : List Pixel) (i : Nat) (p : Pixel)
    (h : pIn[i]? = some p) : pixelColor ops s pIn i = pixelColor ops s [p] 0 := by
  unfold pixelColor
  simp only [h, List.getElem?_cons_zero]

theorem FindNearestColor_lt_256 (ops : Arith F) (s : ExqData F) (h : s.numColors ≤ 256)
    (c : ExqColor F) : FindNearestColor ops s c < 256 := by
  by_cases h0 : s.numColors = 0
  · unfold FindNearestColor
    rw [h0]
    simp
  · have := FindNearestColor_lt ops s c (by omega)
    omega

/-- The work on an entry whose dither fields agree with the palette emits the
index computed from the colour, and leaves fields that agree with the palette. -/
theorem ditherEntry_cache (ops : Arith F) (s : ExqData F) (p : ExqColor F) (d : Nat)
    (e : ExqHistogramEntry F) (h256 : s.numColors ≤ 256) (he : CacheOK ops s p e) :
    (ditherEntry ops s p d e).2 = ditherValue ops s p d ∧
    CacheOK ops s p (ditherEntry ops s p d e).1 := by
  obtain ⟨h1, h2, h3⟩ := ditherEntry_eq ops s p d e
  obtain ⟨c1, c2⟩ := he
  have hsc : (if ops.lt e.ditherScale.r (ops.ofInt 0) = true then ditherScaleOf ops s p
      else e.ditherScale) = ditherScaleOf ops s p := by
    by_cases hf : ops.lt e.ditherScale.r (ops.ofInt 0) = true
    · rw [if_pos hf]
    · rw [if_neg hf]
      rcases c1 with c1 | c1
      · exact absurd c1 hf
      · exact c1
  have hv : ∀ c, storeUint8 (FindNearestColor ops s c : Int) = FindNearestColor ops s c :=
    fun c => storeUint8_of_lt _ (FindNearestColor_lt_256 ops s h256 c)
  have hout : (ditherEntry ops s p d e).2 = ditherValue ops s p d := by
    rw [h2, hsc]
    by_cases hge : e.ditherIndex d ≥ 0
    · rw [if_pos hge]
      rcases c2 d with c | c
      · omega
      · rw [c]
        exact hv _
    · rw [if_neg hge]
      exact hv _
  refine ⟨hout, ?_, ?_⟩
  · right
    rw [h1, hsc]
  · intro k
    rw [h3]
    by_cases hge : e.ditherIndex d ≥ 0
    · rw [if_pos hge]
      exact c2 k
    · rw [if_neg hge]
      by_cases hk : k = d
      · rw [hk, Function.update_same, hout]
        right
        rfl
      · rw [Function.update_noteq hk]
        exact c2 k

/-- A step of the dither loops writes the index computed from the colour of
the pixel and keeps the caches in agreement with the palette. -/
theorem ditherPixel_cache (ops : Arith F) (s0 : ExqData F) (width : Nat) (pIn : List Pixel)
    (ordered : Bool) (random : Nat → F) (st : ExqData F × List Nat) (y x : Nat)
    (h256 : s0.numColors ≤ 256) (hI : DitherInv ops s0 st.1) :
    DitherInv ops s0 (ditherPixel ops width pIn ordered random st y x).1 ∧
    (ditherPixel ops width pIn ordered random st y x).2
      = st.2.set (y * width + x)
        (ditherValue ops s0 (pixelColor ops s0 pIn (y * width + x))
          (ditherPhase ops ordered x y (random (y * width + x)))) := by
  obtain ⟨f1, f2, f3, -, f5, f6, -, f8⟩ := ditherPixel_frame ops width pIn ordered random st y x
  have hp : pixelColor ops st.1 pIn (y * width + x) = pixelColor ops s0 pIn (y * width + x) :=
    pixelColor_frame ops s0 st.1 hI.transparency pIn _
  have hbase : (ditherPixel ops width pIn ordered random st y x).1.node = s0.node ∧
      (ditherPixel ops width pIn ordered random st y x).1.numColors = s0.numColors ∧
      (ditherPixel ops width pIn ordered random st y x).1.transparency = s0.transparency ∧
      (ditherPixel ops width pIn ordered random st y x).1.optimized = s0.optimized ∧
      (ditherPixel ops width pIn ordered random st y x).1.pHash = s0.pHash ∧
      ∀ id, entryPixel ((ditherPixel ops width pIn ordered random st y x).1.hist id)
        = entryPixel (s0.hist id) :=
    ⟨f1.trans hI.node, f2.trans hI.numColors, f5.trans hI.transparency, f6.trans hI.optimized,
      f3.trans hI.pHash, fun id => ((f8 id).1).trans (hI.pixel id)⟩
  obtain ⟨b1, b2, b3, b4, b5, b6⟩ := hbase
  clear f1 f2 f3 f5 f6 f8
  unfold ditherPixel at *
  dsimp only at *
  cases hf : FindHistogram st.1 pIn (y * width + x) with
  | none =>
    simp only [hf] at b1 b2 b3 b4 b5 b6 ⊢
    refine ⟨⟨b1, b2, b3, b4, b5, b6, hI.cache⟩, ?_⟩
    rw [hp, FindNearestColor_frame ops s0 st.1 hI.node hI.numColors,
      ditherScaleOf_frame ops s0 st.1 hI.node hI.numColors,
      storeUint8_of_lt _ (FindNearestColor_lt_256 ops s0 h256 _)]
    rfl
  | some pHist =>
    simp only [hf] at b1 b2 b3 b4 b5 b6 ⊢
    obtain ⟨q, hq1, hq2, hq3⟩ := FindHistogram_some _ _ _ _ hf
    rw [hI.pHash] at hq2
    have hpq : pixelColor ops s0 pIn (y * width + x)
        = pixelColor ops s0 [entryPixel (s0.hist pHist)] 0 := by
      rw [pixelColor_at ops s0 pIn _ q hq1, ← hI.pixel pHist, hq3]
    have hc0 := hI.cache _ pHist hq2
    rw [← hpq] at hc0
    have hE : ditherEntry ops st.1 (pixelColor ops st.1 pIn (y * width + x))
        (ditherPhase ops ordered x y (random (y * width + x))) (st.1.hist pHist)
        = ditherEntry ops s0 (pixelColor ops s0 pIn (y * width + x))
        (ditherPhase ops ordered x y (random (y * width + x))) (st.1.hist pHist) := by
      unfold ditherEntry
      rw [hp]
      simp only [FindNearestColor_frame ops s0 st.1 hI.node hI.numColors,
        ditherScaleOf_frame ops s0 st.1 hI.node hI.numColors]
    obtain ⟨e1, e2⟩ := ditherEntry_cache ops s0 (pixelColor ops s0 pIn (y * width + x))
      (ditherPhase ops ordered x y (random (y * width + x))) (st.1.hist pHist) h256 hc0
    rw [hE] at b6 ⊢
    refine ⟨⟨b1, b2, b3, b4, b5, b6, ?_⟩, by rw [e1]⟩
    intro h id hid
    dsimp only
    by_cases hc : id = pHist
    · subst hc
      rw [Function.update_same, ← hpq]
      exact e2
    · rw [Function.update_noteq hc]
      exact hI.cache h id hid

theorem index_unique (w a b c d : Nat) (hb : b < w) (hd : d < w) (h : a * w + b = c * w + d) :
    a = c ∧ b = d := by
  have hac : a = c := by
    rcases Nat.lt_trichotomy a c with h1 | h1 | h1
    · have := Nat.mul_le_mul_right w (Nat.succ_le_of_lt h1)
      rw [Nat.succ_mul] at this
      omega
    · exact h1
    · have := Nat.mul_le_mul_right w (Nat.succ_le_of_lt h1)
      rw [Nat.succ_mul] at this
      omega
  subst hac
  exact ⟨rfl, by omega⟩

theorem index_lt (w h x y : Nat) (hx : x < w) (hy : y < h) : y * w + x < w * h := by
  have := Nat.mul_le_mul_right w (Nat.succ_le_of_lt hy)
  rw [Nat.succ_mul, Nat.mul_comm h w] at this
  omega

/-- The loops of `MapImageDither`: every cell of the output holds the index
computed from the colour of its pixel, and the caches stay in agreement with
the palette. -/
theorem ditherLoop_cache (ops : Arith F) (s0 : ExqData F) (width height : Nat)
    (pIn : List Pixel) (ordered : Bool) (random : Nat → F) (h256 : s0.numColors ≤ 256)
    (st0 : ExqData F × List Nat) (hI : DitherInv ops s0 st0.1)
    (hlen : st0.2.length = width * height) :
    DitherInv ops s0 ((List.range height).foldl (fun st y => (List.range width).foldl
      (fun st x => ditherPixel ops width pIn ordered random st y x) st) st0).1 ∧
    ((List.range height).foldl (fun st y => (List.range width).foldl
      (fun st x => ditherPixel ops width pIn ordered random st y x) st) st0).2.length
        = width * height ∧
    ∀ x y, x < width → y < height →
      ((List.range height).foldl (fun st y => (List.range width).foldl
        (fun st x => ditherPixel ops width pIn ordered random st y x) st) st0).2[y * width + x]?
        = some (ditherValue ops s0 (pixelColor ops s0 pIn (y * width + x))
            (ditherPhase ops ordered x y (random (y * width + x)))) := by
  have inner : ∀ (y : Nat), y < height → ∀ (n : Nat), n ≤ width → ∀ (st : ExqData F × List Nat),
      DitherInv ops s0 st.1 → st.2.length = width * height →
      (∀ x2 y2, x2 < width → y2 < height → y2 * width + x2 < y * width →
        st.2[y2 * width + x2]? = some (ditherValue ops s0 (pixelColor ops s0 pIn (y2 * width + x2))
          (ditherPhase ops ordered x2 y2 (random (y2 * width + x2))))) →
      DitherInv ops s0 ((List.range n).foldl
        (fun st x => ditherPixel ops width pIn ordered random st y x) st).1 ∧
      ((List.range n).foldl
        (fun st x => ditherPixel ops width pIn ordered random st y x) st).2.length
          = width * height ∧
      (∀ x2 y2, x2 < width → y2 < height → y2 * width + x2 < y * width + n →
        ((List.range n).foldl
          (fun st x => ditherPixel ops width pIn ordered random st y x) st).2[y2 * width + x2]?
          = some (ditherValue ops s0 (pixelColor ops s0 pIn (y2 * width + x2))
            (ditherPhase ops ordered x2 y2 (random (y2 * width + x2))))) := by
    intro y hy n
    induction n with
    | zero => intro _ st h1 h2 h3; exact ⟨h1, h2, h3⟩
    | succ n ih =>
      intro hn st h1 h2 h3
      obtain ⟨i1, i2, i3⟩ := ih (by omega) st h1 h2 h3
      rw [List.range_succ, List.foldl_append, List.foldl_cons, List.foldl_nil]
      obtain ⟨c1, c2⟩ := ditherPixel_cache ops s0 width pIn ordered random
        ((List.range n).foldl (fun st x => ditherPixel ops width pIn ordered random st y x) st)
        y n h256 i1
      refine ⟨c1, by rw [c2, List.length_set]; exact i2, ?_⟩
      intro x2 y2 hx2 hy2 hlt
      rw [c2]
      by_cases he : y2 * width + x2 = y * width + n
      · obtain ⟨e1, e2⟩ := index_unique width y2 x2 y n hx2 (by omega) he
        subst e1 e2
        rw [List.getElem?_set_self (by rw [i2]; exact index_lt width height x2 y2 hx2 hy2)]
      · rw [List.getElem?_set_ne (fun h => he h.symm)]
        exact i3 x2 y2 hx2 hy2 (by omega)
  have outer : ∀ (m : Nat), m ≤ height →
      DitherInv ops s0 ((List.range m).foldl (fun st y => (List.range width).foldl
        (fun st x => ditherPixel ops width pIn ordered random st y x) st) st0).1 ∧
      ((List.range m).foldl (fun st y => (List.range width).foldl
        (fun st x => ditherPixel ops width pIn ordered random st y x) st) st0).2.length
          = width * height ∧
      (∀ x2 y2, x2 < width → y2 < height → y2 * width + x2 < m * width →
        ((List.range m).foldl (fun st y => (List.range width).foldl
          (fun st x => ditherPixel ops width pIn ordered random st y x) st) st0).2[y2 * width + x2]?
          = some (ditherValue ops s0 (pixelColor ops s0 pIn (y2 * width + x2))
            (ditherPhase ops ordered x2 y2 (random (y2 * width + x2))))) := by
    intro m
    induction m with
    | zero =>
      intro _
      refine ⟨hI, hlen, ?_⟩
      intro x2 y2 _ _ h
      simp at h
    | succ m ih =>
      intro hm
      obtain ⟨i1, i2, i3⟩ := ih (by omega)
      rw [List.range_succ, List.foldl_append, List.foldl_cons, List.foldl_nil]
      have := inner m (by omega) width (Nat.le_refl _) _ i1 i2 i3
      rw [Nat.succ_mul]
      exact this
  obtain ⟨o1, o2, o3⟩ := outer height (Nat.le_refl _)
  refine ⟨o1, o2, ?_⟩
  intro x y hx hy
  apply o3 x y hx hy
  have := index_lt width height x y hx hy
  rw [Nat.mul_comm width height] at this
  exact this

theorem QuantizeEx_numColors_le (ops : Arith F) (s : ExqData F) (nColors : Int) (hq : Bool)
    (h : s.numColors ≤ 256) : (QuantizeEx ops s nColors hq).numColors ≤ 256 := by
  unfold QuantizeEx
  dsimp only
  rw [splitLoop_numColors ops hq _ _ _ rfl]
  have h1 : (seedNode ops s).numColors = 1 := rfl
  split <;> split <;> omega

theorem quantized_numColors_le (ops : Arith F) (qs : List (Int × Bool)) (s : ExqData F)
    (h : s.numColors ≤ 256) : (quantized ops s qs).numColors ≤ 256 := by
  unfold quantized
  induction qs generalizing s with
  | nil => exact h
  | cons q qs ih =>
    rw [List.foldl_cons]
    exact ih _ (QuantizeEx_numColors_le ops s q.1 q.2 h)

theorem feedPixel_ditherScale (ops : Arith F) (s : ExqData F) (p : Pixel)
    (h : ∀ id, id < s.nHist → (s.hist id).ditherScale.r = ops.ofInt (-1)) :
    ∀ id, id < (feedPixel ops s p).nHist →
      ((feedPixel ops s p).hist id).ditherScale.r = ops.ofInt (-1) := by
  intro id hid
  cases hw : walkChain s.hist p (s.pHash (pixelHash p)) with
  | some pCur =>
    obtain ⟨eh, en, -, -⟩ := feedPixel_hit ops s p pCur hw
    rw [en] at hid
    rw [eh]
    by_cases hc : id = pCur
    · subst hc
      rw [Function.update_same]
      exact h id hid
    · rw [Function.update_noteq hc]
      exact h id hid
  | none =>
    obtain ⟨eh, en, -, -⟩ := feedPixel_miss ops s p hw
    rw [en] at hid
    rw [eh]
    by_cases hc : id = s.nHist
    · subst hc
      rw [Function.update_same]
      rfl
    · rw [Function.update_noteq hc]
      exact h id (by omega)

theorem fed_ditherScale (ops : Arith F) (feeds : List (List Pixel)) :
    ∀ id, id < (fed ops feeds).nHist → ((fed ops feeds).hist id).ditherScale.r = ops.ofInt (-1) := by
  unfold fed
  have one : ∀ (pData : List Pixel) (s : ExqData F),
      (∀ id, id < s.nHist → (s.hist id).ditherScale.r = ops.ofInt (-1)) →
      ∀ id, id < (Feed ops s pData).nHist →
        ((Feed ops s pData).hist id).ditherScale.r = ops.ofInt (-1) := by
    intro pData
    unfold Feed
    induction pData with
    | nil => intro s h; exact h
    | cons p ps ih =>
      intro s h
      rw [List.foldl_cons]
      exact ih _ (feedPixel_ditherScale ops s p h)
  have : ∀ (s : ExqData F), (∀ id, id < s.nHist → (s.hist id).ditherScale.r = ops.ofInt (-1)) →
      ∀ id, id < (feeds.foldl (Feed ops) s).nHist →
        ((feeds.foldl (Feed ops) s).hist id).ditherScale.r = ops.ofInt (-1) := by
    induction feeds with
    | nil => intro s h; exact h
    | cons f fs ih =>
      intro s h
      rw [List.foldl_cons]
      exact ih _ (one f s h)
  exact this _ (fun id hid => absurd hid (Nat.not_lt_zero _))

/-- A call of `MapImageDither` on an optimized quantizer whose caches agree
with the palette. -/
theorem MapImageDither_cache (ops : Arith F) (s0 s : ExqData F) (width height : Nat)
    (pIn : List Pixel) (ordered : Bool) (random : Nat → F) (h256 : s0.numColors ≤ 256)
    (ho : s0.optimized = true) (hI : DitherInv ops s0 s) :
    DitherInv ops s0 (MapImageDither ops s width height pIn ordered random).2 ∧
    (MapImageDither ops s width height pIn ordered random).1.length = width * height ∧
    ∀ x y, x < width → y < height →
      (MapImageDither ops s width height pIn ordered random).1[y * width + x]?
        = some (ditherValue ops s0 (pixelColor ops s0 pIn (y * width + x))
            (ditherPhase ops ordered x y (random (y * width + x)))) := by
  have hos : s.optimized = true := hI.optimized.trans ho
  unfold MapImageDither
  simp only [hos, Bool.not_true, Bool.false_eq_true, if_false]
  exact ditherLoop_cache ops s0 width height pIn ordered random h256
    (s, List.replicate (width * height) 0) hI (List.length_replicate _ _)

/-- The quantizer after a sequence of `MapImageOrdered` calls. -/
theorem MapImageOrdered_calls (ops : Arith F) (s0 : ExqData F) (h256 : s0.numColors ≤ 256)
    (ho : s0.optimized = true) (calls : List (Nat × Nat × List Pixel)) (s : ExqData F)
    (hI : DitherInv ops s0 s) :
    DitherInv ops s0
      (calls.foldl (fun s c => (MapImageOrdered ops s c.1 c.2.1 c.2.2).2) s) := by
  induction calls generalizing s with
  | nil => exact hI
  | cons c cs ih =>
    rw [List.foldl_cons]
    apply ih
    unfold MapImageOrdered
    exact (MapImageDither_cache ops s0 s c.1 c.2.1 c.2.2 true _ h256 ho hI).1

/-! ## Ordered dithering against its specification -/

section OrderedExact

variable {K : Type} [LinearOrderedField K] [FloorRing K] (sqrt : K → K)

theorem abs_branch (v : K) : (if v < 0 then -v else v) = |v| := by
  split
  · next h => exact (abs_of_neg h).symm
  · next h => exact (abs_of_nonneg (not_lt.mp h)).symm

theorem abs_scale (x : K) : |x * (4 / 5)| = 4 / 5 * |x| := by
  rw [abs_mul, abs_of_pos (by norm_num : (0 : K) < 4 / 5), mul_comm]

theorem ditherScaleOf_exact (s : ExqData K) (p : ExqColor K) :
    ditherScaleOf (exactOps sqrt) s p = specScale sqrt s p := by
  have e3 : ((3 : Int) : K) = 3 := by norm_num
  have e0 : ((0 : Int) : K) = 0 := by norm_num
  have e8 : ((8 : Nat) : K) / 10 ^ 1 = 4 / 5 := by norm_num
  unfold ditherScaleOf specScale
  simp only [exactOps_sub, exactOps_div, exactOps_mul, exactOps_ofInt, exactOps_dec,
    exactOps_lt, exactOps_neg, e3, e0, e8, decide_eq_true_eq, abs_branch, abs_scale]
  generalize FindNearestColor (exactOps sqrt) s p = i
  generalize FindNearestColor (exactOps sqrt) s
      ⟨p.r - ((s.node i).avg.r - p.r) / 3, p.g - ((s.node i).avg.g - p.g) / 3,
        p.b - ((s.node i).avg.b - p.b) / 3, p.a - ((s.node i).avg.a - p.a) / 3⟩ = j1
  generalize FindNearestColor (exactOps sqrt) s
      ⟨p.r - ((s.node i).avg.r - p.r) * 3, p.g - ((s.node i).avg.g - p.g) * 3,
        p.b - ((s.node i).avg.b - p.b) * 3, p.a - ((s.node i).avg.a - p.a) * 3⟩ = j2
  by_cases h1 : i = j1
  · subst h1
    by_cases h2 : i = j2
    · subst h2
      simp
    · have h3 : ¬ j2 = i := fun h => h2 h.symm
      simp [h2, h3]
  · have h3 : ¬ j1 = i := fun h => h1 h.symm
    simp [h1, h3]

theorem ditherMatrix_exact (d : Nat) : ditherMatrix (exactOps sqrt) d = specOffset d := by
  unfold ditherMatrix specOffset
  split <;> simp only [exactOps_neg, exactOps_dec, exactOps] <;> norm_num

theorem ditherValue_exact (s : ExqData K) (pIn : List Pixel) (width x y : Nat) (r : K) :
    ditherValue (exactOps sqrt) s (pixelColor (exactOps sqrt) s pIn (y * width + x))
      (ditherPhase (exactOps sqrt) true x y r) = specOrderedAt sqrt s pIn width x y := by
  unfold ditherValue specOrderedAt ditherTarget ditherPhase
  simp only [if_true, ditherScaleOf_exact, ditherMatrix_exact, exactOps_add, exactOps_mul,
    Nat.and_one_is_mod]
  rw [Nat.mul_comm (y % 2) 2]

/-- After `Feed`, `Quantize` and relaxation, with no dithered call made yet, the
caches are unset, hence in agreement with the palette. -/
theorem DitherInv_relaxed (feeds : List (List Pixel)) (q : Int × Bool) (qs : List (Int × Bool))
    (iter : Nat) :
    DitherInv (exactOps sqrt)
      (OptimizePalette (exactOps sqrt) (quantized (exactOps sqrt) (fed (exactOps sqrt) feeds)
        (q :: qs)) iter)
      (OptimizePalette (exactOps sqrt) (quantized (exactOps sqrt) (fed (exactOps sqrt) feeds)
        (q :: qs)) iter) ∧
    (OptimizePalette (exactOps sqrt) (quantized (exactOps sqrt) (fed (exactOps sqrt) feeds)
        (q :: qs)) iter).numColors ≤ 256 ∧
    (OptimizePalette (exactOps sqrt) (quantized (exactOps sqrt) (fed (exactOps sqrt) feeds)
        (q :: qs)) iter).optimized = true := by
  obtain ⟨⟨q1, q2, q3, -, -⟩, -⟩ := quantized_spec (exactOps sqrt) (q :: qs)
    (fed (exactOps sqrt) feeds) (Or.inl (fed_numColors _ feeds))
  have hH := HistInv_fed (exactOps sqrt) feeds
  have hD := fed_ditherIndex (exactOps sqrt) feeds
  have hS := fed_ditherScale (exactOps sqrt) feeds
  refine ⟨⟨rfl, rfl, rfl, rfl, rfl, fun _ => rfl, ?_⟩, ?_, OptimizePalette_optimized _ _ _⟩
  · intro h id hid
    rw [OptimizePalette_pHash, q2] at hid
    have hlt := hH.chain_lt h id hid
    constructor
    · left
      rw [OptimizePalette_hist, q1, hS id hlt]
      simp
    · intro d
      left
      rw [OptimizePalette_hist, q1, hD id hlt d]
      decide
  · rw [OptimizePalette_numColors]
    apply quantized_numColors_le
    rw [fed_numColors]
    omega

/-- Two buffers of `width * height` cells that agree in every cell `(x, y)`
are equal. -/
theorem buffer_ext (width height : Nat) (l1 l2 : List Nat) (h1 : l1.length = width * height)
    (h2 : l2.length = width * height)
    (h : ∀ x y, x < width → y < height → l1[y * width + x]? = l2[y * width + x]?) : l1 = l2 := by
  apply List.ext_getElem?
  intro n
  by_cases hn : n < width * height
  · have hw : 0 < width := by
      rcases Nat.eq_zero_or_pos width with h0 | h0
      · rw [h0] at hn; simp at hn
      · exact h0
    have e : n / width * width + n % width = n := Nat.div_add_mod' n width
    have := h (n % width) (n / width) (Nat.mod_lt _ hw)
      ((Nat.div_lt_iff_lt_mul hw).mpr (by rw [Nat.mul_comm height width]; exact hn))
    rw [e] at this
    exact this
  · rw [List.getElem?_eq_none (by omega), List.getElem?_eq_none (by omega)]

/-- `MapImageOrdered` after `Feed`, `Quantize`, relaxation and any earlier
`MapImageOrdered` calls: every cell holds the index that the specification
gives, so the output does not depend on the earlier calls. -/
theorem ordered_run (feeds : List (List Pixel)) (q : Int × Bool) (qs : List (Int × Bool))
    (iter : Nat) (calls : List (Nat × Nat × List Pixel)) (width height : Nat)
    (pIn : List Pixel) :
    (MapImageOrdered (exactOps sqrt)
      (calls.foldl (fun s c => (MapImageOrdered (exactOps sqrt) s c.1 c.2.1 c.2.2).2)
        (OptimizePalette (exactOps sqrt) (quantized (exactOps sqrt) (fed (exactOps sqrt) feeds)
          (q :: qs)) iter)) width height pIn).1.length = width * height ∧
    ∀ x y, x < width → y < height →
      (MapImageOrdered (exactOps sqrt)
        (calls.foldl (fun s c => (MapImageOrdered (exactOps sqrt) s c.1 c.2.1 c.2.2).2)
          (OptimizePalette (exactOps sqrt) (quantized (exactOps sqrt)
            (fed (exactOps sqrt) feeds) (q :: qs)) iter)) width height pIn).1[y * width + x]?
        = some (specOrderedAt sqrt
            (OptimizePalette (exactOps sqrt) (quantized (exactOps sqrt)
              (fed (exactOps sqrt) feeds) (q :: qs)) iter) pIn width x y) := by
  obtain ⟨hI, h256, ho⟩ := DitherInv_relaxed sqrt feeds q qs iter
  generalize OptimizePalette (exactOps sqrt) (quantized (exactOps sqrt)
    (fed (exactOps sqrt) feeds) (q :: qs)) iter = s0 at hI h256 ho
  have hI2 := MapImageOrdered_calls (exactOps sqrt) s0 h256 ho calls s0 hI
  generalize calls.foldl (fun s c => (MapImageOrdered (exactOps sqrt) s c.1 c.2.1 c.2.2).2) s0
    = s at hI2
  unfold MapImageOrdered
  obtain ⟨-, m2, m3⟩ := MapImageDither_cache (exactOps sqrt) s0 s width height pIn true
    (fun _ => (exactOps sqrt).nan) h256 ho hI2
  refine ⟨m2, ?_⟩
  intro x y hx hy
  rw [m3 x y hx hy, ditherValue_exact]

end OrderedExact

/-! ## The random phase, the bound 16, the statistics of a node -/

section MiscExact

variable {K : Type} [LinearOrderedField K] [FloorRing K] (sqrt : K → K)

/-- `Math.random() & 3` is 0 for every value in `[0, 1)`. -/
theorem ditherPhase_random (x y : Nat) (r : K) (h0 : 0 ≤ r) (h1 : r < 1) :
    ditherPhase (exactOps sqrt) false x y r = 0 := by
  have ht : trunc r = 0 := by
    unfold trunc
    rw [if_pos h0]
    exact Int.floor_eq_zero_iff.mpr ⟨h0, h1⟩
  unfold ditherPhase
  simp only [Bool.false_eq_true, if_false]
  show (Int.land (toInt32 (trunc r)) 3).toNat = 0
  rw [ht]
  decide

/-- The first comparison of the search, against the initial bound 16,
succeeds for colours of the weighted-normalised space. -/
theorem nearestStep_first (node : Nat → ExqNode K) (x : ExqColor K) (i b : Nat)
    (hx : InBox x) (hc : InBox (node i).avg) :
    nearestStep (exactOps sqrt) node x ((exactOps sqrt).ofInt 16, b) i
      = (dist2 x (node i).avg, i) := by
  rw [nearestStep_exact]
  have := dist2_lt_16 x (node i).avg hx hc
  have e16 : (exactOps sqrt).ofInt 16 = (16 : K) := by simp
  rw [e16]
  simp only [if_pos this]

/-- What `SumNode` leaves in a node with a non-empty member list. -/
theorem SumNode_stats (hist : Nat → ExqHistogramEntry K) (nd : ExqNode K)
    (hne : nd.pHistogram ≠ []) (hnum : ∀ x, x ∈ nd.pHistogram → 1 ≤ (hist x).num) :
    (SumNode (exactOps sqrt) hist nd).num = (nd.pHistogram.map (fun id => (hist id).num)).sum ∧
    (SumNode (exactOps sqrt) hist nd).avg = meanOf hist nd.pHistogram ∧
    (SumNode (exactOps sqrt) hist nd).err
      = wD hist (SumNode (exactOps sqrt) hist nd).avg nd.pHistogram ∧
    (SumNode (exactOps sqrt) hist nd).err = listVar hist nd.pHistogram ∧
    0 ≤ (SumNode (exactOps sqrt) hist nd).err := by
  have hN : wN hist nd.pHistogram ≠ 0 := by
    cases hl : nd.pHistogram with
    | nil => exact absurd hl hne
    | cons x t =>
      have := hnum x (by rw [hl]; simp)
      rw [wN_cons]
      omega
  have havg : (SumNode (exactOps sqrt) hist nd).avg = meanOf hist nd.pHistogram := by
    rw [SumNode_avg, if_neg hN]
  have herr : (SumNode (exactOps sqrt) hist nd).err = listVar hist nd.pHistogram := by
    rw [SumNode_err]
    unfold errOf
    rw [if_neg hN]
  have hwd : (SumNode (exactOps sqrt) hist nd).err
      = wD hist (SumNode (exactOps sqrt) hist nd).avg nd.pHistogram := by
    rw [herr, havg]
    exact listVar_eq_wD_mean hist _ hN
  refine ⟨SumNode_num _ hist nd, havg, hwd, herr, ?_⟩
  rw [hwd]
  exact wD_nonneg hist _ _

theorem SortHist_single (ops : Arith F) (f : Nat → F) (x : Nat) : SortHist ops f [x] = [x] := by
  simp [SortHist, SortAux]

/-- The direction of `SumNode` is the accumulated direction times `1` over
its norm. -/
theorem SumNode_dir (ops : Arith F) (hist : Nat → ExqHistogramEntry F) (nd : ExqNode F)
    (hn : (nodeMoments ops hist nd.pHistogram).n ≠ 0) :
    (SumNode ops hist nd).dir
      = { r := ops.mul (SumNode_dirSum ops hist nd).r
            (ops.div (ops.ofInt 1) (SumNode_dirNorm ops hist nd)),
          g := ops.mul (SumNode_dirSum ops hist nd).g
            (ops.div (ops.ofInt 1) (SumNode_dirNorm ops hist nd)),
          b := ops.mul (SumNode_dirSum ops hist nd).b
            (ops.div (ops.ofInt 1) (SumNode_dirNorm ops hist nd)),
          a := ops.mul (SumNode_dirSum ops hist nd).a
            (ops.div (ops.ofInt 1) (SumNode_dirNorm ops hist nd)) } := by
  unfold SumNode SumNode_dirNorm SumNode_dirSum nodeDir
  simp only [if_neg hn]

/-- For a node with one member the accumulated direction is zero, so its norm,
the divisor of the normalisation, is the square root of 0. -/
theorem SumNode_dirNorm_single (hist : Nat → ExqHistogramEntry K) (nd : ExqNode K) (x : Nat)
    (hl : nd.pHistogram = [x]) (hnum : (hist x).num ≠ 0) :
    (nodeMoments (exactOps sqrt) hist nd.pHistogram).n ≠ 0 ∧
    SumNode_dirSum (exactOps sqrt) hist nd = ⟨0, 0, 0, 0⟩ ∧
    SumNode_dirNorm (exactOps sqrt) hist nd = sqrt 0 := by
  have hK : ((hist x).num : K) ≠ 0 := by exact_mod_cast hnum
  have hs : SumNode_dirSum (exactOps sqrt) hist nd = ⟨0, 0, 0, 0⟩ := by
    unfold SumNode_dirSum
    rw [nodeMoments_exact, hl]
    simp only [SortHist_single, ite_self, List.foldl_cons, List.foldl_nil]
    unfold addDir ExqColor.new
    simp only [exactOps_add, exactOps_sub, exactOps_mul, exactOps_div, exactOps_ofInt,
      exactOps_lt, exactOps_neg, wS_cons, wS_nil, wN_cons, wN_nil, add_zero, Nat.add_zero,
      Int.cast_natCast, Int.cast_zero, mul_div_cancel_right₀ _ hK, sub_self, zero_mul, mul_zero,
      lt_self_iff_false, decide_False, Bool.false_eq_true, if_false]
  refine ⟨?_, hs, ?_⟩
  · rw [nodeMoments_exact, hl]
    simpa [wN] using hnum
  · unfold SumNode_dirNorm
    rw [hs]
    simp only [exactOps_add, exactOps_mul, mul_zero, add_zero]
    rfl

end MiscExact

/-! ## The node chosen for a split -/

section SplitChoice

variable {K : Type} [LinearOrderedField K] [FloorRing K] (sqrt : K → K)

/-- The scan for the node to split keeps the last of the largest gains that
are not below the value it starts with. -/
theorem foldl_best_last (node : Nat → ExqNode K) (L : List Nat) (st : K × Nat) :
    (L.foldl (bestStep (exactOps sqrt) node) st = st ∧ ∀ j, j ∈ L → (node j).vdif < st.1) ∨
    ∃ L1 L2, L = L1 ++ (L.foldl (bestStep (exactOps sqrt) node) st).2 :: L2 ∧
      (L.foldl (bestStep (exactOps sqrt) node) st).1
        = (node (L.foldl (bestStep (exactOps sqrt) node) st).2).vdif ∧
      st.1 ≤ (node (L.foldl (bestStep (exactOps sqrt) node) st).2).vdif ∧
      (∀ j, j ∈ L1 → (node j).vdif ≤ (node (L.foldl (bestStep (exactOps sqrt) node) st).2).vdif) ∧
      ∀ j, j ∈ L2 → (node j).vdif < (node (L.foldl (bestStep (exactOps sqrt) node) st).2).vdif := by
  induction L generalizing st with
  | nil => exact Or.inl ⟨rfl, fun j hj => absurd hj (List.not_mem_nil _)⟩
  | cons a L ih =>
    rw [List.foldl_cons]
    rcases ih (bestStep (exactOps sqrt) node st a) with ⟨e1, e2⟩ | ⟨L1, L2, e1, e2, e3, e4, e5⟩
    · rw [e1]
      rw [bestStep_exact] at e2 ⊢
      by_cases hle : st.1 ≤ (node a).vdif
      · rw [if_pos hle] at e2 ⊢
        exact Or.inr ⟨[], L, rfl, rfl, hle, fun j hj => absurd hj (List.not_mem_nil _), e2⟩
      · rw [if_neg hle] at e2 ⊢
        refine Or.inl ⟨rfl, ?_⟩
        intro j hj
        rcases List.mem_cons.mp hj with rfl | hj
        · exact not_le.mp hle
        · exact e2 j hj
    · right
      have hstep : st.1 ≤ (bestStep (exactOps sqrt) node st a).1 ∧
          (node a).vdif ≤ (bestStep (exactOps sqrt) node st a).1 := by
        rw [bestStep_exact]
        split
        · next hle => exact ⟨hle, le_refl _⟩
        · next hle => exact ⟨le_refl _, le_of_lt (not_le.mp hle)⟩
      refine ⟨a :: L1, L2, ?_, e2, le_trans hstep.1 e3, ?_, e5⟩
      · rw [List.cons_append, ← e1]
      · intro j hj
        rcases List.mem_cons.mp hj with rfl | hj
        · exact le_trans hstep.2 e3
        · exact e4 j hj

/-- The node chosen for a split, when some active node has a gain that is not
negative: an active node with the largest gain, and the one with the highest
index among those. -/
theorem bestIndex_last (node : Nat → ExqNode K) (i : Nat)
    (h : ∃ j, j < i ∧ 0 ≤ (node j).vdif) :
    bestIndex (exactOps sqrt) node i < i ∧
    (∀ j, j < i → (node j).vdif ≤ (node (bestIndex (exactOps sqrt) node i)).vdif) ∧
    (∀ j, j < i → (node j).vdif = (node (bestIndex (exactOps sqrt) node i)).vdif →
      j ≤ bestIndex (exactOps sqrt) node i) := by
  obtain ⟨j0, hj0, hv0⟩ := h
  unfold bestIndex
  rcases foldl_best_last sqrt node (List.range i) ((exactOps sqrt).ofInt 0, 0)
    with ⟨-, e2⟩ | ⟨L1, L2, e1, -, -, e4, e5⟩
  · have := e2 j0 (List.mem_range.mpr hj0)
    simp only [exactOps_ofInt, Int.cast_zero] at this
    exact absurd hv0 (not_le.mpr this)
  · generalize ((List.range i).foldl (bestStep (exactOps sqrt) node)
      ((exactOps sqrt).ofInt 0, 0)).2 = b at e1 e4 e5
    have hb : b ∈ List.range i := by rw [e1]; simp
    have hsorted : (List.range i).Pairwise (· < ·) := List.pairwise_lt_range i
    rw [e1] at hsorted
    have hlt := (List.pairwise_append.mp hsorted).2.2
    refine ⟨List.mem_range.mp hb, ?_, ?_⟩
    · intro j hj
      have hm : j ∈ L1 ++ b :: L2 := by rw [← e1]; exact List.mem_range.mpr hj
      rcases List.mem_append.mp hm with h1 | h1
      · exact e4 j h1
      · rcases List.mem_cons.mp h1 with rfl | h1
        · exact le_refl _
        · exact le_of_lt (e5 j h1)
    · intro j hj heq
      have hm : j ∈ L1 ++ b :: L2 := by rw [← e1]; exact List.mem_range.mpr hj
      rcases List.mem_append.mp hm with h1 | h1
      · exact le_of_lt (hlt j h1 b (List.mem_cons_self _ _))
      · rcases List.mem_cons.mp h1 with rfl | h1
        · exact le_refl _
        · have := e5 j h1
          rw [heq] at this
          exact absurd this (lt_irrefl _)

/-- `SumNode` leaves no gain in a node of at most one member. -/
theorem SumNode_vdif_short (hist : Nat → ExqHistogramEntry K) (nd : ExqNode K)
    (hlen : nd.pHistogram.length ≤ 1) (hnum : ∀ x, x ∈ nd.pHistogram → 1 ≤ (hist x).num) :
    (SumNode (exactOps sqrt) hist nd).vdif = 0 := by
  have hnd : nd.pHistogram.Nodup := by
    cases hl : nd.pHistogram with
    | nil => exact List.nodup_nil
    | cons x t =>
      rw [hl] at hlen
      have : t = [] := List.length_eq_zero.mp (by simpa using hlen)
      rw [this]
      exact List.nodup_singleton x
  have hcol : ∀ x, x ∈ nd.pHistogram → ∀ y, y ∈ nd.pHistogram →
      (hist x).color = (hist y).color → x = y := by
    intro x hx y hy _
    cases hl : nd.pHistogram with
    | nil => rw [hl] at hx; exact absurd hx (List.not_mem_nil _)
    | cons z t =>
      rw [hl] at hlen hx hy
      have : t = [] := List.length_eq_zero.mp (by simpa using hlen)
      rw [this] at hx hy
      rw [List.mem_singleton.mp hx, List.mem_singleton.mp hy]
  apply (SumNode_sep sqrt hist nd hnd hnum hcol).1
  rw [(SumNode_perm (exactOps sqrt) hist nd).length_eq]
  exact hlen

/-- One pixel fed, then `Quantize(2)`: both active nodes have the gain 0, and
the scan of the next split step chooses node 1. -/
theorem tie_run (c : Pixel) :
    (Quantize (exactOps sqrt) (Feed (exactOps sqrt) (ExoQuant.new (exactOps sqrt)) [c]) 2).numColors
      = 2 ∧
    ((Quantize (exactOps sqrt) (Feed (exactOps sqrt) (ExoQuant.new (exactOps sqrt)) [c]) 2).node
      0).vdif = 0 ∧
    ((Quantize (exactOps sqrt) (Feed (exactOps sqrt) (ExoQuant.new (exactOps sqrt)) [c]) 2).node
      1).vdif = 0 ∧
    bestIndex (exactOps sqrt)
      (Quantize (exactOps sqrt) (Feed (exactOps sqrt) (ExoQuant.new (exactOps sqrt)) [c]) 2).node
      2 = 1 := by
  obtain ⟨hE, -, -, hnum, -, -⟩ := Feed_single (exactOps sqrt) c 0
  have hrep : List.replicate (0 + 1) c = [c] := rfl
  rw [hrep] at hE hnum
  have hnc0 : (Feed (exactOps sqrt) (ExoQuant.new (exactOps sqrt)) [c]).numColors = 0 := by
    rw [Feed_numColors]; rfl
  generalize Feed (exactOps sqrt) (ExoQuant.new (exactOps sqrt)) [c] = s0 at hE hnum hnc0
  have hI := NodeInv_seedNode (exactOps sqrt) s0
  have hEt : hashEntries (seedNode (exactOps sqrt) s0) = [0] :=
    (hashEntries_congr s0 (seedNode (exactOps sqrt) s0) rfl).trans hE
  have hnct : (seedNode (exactOps sqrt) s0).numColors = 1 := rfl
  have hht : (seedNode (exactOps sqrt) s0).hist = s0.hist := rfl
  have hQ : Quantize (exactOps sqrt) s0 2
      = { splitStep (exactOps sqrt) false (seedNode (exactOps sqrt) s0) 1 with
          optimized := false } := by
    unfold Quantize QuantizeEx
    simp only [hnc0, if_true, hnct]
    rfl
  generalize seedNode (exactOps sqrt) s0 = t at hI hEt hnct hht hQ
  have hl0 : (t.node 0).pHistogram = [0] := by
    have hm := hI.members
    rw [hnct, hEt, List.range_succ, List.range_zero] at hm
    simp only [List.nil_append, List.flatMap_cons, List.flatMap_nil, List.append_nil] at hm
    exact List.perm_singleton.mp hm
  have hb : bestIndex (exactOps sqrt) t.node 1 = 0 := by
    have := bestIndex_lt (exactOps sqrt) t.node 1 (Nat.le_refl _)
    omega
  obtain ⟨e1, e2, -⟩ := splitStep_node (exactOps sqrt) t 1 (by rw [hb]; decide)
  rw [hb] at e1 e2
  have hmv := moveUntil_spec (t.node 0).pSplit (t.node 0).pHistogram []
  rw [hl0] at hmv e1 e2
  simp only [List.reverse_nil, List.nil_append] at hmv
  have hlen := congrArg List.length hmv
  simp only [List.length_append, List.length_reverse, List.length_singleton] at hlen
  have hmem1 : ∀ x, x ∈ (moveUntil (t.node 0).pSplit [0] []).1 → x = 0 := by
    intro x hx
    have : x ∈ (moveUntil (t.node 0).pSplit [0] []).2.reverse
        ++ (moveUntil (t.node 0).pSplit [0] []).1 := List.mem_append_right _ hx
    rw [hmv] at this
    exact List.mem_singleton.mp this
  have hmem2 : ∀ x, x ∈ (moveUntil (t.node 0).pSplit [0] []).2 → x = 0 := by
    intro x hx
    have : x ∈ (moveUntil (t.node 0).pSplit [0] []).2.reverse
        ++ (moveUntil (t.node 0).pSplit [0] []).1 :=
      List.mem_append_left _ (List.mem_reverse.mpr hx)
    rw [hmv] at this
    exact List.mem_singleton.mp this
  have v0 : ((splitStep (exactOps sqrt) false t 1).node 0).vdif = 0 := by
    rw [e1, hht]
    apply SumNode_vdif_short
    · simp only [List.length_reverse]
      omega
    · intro x hx
      rw [hmem1 x (List.mem_reverse.mp hx), hnum]
  have v1 : ((splitStep (exactOps sqrt) false t 1).node 1).vdif = 0 := by
    rw [e2, hht]
    apply SumNode_vdif_short
    · show (moveUntil (t.node 0).pSplit [0] []).2.length ≤ 1
      omega
    · intro x hx
      rw [hmem2 x hx, hnum]
  rw [hQ]
  refine ⟨by simp, v0, v1, ?_⟩
  have r2 : List.range 2 = [0, 1] := rfl
  unfold bestIndex
  dsimp only
  simp only [r2, List.foldl_cons, List.foldl_nil, bestStep_exact, v0, v1, exactOps_ofInt,
    Int.cast_zero, le_refl, if_true]

end SplitChoice

/-! ## A quantizer into which no pixel has been fed -/

theorem SumNode_nil (ops : Arith F) (hist : Nat → ExqHistogramEntry F) (nd : ExqNode F)
    (h : nd.pHistogram = []) :
    SumNode ops hist nd = { nd with num := 0, vdif := ops.ofInt 0, err := ops.ofInt 0 } := by
  unfold SumNode
  rw [h]
  have : (nodeMoments ops hist []).n = 0 := rfl
  simp only [this, if_true]

theorem hashEntries_unfed (s : ExqData F) (h : s.pHash = fun _ => []) : hashEntries s = [] := by
  rw [hashEntries_eq_flatMap, h]
  simp

theorem Unfed_new (ops : Arith F) : Unfed ops (ExoQuant.new ops) :=
  ⟨rfl, fun _ => rfl, fun _ => rfl, rfl, rfl⟩

theorem Unfed_seedNode (ops : Arith F) (s : ExqData F) (h : Unfed ops s) :
    Unfed ops (seedNode ops s) := by
  obtain ⟨e1, e2⟩ := seedNode_node ops s
  rw [hashEntries_unfed s h.pHash, List.reverse_nil, SumNode_nil ops _ _ rfl] at e1
  refine ⟨h.pHash, ?_, ?_, h.bits, h.transparency⟩
  · intro i
    by_cases hi : i = 0
    · subst hi; rw [e1]; exact h.avg 0
    · rw [e2 i hi]; exact h.avg i
  · intro i
    by_cases hi : i = 0
    · subst hi; rw [e1]
    · rw [e2 i hi]; exact h.members i

theorem Unfed_splitStep_false (ops : Arith F) (s : ExqData F) (i : Nat) (hi : 1 ≤ i)
    (h : Unfed ops s) : Unfed ops (splitStep ops false s i) := by
  have hb := bestIndex_lt ops s.node i hi
  obtain ⟨e1, e2, e3⟩ := splitStep_node ops s i (by omega)
  generalize bestIndex ops s.node i = b at hb e1 e2 e3
  have hmv : moveUntil (s.node b).pSplit (s.node b).pHistogram [] = ([], []) := by
    rw [h.members b]
    rfl
  rw [hmv] at e1 e2
  rw [SumNode_nil ops _ _ rfl] at e1 e2
  refine ⟨h.pHash, ?_, ?_, h.bits, h.transparency⟩
  · intro k
    by_cases hkb : k = b
    · subst hkb; rw [e1]; exact h.avg k
    · by_cases hki : k = i
      · subst hki; rw [e2]; exact h.avg k
      · rw [e3 k hkb hki]; exact h.avg k
  · intro k
    by_cases hkb : k = b
    · subst hkb; rw [e1]; rfl
    · by_cases hki : k = i
      · subst hki; rw [e2]
      · rw [e3 k hkb hki]; exact h.members k

theorem Unfed_optimizePass (ops : Arith F) (s : ExqData F) (h : Unfed ops s) :
    Unfed ops (optimizePass ops s) := by
  have hnode : ∀ k, (optimizePass ops s).node k
      = if k < s.numColors then SumNode ops s.hist { s.node k with pHistogram := [] }
        else s.node k := by
    intro k
    unfold optimizePass
    dsimp only
    rw [hashEntries_unfed s h.pHash, List.foldl_nil, foldl_sumNode, foldl_clear]
    split <;> rfl
  refine ⟨h.pHash, ?_, ?_, h.bits, h.transparency⟩
  · intro k
    rw [hnode k]
    split
    · rw [SumNode_nil ops _ _ rfl]; exact h.avg k
    · exact h.avg k
  · intro k
    rw [hnode k]
    split
    · rw [SumNode_nil ops _ _ rfl]
    · exact h.members k

theorem Unfed_OptimizePalette (ops : Arith F) (s : ExqData F) (k : Nat) (h : Unfed ops s) :
    Unfed ops (OptimizePalette ops s k) := by
  unfold OptimizePalette
  have h0 : Unfed ops { s with optimized := true } :=
    ⟨h.pHash, h.avg, h.members, h.bits, h.transparency⟩
  generalize { s with optimized := true } = t at h0
  induction k generalizing t with
  | zero => exact h0
  | succ k ih =>
    rw [Function.iterate_succ_apply]
    exact ih _ (Unfed_optimizePass ops t h0)

theorem Unfed_splitLoop (ops : Arith F) (hq : Bool) (len : Nat) (s : ExqData F)
    (h1 : 1 ≤ s.numColors) (h : Unfed ops s) :
    Unfed ops ((List.range' s.numColors len).foldl (splitStep ops hq) s) := by
  induction len generalizing s with
  | zero => exact h
  | succ len ih =>
    rw [List.range'_succ, List.foldl_cons]
    have hs : Unfed ops (splitStep ops hq s s.numColors) := by
      cases hq with
      | false => exact Unfed_splitStep_false ops s _ h1 h
      | true =>
        rw [splitStep_hq]
        exact Unfed_OptimizePalette ops _ 1 (Unfed_splitStep_false ops s _ h1 h)
    have := ih (splitStep ops hq s s.numColors) (by rw [splitStep_numColors]; omega) hs
    rw [splitStep_numColors] at this
    exact this

theorem Unfed_QuantizeEx (ops : Arith F) (s : ExqData F) (nColors : Int) (hq : Bool)
    (h : Unfed ops s) : Unfed ops (QuantizeEx ops s nColors hq) := by
  unfold QuantizeEx
  dsimp only
  have hs : Unfed ops (if s.numColors = 0 then seedNode ops s else s) ∧
      1 ≤ (if s.numColors = 0 then seedNode ops s else s).numColors := by
    split
    · exact ⟨Unfed_seedNode ops s h, Nat.le_refl 1⟩
    · exact ⟨h, by omega⟩
  have := Unfed_splitLoop ops hq
    ((if nColors > 256 then 256 else nColors).toNat
      - (if s.numColors = 0 then seedNode ops s else s).numColors) _ hs.2 hs.1
  exact ⟨this.pHash, this.avg, this.members, this.bits, this.transparency⟩

theorem Unfed_quantized (ops : Arith F) (qs : List (Int × Bool)) (s : ExqData F)
    (h : Unfed ops s) : Unfed ops (quantized ops s qs) := by
  unfold quantized
  induction qs generalizing s with
  | nil => exact h
  | cons q qs ih =>
    rw [List.foldl_cons]
    exact ih _ (Unfed_QuantizeEx ops s q.1 q.2 h)

section FreshExact

variable {K : Type} [LinearOrderedField K] [FloorRing K] (sqrt : K → K)

/-- The nearest-colour search keeps the first of the smallest distances that
are below the bound it starts with. -/
theorem foldl_nearest_first (node : Nat → ExqNode K) (c : ExqColor K) (L : List Nat)
    (st : K × Nat) :
    (L.foldl (nearestStep (exactOps sqrt) node c) st = st ∧
      ∀ j, j ∈ L → st.1 ≤ dist2 c (node j).avg) ∨
    ∃ L1 L2, L = L1 ++ (L.foldl (nearestStep (exactOps sqrt) node c) st).2 :: L2 ∧
      (L.foldl (nearestStep (exactOps sqrt) node c) st).1
        = dist2 c (node (L.foldl (nearestStep (exactOps sqrt) node c) st).2).avg ∧
      dist2 c (node (L.foldl (nearestStep (exactOps sqrt) node c) st).2).avg < st.1 ∧
      (∀ j, j ∈ L1 → dist2 c (node (L.foldl (nearestStep (exactOps sqrt) node c) st).2).avg
        < dist2 c (node j).avg) ∧
      ∀ j, j ∈ L2 → dist2 c (node (L.foldl (nearestStep (exactOps sqrt) node c) st).2).avg
        ≤ dist2 c (node j).avg := by
  induction L generalizing st with
  | nil => exact Or.inl ⟨rfl, fun j hj => absurd hj (List.not_mem_nil _)⟩
  | cons a L ih =>
    rw [List.foldl_cons]
    rcases ih (nearestStep (exactOps sqrt) node c st a) with ⟨e1, e2⟩ | ⟨L1, L2, e1, e2, e3, e4, e5⟩
    · rw [e1]
      rw [nearestStep_exact] at e2 ⊢
      by_cases hlt : dist2 c (node a).avg < st.1
      · rw [if_pos hlt] at e2 ⊢
        exact Or.inr ⟨[], L, rfl, rfl, hlt, fun j hj => absurd hj (List.not_mem_nil _), e2⟩
      · rw [if_neg hlt] at e2 ⊢
        refine Or.inl ⟨rfl, ?_⟩
        intro j hj
        rcases List.mem_cons.mp hj with rfl | hj
        · exact not_lt.mp hlt
        · exact e2 j hj
    · right
      have hstep : (nearestStep (exactOps sqrt) node c st a).1 ≤ st.1 ∧
          (nearestStep (exactOps sqrt) node c st a).1 ≤ dist2 c (node a).avg := by
        rw [nearestStep_exact]
        split
        · next hlt => exact ⟨le_of_lt hlt, le_refl _⟩
        · next hlt => exact ⟨le_refl _, not_lt.mp hlt⟩
      refine ⟨a :: L1, L2, ?_, e2, lt_of_lt_of_le e3 hstep.1, ?_, e5⟩
      · rw [List.cons_append, ← e1]
      · intro j hj
        rcases List.mem_cons.mp hj with rfl | hj
        · exact lt_of_lt_of_le e3 hstep.2
        · exact e4 j hj

/-- `FindNearestColor`: when no active node is nearer than 16 (squared) the
result is 0; otherwise it is the first of the nearest active nodes. -/
theorem FindNearestColor_first (s : ExqData K) (c : ExqColor K) :
    (FindNearestColor (exactOps sqrt) s c = 0 ∧
      ∀ j, j < s.numColors → 16 ≤ dist2 c (s.node j).avg) ∨
    (FindNearestColor (exactOps sqrt) s c < s.numColors ∧
      dist2 c (s.node (FindNearestColor (exactOps sqrt) s c)).avg < 16 ∧
      (∀ j, j < FindNearestColor (exactOps sqrt) s c →
        dist2 c (s.node (FindNearestColor (exactOps sqrt) s c)).avg < dist2 c (s.node j).avg) ∧
      ∀ j, j < s.numColors →
        dist2 c (s.node (FindNearestColor (exactOps sqrt) s c)).avg ≤ dist2 c (s.node j).avg) := by
  have e16 : (exactOps sqrt).ofInt 16 = (16 : K) := by simp
  unfold FindNearestColor
  rcases foldl_nearest_first sqrt s.node c (List.range s.numColors) ((exactOps sqrt).ofInt 16, 0)
    with ⟨e1, e2⟩ | ⟨L1, L2, e1, -, e3, e4, e5⟩
  · left
    rw [e1]
    refine ⟨rfl, ?_⟩
    intro j hj
    have := e2 j (List.mem_range.mpr hj)
    rw [e16] at this
    exact this
  · right
    generalize ((List.range s.numColors).foldl (nearestStep (exactOps sqrt) s.node c)
      ((exactOps sqrt).ofInt 16, 0)).2 = b at e1 e3 e4 e5
    rw [e16] at e3
    have hb : b ∈ List.range s.numColors := by rw [e1]; simp
    have hsorted : (List.range s.numColors).Pairwise (· < ·) := List.pairwise_lt_range _
    rw [e1] at hsorted
    have hlt := (List.pairwise_cons.mp (List.pairwise_append.mp hsorted).2.1).1
    refine ⟨List.mem_range.mp hb, e3, ?_, ?_⟩
    · intro j hj
      have hm : j ∈ L1 ++ b :: L2 := by
        rw [← e1]
        exact List.mem_range.mpr (lt_trans hj (List.mem_range.mp hb))
      rcases List.mem_append.mp hm with h1 | h1
      · exact e4 j h1
      · rcases List.mem_cons.mp h1 with rfl | h1
        · exact absurd hj (lt_irrefl _)
        · have := hlt j h1
          omega
    · intro j hj
      have hm : j ∈ L1 ++ b :: L2 := by rw [← e1]; exact List.mem_range.mpr hj
      rcases List.mem_append.mp hm with h1 | h1
      · exact le_of_lt (e4 j h1)
      · rcases List.mem_cons.mp h1 with rfl | h1
        · exact le_refl _
        · exact e5 j h1

theorem FindNearestColor_unfed (s : ExqData K) (h : Unfed (exactOps sqrt) s) (c : ExqColor K) :
    FindNearestColor (exactOps sqrt) s c = 0 := by
  rcases FindNearestColor_first sqrt s c with ⟨e, -⟩ | ⟨h1, -, h3, -⟩
  · exact e
  · by_contra hne
    have := h3 0 (Nat.pos_of_ne_zero hne)
    rw [h.avg, h.avg] at this
    exact absurd this (lt_irrefl _)

theorem MapImage_unfed (s : ExqData K) (h : Unfed (exactOps sqrt) s) (nPixels : Nat)
    (pIn : List Pixel) :
    (MapImage (exactOps sqrt) s nPixels pIn).1 = List.replicate nPixels 0 := by
  have loop : ∀ (t : ExqData K), Unfed (exactOps sqrt) t → ∀ m,
      (List.range m).foldl (mapPixel (exactOps sqrt) pIn) (t, List.replicate nPixels 0)
        = (t, List.replicate nPixels 0) := by
    intro t ht m
    induction m with
    | zero => rfl
    | succ m ih =>
      rw [List.range_succ, List.foldl_append, List.foldl_cons, List.foldl_nil, ih]
      have hf : FindHistogram t pIn m = none := by
        unfold FindHistogram
        rw [ht.pHash]
        cases pIn[m]? <;> rfl
      rw [mapPixel_absent _ pIn t _ m hf, FindNearestColor_unfed sqrt t ht]
      have : storeUint8 ((0 : Nat) : Int) = 0 := rfl
      rw [this, set_replicate_zero]
  unfold MapImage
  dsimp only
  split
  · rw [loop _ (Unfed_OptimizePalette _ s 4 h)]
  · rw [loop _ h]

theorem pixColor_zero : pixColor (exactOps sqrt) ⟨0, 0, 0, 0⟩ = ExqColor.new (exactOps sqrt) := by
  rw [pixColor_exact]
  unfold ExqColor.new
  simp

theorem GetPalette_unfed (s : ExqData K) (h : Unfed (exactOps sqrt) s) (nColors : Nat) :
    (GetPalette (exactOps sqrt) s nColors).1 = List.replicate (nColors * 4) 0 := by
  have fill : ∀ (t : ExqData K), Unfed (exactOps sqrt) t → ∀ n, n ≤ nColors →
      (List.range n).foldl (paletteEntry (exactOps sqrt) t) (List.replicate (nColors * 4) 0)
        = List.replicate (nColors * 4) 0 := by
    intro t ht n hn
    rw [foldl_paletteEntry_exact sqrt t ht.bits ht.transparency (fun _ => ⟨0, 0, 0, 0⟩)
      nColors n hn (fun i _ => by rw [ht.avg, pixColor_zero]) _ (List.length_replicate _ _)]
    apply List.eq_replicate_iff.mpr
    constructor
    · rw [List.length_append, List.length_flatten, List.map_map, List.length_drop,
        List.length_replicate]
      have : (List.length ∘ fun (_ : Nat) => paletteBytes ⟨0, 0, 0, 0⟩) = fun _ => 4 := by
        funext i
        rfl
      rw [this]
      simp only [List.map_const', List.length_range, List.sum_replicate, smul_eq_mul]
      omega
    · intro v hv
      rcases List.mem_append.mp hv with h1 | h1
      · obtain ⟨l, hl, hvl⟩ := List.mem_flatten.mp h1
        obtain ⟨i, -, rfl⟩ := List.mem_map.mp hl
        have : paletteBytes ⟨0, 0, 0, 0⟩ = [0, 0, 0, 0] := rfl
        rw [this] at hvl
        simpa using hvl
      · exact List.eq_of_mem_replicate (List.mem_of_mem_drop h1)
  unfold GetPalette
  dsimp only
  have hmin : (if nColors > s.numColors then s.numColors else nColors) ≤ nColors := by
    split <;> omega
  split
  · exact fill _ (Unfed_OptimizePalette _ s 4 h) _ hmin
  · exact fill _ h _ hmin

end FreshExact

/-! ## The active nodes between the split steps -/

theorem Summed_seedNode (ops : Arith F) (s : ExqData F) : Summed ops (seedNode ops s) := by
  intro j hj
  have hj0 : j = 0 := by
    have : (seedNode ops s).numColors = 1 := rfl
    omega
  subst hj0
  exact ⟨_, (seedNode_node ops s).1⟩

theorem Summed_optimizePass (ops : Arith F) (s : ExqData F) : Summed ops (optimizePass ops s) := by
  intro j hj
  rw [optimizePass_numColors] at hj
  rw [optimizePass_hist]
  exact ⟨_, optimizePass_node ops s j hj⟩

theorem Summed_splitStep_false (ops : Arith F) (s : ExqData F) (h1 : 1 ≤ s.numColors)
    (h : Summed ops s) : Summed ops (splitStep ops false s s.numColors) := by
  have hb := bestIndex_lt ops s.node s.numColors h1
  obtain ⟨e1, e2, e3⟩ := splitStep_node ops s s.numColors (by omega)
  intro j hj
  rw [splitStep_numColors] at hj
  rw [(splitStep_fields ops s s.numColors).1]
  by_cases hjb : j = bestIndex ops s.node s.numColors
  · rw [hjb]; exact ⟨_, e1⟩
  · by_cases hji : j = s.numColors
    · rw [hji]; exact ⟨_, e2⟩
    · rw [e3 j hjb hji]
      exact h j (by omega)

theorem Summed_splitStep (ops : Arith F) (hq : Bool) (s : ExqData F) (h1 : 1 ≤ s.numColors)
    (h : Summed ops s) : Summed ops (splitStep ops hq s s.numColors) := by
  cases hq with
  | false => exact Summed_splitStep_false ops s h1 h
  | true =>
    rw [splitStep_hq]
    exact Summed_optimizePass ops _

theorem Summed_splitLoop (ops : Arith F) (hq : Bool) (len : Nat) (s : ExqData F)
    (h1 : 1 ≤ s.numColors) (h : Summed ops s) :
    Summed ops ((List.range' s.numColors len).foldl (splitStep ops hq) s) := by
  induction len generalizing s with
  | zero => exact h
  | succ len ih =>
    rw [List.range'_succ, List.foldl_cons]
    have := ih (splitStep ops hq s s.numColors) (by rw [splitStep_numColors]; omega)
      (Summed_splitStep ops hq s h1 h)
    rw [splitStep_numColors] at this
    exact this

theorem Summed_QuantizeEx (ops : Arith F) (s : ExqData F) (nColors : Int) (hq : Bool)
    (h : s.numColors = 0 ∨ (1 ≤ s.numColors ∧ Summed ops s)) :
    Summed ops (QuantizeEx ops s nColors hq) := by
  unfold QuantizeEx
  dsimp only
  have hs : 1 ≤ (if s.numColors = 0 then seedNode ops s else s).numColors ∧
      Summed ops (if s.numColors = 0 then seedNode ops s else s) := by
    split
    · exact ⟨Nat.le_refl 1, Summed_seedNode ops s⟩
    · next hne =>
      rcases h with h | h
      · exact absurd h hne
      · exact h
  exact Summed_splitLoop ops hq _ _ hs.1 hs.2

theorem Summed_quantized (ops : Arith F) (qs : List (Int × Bool)) (s : ExqData F)
    (h : s.numColors = 0 ∨ (1 ≤ s.numColors ∧ Summed ops s)) (hqs : qs ≠ []) :
    1 ≤ (quantized ops s qs).numColors ∧ Summed ops (quantized ops s qs) := by
  unfold quantized
  induction qs generalizing s with
  | nil => exact absurd rfl hqs
  | cons q qs ih =>
    rw [List.foldl_cons]
    have h2 : 1 ≤ (QuantizeEx ops s q.1 q.2).numColors ∧ Summed ops (QuantizeEx ops s q.1 q.2) :=
      ⟨QuantizeEx_numColors_pos ops s q.1 q.2, Summed_QuantizeEx ops s q.1 q.2 h⟩
    cases qs with
    | nil => exact h2
    | cons q2 qs2 => exact ih _ (Or.inr h2) (List.cons_ne_nil _ _)

/-- The member list of an active node has no repetition and holds entries of
the hash table, when the table has no repetition. -/
theorem NodeInv.list_nodup {s : ExqData F} (hI : NodeInv s) (hE : (hashEntries s).Nodup)
    (i : Nat) (hi : i < s.numColors) :
    (s.node i).pHistogram.Nodup ∧ ∀ x, x ∈ (s.node i).pHistogram → x ∈ hashEntries s := by
  have hnd : ((List.range s.numColors).flatMap (fun i => (s.node i).pHistogram)).Nodup :=
    hI.members.nodup_iff.mpr hE
  refine ⟨(List.nodup_flatMap.mp hnd).1 i (List.mem_range.mpr hi), ?_⟩
  intro x hx
  exact hI.members.subset (List.mem_flatMap.mpr ⟨i, List.mem_range.mpr hi, hx⟩)

/-- The entries of the table after `Feed` calls are pairwise different and each
has been counted at least once. -/
theorem fed_entries (ops : Arith F) (feeds : List (List Pixel)) :
    (hashEntries (fed ops feeds)).Nodup ∧
    ∀ x, x ∈ hashEntries (fed ops feeds) → 1 ≤ ((fed ops feeds).hist x).num := by
  have hH := HistInv_fed ops feeds
  have hlt : ∀ x, x ∈ hashEntries (fed ops feeds) → x < (fed ops feeds).nHist :=
    fun x hx => List.mem_range.mp (hH.entries.subset hx)
  refine ⟨hH.entries.nodup_iff.mpr (List.nodup_range _), ?_⟩
  intro x hx
  rw [hH.num_eq x (hlt x hx)]
  exact List.count_pos_iff.mpr (hH.fed_mem x (hlt x hx))

/-- The states between the split steps: after `Feed` calls and `Quantize` /
`QuantizeHq` calls every active node is as `SumNode` left it, its members are
pairwise different entries, and every member has been counted at least once. -/
theorem reach_facts (ops : Arith F) (feeds : List (List Pixel)) (q : Int × Bool)
    (qs : List (Int × Bool)) :
    1 ≤ (quantized ops (fed ops feeds) (q :: qs)).numColors ∧
    Summed ops (quantized ops (fed ops feeds) (q :: qs)) ∧
    ∀ j, j < (quantized ops (fed ops feeds) (q :: qs)).numColors →
      ((quantized ops (fed ops feeds) (q :: qs)).node j).pHistogram.Nodup ∧
      ∀ x, x ∈ ((quantized ops (fed ops feeds) (q :: qs)).node j).pHistogram →
        1 ≤ ((quantized ops (fed ops feeds) (q :: qs)).hist x).num := by
  obtain ⟨⟨q1, q2, -, -, -⟩, hN⟩ := quantized_spec ops (q :: qs) (fed ops feeds)
    (Or.inl (fed_numColors ops feeds))
  have hI := hN (List.cons_ne_nil _ _)
  obtain ⟨hS1, hS2⟩ := Summed_quantized ops (q :: qs) (fed ops feeds)
    (Or.inl (fed_numColors ops feeds)) (List.cons_ne_nil _ _)
  obtain ⟨f1, f2⟩ := fed_entries ops feeds
  have hE := hashEntries_congr (fed ops feeds) _ q2
  refine ⟨hS1, hS2, ?_⟩
  intro j hj
  obtain ⟨g1, g2⟩ := hI.list_nodup (by rw [hE]; exact f1) j hj
  refine ⟨g1, ?_⟩
  intro x hx
  rw [q1]
  exact f2 x (by rw [← hE]; exact g2 x hx)

/-- The first loop of a split stops at the member `L[k]`: the first `k` members
go to the new list, in reverse order, and the rest stays. -/
theorem moveUntil_at (L : List Nat) (hL : L.Nodup) (k : Nat) (hk : k < L.length)
    (dst : List Nat) :
    moveUntil L[k]? L dst = (L.drop k, (L.take k).reverse ++ dst) := by
  induction L generalizing k dst with
  | nil => simp at hk
  | cons a L ih =>
    cases k with
    | zero =>
      unfold moveUntil
      simp
    | succ k =>
      have hk2 : k < L.length := by simpa using hk
      have hne : ¬ some a = (a :: L)[k + 1]? := by
        rw [List.getElem?_cons_succ]
        intro h
        exact (List.nodup_cons.mp hL).1 (List.getElem?_mem h.symm)
      unfold moveUntil
      rw [if_neg hne, List.getElem?_cons_succ, ih (List.nodup_cons.mp hL).2 k hk2]
      simp

section ReachExact

variable {K : Type} [LinearOrderedField K] [FloorRing K] (sqrt : K → K)

/-- The split boundary that `SumNode` leaves in a node of two or more members
is the member at a position `k` with `0 < k < length`. -/
theorem SumNode_boundary (hist : Nat → ExqHistogramEntry K) (nd : ExqNode K)
    (hnd : nd.pHistogram.Nodup) (hnum : ∀ x, x ∈ nd.pHistogram → 1 ≤ (hist x).num)
    (h2 : 2 ≤ nd.pHistogram.length) :
    ∃ k, 0 < k ∧ k < (SumNode (exactOps sqrt) hist nd).pHistogram.length ∧
      (SumNode (exactOps sqrt) hist nd).pSplit
        = (SumNode (exactOps sqrt) hist nd).pHistogram[k]? := by
  have hlen : 2 ≤ (SumNode (exactOps sqrt) hist nd).pHistogram.length := by
    rw [(SumNode_perm (exactOps sqrt) hist nd).length_eq]; exact h2
  rcases (SumNode_search sqrt hist nd hnd hnum h2).2 with ⟨-, hp⟩ | ⟨k, k1, k2, -, -, -, hp⟩
  · exact ⟨1, Nat.one_pos, by omega, hp⟩
  · exact ⟨k, k1, k2, hp⟩

/-- The choice and the effect of a split step on a state between the split
steps.  The node chosen is active, has the largest gain, and is the last of
the nodes with that gain; all gains are non-negative; a chosen node of at most
one member has the gain 0; a chosen node of two or more members is cut at a
position `k` with `0 < k < length`: the first `k` members go to the new node
and the others stay. -/
theorem reach_split (feeds : List (List Pixel)) (q : Int × Bool) (qs : List (Int × Bool)) :
    bestIndex (exactOps sqrt) (quantized (exactOps sqrt) (fed (exactOps sqrt) feeds) (q :: qs)).node
        (quantized (exactOps sqrt) (fed (exactOps sqrt) feeds) (q :: qs)).numColors
      < (quantized (exactOps sqrt) (fed (exactOps sqrt) feeds) (q :: qs)).numColors ∧
    (∀ j, j < (quantized (exactOps sqrt) (fed (exactOps sqrt) feeds) (q :: qs)).numColors →
      0 ≤ ((quantized (exactOps sqrt) (fed (exactOps sqrt) feeds) (q :: qs)).node j).vdif ∧
      ((quantized (exactOps sqrt) (fed (exactOps sqrt) feeds) (q :: qs)).node j).vdif
        ≤ ((quantized (exactOps sqrt) (fed (exactOps sqrt) feeds) (q :: qs)).node
            (bestIndex (exactOps sqrt)
              (quantized (exactOps sqrt) (fed (exactOps sqrt) feeds) (q :: qs)).node
              (quantized (exactOps sqrt) (fed (exactOps sqrt) feeds) (q :: qs)).numColors)).vdif ∧
      (((quantized (exactOps sqrt) (fed (exactOps sqrt) feeds) (q :: qs)).node j).vdif
        = ((quantized (exactOps sqrt) (fed (exactOps sqrt) feeds) (q :: qs)).node
            (bestIndex (exactOps sqrt)
              (quantized (exactOps sqrt) (fed (exactOps sqrt) feeds) (q :: qs)).node
              (quantized (exactOps sqrt) (fed (exactOps sqrt) feeds) (q :: qs)).numColors)).vdif →
        j ≤ bestIndex (exactOps sqrt)
              (quantized (exactOps sqrt) (fed (exactOps sqrt) feeds) (q :: qs)).node
              (quantized (exactOps sqrt) (fed (exactOps sqrt) feeds) (q :: qs)).numColors) ∧
      (((quantized (exactOps sqrt) (fed (exactOps sqrt) feeds) (q :: qs)).node j).pHistogram.length
          ≤ 1 →
        ((quantized (exactOps sqrt) (fed (exactOps sqrt) feeds) (q :: qs)).node j).vdif = 0)) ∧
    (2 ≤ ((quantized (exactOps sqrt) (fed (exactOps sqrt) feeds) (q :: qs)).node
          (bestIndex (exactOps sqrt)
            (quantized (exactOps sqrt) (fed (exactOps sqrt) feeds) (q :: qs)).node
            (quantized (exactOps sqrt) (fed (exactOps sqrt) feeds)
              (q :: qs)).numColors)).pHistogram.length →
      ∃ k, 0 < k ∧
        k < ((quantized (exactOps sqrt) (fed (exactOps sqrt) feeds) (q :: qs)).node
          (bestIndex (exactOps sqrt)
            (quantized (exactOps sqrt) (fed (exactOps sqrt) feeds) (q :: qs)).node
            (quantized (exactOps sqrt) (fed (exactOps sqrt) feeds)
              (q :: qs)).numColors)).pHistogram.length ∧
        ((splitStep (exactOps sqrt) false
            (quantized (exactOps sqrt) (fed (exactOps sqrt) feeds) (q :: qs))
            (quantized (exactOps sqrt) (fed (exactOps sqrt) feeds) (q :: qs)).numColors).node
          (quantized (exactOps sqrt) (fed (exactOps sqrt) feeds)
            (q :: qs)).numColors).pHistogram.Perm
          (((quantized (exactOps sqrt) (fed (exactOps sqrt) feeds) (q :: qs)).node
            (bestIndex (exactOps sqrt)
              (quantized (exactOps sqrt) (fed (exactOps sqrt) feeds) (q :: qs)).node
              (quantized (exactOps sqrt) (fed (exactOps sqrt) feeds)
                (q :: qs)).numColors)).pHistogram.take k) ∧
        ((splitStep (exactOps sqrt) false
            (quantized (exactOps sqrt) (fed (exactOps sqrt) feeds) (q :: qs))
            (quantized (exactOps sqrt) (fed (exactOps sqrt) feeds) (q :: qs)).numColors).node
          (bestIndex (exactOps sqrt)
            (quantized (exactOps sqrt) (fed (exactOps sqrt) feeds) (q :: qs)).node
            (quantized (exactOps sqrt) (fed (exactOps sqrt) feeds)
              (q :: qs)).numColors)).pHistogram.Perm
          (((quantized (exactOps sqrt) (fed (exactOps sqrt) feeds) (q :: qs)).node
            (bestIndex (exactOps sqrt)
              (quantized (exactOps sqrt) (fed (exactOps sqrt) feeds) (q :: qs)).node
              (quantized (exactOps sqrt) (fed (exactOps sqrt) feeds)
                (q :: qs)).numColors)).pHistogram.drop k)) := by
  obtain ⟨h1, hS, hL⟩ := reach_facts (exactOps sqrt) feeds q qs
  generalize quantized (exactOps sqrt) (fed (exactOps sqrt) feeds) (q :: qs) = s at h1 hS hL
  -- every active node, seen as the result of `SumNode`
  have hsum : ∀ j, j < s.numColors → ∃ nd0, s.node j = SumNode (exactOps sqrt) s.hist nd0 ∧
      nd0.pHistogram.Nodup ∧ (∀ x, x ∈ nd0.pHistogram → 1 ≤ (s.hist x).num) ∧
      nd0.pHistogram.length = (s.node j).pHistogram.length := by
    intro j hj
    obtain ⟨nd0, e⟩ := hS j hj
    have hp := SumNode_perm (exactOps sqrt) s.hist nd0
    rw [← e] at hp
    exact ⟨nd0, e, hp.nodup_iff.mp (hL j hj).1,
      fun x hx => (hL j hj).2 x (hp.symm.subset hx), hp.length_eq.symm⟩
  have hnon : ∀ j, j < s.numColors → 0 ≤ (s.node j).vdif := by
    intro j hj
    obtain ⟨nd0, e, -, -, -⟩ := hsum j hj
    rw [e]
    exact SumNode_vdif_nonneg sqrt s.hist nd0
  obtain ⟨b1, b2, b3⟩ := bestIndex_last sqrt s.node s.numColors ⟨0, by omega, hnon 0 (by omega)⟩
  refine ⟨b1, ?_, ?_⟩
  · intro j hj
    refine ⟨hnon j hj, b2 j hj, b3 j hj, ?_⟩
    intro hlen
    obtain ⟨nd0, e, -, hnum, hl⟩ := hsum j hj
    rw [e]
    exact SumNode_vdif_short sqrt s.hist nd0 (by omega) hnum
  · intro h2
    obtain ⟨e1, e2, -⟩ := splitStep_node (exactOps sqrt) s s.numColors (by omega)
    generalize bestIndex (exactOps sqrt) s.node s.numColors = b at b1 h2 e1 e2
    obtain ⟨nd0, e, hnd, hnum, hl⟩ := hsum b b1
    obtain ⟨k, k1, k2, k3⟩ := SumNode_boundary sqrt s.hist nd0 hnd hnum (by omega)
    rw [← e] at k2 k3
    refine ⟨k, k1, k2, ?_, ?_⟩
    · rw [e2, k3, moveUntil_at _ (hL b b1).1 k k2]
      refine (SumNode_perm (exactOps sqrt) s.hist _).trans ?_
      show ((List.take k (s.node b).pHistogram).reverse ++ []).Perm _
      rw [List.append_nil]
      exact List.reverse_perm _
    · rw [e1, k3, moveUntil_at _ (hL b b1).1 k k2]
      refine (SumNode_perm (exactOps sqrt) s.hist _).trans ?_
      exact List.reverse_perm _

end ReachExact

/-! ## A split of a node of one member -/

section EmptySplit

variable {K : Type} [LinearOrderedField K] [FloorRing K] (sqrt : K → K)

/-- `SumNode` on a node of one member: no gain and no split boundary. -/
theorem SumNode_single_member (hist : Nat → ExqHistogramEntry K) (nd : ExqNode K) (x : Nat)
    (hl : nd.pHistogram = [x]) (hnum : 1 ≤ (hist x).num) :
    (SumNode (exactOps sqrt) hist nd).pHistogram = [x] ∧
    (SumNode (exactOps sqrt) hist nd).pSplit = none ∧
    (SumNode (exactOps sqrt) hist nd).vdif = 0 := by
  have hN : wN hist nd.pHistogram ≠ 0 := by
    rw [hl, wN_cons]
    omega
  obtain ⟨l2, e1, e2, -, e4⟩ := SumNode_scan sqrt hist nd hN
  rw [hl] at e2
  have hl2 : l2 = [x] := List.perm_singleton.mp e2
  subst hl2
  refine ⟨e1, ?_, ?_⟩
  · rw [e4, hl, nodeScan_single]
    simp
  · apply SumNode_vdif_short sqrt hist nd
    · rw [hl]; simp
    · intro y hy
      rw [hl] at hy
      rw [List.mem_singleton.mp hy]
      exact hnum

/-- One pixel fed: after `Quantize(1)` the only node has the gain 0; the split
step of `Quantize(2)` chooses it all the same, moves its member to node 1 and
leaves node 0 active with an empty member list. -/
theorem empty_split_run (c : Pixel) :
    (Quantize (exactOps sqrt) (Feed (exactOps sqrt) (ExoQuant.new (exactOps sqrt)) [c]) 1).numColors
      = 1 ∧
    ((Quantize (exactOps sqrt) (Feed (exactOps sqrt) (ExoQuant.new (exactOps sqrt)) [c]) 1).node
      0).vdif = 0 ∧
    bestIndex (exactOps sqrt)
      (Quantize (exactOps sqrt) (Feed (exactOps sqrt) (ExoQuant.new (exactOps sqrt)) [c]) 1).node
      1 = 0 ∧
    (Quantize (exactOps sqrt) (Feed (exactOps sqrt) (ExoQuant.new (exactOps sqrt)) [c]) 2).numColors
      = 2 ∧
    ((Quantize (exactOps sqrt) (Feed (exactOps sqrt) (ExoQuant.new (exactOps sqrt)) [c]) 2).node
      0).pHistogram = [] ∧
    ((Quantize (exactOps sqrt) (Feed (exactOps sqrt) (ExoQuant.new (exactOps sqrt)) [c]) 2).node
      1).pHistogram = [0] := by
  obtain ⟨hE, -, -, hnum, -, -⟩ := Feed_single (exactOps sqrt) c 0
  have hrep : List.replicate (0 + 1) c = [c] := rfl
  rw [hrep] at hE hnum
  have hnc0 : (Feed (exactOps sqrt) (ExoQuant.new (exactOps sqrt)) [c]).numColors = 0 := by
    rw [Feed_numColors]; rfl
  generalize Feed (exactOps sqrt) (ExoQuant.new (exactOps sqrt)) [c] = s0 at hE hnum hnc0
  have hnct : (seedNode (exactOps sqrt) s0).numColors = 1 := rfl
  have hht : (seedNode (exactOps sqrt) s0).hist = s0.hist := rfl
  have hQ1 : Quantize (exactOps sqrt) s0 1
      = { seedNode (exactOps sqrt) s0 with optimized := false } := by
    unfold Quantize QuantizeEx
    simp only [hnc0, if_true, hnct]
    rfl
  have hQ2 : Quantize (exactOps sqrt) s0 2
      = { splitStep (exactOps sqrt) false (seedNode (exactOps sqrt) s0) 1 with
          optimized := false } := by
    unfold Quantize QuantizeEx
    simp only [hnc0, if_true, hnct]
    rfl
  have hseed := (seedNode_node (exactOps sqrt) s0).1
  rw [hE] at hseed
  obtain ⟨g1, g2, g3⟩ := SumNode_single_member sqrt s0.hist
    { s0.node 0 with pHistogram := [0].reverse } 0 rfl (by rw [hnum])
  rw [← hseed] at g1 g2 g3
  generalize seedNode (exactOps sqrt) s0 = t at hnct hht hQ1 hQ2 g1 g2 g3
  have hb : bestIndex (exactOps sqrt) t.node 1 = 0 := by
    have := bestIndex_lt (exactOps sqrt) t.node 1 (Nat.le_refl _)
    omega
  obtain ⟨e1, e2, -⟩ := splitStep_node (exactOps sqrt) t 1 (by rw [hb]; decide)
  rw [hb, g1, g2] at e1 e2
  have hmv : moveUntil none [0] [] = ([], [0]) := by
    simp [moveUntil]
  rw [hmv] at e1 e2
  rw [hQ1, hQ2]
  refine ⟨hnct, g3, hb, by simp, ?_, ?_⟩
  · show ((splitStep (exactOps sqrt) false t 1).node 0).pHistogram = []
    rw [e1, SumNode_nil _ _ _ rfl]
    rfl
  · show ((splitStep (exactOps sqrt) false t 1).node 1).pHistogram = [0]
    rw [e2, hht]
    exact (SumNode_single_member sqrt s0.hist _ 0 rfl (by rw [hnum])).1

end EmptySplit

section SingleNorm

variable {K : Type} [LinearOrderedField K] [FloorRing K] (sqrt : K → K)

/-- One pixel fed, then `Quantize(1)`: node 0 is summed over one member, the
count is not 0, so the direction is normalised, and the norm it is divided by
is the square root of 0. -/
theorem single_norm_run (c : Pixel) :
    (Quantize (exactOps sqrt) (Feed (exactOps sqrt) (ExoQuant.new (exactOps sqrt)) [c]) 1).node 0
      = SumNode (exactOps sqrt) (Feed (exactOps sqrt) (ExoQuant.new (exactOps sqrt)) [c]).hist
          { (Feed (exactOps sqrt) (ExoQuant.new (exactOps sqrt)) [c]).node 0 with
            pHistogram := [0] } ∧
    (nodeMoments (exactOps sqrt) (Feed (exactOps sqrt) (ExoQuant.new (exactOps sqrt)) [c]).hist
      [0]).n ≠ 0 ∧
    SumNode_dirSum (exactOps sqrt) (Feed (exactOps sqrt) (ExoQuant.new (exactOps sqrt)) [c]).hist
        { (Feed (exactOps sqrt) (ExoQuant.new (exactOps sqrt)) [c]).node 0 with
          pHistogram := [0] } = ⟨0, 0, 0, 0⟩ ∧
    SumNode_dirNorm (exactOps sqrt) (Feed (exactOps sqrt) (ExoQuant.new (exactOps sqrt)) [c]).hist
        { (Feed (exactOps sqrt) (ExoQuant.new (exactOps sqrt)) [c]).node 0 with
          pHistogram := [0] } = sqrt 0 := by
  obtain ⟨hE, -, -, hnum, -, -⟩ := Feed_single (exactOps sqrt) c 0
  have hrep : List.replicate (0 + 1) c = [c] := rfl
  rw [hrep] at hE hnum
  have hnc0 : (Feed (exactOps sqrt) (ExoQuant.new (exactOps sqrt)) [c]).numColors = 0 := by
    rw [Feed_numColors]; rfl
  generalize Feed (exactOps sqrt) (ExoQuant.new (exactOps sqrt)) [c] = s0 at hE hnum hnc0
  have hnct : (seedNode (exactOps sqrt) s0).numColors = 1 := rfl
  have hQ1 : Quantize (exactOps sqrt) s0 1
      = { seedNode (exactOps sqrt) s0 with optimized := false } := by
    unfold Quantize QuantizeEx
    simp only [hnc0, if_true, hnct]
    rfl
  have hseed := (seedNode_node (exactOps sqrt) s0).1
  rw [hE] at hseed
  obtain ⟨n1, n2, n3⟩ := SumNode_dirNorm_single sqrt s0.hist
    { s0.node 0 with pHistogram := [0] } 0 rfl (by rw [hnum]; decide)
  refine ⟨?_, n1, n2, n3⟩
  rw [hQ1]
  exact hseed

end SingleNorm

/-! ## Sort: the bound on the depth is never reached, and the result is ordered -/

theorem sortPartition_length (ops : Arith F) (f : Nat → F) (sum : F) (l pLow pHigh : List Nat) :
    (sortPartition ops f sum l pLow pHigh).1.length + (sortPartition ops f sum l pLow pHigh).2.length
      = l.length + (pLow.length + pHigh.length) := by
  have := (sortPartition_perm ops f sum l pLow pHigh).length_eq
  simpa [List.length_append] using this

theorem SortAux_short (ops : Arith F) (f : Nat → F) (fuel : Nat) (l : List Nat)
    (h : l.length < 2) : SortAux ops f fuel l = l := by
  cases fuel with
  | zero => rfl
  | succ fuel =>
    unfold SortAux
    dsimp only
    rw [if_pos h]

/-- The result of `Sort` does not depend on the bound, once the bound is at
least the length of the list: the recursion never runs out of depth. -/
theorem SortAux_fuel (ops : Arith F) (f : Nat → F) (fuel1 fuel2 : Nat) (l : List Nat)
    (h1 : l.length ≤ fuel1) (h2 : l.length ≤ fuel2) :
    SortAux ops f fuel1 l = SortAux ops f fuel2 l := by
  induction fuel1 generalizing fuel2 l with
  | zero =>
    rw [SortAux_short ops f 0 l (by omega), SortAux_short ops f fuel2 l (by omega)]
  | succ fuel1 ih =>
    cases fuel2 with
    | zero =>
      rw [SortAux_short ops f _ l (by omega), SortAux_short ops f 0 l (by omega)]
    | succ fuel2 =>
      unfold SortAux
      dsimp only
      split
      · rfl
      · have hlen := sortPartition_length ops f
          (ops.div (l.foldl (fun acc pCur => ops.add acc (f pCur)) (ops.ofInt 0))
            (ops.ofInt (l.length : Int))) l [] []
        split
        · rfl
        · rfl
        · next pLow pHigh hlo hhi heq =>
          rw [heq] at hlen
          have p1 : 1 ≤ pLow.length := by
            cases pLow with
            | nil => exact (hlo rfl).elim
            | cons a t => simp
          have p2 : 1 ≤ pHigh.length := by
            cases pHigh with
            | nil => exact (hhi rfl).elim
            | cons a t => simp
          simp only [List.length_nil, Nat.add_zero] at hlen
          rw [ih fuel2 pLow (by omega) (by omega), ih fuel2 pHigh (by omega) (by omega)]

section SortExact

variable {K : Type} [LinearOrderedField K] [FloorRing K] (sqrt : K → K)

theorem foldl_keys_exact (f : Nat → K) (l : List Nat) (a : K) :
    l.foldl (fun acc pCur => (exactOps sqrt).add acc (f pCur)) a = a + (l.map f).sum := by
  induction l generalizing a with
  | nil => simp
  | cons x l ih =>
    rw [List.foldl_cons, ih, List.map_cons, List.sum_cons, exactOps_add]
    ring

/-- The partition puts the members with a key below `m` on `pLow` and the
others on `pHigh`. -/
theorem sortPartition_keys (f : Nat → K) (m : K) (l pLow pHigh : List Nat) :
    (∀ x, x ∈ (sortPartition (exactOps sqrt) f m l pLow pHigh).1 → x ∈ pLow ∨ f x < m) ∧
    (∀ x, x ∈ (sortPartition (exactOps sqrt) f m l pLow pHigh).2 → x ∈ pHigh ∨ m ≤ f x) := by
  induction l generalizing pLow pHigh with
  | nil => exact ⟨fun x hx => Or.inl hx, fun x hx => Or.inl hx⟩
  | cons a l ih =>
    unfold sortPartition
    by_cases ha : f a < m
    · have hlt : (exactOps sqrt).lt (f a) m = true := by simpa using ha
      rw [if_pos hlt]
      obtain ⟨i1, i2⟩ := ih (a :: pLow) pHigh
      refine ⟨?_, i2⟩
      intro x hx
      rcases i1 x hx with h | h
      · rcases List.mem_cons.mp h with rfl | h
        · exact Or.inr ha
        · exact Or.inl h
      · exact Or.inr h
    · have hlt : ¬ (exactOps sqrt).lt (f a) m = true := by simpa using ha
      rw [if_neg hlt]
      obtain ⟨i1, i2⟩ := ih pLow (a :: pHigh)
      refine ⟨i1, ?_⟩
      intro x hx
      rcases i2 x hx with h | h
      · rcases List.mem_cons.mp h with rfl | h
        · exact Or.inr (not_lt.mp ha)
        · exact Or.inl h
      · exact Or.inr h

theorem sum_keys_ge (f : Nat → K) (m : K) (l : List Nat) (h : ∀ x, x ∈ l → m ≤ f x) :
    (l.length : K) * m ≤ (l.map f).sum := by
  induction l with
  | nil => simp
  | cons a l ih =>
    have h1 := h a (List.mem_cons_self _ _)
    have h2 := ih (fun x hx => h x (List.mem_cons_of_mem _ hx))
    simp only [List.length_cons, Nat.cast_add, Nat.cast_one, List.map_cons, List.sum_cons]
    linarith

theorem sum_keys_lt (f : Nat → K) (m : K) (l : List Nat) (hne : l ≠ [])
    (h : ∀ x, x ∈ l → f x < m) : (l.map f).sum < (l.length : K) * m := by
  induction l with
  | nil => exact absurd rfl hne
  | cons a l ih =>
    have h1 := h a (List.mem_cons_self _ _)
    simp only [List.length_cons, Nat.cast_add, Nat.cast_one, List.map_cons, List.sum_cons]
    by_cases hl : l = []
    · subst hl
      simp only [List.map_nil, List.sum_nil, List.length_nil, Nat.cast_zero]
      linarith
    · have h2 := ih hl (fun x hx => h x (List.mem_cons_of_mem _ hx))
      linarith

/-- Keys that are all at least their mean are all equal to it. -/
theorem keys_eq_mean (f : Nat → K) (m : K) (l : List Nat) (h : ∀ x, x ∈ l → m ≤ f x)
    (hs : (l.map f).sum = (l.length : K) * m) : ∀ x, x ∈ l → f x = m := by
  induction l with
  | nil => intro x hx; exact absurd hx (List.not_mem_nil _)
  | cons a l ih =>
    have h1 := h a (List.mem_cons_self _ _)
    have h2 := sum_keys_ge f m l (fun x hx => h x (List.mem_cons_of_mem _ hx))
    simp only [List.length_cons, Nat.cast_add, Nat.cast_one, List.map_cons, List.sum_cons] at hs
    have ha : f a = m := by linarith
    have hl : (l.map f).sum = (l.length : K) * m := by linarith
    intro x hx
    rcases List.mem_cons.mp hx with rfl | hx
    · exact ha
    · exact ih (fun x hx => h x (List.mem_cons_of_mem _ hx)) hl x hx

/-- `Sort` returns the members in non-decreasing key order. -/
theorem SortAux_sorted (f : Nat → K) (fuel : Nat) (l : List Nat) (h : l.length ≤ fuel) :
    (SortAux (exactOps sqrt) f fuel l).Pairwise (fun a b => f a ≤ f b) := by
  induction fuel generalizing l with
  | zero =>
    have : l = [] := List.length_eq_zero.mp (by omega)
    rw [this]
    exact List.Pairwise.nil
  | succ fuel ih =>
    unfold SortAux
    dsimp only
    split
    · next hn =>
      cases l with
      | nil => exact List.Pairwise.nil
      | cons a t =>
        have : t = [] := List.length_eq_zero.mp (by simp at hn; omega)
        rw [this]
        exact List.pairwise_singleton _ _
    · next hn =>
      have hlen := sortPartition_length (exactOps sqrt) f
        ((exactOps sqrt).div
          (l.foldl (fun acc pCur => (exactOps sqrt).add acc (f pCur)) ((exactOps sqrt).ofInt 0))
          ((exactOps sqrt).ofInt (l.length : Int))) l [] []
      have hperm := sortPartition_perm (exactOps sqrt) f
        ((exactOps sqrt).div
          (l.foldl (fun acc pCur => (exactOps sqrt).add acc (f pCur)) ((exactOps sqrt).ofInt 0))
          ((exactOps sqrt).ofInt (l.length : Int))) l [] []
      obtain ⟨k1, k2⟩ := sortPartition_keys sqrt f
        ((exactOps sqrt).div
          (l.foldl (fun acc pCur => (exactOps sqrt).add acc (f pCur)) ((exactOps sqrt).ofInt 0))
          ((exactOps sqrt).ofInt (l.length : Int))) l [] []
      have hm : (exactOps sqrt).div
          (l.foldl (fun acc pCur => (exactOps sqrt).add acc (f pCur)) ((exactOps sqrt).ofInt 0))
          ((exactOps sqrt).ofInt (l.length : Int)) = (l.map f).sum / (l.length : K) := by
        rw [foldl_keys_exact]
        simp
      rw [hm] at hlen hperm k1 k2 ⊢
      have hn0 : (0 : K) < (l.length : K) := by
        have : 0 < l.length := by omega
        exact_mod_cast this
      have hsum : (l.map f).sum = (l.length : K) * ((l.map f).sum / (l.length : K)) := by
        field_simp
      generalize (l.map f).sum / (l.length : K) = m at hlen hperm k1 k2 hsum ⊢
      split
      · next pHigh heq =>
        rw [heq] at hperm k2
        simp only [List.nil_append, List.append_nil] at hperm
        have hall : ∀ x, x ∈ l → f x = m := by
          apply keys_eq_mean f m l _ hsum
          intro x hx
          rcases k2 x (hperm.symm.subset hx) with h | h
          · exact absurd h (List.not_mem_nil _)
          · exact h
        apply List.pairwise_of_forall_mem_list
        intro a ha b hb
        rw [hall a (hperm.subset ha), hall b (hperm.subset hb)]
      · next pLow _ heq =>
        rw [heq] at hperm k1
        simp only [List.append_nil] at hperm
        have hlt := sum_keys_lt f m l (by intro hl; rw [hl] at hn; simp at hn) (by
          intro x hx
          rcases k1 x (hperm.symm.subset hx) with h | h
          · exact absurd h (List.not_mem_nil _)
          · exact h)
        rw [← hsum] at hlt
        exact absurd hlt (lt_irrefl _)
      · next pLow pHigh hlo hhi heq =>
        rw [heq] at hlen k1 k2
        have p1 : 1 ≤ pLow.length := by
          cases pLow with
          | nil => exact (hlo rfl).elim
          | cons a t => simp
        have p2 : 1 ≤ pHigh.length := by
          cases pHigh with
          | nil => exact (hhi rfl).elim
          | cons a t => simp
        simp only [List.length_nil, Nat.add_zero] at hlen
        rw [List.pairwise_append]
        refine ⟨ih pLow (by omega), ih pHigh (by omega), ?_⟩
        intro a ha b hb
        have ha2 := (SortAux_perm (exactOps sqrt) f fuel pLow).subset ha
        have hb2 := (SortAux_perm (exactOps sqrt) f fuel pHigh).subset hb
        rcases k1 a ha2 with h | h
        · exact absurd h (List.not_mem_nil _)
        · rcases k2 b hb2 with h3 | h3
          · exact absurd h3 (List.not_mem_nil _)
          · exact le_of_lt (lt_of_lt_of_le h h3)

end SortExact

/-! ## The channel of the first ordering of SumNode -/

/-- `SumNode` orders the members by the key of the chosen channel first; the
direction is accumulated over that list, and the list is then ordered by the
direction. -/
theorem SumNode_first_order (ops : Arith F) (hist : Nat → ExqHistogramEntry F) (nd : ExqNode F)
    (hn : (nodeMoments ops hist nd.pHistogram).n ≠ 0) :
    (SumNode ops hist nd).dir
      = nodeDir ops hist (SumNode ops hist nd).avg
          (SortHist ops (channelKey hist (SumNode_channel ops hist nd)) nd.pHistogram) ∧
    (SumNode ops hist nd).pHistogram
      = SortHist ops (SortByDir ops (SumNode ops hist nd).dir hist)
          (SortHist ops (channelKey hist (SumNode_channel ops hist nd)) nd.pHistogram) := by
  unfold SumNode SumNode_channel SumNode_vc
  simp only [if_neg hn]
  split_ifs <;> exact ⟨rfl, rfl⟩

section ChannelExact

variable {K : Type} [LinearOrderedField K] [FloorRing K] (sqrt : K → K)

/-- The cascade of strict comparisons chooses a channel with the largest
variance, and the last such channel in the order red, green, blue, alpha. -/
theorem SumNode_channel_last (hist : Nat → ExqHistogramEntry K) (nd : ExqNode K) :
    SumNode_channel (exactOps sqrt) hist nd < 4 ∧
    (SumNode_channel (exactOps sqrt) hist nd = 0 →
      (SumNode_vc (exactOps sqrt) hist nd).g < (SumNode_vc (exactOps sqrt) hist nd).r ∧
      (SumNode_vc (exactOps sqrt) hist nd).b < (SumNode_vc (exactOps sqrt) hist nd).r ∧
      (SumNode_vc (exactOps sqrt) hist nd).a < (SumNode_vc (exactOps sqrt) hist nd).r) ∧
    (SumNode_channel (exactOps sqrt) hist nd = 1 →
      (SumNode_vc (exactOps sqrt) hist nd).r ≤ (SumNode_vc (exactOps sqrt) hist nd).g ∧
      (SumNode_vc (exactOps sqrt) hist nd).b < (SumNode_vc (exactOps sqrt) hist nd).g ∧
      (SumNode_vc (exactOps sqrt) hist nd).a < (SumNode_vc (exactOps sqrt) hist nd).g) ∧
    (SumNode_channel (exactOps sqrt) hist nd = 2 →
      (SumNode_vc (exactOps sqrt) hist nd).r ≤ (SumNode_vc (exactOps sqrt) hist nd).b ∧
      (SumNode_vc (exactOps sqrt) hist nd).g ≤ (SumNode_vc (exactOps sqrt) hist nd).b ∧
      (SumNode_vc (exactOps sqrt) hist nd).a < (SumNode_vc (exactOps sqrt) hist nd).b) ∧
    (SumNode_channel (exactOps sqrt) hist nd = 3 →
      (SumNode_vc (exactOps sqrt) hist nd).r ≤ (SumNode_vc (exactOps sqrt) hist nd).a ∧
      (SumNode_vc (exactOps sqrt) hist nd).g ≤ (SumNode_vc (exactOps sqrt) hist nd).a ∧
      (SumNode_vc (exactOps sqrt) hist nd).b ≤ (SumNode_vc (exactOps sqrt) hist nd).a) := by
  unfold SumNode_channel
  dsimp only
  generalize SumNode_vc (exactOps sqrt) hist nd = vc
  simp only [exactOps_lt, Bool.and_eq_true, decide_eq_true_eq]
  split_ifs with h1 h2 h3
  · refine ⟨by decide, fun _ => ⟨h1.1.1, h1.1.2, h1.2⟩, ?_, ?_, ?_⟩ <;> intro h <;> simp at h
  · have hr : vc.r ≤ vc.g := by
      by_contra hc
      have hc := not_le.mp hc
      exact h1 ⟨⟨hc, lt_trans h2.1 hc⟩, lt_trans h2.2 hc⟩
    refine ⟨by decide, ?_, fun _ => ⟨hr, h2.1, h2.2⟩, ?_, ?_⟩ <;> intro h <;> simp at h
  · have hg : vc.g ≤ vc.b := by
      by_contra hc
      have hc := not_le.mp hc
      exact h2 ⟨hc, lt_trans h3 hc⟩
    have hr : vc.r ≤ vc.b := by
      by_contra hc
      have hc := not_le.mp hc
      exact h1 ⟨⟨lt_of_le_of_lt hg hc, hc⟩, lt_trans h3 hc⟩
    refine ⟨by decide, ?_, ?_, fun _ => ⟨hr, hg, h3⟩, ?_⟩ <;> intro h <;> simp at h
  · have hb : vc.b ≤ vc.a := not_lt.mp h3
    have hg : vc.g ≤ vc.a := by
      by_contra hc
      have hc := not_le.mp hc
      exact h2 ⟨lt_of_le_of_lt hb hc, hc⟩
    have hr : vc.r ≤ vc.a := by
      by_contra hc
      have hc := not_le.mp hc
      exact h1 ⟨⟨lt_of_le_of_lt hg hc, lt_of_le_of_lt hb hc⟩, hc⟩
    refine ⟨by decide, ?_, ?_, ?_, fun _ => ⟨hr, hg, hb⟩⟩ <;> intro h <;> simp at h

/-- The variances of `SumNode` in exact arithmetic. -/
theorem SumNode_vc_exact (hist : Nat → ExqHistogramEntry K) (nd : ExqNode K) :
    SumNode_vc (exactOps sqrt) hist nd
      = { r := chanVar (wN hist nd.pHistogram : K) (wS hist (fun c => c.r) nd.pHistogram)
            (wS hist (fun c => c.r * c.r) nd.pHistogram)
          g := chanVar (wN hist nd.pHistogram : K) (wS hist (fun c => c.g) nd.pHistogram)
            (wS hist (fun c => c.g * c.g) nd.pHistogram)
          b := chanVar (wN hist nd.pHistogram : K) (wS hist (fun c => c.b) nd.pHistogram)
            (wS hist (fun c => c.b * c.b) nd.pHistogram)
          a := chanVar (wN hist nd.pHistogram : K) (wS hist (fun c => c.a) nd.pHistogram)
            (wS hist (fun c => c.a * c.a) nd.pHistogram) } := by
  unfold SumNode_vc chanVar
  rw [nodeMoments_exact]
  simp

end ChannelExact

section TieGain

/-- A list of one member has no variance. -/
theorem listVar_single {K : Type} [LinearOrderedField K] [FloorRing K] (hist : Nat → ExqHistogramEntry K)
    (x : Nat) (hx : (hist x).num ≠ 0) : listVar hist [x] = 0 := by
  have hK : ((hist x).num : K) ≠ 0 := by exact_mod_cast hx
  unfold listVar chanVar
  simp only [wS_cons, wS_nil, wN_cons, wN_nil, add_zero, Nat.add_zero,
    mul_div_cancel_right₀ _ hK]
  ring

theorem tieHist_num (x : Nat) : (tieHist x).num = 1 := by
  unfold tieHist
  split <;> rfl

/-- The node of `tieHist` and `tieNode` has a positive variance and the split
after its first member leaves none. -/
theorem tie_gain :
    0 < (SumNode exactQ tieHist tieNode).err
      - splitCost tieHist (SumNode exactQ tieHist tieNode).pHistogram 1 := by
  have hnum : ∀ x, x ∈ tieNode.pHistogram → 1 ≤ (tieHist x).num :=
    fun x _ => by rw [tieHist_num]
  have herr : (SumNode exactQ tieHist tieNode).err = 256 / 289 := by
    have h := (SumNode_stats Rat.sqrt tieHist tieNode (by decide) hnum).2.2.2.1
    have hvc := SumNode_vc_exact Rat.sqrt tieHist tieNode
    have v0 : ((0 : Fin 256) : Nat) = 0 := rfl
    have v200 : ((200 : Fin 256) : Nat) = 200 := rfl
    have v240 : ((240 : Fin 256) : Nat) = 240 := rfl
    have v255 : ((255 : Fin 256) : Nat) = 255 := rfl
    have hc0 : (tieHist 0).color = ⟨0, 0, 0, 1⟩ := by
      show pixColor (exactOps Rat.sqrt) ⟨0, 0, 0, 255⟩ = _
      rw [pixColor_exact]
      simp only [v0, v255]
      norm_num
    have hc1 : (tieHist 1).color = ⟨16 / 17, 16 / 17, 0, 1⟩ := by
      show pixColor (exactOps Rat.sqrt) ⟨240, 200, 0, 255⟩ = _
      rw [pixColor_exact]
      simp only [v0, v200, v240, v255]
      norm_num
    have hl : tieNode.pHistogram = [0, 1] := rfl
    show (SumNode (exactOps Rat.sqrt) tieHist tieNode).err = 256 / 289
    rw [h, hl]
    unfold listVar chanVar
    simp only [wS_cons, wS_nil, wN_cons, wN_nil, hc0, hc1, tieHist_num]
    norm_num
  have hp : (SumNode exactQ tieHist tieNode).pHistogram.Perm [0, 1] :=
    SumNode_perm exactQ tieHist tieNode
  have hcost : splitCost tieHist (SumNode exactQ tieHist tieNode).pHistogram 1 = 0 := by
    generalize (SumNode exactQ tieHist tieNode).pHistogram = L at hp
    have hlen := hp.length_eq
    match L, hlen with
    | [a, b], _ =>
      unfold splitCost
      simp only [List.take_succ_cons, List.take_zero, List.drop_succ_cons, List.drop_zero]
      rw [listVar_single tieHist a (by rw [tieHist_num]; decide),
        listVar_single tieHist b (by rw [tieHist_num]; decide)]
      norm_num
  rw [herr, hcost]
  norm_num

end TieGain

/-! ## The split scan in the arithmetic of JavaScript numbers -/

/-- The orders of three members. -/
theorem perm_three (l : List Nat) (h : l.Perm [0, 1, 2]) :
    l ∈ [[0, 1, 2], [0, 2, 1], [1, 0, 2], [1, 2, 0], [2, 0, 1], [2, 1, 0]] := by
  have hlen := h.length_eq
  have hnd : l.Nodup := h.nodup_iff.mpr (by decide)
  match l, hlen with
  | [a, b, c], _ =>
    have ha : a ∈ [0, 1, 2] := h.subset (by simp)
    have hb : b ∈ [0, 1, 2] := h.subset (by simp)
    have hc : c ∈ [0, 1, 2] := h.subset (by simp)
    simp only [List.mem_cons, List.mem_singleton, List.not_mem_nil, or_false] at ha hb hc
    simp only [List.nodup_cons, List.mem_cons, List.mem_singleton, List.not_mem_nil, or_false,
      not_or, List.nodup_nil, and_true, not_false_eq_true] at hnd
    obtain ⟨⟨hab, hac⟩, hbc⟩ := hnd
    rcases ha with rfl | rfl | rfl <;> rcases hb with rfl | rfl | rfl <;>
      rcases hc with rfl | rfl | rfl <;> simp at hab hac hbc ⊢

/-- `SumNode` on the three entries of `stepPixels`, for every order in which
the seeding can give them: the sorted list is the entries of 153, 136, 119 and
the boundary is the last of them. -/
theorem step_orders :
    ∀ l, l ∈ [[0, 1, 2], [0, 2, 1], [1, 0, 2], [1, 2, 0], [2, 0, 1], [2, 1, 0]] →
      (SumNode ieeeOps (Feed ieeeOps (ExoQuant.new ieeeOps) stepPixels).hist
        { (Feed ieeeOps (ExoQuant.new ieeeOps) stepPixels).node 0 with pHistogram := l }).pHistogram
        = [2, 1, 0] ∧
      (SumNode ieeeOps (Feed ieeeOps (ExoQuant.new ieeeOps) stepPixels).hist
        { (Feed ieeeOps (ExoQuant.new ieeeOps) stepPixels).node 0 with pHistogram := l }).pSplit
        = some 0 := by
  decide!

/-- The entries that `Feed` makes of `stepPixels`, and the variances that the
two splits of the list of the entries 2, 1, 0 leave, computed exactly from the
stored colours: they are equal, and below the variance of the whole list. -/
theorem step_costs :
    (Feed ieeeOps (ExoQuant.new ieeeOps) stepPixels).nHist = 3 ∧
    ((Feed ieeeOps (ExoQuant.new ieeeOps) stepPixels).hist 0).ored = 119 ∧
    ((Feed ieeeOps (ExoQuant.new ieeeOps) stepPixels).hist 1).ored = 136 ∧
    ((Feed ieeeOps (ExoQuant.new ieeeOps) stepPixels).hist 2).ored = 153 ∧
    splitCost (Feed ieeeOps (ExoQuant.new ieeeOps) stepPixels).hist [2, 1, 0] 1
      = splitCost (Feed ieeeOps (ExoQuant.new ieeeOps) stepPixels).hist [2, 1, 0] 2 ∧
    splitCost (Feed ieeeOps (ExoQuant.new ieeeOps) stepPixels).hist [2, 1, 0] 1
      < listVar (Feed ieeeOps (ExoQuant.new ieeeOps) stepPixels).hist [2, 1, 0] := by
  decide!

/-- `Quantize(1)` after `Feed` of `stepPixels`: node 0 is summed over the three
entries, in the order of the hash table. -/
theorem step_run :
    (Quantize ieeeOps (Feed ieeeOps (ExoQuant.new ieeeOps) stepPixels) 1).hist
      = (Feed ieeeOps (ExoQuant.new ieeeOps) stepPixels).hist ∧
    ((Quantize ieeeOps (Feed ieeeOps (ExoQuant.new ieeeOps) stepPixels) 1).node 0).pHistogram
      = [2, 1, 0] ∧
    ((Quantize ieeeOps (Feed ieeeOps (ExoQuant.new ieeeOps) stepPixels) 1).node 0).pSplit
      = some 0 := by
  have hnc0 : (Feed ieeeOps (ExoQuant.new ieeeOps) stepPixels).numColors = 0 := by
    rw [Feed_numColors]; rfl
  have hH : HistInv (Feed ieeeOps (ExoQuant.new ieeeOps) stepPixels) stepPixels := by
    simpa using HistInv_Feed ieeeOps stepPixels _ [] (HistInv_new _)
  have hperm : (hashEntries (Feed ieeeOps (ExoQuant.new ieeeOps) stepPixels)).reverse.Perm
      [0, 1, 2] := by
    refine (List.reverse_perm _).trans (hH.entries.trans ?_)
    rw [step_costs.1]
    rfl
  have hord := step_orders _ (perm_three _ hperm)
  have hseed := (seedNode_node ieeeOps (Feed ieeeOps (ExoQuant.new ieeeOps) stepPixels)).1
  rw [← hseed] at hord
  have hnct : (seedNode ieeeOps (Feed ieeeOps (ExoQuant.new ieeeOps) stepPixels)).numColors = 1 :=
    rfl
  have hQ1 : Quantize ieeeOps (Feed ieeeOps (ExoQuant.new ieeeOps) stepPixels) 1
      = { seedNode ieeeOps (Feed ieeeOps (ExoQuant.new ieeeOps) stepPixels) with
          optimized := false } := by
    unfold Quantize QuantizeEx
    simp only [hnc0, if_true, hnct]
    rfl
  rw [hQ1]
  exact ⟨rfl, hord.1, hord.2⟩

/-! ## The claims on dithering, the nearest colour and SumNode -/

/-- C11: in exact arithmetic (any ordered field), on a quantizer after `Feed`
calls, `Quantize` / `QuantizeHq` calls and a relaxation `OptimizePalette(iter)`,
and after any earlier `MapImageOrdered` calls `calls`, the buffer returned by
`MapImageOrdered(width, height, pIn)` has `width * height` cells and the cell
`y * width + x` holds `FindNearestColor(p + s(p) * offset[(x mod 2) + 2 (y mod 2)])`
as the specification states it, computed from the palette and the pixel alone
(no cache); hence the buffer is the same after any two histories of earlier
calls, and a second call with the same input returns the same buffer. -/
theorem MapImageOrdered_deterministic {K : Type} [LinearOrderedField K] [FloorRing K]
    (sqrt : K → K) (feeds : List (List Pixel)) (q : Int × Bool) (qs : List (Int × Bool))
    (iter : Nat) (calls calls2 : List (Nat × Nat × List Pixel)) (width height : Nat)
    (pIn : List Pixel) :
    (MapImageOrdered (exactOps sqrt)
      (calls.foldl (fun s c => (MapImageOrdered (exactOps sqrt) s c.1 c.2.1 c.2.2).2)
        (OptimizePalette (exactOps sqrt) (quantized (exactOps sqrt) (fed (exactOps sqrt) feeds)
          (q :: qs)) iter)) width height pIn).1.length = width * height ∧
    (∀ x y, x < width → y < height →
      (MapImageOrdered (exactOps sqrt)
        (calls.foldl (fun s c => (MapImageOrdered (exactOps sqrt) s c.1 c.2.1 c.2.2).2)
          (OptimizePalette (exactOps sqrt) (quantized (exactOps sqrt)
            (fed (exactOps sqrt) feeds) (q :: qs)) iter)) width height pIn).1[y * width + x]?
        = some (specOrderedAt sqrt
            (OptimizePalette (exactOps sqrt) (quantized (exactOps sqrt)
              (fed (exactOps sqrt) feeds) (q :: qs)) iter) pIn width x y)) ∧
    (MapImageOrdered (exactOps sqrt)
      (calls.foldl (fun s c => (MapImageOrdered (exactOps sqrt) s c.1 c.2.1 c.2.2).2)
        (OptimizePalette (exactOps sqrt) (quantized (exactOps sqrt) (fed (exactOps sqrt) feeds)
          (q :: qs)) iter)) width height pIn).1
      = (MapImageOrdered (exactOps sqrt)
        (calls2.foldl (fun s c => (MapImageOrdered (exactOps sqrt) s c.1 c.2.1 c.2.2).2)
          (OptimizePalette (exactOps sqrt) (quantized (exactOps sqrt)
            (fed (exactOps sqrt) feeds) (q :: qs)) iter)) width height pIn).1 ∧
    (MapImageOrdered (exactOps sqrt)
      (MapImageOrdered (exactOps sqrt)
        (calls.foldl (fun s c => (MapImageOrdered (exactOps sqrt) s c.1 c.2.1 c.2.2).2)
          (OptimizePalette (exactOps sqrt) (quantized (exactOps sqrt)
            (fed (exactOps sqrt) feeds) (q :: qs)) iter)) width height pIn).2
      width height pIn).1
      = (MapImageOrdered (exactOps sqrt)
        (calls.foldl (fun s c => (MapImageOrdered (exactOps sqrt) s c.1 c.2.1 c.2.2).2)
          (OptimizePalette (exactOps sqrt) (quantized (exactOps sqrt)
            (fed (exactOps sqrt) feeds) (q :: qs)) iter)) width height pIn).1 := by
  obtain ⟨a1, a2⟩ := ordered_run sqrt feeds q qs iter calls width height pIn
  obtain ⟨b1, b2⟩ := ordered_run sqrt feeds q qs iter calls2 width height pIn
  obtain ⟨c1, c2⟩ := ordered_run sqrt feeds q qs iter (calls ++ [(width, height, pIn)])
    width height pIn
  rw [List.foldl_append, List.foldl_cons, List.foldl_nil] at c1 c2
  exact ⟨a1, a2,
    buffer_ext width height _ _ a1 b1 (fun x y hx hy => (a2 x y hx hy).trans (b2 x y hx hy).symm),
    buffer_ext width height _ _ c1 a1 (fun x y hx hy => (c2 x y hx hy).trans (a2 x y hx hy).symm)⟩

/-- C12: for every arithmetic, every quantizer after `Feed` calls and at least
one `Quantize` / `QuantizeHq` call (no earlier Map call), every pixel buffer and
every random source, `numColors` is at least 1 and every index in the buffer
returned by `MapImageRandom(nPixels, pIn)` is below `numColors`. -/
theorem MapImageRandom_indices_valid (ops : Arith F) (feeds : List (List Pixel))
    (q : Int × Bool) (qs : List (Int × Bool)) (nPixels : Nat) (pIn : List Pixel)
    (random : Nat → F) :
    1 ≤ (quantized ops (fed ops feeds) (q :: qs)).numColors ∧
    ∀ v, v ∈ (MapImageRandom ops (quantized ops (fed ops feeds) (q :: qs)) nPixels pIn random).1 →
      v < (quantized ops (fed ops feeds) (q :: qs)).numColors :=
  MapImageRandom_index ops feeds q qs nPixels pIn random

/-- C13 (the code on every value of the random source): `Math.random() & 3`
converts the value `r` in `[0, 1)` to the integer 0 before the mask, so the
phase that `MapImageDither` computes in random mode is 0 for every pixel and
every `r`; the phases 1, 2 and 3 are never selected. -/
theorem random_phase_is_zero {K : Type} [LinearOrderedField K] [FloorRing K]
    (sqrt : K → K) (x y : Nat) (r : K) (h0 : 0 ≤ r) (h1 : r < 1) :
    ditherPhase (exactOps sqrt) false x y r = 0 ∧
    ditherPhase (exactOps sqrt) false x y r ≠ 1 ∧
    ditherPhase (exactOps sqrt) false x y r ≠ 2 ∧
    ditherPhase (exactOps sqrt) false x y r ≠ 3 := by
  rw [ditherPhase_random sqrt x y r h0 h1]
  exact ⟨rfl, by decide, by decide, by decide⟩

/-- C13, at a value of the source: `r = 1/2` gives the phase 0. -/
theorem random_phase_is_zero_witness :
    (0 : ℚ) ≤ 1 / 2 ∧ (1 / 2 : ℚ) < 1 ∧ ditherPhase exactQ false 0 0 (1 / 2 : ℚ) = 0 :=
  ⟨by norm_num, by norm_num,
    (random_phase_is_zero Rat.sqrt 0 0 (1 / 2) (by norm_num) (by norm_num)).1⟩

/-- C14 (the code at the failing input, in exact rational arithmetic): on the
palette `(0,0,0,0), (0,0,0,255)` set by `SetPalette`, the colour
`(4, 4.8, 3.2, 862/853)` that the ditherer extrapolates from an opaque white
pixel is at a squared distance above 16 from both nodes, so the search returns
its initial index 0 although node 1 is strictly nearer; the dither scale of
white then is `(0, 0, 0, 680/853)` and not zero. -/
theorem FindNearestColor_misses_far_colour :
    ∃ s, SetPalette exactQ (ExoQuant.new exactQ) [0, 0, 0, 0, 0, 0, 0, 255] 2 = some s ∧
      s.numColors = 2 ∧
      FindNearestColor exactQ s ⟨4, 24 / 5, 16 / 5, 862 / 853⟩ = 0 ∧
      dist2 (⟨4, 24 / 5, 16 / 5, 862 / 853⟩ : ExqColor ℚ) (s.node 1).avg
        < dist2 (⟨4, 24 / 5, 16 / 5, 862 / 853⟩ : ExqColor ℚ) (s.node 0).avg ∧
      pixelColor exactQ s [⟨255, 255, 255, 255⟩] 0 = ⟨1, 6 / 5, 4 / 5, 1⟩ ∧
      FindNearestColor exactQ s ⟨1, 6 / 5, 4 / 5, 1⟩ = 1 ∧
      ditherScaleOf exactQ s ⟨1, 6 / 5, 4 / 5, 1⟩ = ⟨0, 0, 0, 680 / 853⟩ :=
  ⟨_, far_state Rat.sqrt, rfl,
    far_colour Rat.sqrt _ rfl rfl (by simp [Function.update]) (by simp [Function.update])⟩

/-- C15: in exact arithmetic, every two colours of the weighted-normalised
space (`r` in `[0,1]`, `g` in `[0,1.2]`, `b` in `[0,0.8]`, `a` in `[0,1]`) have a
squared distance below the initial bound 16 of `FindNearestColor`, so the first
comparison of the search against the bound succeeds; and after `Feed` calls and
`Quantize` / `QuantizeHq` calls every colour stored by `Feed` and every node
mean is in that space. -/
theorem initial_bound_exceeds {K : Type} [LinearOrderedField K] [FloorRing K]
    (sqrt : K → K) (x c : ExqColor K) (hx : InBox x) (hc : InBox c)
    (feeds : List (List Pixel)) (q : Int × Bool) (qs : List (Int × Bool)) :
    dist2 x c < 16 ∧
    (∀ (node : Nat → ExqNode K) (i b : Nat), (node i).avg = c →
      nearestStep (exactOps sqrt) node x ((exactOps sqrt).ofInt 16, b) i = (dist2 x c, i)) ∧
    (∀ id, id ∈ hashEntries (quantized (exactOps sqrt) (fed (exactOps sqrt) feeds) (q :: qs)) →
      InBox ((quantized (exactOps sqrt) (fed (exactOps sqrt) feeds) (q :: qs)).hist id).color) ∧
    (∀ i, InBox ((quantized (exactOps sqrt) (fed (exactOps sqrt) feeds) (q :: qs)).node i).avg) := by
  have hI := quantized_ExactInv sqrt (q :: qs) _ (fed_Ready sqrt feeds) (List.cons_ne_nil _ _)
  refine ⟨dist2_lt_16 x c hx hc, ?_, hI.col_box, hI.avg_box⟩
  intro node i b hi
  rw [nearestStep_first sqrt node x i b hx (by rw [hi]; exact hc), hi]

/-- C15, at two colours: black and the brightest colour of the space. -/
theorem initial_bound_exceeds_witness :
    InBox (⟨0, 0, 0, 0⟩ : ExqColor ℚ) ∧ InBox (⟨1, 6 / 5, 4 / 5, 1⟩ : ExqColor ℚ) ∧
    dist2 (⟨0, 0, 0, 0⟩ : ExqColor ℚ) ⟨1, 6 / 5, 4 / 5, 1⟩ < 16 :=
  ⟨by unfold InBox; norm_num, by unfold InBox; norm_num,
    (initial_bound_exceeds Rat.sqrt ⟨0, 0, 0, 0⟩ ⟨1, 6 / 5, 4 / 5, 1⟩
      (by unfold InBox; norm_num) (by unfold InBox; norm_num) [] (1, false) []).1⟩

/-- C16 (the code at the failing input, in exact rational arithmetic): one
white pixel is fed and `Quantize(1)` runs.  Node 0 is summed over its single
member: the count is 1, so `SumNode` does not return early; the accumulated
direction is zero, and the norm by which `isqrt = 1 / Math.sqrt(...)` divides
is 0. -/
theorem SumNode_direction_norm_zero :
    (Quantize exactQ (Feed exactQ (ExoQuant.new exactQ) [⟨255, 255, 255, 255⟩]) 1).node 0
      = SumNode exactQ (Feed exactQ (ExoQuant.new exactQ) [⟨255, 255, 255, 255⟩]).hist
          { (Feed exactQ (ExoQuant.new exactQ) [⟨255, 255, 255, 255⟩]).node 0 with
            pHistogram := [0] } ∧
    (nodeMoments exactQ (Feed exactQ (ExoQuant.new exactQ) [⟨255, 255, 255, 255⟩]).hist
      [0]).n ≠ 0 ∧
    SumNode_dirNorm exactQ (Feed exactQ (ExoQuant.new exactQ) [⟨255, 255, 255, 255⟩]).hist
        { (Feed exactQ (ExoQuant.new exactQ) [⟨255, 255, 255, 255⟩]).node 0 with
          pHistogram := [0] } = 0 := by
  obtain ⟨h1, h2, -, h4⟩ := single_norm_run Rat.sqrt ⟨255, 255, 255, 255⟩
  refine ⟨h1, h2, ?_⟩
  have hz : Rat.sqrt 0 = 0 := by simp [Rat.sqrt]
  exact h4.trans hz

/-- C17 (as stated, refuted): on a fresh quantizer, with no pixel fed,
`Quantize(2)` returns with two active nodes, `GetPalette(2)` then returns
eight zero bytes, and `MapImage` of two pixels returns the indices 0, 0: the
calls return normal results. -/
theorem unfed_calls_counterexample :
    (Quantize exactQ (ExoQuant.new exactQ) 2).numColors = 2 ∧
    (GetPalette exactQ (Quantize exactQ (ExoQuant.new exactQ) 2) 2).1
      = [0, 0, 0, 0, 0, 0, 0, 0] ∧
    (MapImage exactQ (ExoQuant.new exactQ) 2 [⟨255, 0, 0, 255⟩, ⟨0, 0, 255, 255⟩]).1
      = [0, 0] := by
  refine ⟨?_, ?_, ?_⟩
  · have h := QuantizeEx_numColors_of_zero exactQ (ExoQuant.new exactQ) rfl 2 false
    have h2 : min (max (2 : Int) 1) 256 = 2 := by decide
    rw [h2] at h
    exact_mod_cast h
  · exact GetPalette_unfed Rat.sqrt _ (Unfed_QuantizeEx _ _ 2 false (Unfed_new _)) 2
  · exact MapImage_unfed Rat.sqrt _ (Unfed_new _) 2 _

/-- C17 (amended): in exact arithmetic, on a quantizer into which no pixel has
been fed the calls return normal results (the code has no error path):
`QuantizeEx(nColors, hq)` leaves `min (max nColors 1) 256` active nodes; after
any `Quantize` / `QuantizeHq` calls every node has an empty member list and the
mean of a new node, `GetPalette(k)` returns `4 k` zero bytes and `MapImage`
returns the index 0 for every pixel. -/
theorem unfed_calls_return {K : Type} [LinearOrderedField K] [FloorRing K]
    (sqrt : K → K) (qs : List (Int × Bool)) (nColors : Int) (hq : Bool) (k n : Nat)
    (pIn : List Pixel) :
    ((QuantizeEx (exactOps sqrt) (ExoQuant.new (exactOps sqrt)) nColors hq).numColors : Int)
      = min (max nColors 1) 256 ∧
    (∀ i, ((quantized (exactOps sqrt) (ExoQuant.new (exactOps sqrt)) qs).node i).pHistogram = [] ∧
      ((quantized (exactOps sqrt) (ExoQuant.new (exactOps sqrt)) qs).node i).avg
        = ExqColor.new (exactOps sqrt)) ∧
    (GetPalette (exactOps sqrt) (quantized (exactOps sqrt) (ExoQuant.new (exactOps sqrt)) qs) k).1
      = List.replicate (k * 4) 0 ∧
    (MapImage (exactOps sqrt) (quantized (exactOps sqrt) (ExoQuant.new (exactOps sqrt)) qs)
      n pIn).1 = List.replicate n 0 := by
  have hU := Unfed_quantized (exactOps sqrt) qs _ (Unfed_new (exactOps sqrt))
  exact ⟨QuantizeEx_numColors_of_zero _ _ rfl nColors hq,
    fun i => ⟨hU.members i, hU.avg i⟩, GetPalette_unfed sqrt _ hU k, MapImage_unfed sqrt _ hU n pIn⟩

/-- C18 (as stated, refuted): one white pixel is fed and `Quantize(2)` runs;
both active nodes then have the gain 0, the largest, and the scan of the next
split step chooses node 1, not the lowest index 0. -/
theorem split_choice_counterexample :
    (Quantize exactQ (Feed exactQ (ExoQuant.new exactQ) [⟨255, 255, 255, 255⟩]) 2).numColors
      = 2 ∧
    ((Quantize exactQ (Feed exactQ (ExoQuant.new exactQ) [⟨255, 255, 255, 255⟩]) 2).node
      0).vdif = 0 ∧
    ((Quantize exactQ (Feed exactQ (ExoQuant.new exactQ) [⟨255, 255, 255, 255⟩]) 2).node
      1).vdif = 0 ∧
    bestIndex exactQ
      (Quantize exactQ (Feed exactQ (ExoQuant.new exactQ) [⟨255, 255, 255, 255⟩]) 2).node
      2 = 1 :=
  tie_run Rat.sqrt ⟨255, 255, 255, 255⟩

/-- C18 (amended): in exact arithmetic, on every state between the split
steps (after `Feed` calls and `Quantize` / `QuantizeHq` calls), the node that
the scan of the next split step chooses is an active node with the largest
`vdif`, and when several active nodes share the largest `vdif` the one with the
highest index is chosen (the comparison `>=` replaces an earlier node by a later
one of the same gain). -/
theorem split_choice_highest {K : Type} [LinearOrderedField K] [FloorRing K]
    (sqrt : K → K) (feeds : List (List Pixel)) (q : Int × Bool) (qs : List (Int × Bool)) :
    bestIndex (exactOps sqrt) (quantized (exactOps sqrt) (fed (exactOps sqrt) feeds) (q :: qs)).node
        (quantized (exactOps sqrt) (fed (exactOps sqrt) feeds) (q :: qs)).numColors
      < (quantized (exactOps sqrt) (fed (exactOps sqrt) feeds) (q :: qs)).numColors ∧
    ∀ j, j < (quantized (exactOps sqrt) (fed (exactOps sqrt) feeds) (q :: qs)).numColors →
      ((quantized (exactOps sqrt) (fed (exactOps sqrt) feeds) (q :: qs)).node j).vdif
        ≤ ((quantized (exactOps sqrt) (fed (exactOps sqrt) feeds) (q :: qs)).node
            (bestIndex (exactOps sqrt)
              (quantized (exactOps sqrt) (fed (exactOps sqrt) feeds) (q :: qs)).node
              (quantized (exactOps sqrt) (fed (exactOps sqrt) feeds) (q :: qs)).numColors)).vdif ∧
      (((quantized (exactOps sqrt) (fed (exactOps sqrt) feeds) (q :: qs)).node j).vdif
        = ((quantized (exactOps sqrt) (fed (exactOps sqrt) feeds) (q :: qs)).node
            (bestIndex (exactOps sqrt)
              (quantized (exactOps sqrt) (fed (exactOps sqrt) feeds) (q :: qs)).node
              (quantized (exactOps sqrt) (fed (exactOps sqrt) feeds) (q :: qs)).numColors)).vdif →
        j ≤ bestIndex (exactOps sqrt)
              (quantized (exactOps sqrt) (fed (exactOps sqrt) feeds) (q :: qs)).node
              (quantized (exactOps sqrt) (fed (exactOps sqrt) feeds) (q :: qs)).numColors) := by
  obtain ⟨h1, h2, -⟩ := reach_split sqrt feeds q qs
  exact ⟨h1, fun j hj => ⟨(h2 j hj).2.1, (h2 j hj).2.2.1⟩⟩

/-- C19: in exact arithmetic, for every node with a non-empty member list
(whose members have counts of at least 1, as every entry made by `Feed` has),
after `SumNode`: `num` is the sum of the members' counts, `avg` is the
count-weighted mean of the members' colours, `err` is the count-weighted sum
over the members of the squared distance to `avg`, which equals the
`sumSq - sum * mean` form summed over the channels, and `err` is not negative. -/
theorem SumNode_statistics {K : Type} [LinearOrderedField K] [FloorRing K]
    (sqrt : K → K) (hist : Nat → ExqHistogramEntry K) (nd : ExqNode K)
    (hne : nd.pHistogram ≠ []) (hnum : ∀ x, x ∈ nd.pHistogram → 1 ≤ (hist x).num) :
    (SumNode (exactOps sqrt) hist nd).num = (nd.pHistogram.map (fun id => (hist id).num)).sum ∧
    (SumNode (exactOps sqrt) hist nd).avg = meanOf hist nd.pHistogram ∧
    (SumNode (exactOps sqrt) hist nd).err
      = wD hist (SumNode (exactOps sqrt) hist nd).avg nd.pHistogram ∧
    (SumNode (exactOps sqrt) hist nd).err = listVar hist nd.pHistogram ∧
    0 ≤ (SumNode (exactOps sqrt) hist nd).err :=
  SumNode_stats sqrt hist nd hne hnum

/-- C19, at a node: two members with the count 1. -/
theorem SumNode_statistics_witness :
    ({ ExqNode.new exactQ with pHistogram := [0, 1] } : ExqNode ℚ).pHistogram ≠ [] ∧
    (∀ x, x ∈ ({ ExqNode.new exactQ with pHistogram := [0, 1] } : ExqNode ℚ).pHistogram →
      1 ≤ ((fun _ => { ExqHistogramEntry.new exactQ with num := 1 } :
        Nat → ExqHistogramEntry ℚ) x).num) ∧
    0 ≤ (SumNode exactQ (fun _ => { ExqHistogramEntry.new exactQ with num := 1 })
      { ExqNode.new exactQ with pHistogram := [0, 1] }).err :=
  ⟨by simp, fun _ _ => Nat.le_refl 1,
    (SumNode_statistics Rat.sqrt (fun _ => { ExqHistogramEntry.new exactQ with num := 1 })
      { ExqNode.new exactQ with pHistogram := [0, 1] } (by simp)
      (fun _ _ => Nat.le_refl 1)).2.2.2.2⟩

/-- C20 (as stated, refuted): in the arithmetic of JavaScript numbers, three
opaque pixels with the red bytes 119, 136 and 153 are fed and `Quantize(1)`
runs.  The member list of node 0 is then the entries of 153, 136 and 119.
Their stored colours are equally spaced, so the split after the first member
and the split after the second leave exactly the same variance, less than the
variance of the node: the first prefix attaining the minimum is the first
member alone.  Yet `pSplit` is the third member, not the second: the values
that the scan computes for the two splits differ by rounding, and the second
looks strictly better. -/
theorem split_search_rounding_counterexample :
    ((Quantize ieeeOps (Feed ieeeOps (ExoQuant.new ieeeOps) stepPixels) 1).hist 0).ored = 119 ∧
    ((Quantize ieeeOps (Feed ieeeOps (ExoQuant.new ieeeOps) stepPixels) 1).hist 1).ored = 136 ∧
    ((Quantize ieeeOps (Feed ieeeOps (ExoQuant.new ieeeOps) stepPixels) 1).hist 2).ored = 153 ∧
    ((Quantize ieeeOps (Feed ieeeOps (ExoQuant.new ieeeOps) stepPixels) 1).node 0).pHistogram
      = [2, 1, 0] ∧
    splitCost (Quantize ieeeOps (Feed ieeeOps (ExoQuant.new ieeeOps) stepPixels) 1).hist
        [2, 1, 0] 1
      = splitCost (Quantize ieeeOps (Feed ieeeOps (ExoQuant.new ieeeOps) stepPixels) 1).hist
        [2, 1, 0] 2 ∧
    splitCost (Quantize ieeeOps (Feed ieeeOps (ExoQuant.new ieeeOps) stepPixels) 1).hist
        [2, 1, 0] 1
      < listVar (Quantize ieeeOps (Feed ieeeOps (ExoQuant.new ieeeOps) stepPixels) 1).hist
        [2, 1, 0] ∧
    ((Quantize ieeeOps (Feed ieeeOps (ExoQuant.new ieeeOps) stepPixels) 1).node 0).pSplit
      = some 0 := by
  obtain ⟨h1, h2, h3⟩ := step_run
  obtain ⟨-, c1, c2, c3, c4, c5⟩ := step_costs
  rw [h1]
  exact ⟨c1, c2, c3, h2, c4, c5, h3⟩

/-- C20 (amended): in exact arithmetic, for every node with at least two members
(pairwise different entries with counts of at least 1), after `SumNode`, with
`L` the direction-sorted member list: `vdif = err - min(err, m)` where `m` is
the least, over the proper non-empty prefixes of `L`, of the within-variance
of the prefix plus that of the rest; `vdif` is not negative and is at least the
variance reduction of every prefix split; and `pSplit` is the member that
follows the first prefix attaining `m` when `m < err`, and the second member
when no prefix improves. -/
theorem SumNode_split_search {K : Type} [LinearOrderedField K] [FloorRing K]
    (sqrt : K → K) (hist : Nat → ExqHistogramEntry K) (nd : ExqNode K)
    (hnd : nd.pHistogram.Nodup) (hnum : ∀ x, x ∈ nd.pHistogram → 1 ≤ (hist x).num)
    (h2 : 2 ≤ nd.pHistogram.length) :
    (SumNode (exactOps sqrt) hist nd).vdif = (SumNode (exactOps sqrt) hist nd).err
      - bestCost hist (SumNode (exactOps sqrt) hist nd).pHistogram
          (SumNode (exactOps sqrt) hist nd).err ∧
    0 ≤ (SumNode (exactOps sqrt) hist nd).vdif ∧
    (∀ k, 0 < k → k < (SumNode (exactOps sqrt) hist nd).pHistogram.length →
      (SumNode (exactOps sqrt) hist nd).err
          - splitCost hist (SumNode (exactOps sqrt) hist nd).pHistogram k
        ≤ (SumNode (exactOps sqrt) hist nd).vdif) ∧
    (((SumNode (exactOps sqrt) hist nd).vdif = 0 ∧
        (SumNode (exactOps sqrt) hist nd).pSplit
          = (SumNode (exactOps sqrt) hist nd).pHistogram[1]?) ∨
      ∃ k, 0 < k ∧ k < (SumNode (exactOps sqrt) hist nd).pHistogram.length ∧
        splitCost hist (SumNode (exactOps sqrt) hist nd).pHistogram k
          < (SumNode (exactOps sqrt) hist nd).err ∧
        (SumNode (exactOps sqrt) hist nd).vdif = (SumNode (exactOps sqrt) hist nd).err
          - splitCost hist (SumNode (exactOps sqrt) hist nd).pHistogram k ∧
        (∀ k2, 0 < k2 → k2 < k →
          splitCost hist (SumNode (exactOps sqrt) hist nd).pHistogram k
            < splitCost hist (SumNode (exactOps sqrt) hist nd).pHistogram k2) ∧
        (SumNode (exactOps sqrt) hist nd).pSplit
          = (SumNode (exactOps sqrt) hist nd).pHistogram[k]?) :=
  ⟨SumNode_vdif_eq sqrt hist nd hnd hnum h2, SumNode_vdif_nonneg sqrt hist nd,
    (SumNode_search sqrt hist nd hnd hnum h2).1, (SumNode_search sqrt hist nd hnd hnum h2).2⟩

/-- C20 (amended), at a node with an improving split: the node of the two
entries of the pixels `(0,0,0,255)` and `(240,200,0,255)`, in exact rational
arithmetic.  The hypotheses hold, and the gain found is positive: the split
after the first member leaves no variance. -/
theorem SumNode_split_search_witness :
    tieNode.pHistogram.Nodup ∧
    (∀ x, x ∈ tieNode.pHistogram → 1 ≤ (tieHist x).num) ∧
    2 ≤ tieNode.pHistogram.length ∧
    0 < (SumNode exactQ tieHist tieNode).vdif := by
  have hnd : tieNode.pHistogram.Nodup := by decide
  have hnum : ∀ x, x ∈ tieNode.pHistogram → 1 ≤ (tieHist x).num :=
    fun x _ => by rw [tieHist_num]
  have h2 : 2 ≤ tieNode.pHistogram.length := by decide
  have hlen : 1 < (SumNode exactQ tieHist tieNode).pHistogram.length := by
    rw [(SumNode_perm exactQ tieHist tieNode).length_eq]
    decide
  have h := (SumNode_split_search Rat.sqrt tieHist tieNode hnd hnum h2).2.2.1 1 Nat.one_pos hlen
  exact ⟨hnd, hnum, h2, lt_of_lt_of_le tie_gain h⟩

/-! ## The claims on the split steps, the first ordering and Sort -/

/-- C21 (as stated, refuted): one white pixel is fed.  After `Quantize(1)` the
only node has `vdif = 0`, and the scan of the split step chooses it; after
`Quantize(2)` two nodes are active and node 0 has an empty member list. -/
theorem zero_gain_split_counterexample :
    (Quantize exactQ (Feed exactQ (ExoQuant.new exactQ) [⟨255, 255, 255, 255⟩]) 1).numColors
      = 1 ∧
    ((Quantize exactQ (Feed exactQ (ExoQuant.new exactQ) [⟨255, 255, 255, 255⟩]) 1).node
      0).vdif = 0 ∧
    bestIndex exactQ
      (Quantize exactQ (Feed exactQ (ExoQuant.new exactQ) [⟨255, 255, 255, 255⟩]) 1).node
      1 = 0 ∧
    (Quantize exactQ (Feed exactQ (ExoQuant.new exactQ) [⟨255, 255, 255, 255⟩]) 2).numColors
      = 2 ∧
    ((Quantize exactQ (Feed exactQ (ExoQuant.new exactQ) [⟨255, 255, 255, 255⟩]) 2).node
      0).pHistogram = [] ∧
    ((Quantize exactQ (Feed exactQ (ExoQuant.new exactQ) [⟨255, 255, 255, 255⟩]) 2).node
      1).pHistogram = [0] :=
  empty_split_run Rat.sqrt ⟨255, 255, 255, 255⟩

/-- C21 (amended): in exact arithmetic, on every state between the split steps
(after `Feed` calls and `Quantize` / `QuantizeHq` calls) the gains of the active
nodes are not negative and the scan of the next split step chooses an active
node with the largest gain; so a node with `vdif = 0` is chosen only when every
active node has `vdif = 0` (there is no test of eligibility, and it is split all
the same); and when the chosen node has `vdif > 0`, the split leaves a non-empty
member list in the chosen node and in the new node. -/
theorem zero_gain_split {K : Type} [LinearOrderedField K] [FloorRing K]
    (sqrt : K → K) (feeds : List (List Pixel)) (q : Int × Bool) (qs : List (Int × Bool)) :
    bestIndex (exactOps sqrt) (quantized (exactOps sqrt) (fed (exactOps sqrt) feeds) (q :: qs)).node
        (quantized (exactOps sqrt) (fed (exactOps sqrt) feeds) (q :: qs)).numColors
      < (quantized (exactOps sqrt) (fed (exactOps sqrt) feeds) (q :: qs)).numColors ∧
    (∀ j, j < (quantized (exactOps sqrt) (fed (exactOps sqrt) feeds) (q :: qs)).numColors →
      0 ≤ ((quantized (exactOps sqrt) (fed (exactOps sqrt) feeds) (q :: qs)).node j).vdif ∧
      ((quantized (exactOps sqrt) (fed (exactOps sqrt) feeds) (q :: qs)).node j).vdif
        ≤ ((quantized (exactOps sqrt) (fed (exactOps sqrt) feeds) (q :: qs)).node
            (bestIndex (exactOps sqrt)
              (quantized (exactOps sqrt) (fed (exactOps sqrt) feeds) (q :: qs)).node
              (quantized (exactOps sqrt) (fed (exactOps sqrt) feeds) (q :: qs)).numColors)).vdif) ∧
    (((quantized (exactOps sqrt) (fed (exactOps sqrt) feeds) (q :: qs)).node
        (bestIndex (exactOps sqrt)
          (quantized (exactOps sqrt) (fed (exactOps sqrt) feeds) (q :: qs)).node
          (quantized (exactOps sqrt) (fed (exactOps sqrt) feeds) (q :: qs)).numColors)).vdif = 0 →
      ∀ j, j < (quantized (exactOps sqrt) (fed (exactOps sqrt) feeds) (q :: qs)).numColors →
        ((quantized (exactOps sqrt) (fed (exactOps sqrt) feeds) (q :: qs)).node j).vdif = 0) ∧
    (0 < ((quantized (exactOps sqrt) (fed (exactOps sqrt) feeds) (q :: qs)).node
        (bestIndex (exactOps sqrt)
          (quantized (exactOps sqrt) (fed (exactOps sqrt) feeds) (q :: qs)).node
          (quantized (exactOps sqrt) (fed (exactOps sqrt) feeds) (q :: qs)).numColors)).vdif →
      ((splitStep (exactOps sqrt) false
          (quantized (exactOps sqrt) (fed (exactOps sqrt) feeds) (q :: qs))
          (quantized (exactOps sqrt) (fed (exactOps sqrt) feeds) (q :: qs)).numColors).node
        (bestIndex (exactOps sqrt)
          (quantized (exactOps sqrt) (fed (exactOps sqrt) feeds) (q :: qs)).node
          (quantized (exactOps sqrt) (fed (exactOps sqrt) feeds)
            (q :: qs)).numColors)).pHistogram ≠ [] ∧
      ((splitStep (exactOps sqrt) false
          (quantized (exactOps sqrt) (fed (exactOps sqrt) feeds) (q :: qs))
          (quantized (exactOps sqrt) (fed (exactOps sqrt) feeds) (q :: qs)).numColors).node
        (quantized (exactOps sqrt) (fed (exactOps sqrt) feeds)
          (q :: qs)).numColors).pHistogram ≠ []) := by
  obtain ⟨h1, h2, h3⟩ := reach_split sqrt feeds q qs
  generalize quantized (exactOps sqrt) (fed (exactOps sqrt) feeds) (q :: qs) = s at h1 h2 h3
  refine ⟨h1, fun j hj => ⟨(h2 j hj).1, (h2 j hj).2.1⟩, ?_, ?_⟩
  · intro hz j hj
    have a := (h2 j hj).1
    have b := (h2 j hj).2.1
    rw [hz] at b
    exact le_antisymm b a
  · intro hpos
    have hlen : 2 ≤ (s.node (bestIndex (exactOps sqrt) s.node s.numColors)).pHistogram.length := by
      by_contra hc
      have := (h2 _ h1).2.2.2 (by omega)
      rw [this] at hpos
      exact absurd hpos (lt_irrefl _)
    obtain ⟨k, k1, k2, p1, p2⟩ := h3 hlen
    constructor
    · intro he
      have := p2.length_eq
      rw [he, List.length_drop] at this
      simp only [List.length_nil] at this
      omega
    · intro he
      have := p1.length_eq
      rw [he, List.length_take] at this
      simp only [List.length_nil] at this
      omega

/-- C22: in exact arithmetic, for every node whose member list has at least two
entries (pairwise different, with counts of at least 1), the `pSplit` left by
`SumNode` is the member at a position `k` of the list `L` it leaves, with
`0 < k < length`: not the first member and not past the end; the first loop of a
split moves the first `k` members, a non-empty proper part, and leaves the
non-empty rest.  Accordingly, on every state between the split steps, when the
node chosen by the next split step has two or more members, the split gives the
first `k` of them to the new node and keeps the others. -/
theorem split_boundary_inside {K : Type} [LinearOrderedField K] [FloorRing K]
    (sqrt : K → K) (hist : Nat → ExqHistogramEntry K) (nd : ExqNode K)
    (hnd : nd.pHistogram.Nodup) (hnum : ∀ x, x ∈ nd.pHistogram → 1 ≤ (hist x).num)
    (h2 : 2 ≤ nd.pHistogram.length) (feeds : List (List Pixel)) (q : Int × Bool)
    (qs : List (Int × Bool)) :
    (∃ k, 0 < k ∧ k < (SumNode (exactOps sqrt) hist nd).pHistogram.length ∧
      (SumNode (exactOps sqrt) hist nd).pSplit
        = (SumNode (exactOps sqrt) hist nd).pHistogram[k]? ∧
      moveUntil (SumNode (exactOps sqrt) hist nd).pSplit
          (SumNode (exactOps sqrt) hist nd).pHistogram []
        = ((SumNode (exactOps sqrt) hist nd).pHistogram.drop k,
           ((SumNode (exactOps sqrt) hist nd).pHistogram.take k).reverse) ∧
      (SumNode (exactOps sqrt) hist nd).pHistogram.take k ≠ [] ∧
      (SumNode (exactOps sqrt) hist nd).pHistogram.drop k ≠ []) ∧
    (2 ≤ ((quantized (exactOps sqrt) (fed (exactOps sqrt) feeds) (q :: qs)).node
          (bestIndex (exactOps sqrt)
            (quantized (exactOps sqrt) (fed (exactOps sqrt) feeds) (q :: qs)).node
            (quantized (exactOps sqrt) (fed (exactOps sqrt) feeds)
              (q :: qs)).numColors)).pHistogram.length →
      ∃ k, 0 < k ∧
        k < ((quantized (exactOps sqrt) (fed (exactOps sqrt) feeds) (q :: qs)).node
          (bestIndex (exactOps sqrt)
            (quantized (exactOps sqrt) (fed (exactOps sqrt) feeds) (q :: qs)).node
            (quantized (exactOps sqrt) (fed (exactOps sqrt) feeds)
              (q :: qs)).numColors)).pHistogram.length ∧
        ((splitStep (exactOps sqrt) false
            (quantized (exactOps sqrt) (fed (exactOps sqrt) feeds) (q :: qs))
            (quantized (exactOps sqrt) (fed (exactOps sqrt) feeds) (q :: qs)).numColors).node
          (quantized (exactOps sqrt) (fed (exactOps sqrt) feeds)
            (q :: qs)).numColors).pHistogram.Perm
          (((quantized (exactOps sqrt) (fed (exactOps sqrt) feeds) (q :: qs)).node
            (bestIndex (exactOps sqrt)
              (quantized (exactOps sqrt) (fed (exactOps sqrt) feeds) (q :: qs)).node
              (quantized (exactOps sqrt) (fed (exactOps sqrt) feeds)
                (q :: qs)).numColors)).pHistogram.take k) ∧
        ((splitStep (exactOps sqrt) false
            (quantized (exactOps sqrt) (fed (exactOps sqrt) feeds) (q :: qs))
            (quantized (exactOps sqrt) (fed (exactOps sqrt) feeds) (q :: qs)).numColors).node
          (bestIndex (exactOps sqrt)
            (quantized (exactOps sqrt) (fed (exactOps sqrt) feeds) (q :: qs)).node
            (quantized (exactOps sqrt) (fed (exactOps sqrt) feeds)
              (q :: qs)).numColors)).pHistogram.Perm
          (((quantized (exactOps sqrt) (fed (exactOps sqrt) feeds) (q :: qs)).node
            (bestIndex (exactOps sqrt)
              (quantized (exactOps sqrt) (fed (exactOps sqrt) feeds) (q :: qs)).node
              (quantized (exactOps sqrt) (fed (exactOps sqrt) feeds)
                (q :: qs)).numColors)).pHistogram.drop k)) := by
  refine ⟨?_, (reach_split sqrt feeds q qs).2.2⟩
  obtain ⟨k, k1, k2, k3⟩ := SumNode_boundary sqrt hist nd hnd hnum h2
  have hp := SumNode_perm (exactOps sqrt) hist nd
  have hL : (SumNode (exactOps sqrt) hist nd).pHistogram.Nodup := hp.nodup_iff.mpr hnd
  generalize (SumNode (exactOps sqrt) hist nd).pHistogram = L at k2 k3 hL
  refine ⟨k, k1, k2, k3, ?_, ?_, ?_⟩
  · rw [k3, moveUntil_at L hL k k2, List.append_nil]
  · intro he
    have := congrArg List.length he
    rw [List.length_take] at this
    simp only [List.length_nil] at this
    omega
  · intro he
    have := congrArg List.length he
    rw [List.length_drop] at this
    simp only [List.length_nil] at this
    omega

/-- C22, at a node: two different members with the count 1. -/
theorem split_boundary_inside_witness :
    ({ ExqNode.new exactQ with pHistogram := [0, 1] } : ExqNode ℚ).pHistogram.Nodup ∧
    2 ≤ ({ ExqNode.new exactQ with pHistogram := [0, 1] } : ExqNode ℚ).pHistogram.length ∧
    ∃ k, 0 < k ∧
      k < (SumNode exactQ (fun _ => { ExqHistogramEntry.new exactQ with num := 1 })
        { ExqNode.new exactQ with pHistogram := [0, 1] }).pHistogram.length ∧
      (SumNode exactQ (fun _ => { ExqHistogramEntry.new exactQ with num := 1 })
        { ExqNode.new exactQ with pHistogram := [0, 1] }).pSplit
        = (SumNode exactQ (fun _ => { ExqHistogramEntry.new exactQ with num := 1 })
          { ExqNode.new exactQ with pHistogram := [0, 1] }).pHistogram[k]? := by
  refine ⟨by decide, by decide, ?_⟩
  obtain ⟨k, k1, k2, k3, -⟩ :=
    (split_boundary_inside Rat.sqrt (fun _ => { ExqHistogramEntry.new exactQ with num := 1 })
      { ExqNode.new exactQ with pHistogram := [0, 1] } (by decide)
      (fun _ _ => Nat.le_refl 1) (by decide) [] (1, false) []).1
  exact ⟨k, k1, k2, k3⟩

/-- C23 (as stated, refuted): for the node of the two entries of the pixels
`(0,0,0,255)` and `(240,200,0,255)`, in exact rational arithmetic, the red and
the green variance are equal and larger than the blue and the alpha variance,
and the cascade of `SumNode` chooses green (channel 1), not red. -/
theorem first_order_channel_counterexample :
    (SumNode_vc exactQ tieHist tieNode).r = (SumNode_vc exactQ tieHist tieNode).g ∧
    (SumNode_vc exactQ tieHist tieNode).b < (SumNode_vc exactQ tieHist tieNode).r ∧
    (SumNode_vc exactQ tieHist tieNode).a < (SumNode_vc exactQ tieHist tieNode).r ∧
    SumNode_channel exactQ tieHist tieNode = 1 := by
  have v0 : ((0 : Fin 256) : Nat) = 0 := rfl
  have v200 : ((200 : Fin 256) : Nat) = 200 := rfl
  have v240 : ((240 : Fin 256) : Nat) = 240 := rfl
  have v255 : ((255 : Fin 256) : Nat) = 255 := rfl
  have hc0 : (tieHist 0).color = ⟨0, 0, 0, 1⟩ := by
    show pixColor (exactOps Rat.sqrt) ⟨0, 0, 0, 255⟩ = _
    rw [pixColor_exact]
    simp only [v0, v255]
    norm_num
  have hc1 : (tieHist 1).color = ⟨16 / 17, 16 / 17, 0, 1⟩ := by
    show pixColor (exactOps Rat.sqrt) ⟨240, 200, 0, 255⟩ = _
    rw [pixColor_exact]
    simp only [v0, v200, v240, v255]
    norm_num
  have hn0 : (tieHist 0).num = 1 := rfl
  have hn1 : (tieHist 1).num = 1 := rfl
  have hvc : SumNode_vc exactQ tieHist tieNode = ⟨128 / 289, 128 / 289, 0, 0⟩ := by
    show SumNode_vc (exactOps Rat.sqrt) tieHist tieNode = _
    rw [SumNode_vc_exact]
    have hl : tieNode.pHistogram = [0, 1] := rfl
    simp only [hl, wS_cons, wS_nil, wN_cons, wN_nil, hc0, hc1, hn0, hn1, chanVar]
    norm_num
  unfold SumNode_channel
  rw [hvc]
  refine ⟨rfl, by norm_num, by norm_num, ?_⟩
  simp only [exactQ, exactOps_lt]
  norm_num

/-- C23 (amended): in exact arithmetic, `SumNode` orders the members first by
the key of the channel that its cascade of comparisons chooses (the direction
is accumulated over that list, which is then ordered by the direction); the
channel chosen has the largest per-channel variance, and when several channels
share the largest variance it is the last of them in the order red, green,
blue, alpha: red is chosen only when its variance is strictly the largest. -/
theorem first_order_channel {K : Type} [LinearOrderedField K] [FloorRing K]
    (sqrt : K → K) (hist : Nat → ExqHistogramEntry K) (nd : ExqNode K) :
    ((nodeMoments (exactOps sqrt) hist nd.pHistogram).n ≠ 0 →
      (SumNode (exactOps sqrt) hist nd).dir
        = nodeDir (exactOps sqrt) hist (SumNode (exactOps sqrt) hist nd).avg
            (SortHist (exactOps sqrt)
              (channelKey hist (SumNode_channel (exactOps sqrt) hist nd)) nd.pHistogram) ∧
      (SumNode (exactOps sqrt) hist nd).pHistogram
        = SortHist (exactOps sqrt) (SortByDir (exactOps sqrt) (SumNode (exactOps sqrt) hist nd).dir
            hist)
          (SortHist (exactOps sqrt)
            (channelKey hist (SumNode_channel (exactOps sqrt) hist nd)) nd.pHistogram)) ∧
    SumNode_channel (exactOps sqrt) hist nd < 4 ∧
    (SumNode_channel (exactOps sqrt) hist nd = 0 →
      (SumNode_vc (exactOps sqrt) hist nd).g < (SumNode_vc (exactOps sqrt) hist nd).r ∧
      (SumNode_vc (exactOps sqrt) hist nd).b < (SumNode_vc (exactOps sqrt) hist nd).r ∧
      (SumNode_vc (exactOps sqrt) hist nd).a < (SumNode_vc (exactOps sqrt) hist nd).r) ∧
    (SumNode_channel (exactOps sqrt) hist nd = 1 →
      (SumNode_vc (exactOps sqrt) hist nd).r ≤ (SumNode_vc (exactOps sqrt) hist nd).g ∧
      (SumNode_vc (exactOps sqrt) hist nd).b < (SumNode_vc (exactOps sqrt) hist nd).g ∧
      (SumNode_vc (exactOps sqrt) hist nd).a < (SumNode_vc (exactOps sqrt) hist nd).g) ∧
    (SumNode_channel (exactOps sqrt) hist nd = 2 →
      (SumNode_vc (exactOps sqrt) hist nd).r ≤ (SumNode_vc (exactOps sqrt) hist nd).b ∧
      (SumNode_vc (exactOps sqrt) hist nd).g ≤ (SumNode_vc (exactOps sqrt) hist nd).b ∧
      (SumNode_vc (exactOps sqrt) hist nd).a < (SumNode_vc (exactOps sqrt) hist nd).b) ∧
    (SumNode_channel (exactOps sqrt) hist nd = 3 →
      (SumNode_vc (exactOps sqrt) hist nd).r ≤ (SumNode_vc (exactOps sqrt) hist nd).a ∧
      (SumNode_vc (exactOps sqrt) hist nd).g ≤ (SumNode_vc (exactOps sqrt) hist nd).a ∧
      (SumNode_vc (exactOps sqrt) hist nd).b ≤ (SumNode_vc (exactOps sqrt) hist nd).a) :=
  ⟨SumNode_first_order (exactOps sqrt) hist nd, SumNode_channel_last sqrt hist nd⟩

/-- C24: in exact arithmetic, for every member list and every key function,
`Sort` (partition around the mean key, recurse on both parts, concatenate low
then high) terminates: the bound on the depth of the recursion is never
reached, the result being the same for every bound of at least the length of
the list; and it returns a permutation of the members, each exactly once, in
non-decreasing key order. -/
theorem Sort_sorted_permutation {K : Type} [LinearOrderedField K] [FloorRing K]
    (sqrt : K → K) (sortfunc : Nat → K) (ppHist : List Nat) :
    (∀ fuel, ppHist.length ≤ fuel →
      SortAux (exactOps sqrt) sortfunc fuel ppHist = SortHist (exactOps sqrt) sortfunc ppHist) ∧
    (SortHist (exactOps sqrt) sortfunc ppHist).Perm ppHist ∧
    (SortHist (exactOps sqrt) sortfunc ppHist).Pairwise (fun a b => sortfunc a ≤ sortfunc b) :=
  ⟨fun fuel h => SortAux_fuel (exactOps sqrt) sortfunc fuel ppHist.length ppHist h (Nat.le_refl _),
    SortHist_perm (exactOps sqrt) sortfunc ppHist,
    SortAux_sorted sqrt sortfunc ppHist.length ppHist (Nat.le_refl _)⟩
end Exq
